import Mathlib

/-!
LAPKT core: STRIPS problem tables, h¹ / h² heuristics, novelty, restarting weighted BFS

A shallow embedding of the sources under `src/` and a verification development over it.

Modelling conventions.
* `std::vector<T>` is `List T`; `v[i]` is `v.getD i default`; a write through an index that is out of
  range (undefined behaviour in the source) leaves the vector unchanged.  Every theorem that depends on
  in-range accesses carries the range as a hypothesis.
* `Action*` / `Fluent*` pointers into the vectors owned by the problem are positions in those vectors
  (the objects are only ever created by `add_action` / `add_fluent`, which push them at the back).
* `float` heuristic values and costs are exact rationals extended with a top element for `infty`;
  the memory test of `Novelty::set_arity`, where rounding decides the branch, is embedded with
  IEEE 754 round-to-nearest-even in `float` and `double`.
* `unsigned` arithmetic that can wrap is written with an explicit `% 2 ^ 32`.
* `for ( unsigned k = 0; k < n; k++ ) body` is `forLoop n body`; a `while` loop takes fuel and
  its termination is proved where a claim needs the result.
* Heap nodes of the search engine live in a node store; a pointer is a position in it and a
  deleted node is an empty slot.
-/

namespace aptk

/-! ## Definitions -/

/-- Heuristic values: a `float`, idealised as an exact rational, or `infty`. -/
abbrev Val := WithTop ℚ

/-- Global sentinel `infty`. -/
def infty : Val := ⊤

/-- Counted loop `for ( unsigned k = 0; k < n; k++ ) s = body k s`. -/
def forLoop {σ : Type} : Nat → (Nat → σ → σ) → σ → σ
  | 0, _, s => s
  | n + 1, body, s => body n (forLoop n body s)

abbrev Fluent_Vec := List Nat

/-- Modelled from the spec: `Bit_Set` (bit_set.hxx is not under src/), a dense boolean vector over
fluent indices with set / unset / isset / reset. -/
structure Bit_Set where
  bits : List Bool
deriving DecidableEq, Repr

/-- Modelled from the spec: a bit set of `n` cleared bits. -/
def Bit_Set.mk_size (n : Nat) : Bit_Set := ⟨List.replicate n false⟩

/-- Modelled from the spec: `Bit_Set::isset`. -/
def Bit_Set.isset (b : Bit_Set) (p : Nat) : Bool := b.bits.getD p false

/-- Modelled from the spec: `Bit_Set::set`. -/
def Bit_Set.set (b : Bit_Set) (p : Nat) : Bit_Set := ⟨b.bits.set p true⟩

/-- Modelled from the spec: `Bit_Set::unset`. -/
def Bit_Set.unset (b : Bit_Set) (p : Nat) : Bit_Set := ⟨b.bits.set p false⟩

/-- Modelled from the spec: `Bit_Set::reset`, clears every bit. -/
def Bit_Set.reset (b : Bit_Set) : Bit_Set := ⟨List.replicate b.bits.length false⟩

/-- Conditional effect (cond_eff.hxx is not under src/): the three ordered sequences; the bitset views
`prec_set` / `add_set` / `del_set` are the membership tests of the sequences. -/
structure Conditional_Effect where
  prec_vec : Fluent_Vec
  add_vec : Fluent_Vec
  del_vec : Fluent_Vec
deriving DecidableEq, Repr

structure Fluent where
  index : Nat
  signature : String
deriving DecidableEq, Repr

/-- Action (action.hxx is not under src/): the fields the sources under src/ read and write.  The
e-delete sequence and bitset are written by `H2_Heuristic::compute_edeletes` and are explicit state;
the bitset views of `prec`, `add`, `del` are filled by `Action::define` from the sequences and are
the membership tests below. -/
structure Action where
  signature : String
  index : Nat
  cost : ℚ
  prec_vec : Fluent_Vec
  add_vec : Fluent_Vec
  del_vec : Fluent_Vec
  ceff_vec : List Conditional_Effect
  edel_vec : Fluent_Vec
  edel_set : Bit_Set

/-- Modelled from the spec: `prec_set().isset(p)`, the bitset view matching `prec_vec`. -/
def Action.prec_isset (a : Action) (p : Nat) : Bool := a.prec_vec.contains p

/-- Modelled from the spec: `add_set().isset(p)`, the bitset view matching `add_vec`. -/
def Action.add_isset (a : Action) (p : Nat) : Bool := a.add_vec.contains p

/-- Modelled from the spec: `del_set().isset(p)`, the bitset view matching `del_vec`. -/
def Action.del_isset (a : Action) (p : Nat) : Bool := a.del_vec.contains p

/-- Modelled from the spec: `prec_set().isset(p)` of a conditional effect. -/
def Conditional_Effect.prec_isset (c : Conditional_Effect) (p : Nat) : Bool := c.prec_vec.contains p

/-- Modelled from the spec: `Action::define( pre, add, del, ceffs )` on a fresh action of a problem
with `nf` fluents: copies the vectors; cost defaults to 1, the e-delete set starts empty. -/
def Action.define (nf : Nat) (signature : String) (pre add del : Fluent_Vec)
    (ceffs : List Conditional_Effect) : Action :=
  { signature := signature, index := 0, cost := 1, prec_vec := pre, add_vec := add, del_vec := del,
    ceff_vec := ceffs, edel_vec := [], edel_set := Bit_Set.mk_size nf }

/-- The `STRIPS_Problem` members used by strips_prob.cxx.  `m_const_fluents` / `m_const_actions`
hold the same pointers as `m_fluents` / `m_actions` and are represented by them.  The relational
tables hold action positions; `no_such_index` for `m_end_operator_id` is `none`. -/
structure STRIPS_Problem where
  m_domain_name : String
  m_problem_name : String
  m_num_fluents : Nat
  m_num_actions : Nat
  m_end_operator_id : Option Nat
  m_fluents : List Fluent
  m_actions : List Action
  m_init : Fluent_Vec
  m_goal : Fluent_Vec
  m_in_init : List Bool
  m_in_goal : List Bool
  m_fluents_map : List (String × Nat)
  m_requiring : List (List Nat)
  m_deleting : List (List Nat)
  m_edeleting : List (List Nat)
  m_adding : List (List Nat)
  m_ceffs_adding : List (List (Nat × Nat))
  m_empty_precs : List Nat

/-- Constructor `STRIPS_Problem( dom_name, prob_name )`. -/
def STRIPS_Problem.new (dom_name prob_name : String) : STRIPS_Problem :=
  { m_domain_name := dom_name, m_problem_name := prob_name, m_num_fluents := 0, m_num_actions := 0,
    m_end_operator_id := none, m_fluents := [], m_actions := [], m_init := [], m_goal := [],
    m_in_init := [], m_in_goal := [], m_fluents_map := [], m_requiring := [], m_deleting := [],
    m_edeleting := [], m_adding := [], m_ceffs_adding := [], m_empty_precs := [] }

/-- `std::vector::resize( n )` on a vector of vectors: truncates or pads with empty rows. -/
def resize {α : Type} (t : List (List α)) (n : Nat) : List (List α) :=
  t.take n ++ List.replicate (n - t.length) []

/-- `t[f].push_back( x )`. -/
def push_at {α : Type} : List (List α) → Nat → α → List (List α)
  | [], _, _ => []
  | row :: rest, 0, x => (row ++ [x]) :: rest
  | row :: rest, f + 1, x => row :: push_at rest f x

/-- Row accessor `t[f]`, as in `actions_adding( f )`. -/
def row {α : Type} (t : List (List α)) (f : Nat) : List α := t.getD f []

def STRIPS_Problem.actions_requiring (P : STRIPS_Problem) (f : Nat) : List Nat := row P.m_requiring f
def STRIPS_Problem.actions_adding (P : STRIPS_Problem) (f : Nat) : List Nat := row P.m_adding f
def STRIPS_Problem.actions_deleting (P : STRIPS_Problem) (f : Nat) : List Nat := row P.m_deleting f
def STRIPS_Problem.actions_edeleting (P : STRIPS_Problem) (f : Nat) : List Nat := row P.m_edeleting f
def STRIPS_Problem.ceffs_adding (P : STRIPS_Problem) (f : Nat) : List (Nat × Nat) :=
  row P.m_ceffs_adding f
def STRIPS_Problem.empty_prec_actions (P : STRIPS_Problem) : List Nat := P.m_empty_precs

/-- The loop `for ( k < fs.size() ) t[ fs[k] ].push_back( x )`. -/
def push_all {α : Type} (t : List (List α)) (fs : Fluent_Vec) (x : α) : List (List α) :=
  fs.foldl (fun t f => push_at t f x) t

/-- `STRIPS_Problem::register_action_in_tables( a )`, `a` being the action at position `idx`. -/
def register_action_in_tables (P : STRIPS_Problem) (idx : Nat) (a : Action) : STRIPS_Problem :=
  let P1 : STRIPS_Problem :=
    if a.prec_vec.isEmpty then { P with m_empty_precs := P.m_empty_precs ++ [idx] }
    else { P with m_requiring := push_all P.m_requiring a.prec_vec idx }
  let P2 : STRIPS_Problem := { P1 with m_adding := push_all P1.m_adding a.add_vec idx }
  let P3 : STRIPS_Problem :=
    forLoop a.ceff_vec.length (fun k Q =>
      let ce := a.ceff_vec.getD k ⟨[], [], []⟩
      { Q with m_ceffs_adding := push_all Q.m_ceffs_adding ce.add_vec (k, idx) }) P2
  { P3 with m_deleting := push_all P3.m_deleting a.del_vec idx }

/-- `STRIPS_Problem::make_action_tables()`.  The closing `m_succ_gen.build()` builds the successor
generator, which is outside src/ and owns none of the tables. -/
def make_action_tables (P : STRIPS_Problem) : STRIPS_Problem :=
  let n := P.m_fluents.length
  let P1 : STRIPS_Problem :=
    { P with
      m_requiring := resize P.m_requiring n
      m_deleting := resize P.m_deleting n
      m_edeleting := resize P.m_edeleting n
      m_adding := resize P.m_adding n
      m_ceffs_adding := resize P.m_ceffs_adding n }
  forLoop P1.m_actions.length (fun k Q =>
    match Q.m_actions[k]? with
    | some a => register_action_in_tables Q k a
    | none => Q) P1

/-- `m_fluents_map[ signature ] = idx` on a `std::map`: overwrite the entry or insert it. -/
def map_set : List (String × Nat) → String → Nat → List (String × Nat)
  | [], k, v => [(k, v)]
  | (k', v') :: m, k, v => if k' = k then (k, v) :: m else (k', v') :: map_set m k v

/-- `std::map::find`: the index registered for a signature, if any. -/
def map_find : List (String × Nat) → String → Option Nat
  | [], _ => none
  | (k', v') :: m, k => if k' = k then some v' else map_find m k

/-- `STRIPS_Problem::add_fluent( p, signature )`: returns the new index and the updated problem. -/
def add_fluent (p : STRIPS_Problem) (signature : String) : Nat × STRIPS_Problem :=
  let new_fluent : Fluent := { index := p.m_fluents.length, signature := signature }
  let p1 : STRIPS_Problem :=
    { p with m_fluents_map := map_set p.m_fluents_map signature new_fluent.index }
  let p2 : STRIPS_Problem := { p1 with m_num_fluents := p1.m_num_fluents + 1 }
  let p3 : STRIPS_Problem := { p2 with m_fluents := p2.m_fluents ++ [new_fluent] }
  (p3.m_fluents.length - 1, p3)

/-- `STRIPS_Problem::add_action( p, signature, pre, add, del, ceffs, cost )`. -/
def add_action (p : STRIPS_Problem) (signature : String) (pre add del : Fluent_Vec)
    (ceffs : List Conditional_Effect) (cost : ℚ) : Nat × STRIPS_Problem :=
  let new_act : Action := Action.define p.m_num_fluents signature pre add del ceffs
  let p1 : STRIPS_Problem := { p with m_num_actions := p.m_num_actions + 1 }
  let new_act : Action := { new_act with index := (p1.m_actions ++ [new_act]).length - 1 }
  let new_act : Action := { new_act with cost := cost }
  let p2 : STRIPS_Problem := { p1 with m_actions := p1.m_actions ++ [new_act] }
  (p2.m_actions.length - 1, p2)

/-! ## Example problems -/

/-- One fluent, one action adding it. -/
def exTiny : STRIPS_Problem :=
  (add_action (add_fluent (STRIPS_Problem.new "d" "p") "(f)").2 "(a)" [] [0] [] [] 1).2

/-- Entries appended to row `g` of an action table by registering the first `n` actions: action `k`
once per occurrence of `g` in `sel a`. -/
def regsUpTo (acts : List Action) (sel : Action → Fluent_Vec) (g : Nat) : Nat → List Nat
  | 0 => []
  | n + 1 =>
    regsUpTo acts sel g n ++
      (match acts[n]? with
       | some a => List.replicate ((sel a).count g) n
       | none => [])

/-- Entries appended to row `g` of `ceffs_adding` by the first `n` conditional effects of the action
at position `idx`. -/
def ceffRegs (a : Action) (idx g : Nat) : Nat → List (Nat × Nat)
  | 0 => []
  | n + 1 =>
    ceffRegs a idx g n ++
      List.replicate (((a.ceff_vec.getD n ⟨[], [], []⟩).add_vec).count g) (n, idx)

/-- Entries appended to row `g` of `ceffs_adding` by registering the first `n` actions. -/
def ceffRegsUpTo (acts : List Action) (g : Nat) : Nat → List (Nat × Nat)
  | 0 => []
  | n + 1 =>
    ceffRegsUpTo acts g n ++
      (match acts[n]? with
       | some a => ceffRegs a n g a.ceff_vec.length
       | none => [])

/-- Entries appended to `empty_precs` by registering the first `n` actions. -/
def emptyRegsUpTo (acts : List Action) : Nat → List Nat
  | 0 => []
  | n + 1 =>
    emptyRegsUpTo acts n ++
      (match acts[n]? with
       | some a => if a.prec_vec.isEmpty then [n] else []
       | none => [])

/-- The relational tables are still empty (as left by the constructor). -/
def STRIPS_Problem.tables_empty (P : STRIPS_Problem) : Prop :=
  P.m_requiring = [] ∧ P.m_deleting = [] ∧ P.m_edeleting = [] ∧ P.m_adding = [] ∧
    P.m_ceffs_adding = [] ∧ P.m_empty_precs = []

/-- Every fluent index mentioned by an action is below `bound`. -/
def Action.in_range (a : Action) (bound : Nat) : Prop :=
  (∀ f ∈ a.prec_vec, f < bound) ∧ (∀ f ∈ a.add_vec, f < bound) ∧ (∀ f ∈ a.del_vec, f < bound) ∧
    ∀ c ∈ a.ceff_vec, (∀ f ∈ c.prec_vec, f < bound) ∧ (∀ f ∈ c.add_vec, f < bound) ∧
      (∀ f ∈ c.del_vec, f < bound)

/-! ### States and plans -/

/-- Modelled from the spec: `State` (strips_state.hxx is not under src/), an insertion-ordered set
of fluent indices; `entails` is membership. -/
structure State where
  fluent_vec : Fluent_Vec
deriving DecidableEq, Repr

/-- Modelled from the spec: `entails(f)`, membership. -/
def State.entails (s : State) (f : Nat) : Bool := s.fluent_vec.contains f

/-- Modelled from the spec: `entails_vec(fs)`, true iff every `f ∈ fs` is present. -/
def State.entails_vec (s : State) (fs : Fluent_Vec) : Bool := fs.all s.entails

/-- Insert the fluents of `fs` that are not yet present, in order. -/
def add_fluents (l : Fluent_Vec) (fs : Fluent_Vec) : Fluent_Vec :=
  fs.foldl (fun l f => if l.contains f then l else l ++ [f]) l

/-- Modelled from the spec: `apply(action)`, the successor state: remove `del`, add `add`, then
add the adds of every conditional effect whose precondition the input state entails. -/
def State.apply (s : State) (a : Action) : State :=
  let s1 := s.fluent_vec.filter (fun f => !a.del_vec.contains f)
  let s2 := add_fluents s1 a.add_vec
  ⟨a.ceff_vec.foldl (fun l c => if s.entails_vec c.prec_vec then add_fluents l c.add_vec else l) s2⟩

/-- `H_Max_Evaluation_Function::operator()( begin, end, v2 )`. -/
def H_Max_Evaluation_Function (m_values : List Val) : Fluent_Vec → Val → Val
  | [], v => v
  | f :: rest, v =>
    let v1 := if v < m_values.getD f infty then m_values.getD f infty else v
    if v1 = infty then v1 else H_Max_Evaluation_Function m_values rest v1

/-- `H_Add_Evaluation_Function::operator()( begin, end, v2 )`. -/
def H_Add_Evaluation_Function (m_values : List Val) : Fluent_Vec → Val → Val
  | [], v => v
  | f :: rest, v =>
    if m_values.getD f infty = infty then infty
    else H_Add_Evaluation_Function m_values rest (v + m_values.getD f infty)

inductive H1_Cost_Function where
  | Ignore_Costs
  | Use_Costs
  | LAMA
deriving DecidableEq, Repr

/-- The value proposed for an effect of `a` from the aggregated precondition value `hx`:
`1 + hx`, `cost + hx` or `1 + cost + hx` according to the cost option. -/
def H1_Cost_Function.propose (opt : H1_Cost_Function) (a : Action) (hx : Val) : Val :=
  match opt with
  | .Ignore_Costs => 1 + hx
  | .Use_Costs => (a.cost : Val) + hx
  | .LAMA => 1 + (a.cost : Val) + hx

/-- The value an empty-precondition action contributes in `initialize`. -/
def H1_Cost_Function.base (opt : H1_Cost_Function) (a : Action) : Val :=
  match opt with
  | .Ignore_Costs => 1
  | .Use_Costs => (a.cost : Val)
  | .LAMA => 1 + (a.cost : Val)

/-- Members of `H1_Heuristic`; best supporters are action positions, `nullptr` is `none`. -/
structure H1_Heuristic where
  m_values : List Val
  m_best_supporters : List (Option Nat)
  m_updated : List Nat
  m_already_updated : Bit_Set
  m_allowed_actions : List Bool

/-- Constructor `H1_Heuristic( prob )`: the vectors are resized to the problem's dimensions. -/
def H1_Heuristic.new (P : STRIPS_Problem) : H1_Heuristic :=
  { m_values := List.replicate P.m_num_fluents 0
    m_best_supporters := List.replicate P.m_num_fluents none
    m_updated := []
    m_already_updated := Bit_Set.mk_size P.m_num_fluents
    m_allowed_actions := List.replicate P.m_num_actions false }

/-- `H1_Heuristic::update( p, v )`. -/
def H1_Heuristic.update (h : H1_Heuristic) (p : Nat) (v : Val) : H1_Heuristic :=
  if v ≥ h.m_values.getD p infty then h
  else
    let h1 : H1_Heuristic := { h with m_values := h.m_values.set p v }
    if !h1.m_already_updated.isset p then
      { h1 with m_updated := h1.m_updated ++ [p], m_already_updated := h1.m_already_updated.set p }
    else h1

/-- `H1_Heuristic::update( p, v, a )`, `a` given by its position. -/
def H1_Heuristic.update_sup (h : H1_Heuristic) (p : Nat) (v : Val) (a : Nat) : H1_Heuristic :=
  if v ≥ h.m_values.getD p infty then h
  else
    let h1 : H1_Heuristic := { h with m_values := h.m_values.set p v }
    let h2 : H1_Heuristic :=
      if !h1.m_already_updated.isset p then
        { h1 with m_updated := h1.m_updated ++ [p], m_already_updated := h1.m_already_updated.set p }
      else h1
    { h2 with m_best_supporters := h2.m_best_supporters.set p (some a) }

/-- `H1_Heuristic::set( p, v )`. -/
def H1_Heuristic.set (h : H1_Heuristic) (p : Nat) (v : Val) : H1_Heuristic :=
  let h1 : H1_Heuristic := { h with m_values := h.m_values.set p v }
  if !h1.m_already_updated.isset p then
    { h1 with m_updated := h1.m_updated ++ [p], m_already_updated := h1.m_already_updated.set p }
  else h1

/-- `H1_Heuristic::initialize( s )`. -/
def H1_Heuristic.initialize (P : STRIPS_Problem) (opt : H1_Cost_Function) (h : H1_Heuristic)
    (s : State) : H1_Heuristic :=
  let h1 := forLoop P.m_num_fluents (fun k (h : H1_Heuristic) =>
    { h with m_values := h.m_values.set k infty
             m_best_supporters := h.m_best_supporters.set k none }) h
  let h2 := P.empty_prec_actions.foldl (fun (h : H1_Heuristic) idx =>
    match P.m_actions[idx]? with
    | none => h
    | some a =>
      let v := opt.base a
      let h3 := a.add_vec.foldl (fun (h : H1_Heuristic) f => h.update f v) h
      a.ceff_vec.foldl (fun (h : H1_Heuristic) ceff =>
        if !ceff.prec_vec.isEmpty then h
        else
          let v_eff := v
          ceff.add_vec.foldl (fun (h : H1_Heuristic) f => h.update f v_eff) h) h3) h1
  s.fluent_vec.foldl (fun (h : H1_Heuristic) f => h.set f 0) h2

/-- Body of the action loop of `H1_Heuristic::compute` for the popped fluent `p` and action `i`. -/
def H1_Heuristic.relax_action (P : STRIPS_Problem) (eval_func : List Val → Fluent_Vec → Val → Val)
    (opt : H1_Cost_Function) (p : Nat) (i : Nat) (h : H1_Heuristic) : H1_Heuristic :=
  match P.m_actions[i]? with
  | none => h
  | some a =>
    let relevant := a.prec_isset p || a.ceff_vec.any (fun ceff => ceff.prec_isset p)
    if !relevant then h
    else
      let h_pre := eval_func h.m_values a.prec_vec 0
      if h_pre = infty then h
      else
        let v := opt.propose a h_pre
        let h1 := a.add_vec.foldl (fun (h : H1_Heuristic) f => h.update_sup f v i) h
        a.ceff_vec.foldl (fun (h : H1_Heuristic) ceff =>
          let h_cond := eval_func h.m_values ceff.prec_vec h_pre
          if h_cond = infty then h
          else
            let v_eff := opt.propose a h_cond
            ceff.add_vec.foldl (fun (h : H1_Heuristic) f => h.update_sup f v_eff i) h) h1

/-- One iteration of the `while` loop of `H1_Heuristic::compute`: pop `p`, relax every action. -/
def H1_Heuristic.compute_step (P : STRIPS_Problem)
    (eval_func : List Val → Fluent_Vec → Val → Val) (opt : H1_Cost_Function)
    (p : Nat) (rest : List Nat) (h : H1_Heuristic) : H1_Heuristic :=
  let h1 : H1_Heuristic :=
    { h with m_updated := rest, m_already_updated := h.m_already_updated.unset p }
  forLoop P.m_num_actions (H1_Heuristic.relax_action P eval_func opt p) h1

/-- `H1_Heuristic::compute()`: the `while ( !m_updated.empty() )` loop, bounded by `fuel`
iterations; `none` when the fuel runs out before the queue is empty. -/
def H1_Heuristic.compute (P : STRIPS_Problem) (eval_func : List Val → Fluent_Vec → Val → Val)
    (opt : H1_Cost_Function) : Nat → H1_Heuristic → Option H1_Heuristic
  | fuel, h =>
    match h.m_updated, fuel with
    | [], _ => some h
    | _ :: _, 0 => none
    | p :: rest, fuel + 1 =>
      H1_Heuristic.compute P eval_func opt fuel (H1_Heuristic.compute_step P eval_func opt p rest h)

/-- `H1_Heuristic::eval( s, h_val )`: returns `h_val` and the heuristic object afterwards. -/
def H1_Heuristic.eval (P : STRIPS_Problem) (eval_func : List Val → Fluent_Vec → Val → Val)
    (opt : H1_Cost_Function) (fuel : Nat) (h : H1_Heuristic) (s : State) :
    Option (Val × H1_Heuristic) :=
  let h0 : H1_Heuristic :=
    { h with m_already_updated := h.m_already_updated.reset, m_updated := [] }
  let h1 := H1_Heuristic.initialize P opt h0 s
  match H1_Heuristic.compute P eval_func opt fuel h1 with
  | none => none
  | some h2 => some (eval_func h2.m_values P.m_goal 0, h2)

/-- Table lookup `m_values[f]` of the h¹ object. -/
def H1_Heuristic.val (h : H1_Heuristic) (f : Nat) : Val := h.m_values.getD f infty

/-- Maximum of `v` and the values of the fluents of `fs`: what `H_Max_Evaluation_Function`
computes, without the early exit. -/
def hmaxF (val : Nat → Val) (fs : Fluent_Vec) (v : Val) : Val :=
  fs.foldl (fun acc f => max acc (val f)) v

/-- Every fluent whose bit is set in `m_already_updated` is in the queue `m_updated`. -/
def H1_Heuristic.queued (h : H1_Heuristic) : Prop :=
  ∀ q, h.m_already_updated.isset q = true → q ∈ h.m_updated

/-- The object `h1` is obtained from `h` by lowering values and enqueueing every changed fluent. -/
structure H1_Heuristic.Lower (h h1 : H1_Heuristic) : Prop where
  queued : h1.queued
  len : h1.m_values.length = h.m_values.length
  mono : ∀ f, h1.val f ≤ h.val f
  sub : ∀ q ∈ h.m_updated, q ∈ h1.m_updated
  changed : ∀ f, h1.val f ≠ h.val f → f ∈ h1.m_updated

/-- What the relaxation needs of the aggregation functor: it reads only the values of the listed
fluents, it propagates `infty` from its starting value and from any listed fluent, and it returns
the starting value on an empty list. -/
structure EvalOK (eval_func : List Val → Fluent_Vec → Val → Val) : Prop where
  congr : ∀ (vals vals1 : List Val) (fs : Fluent_Vec) (v : Val),
    (∀ f ∈ fs, vals.getD f infty = vals1.getD f infty) → eval_func vals fs v = eval_func vals1 fs v
  top : ∀ (vals : List Val) (fs : Fluent_Vec), eval_func vals fs infty = infty
  nil : ∀ (vals : List Val) (v : Val), eval_func vals [] v = v
  finite : ∀ (vals : List Val) (fs : Fluent_Vec) (v : Val), eval_func vals fs v ≠ infty →
    ∀ f ∈ fs, vals.getD f infty ≠ infty

/-- The value table is stable for action `a`: no effect of `a` (direct or conditional) can be
lowered by the proposal computed from the current table. -/
def Stable (eval_func : List Val → Fluent_Vec → Val → Val) (opt : H1_Cost_Function)
    (vals : List Val) (a : Action) : Prop :=
  (∀ f ∈ a.add_vec, vals.getD f infty ≤ opt.propose a (eval_func vals a.prec_vec 0)) ∧
  ∀ c ∈ a.ceff_vec, ∀ f ∈ c.add_vec,
    vals.getD f infty ≤ opt.propose a (eval_func vals c.prec_vec (eval_func vals a.prec_vec 0))

/-- Fluent `p` makes action `a` relevant in `compute`: it is in the precondition of `a` or of one of
its conditional effects. -/
def Relevant (a : Action) (p : Nat) : Prop :=
  p ∈ a.prec_vec ∨ ∃ c ∈ a.ceff_vec, p ∈ c.prec_vec

/-- Some queued fluent will make `a` be relaxed again. -/
def H1_Heuristic.Covered (h : H1_Heuristic) (a : Action) : Prop :=
  ∃ p ∈ h.m_updated, Relevant a p

/-- Loop invariant of `compute`: every action is stable or will be relaxed again. -/
def H1_Heuristic.Settled (eval_func : List Val → Fluent_Vec → Val → Val) (opt : H1_Cost_Function)
    (h : H1_Heuristic) (a : Action) : Prop :=
  Stable eval_func opt h.m_values a ∨ h.Covered a

/-- Well-formedness of a problem as the heuristics need it: the action counter agrees with the
action vector and every action mentions only fluents below `num_fluents`. -/
structure STRIPS_Problem.wf (P : STRIPS_Problem) : Prop where
  num_actions : P.m_num_actions = P.m_actions.length
  in_range : ∀ a ∈ P.m_actions, a.in_range P.m_num_fluents

/-- Every action with an empty precondition is listed in `empty_prec_actions`, as after
`make_action_tables`. -/
def STRIPS_Problem.empty_precs_complete (P : STRIPS_Problem) : Prop :=
  ∀ (i : Nat) (a : Action), P.m_actions[i]? = some a → a.prec_vec = [] → i ∈ P.empty_prec_actions

/-- The h¹ object has the dimensions given by its constructor. -/
def H1_Heuristic.sized (h : H1_Heuristic) (P : STRIPS_Problem) : Prop :=
  h.m_values.length = P.m_num_fluents

/-- Invariant of the `while` loop of `H1_Heuristic::compute`. -/
structure H1_Heuristic.Inv (P : STRIPS_Problem) (eval_func : List Val → Fluent_Vec → Val → Val)
    (opt : H1_Cost_Function) (h : H1_Heuristic) : Prop where
  queued : h.queued
  sized : h.sized P
  settled : ∀ (i : Nat) (a : Action), P.m_actions[i]? = some a → h.Settled eval_func opt a

/-! ### Termination measure for value tables -/

/-- Numerator of a finite value as a multiple of `1 / D`; `infty` counts 0. -/
def gnum (D : Nat) (v : Val) : Nat :=
  match (v : Option ℚ) with
  | none => 0
  | some q => (q * D).num.toNat

/-- Number of `infty` entries of a table. -/
def tblTop : List Val → Nat
  | [] => 0
  | v :: t => (if v = infty then 1 else 0) + tblTop t

/-- Sum of the numerators of the finite entries of a table. -/
def tblSum (D : Nat) : List Val → Nat
  | [] => 0
  | v :: t => gnum D v + tblSum D t

/-- The value is `infty` or a natural multiple of `1 / D`. -/
def onGrid (D : Nat) (v : Val) : Prop :=
  v = infty ∨ ∃ n : Nat, v = (((n : ℚ) / (D : ℚ) : ℚ) : Val)

/-- Lexicographic decrease of the pair (number of `infty` entries, sum of numerators). -/
def tblLt (D : Nat) (t1 t : List Val) : Prop :=
  tblTop t1 < tblTop t ∨ (tblTop t1 = tblTop t ∧ tblSum D t1 < tblSum D t)

/-- Common denominator of the action costs of a problem. -/
def STRIPS_Problem.cost_den (P : STRIPS_Problem) : Nat :=
  (P.m_actions.map (fun a => a.cost.den)).prod

/-- Every entry of the table of the h¹ object is `infty` or a multiple of `1 / D`. -/
def H1_Heuristic.grid (D : Nat) (h : H1_Heuristic) : Prop :=
  ∀ v ∈ h.m_values, onGrid D v

/-- Progress relation for termination: `h1` has the same table and queue as `h`, or a table that is
smaller in the measure. -/
structure H1_Heuristic.Dec (D : Nat) (h h1 : H1_Heuristic) : Prop where
  grid : h1.grid D
  len : h1.m_values.length = h.m_values.length
  dec : (h1.m_values = h.m_values ∧ h1.m_updated = h.m_updated) ∨
    tblLt D h1.m_values h.m_values

/-- The aggregation functor keeps values on the grid of multiples of `1 / D`. -/
def GridOK (eval_func : List Val → Fluent_Vec → Val → Val) : Prop :=
  ∀ (D : Nat) (vals : List Val) (fs : Fluent_Vec) (v : Val),
    (∀ w ∈ vals, onGrid D w) → onGrid D v → onGrid D (eval_func vals fs v)

instance Action.in_range_decidable (a : Action) (bound : Nat) : Decidable (a.in_range bound) := by
  unfold Action.in_range
  infer_instance

/-- Three rooms in a row (kitchen, sitting room, balcony) with the four moves between neighbours;
the move onto the balcony costs 3/2.  The goal is the balcony. -/
def rooms : STRIPS_Problem :=
  let p0 := STRIPS_Problem.new "rooms" "to-balcony"
  let p1 := (add_fluent p0 "(at kitchen)").2
  let p2 := (add_fluent p1 "(at sitting)").2
  let p3 := (add_fluent p2 "(at balcony)").2
  let p4 := (add_action p3 "(move kitchen sitting)" [0] [1] [0] [] 1).2
  let p5 := (add_action p4 "(move sitting kitchen)" [1] [0] [1] [] 1).2
  let p6 := (add_action p5 "(move sitting balcony)" [1] [2] [1] [] (3 / 2)).2
  let p7 := (add_action p6 "(move balcony sitting)" [2] [1] [2] [] 1).2
  make_action_tables { p7 with m_goal := [2] }

/-! ### h² (h_2.hxx) -/

/-- `H2_Helper::pair_index( p, q )`, in `unsigned` arithmetic. -/
def pair_index (p q : Nat) : Nat :=
  if p ≥ q then ((p * (p + 1)) % 2 ^ 32 / 2 + q) % 2 ^ 32
  else ((q * (q + 1)) % 2 ^ 32 / 2 + p) % 2 ^ 32

inductive H2_Cost_Function where
  | Zero_Costs
  | Unit_Costs
  | Use_Costs
deriving DecidableEq, Repr

/-- The increment `v += 1.0f` / `v += action.cost()` selected by the cost option. -/
def H2_Cost_Function.extra (opt : H2_Cost_Function) (a : Action) (v : Val) : Val :=
  let v1 := if opt = .Unit_Costs then v + 1 else v
  if opt = .Use_Costs then v1 + (a.cost : Val) else v1

/-- Members of `H2_Heuristic`. -/
structure H2_Heuristic where
  m_values : List Val
  m_op_values : List Val
  m_interfering_ops : List Bit_Set

/-- Constructor `H2_Heuristic( prob )`. -/
def H2_Heuristic.new (P : STRIPS_Problem) : H2_Heuristic :=
  let F := P.m_num_fluents
  { m_values := List.replicate (((F * F) % 2 ^ 32 + F) % 2 ^ 32 / 2) 0
    m_op_values := List.replicate P.m_num_actions 0
    m_interfering_ops :=
      forLoop F (fun p (ops : List Bit_Set) =>
        ops.set p (forLoop P.m_num_actions (fun op (b : Bit_Set) =>
          match P.m_actions[op]? with
          | none => b
          | some op_ptr => if op_ptr.add_isset p || op_ptr.del_isset p then b.set op else b)
          (Bit_Set.mk_size P.m_num_actions)))
        (List.replicate F (Bit_Set.mk_size 0)) }

/-- `H2_Heuristic::op_value( a )`. -/
def H2_Heuristic.op_value (h : H2_Heuristic) (a : Nat) : Val := h.m_op_values.getD a infty

/-- `H2_Heuristic::value( p, q )`. -/
def H2_Heuristic.value (h : H2_Heuristic) (p q : Nat) : Val :=
  h.m_values.getD (pair_index p q) infty

/-- The assignment `value( p, q ) = v`. -/
def H2_Heuristic.set_value (h : H2_Heuristic) (p q : Nat) (v : Val) : H2_Heuristic :=
  { h with m_values := h.m_values.set (pair_index p q) v }

/-- `H2_Heuristic::interferes( a, p )`. -/
def H2_Heuristic.interferes (h : H2_Heuristic) (a p : Nat) : Bool :=
  (h.m_interfering_ops.getD p (Bit_Set.mk_size 0)).isset a

/-- Inner loop of `eval( s )`: `for j: v = max( v, value( x, s[j] ) ); if ( v == infty ) return`. -/
def H2_Heuristic.eval_inner (h : H2_Heuristic) (x : Nat) : Fluent_Vec → Val → Val
  | [], v => v
  | y :: rest, v =>
    let v1 := max v (h.value x y)
    if v1 = infty then infty else H2_Heuristic.eval_inner h x rest v1

/-- Outer loop of `eval( s )` over the suffixes `s[i..]`. -/
def H2_Heuristic.eval_outer (h : H2_Heuristic) : Fluent_Vec → Val → Val
  | [], v => v
  | x :: rest, v =>
    let v1 := H2_Heuristic.eval_inner h x (x :: rest) v
    if v1 = infty then infty else H2_Heuristic.eval_outer h rest v1

/-- `H2_Heuristic::eval( const Fluent_Vec& s )`. -/
def H2_Heuristic.eval_vec (h : H2_Heuristic) (s : Fluent_Vec) : Val :=
  H2_Heuristic.eval_outer h s 0

/-- `H2_Heuristic::is_mutex( p, q )`. -/
def H2_Heuristic.is_mutex (h : H2_Heuristic) (p q : Nat) : Bool := h.value p q = infty

/-- The loop of `initialize` over the suffixes of the fluent vector: `value( p, p ) = 0` and
`value( p, q ) = 0` for every later `q`. -/
def H2_Heuristic.init_pairs : Fluent_Vec → H2_Heuristic → H2_Heuristic
  | [], h => h
  | p :: rest, h =>
    H2_Heuristic.init_pairs rest
      (rest.foldl (fun (h : H2_Heuristic) q => h.set_value p q 0) (h.set_value p p 0))

/-- `H2_Heuristic::initialize( const Fluent_Vec& f )` (the `State` overload reads `fluent_vec`). -/
def H2_Heuristic.initialize (h : H2_Heuristic) (f : Fluent_Vec) : H2_Heuristic :=
  let h1 : H2_Heuristic := { h with m_values := List.replicate h.m_values.length infty }
  let h2 : H2_Heuristic := { h1 with m_op_values := List.replicate h1.m_op_values.length infty }
  H2_Heuristic.init_pairs f h2

/-- Body of the `j` loop of `compute`: the pair `(p, q)` of adds of action `a`. -/
def H2_Heuristic.relax_pair (opt : H2_Cost_Function) (action : Action) (a p q : Nat)
    (st : H2_Heuristic × Bool) : H2_Heuristic × Bool :=
  let curr_value := st.1.value p q
  if curr_value = 0 then st
  else
    let v := opt.extra action (st.1.op_value a)
    if v < curr_value then (st.1.set_value p q v, false) else st

/-- Body of the `r` loop of `compute`: the add `p` of action `a` and the persisting fluent `r`. -/
def H2_Heuristic.relax_noop (opt : H2_Cost_Function) (action : Action) (a p r : Nat)
    (st : H2_Heuristic × Bool) : H2_Heuristic × Bool :=
  if st.1.interferes a r || st.1.value p r = 0 then st
  else
    let h2_pre_noop := max (st.1.op_value a) (st.1.value r r)
    if h2_pre_noop = infty then st
    else
      let h2_pre_noop := action.prec_vec.foldl (fun acc s => max acc (st.1.value r s)) h2_pre_noop
      let v := opt.extra action h2_pre_noop
      if v < st.1.value p r then (st.1.set_value p r v, false) else st

/-- The loop over the adds of action `a` in `compute`: for each `p = add[i]` the pairs with the later
adds `add[j]`, `j ≥ i`, then the persisting fluents `r`. -/
def H2_Heuristic.relax_adds (nf : Nat) (opt : H2_Cost_Function) (action : Action) (a : Nat) :
    Fluent_Vec → H2_Heuristic × Bool → H2_Heuristic × Bool
  | [], st => st
  | p :: rest, st =>
    let st1 := (p :: rest).foldl (fun st q => H2_Heuristic.relax_pair opt action a p q st) st
    let st2 := forLoop nf (fun r st => H2_Heuristic.relax_noop opt action a p r st) st1
    H2_Heuristic.relax_adds nf opt action a rest st2

/-- Body of the action loop of `compute`. -/
def H2_Heuristic.relax_action (P : STRIPS_Problem) (opt : H2_Cost_Function) (a : Nat)
    (st : H2_Heuristic × Bool) : H2_Heuristic × Bool :=
  match P.m_actions[a]? with
  | none => st
  | some action =>
    let h1 : H2_Heuristic :=
      { st.1 with m_op_values := st.1.m_op_values.set a (st.1.eval_vec action.prec_vec) }
    if h1.op_value a = infty then (h1, st.2)
    else H2_Heuristic.relax_adds P.m_num_fluents opt action a action.add_vec (h1, st.2)

/-- One pass of the `do … while` loop of `compute`: returns the object and `fixed_point`. -/
def H2_Heuristic.compute_pass (P : STRIPS_Problem) (opt : H2_Cost_Function) (h : H2_Heuristic) :
    H2_Heuristic × Bool :=
  forLoop P.m_num_actions (H2_Heuristic.relax_action P opt) (h, true)

/-- `H2_Heuristic::compute()`, bounded by `fuel` passes. -/
def H2_Heuristic.compute (P : STRIPS_Problem) (opt : H2_Cost_Function) :
    Nat → H2_Heuristic → Option H2_Heuristic
  | 0, _ => none
  | fuel + 1, h =>
    let st := H2_Heuristic.compute_pass P opt h
    if st.2 then some st.1 else H2_Heuristic.compute P opt fuel st.1

/-- `H2_Heuristic::eval( s, h_val )`. -/
def H2_Heuristic.eval (P : STRIPS_Problem) (opt : H2_Cost_Function) (fuel : Nat)
    (h : H2_Heuristic) (s : State) : Option (Val × H2_Heuristic) :=
  let h1 := H2_Heuristic.initialize h s.fluent_vec
  match H2_Heuristic.compute P opt fuel h1 with
  | none => none
  | some h2 => some (h2.eval_vec P.m_goal, h2)

/-- Triangular number `n (n + 1) / 2`, the offset of row `n` of the triangular table. -/
def tri (n : Nat) : Nat := n * (n + 1) / 2

/-- Maximum of `v` and the values of all pairs `(fs[i], fs[j])`, `i ≤ j`: what `eval( s )` of h²
computes, without the early exit. -/
def pmaxF (val2 : Nat → Nat → Val) : Fluent_Vec → Val → Val
  | [], v => v
  | x :: rest, v => pmaxF val2 rest (hmaxF (val2 x) (x :: rest) v)

/-- Dimensions of the h² object, as set by its constructor. -/
structure H2_Heuristic.sized (h : H2_Heuristic) (P : STRIPS_Problem) : Prop where
  values : h.m_values.length = tri P.m_num_fluents
  ops : h.m_op_values.length = P.m_num_actions

/-- Every pair value of the h² table is at least the h¹ value `v1` of each of its fluents. -/
def H2_Heuristic.Above (v1 : List Val) (F : Nat) (h : H2_Heuristic) : Prop :=
  ∀ p q, p < F → q < F → v1.getD p infty ≤ h.value p q

/-- Every entry of the pair table and of the operator table of the h² object is on the grid. -/
def H2_Heuristic.grid (D : Nat) (h : H2_Heuristic) : Prop :=
  (∀ v ∈ h.m_values, onGrid D v) ∧ ∀ v ∈ h.m_op_values, onGrid D v

/-- Progress relation of a pass of h² `compute` on (object, `fixed_point`): either nothing changed,
or the pair table decreased in the measure and `fixed_point` is false. -/
structure H2_Heuristic.Prog (D : Nat) (st st1 : H2_Heuristic × Bool) : Prop where
  grid : st1.1.grid D
  len : st1.1.m_values.length = st.1.m_values.length
  ops : st1.1.m_op_values.length = st.1.m_op_values.length
  dec : (st1.1.m_values = st.1.m_values ∧ st1.2 = st.2) ∨
    (tblLt D st1.1.m_values st.1.m_values ∧ st1.2 = false)

/-- Body of the `j` loop of `compute_mutexes_only`. -/
def H2_Heuristic.mutex_pair (p q : Nat) (st : H2_Heuristic × Bool) : H2_Heuristic × Bool :=
  let curr_value := st.1.value p q
  if curr_value = 0 then st else (st.1.set_value p q 0, false)

/-- The precondition loop of `compute_mutexes_only`:
`h2_pre_noop = max( h2_pre_noop, value( r, s ) ); if ( h2_pre_noop == infty ) break`. -/
def H2_Heuristic.noop_pre (h : H2_Heuristic) (r : Nat) : Fluent_Vec → Val → Val
  | [], v => v
  | s :: rest, v =>
    let v1 := max v (h.value r s)
    if v1 = infty then v1 else H2_Heuristic.noop_pre h r rest v1

/-- Body of the `r` loop of `compute_mutexes_only`. -/
def H2_Heuristic.mutex_noop (action : Action) (a p r : Nat) (st : H2_Heuristic × Bool) :
    H2_Heuristic × Bool :=
  if st.1.interferes a r || st.1.value p r = 0 then st
  else
    let h2_pre_noop := max (st.1.op_value a) (st.1.value r r)
    if h2_pre_noop = infty then st
    else
      let h2_pre_noop := H2_Heuristic.noop_pre st.1 r action.prec_vec h2_pre_noop
      if h2_pre_noop = infty then st else (st.1.set_value p r 0, false)

/-- The loop over the adds of action `a` in `compute_mutexes_only`. -/
def H2_Heuristic.mutex_adds (nf : Nat) (action : Action) (a : Nat) :
    Fluent_Vec → H2_Heuristic × Bool → H2_Heuristic × Bool
  | [], st => st
  | p :: rest, st =>
    let st1 := (p :: rest).foldl (fun st q => H2_Heuristic.mutex_pair p q st) st
    let st2 := forLoop nf (fun r st => H2_Heuristic.mutex_noop action a p r st) st1
    H2_Heuristic.mutex_adds nf action a rest st2

/-- Body of the action loop of `compute_mutexes_only`. -/
def H2_Heuristic.mutex_action (P : STRIPS_Problem) (a : Nat) (st : H2_Heuristic × Bool) :
    H2_Heuristic × Bool :=
  match P.m_actions[a]? with
  | none => st
  | some action =>
    let h1 : H2_Heuristic :=
      { st.1 with m_op_values := st.1.m_op_values.set a (st.1.eval_vec action.prec_vec) }
    if h1.op_value a = infty then (h1, st.2)
    else H2_Heuristic.mutex_adds P.m_num_fluents action a action.add_vec (h1, st.2)

/-- One pass of the `do … while` loop of `compute_mutexes_only`. -/
def H2_Heuristic.mutex_pass (P : STRIPS_Problem) (h : H2_Heuristic) : H2_Heuristic × Bool :=
  forLoop P.m_num_actions (H2_Heuristic.mutex_action P) (h, true)

/-- `H2_Heuristic::compute_mutexes_only()`, bounded by `fuel` passes. -/
def H2_Heuristic.compute_mutexes_only (P : STRIPS_Problem) :
    Nat → H2_Heuristic → Option H2_Heuristic
  | 0, _ => none
  | fuel + 1, h =>
    let st := H2_Heuristic.mutex_pass P h
    if st.2 then some st.1 else H2_Heuristic.compute_mutexes_only P fuel st.1

/-- The three statements that record an e-delete in `compute_edeletes`:
`edel_vec().push_back( p ); edel_set().set( p ); actions_edeleting( p ).push_back( &action )`. -/
def record_edelete (prob : STRIPS_Problem) (a p : Nat) : STRIPS_Problem :=
  match prob.m_actions[a]? with
  | none => prob
  | some action =>
    { prob with
      m_actions := prob.m_actions.set a
        { action with edel_vec := action.edel_vec ++ [p], edel_set := action.edel_set.set p }
      m_edeleting := push_at prob.m_edeleting p a }

/-- First loop of the body of `compute_edeletes`: the first add `q` with `value( p, q ) == infty`
records the e-delete and breaks; returns the problem and `is_edelete`. -/
def H2_Heuristic.edel_add_loop (h : H2_Heuristic) (a p : Nat) :
    Fluent_Vec → STRIPS_Problem → STRIPS_Problem × Bool
  | [], prob => (prob, false)
  | q :: rest, prob =>
    if h.value p q = infty then (record_edelete prob a p, true)
    else H2_Heuristic.edel_add_loop h a p rest prob

/-- Second loop of the body of `compute_edeletes`: the first precondition `r` with `p` not an add and
`value( p, r ) == infty` records the e-delete and breaks. -/
def H2_Heuristic.edel_prec_loop (h : H2_Heuristic) (action : Action) (a p : Nat) :
    Fluent_Vec → STRIPS_Problem → STRIPS_Problem
  | [], prob => prob
  | r :: rest, prob =>
    if !action.add_isset p && h.value p r = infty then record_edelete prob a p
    else H2_Heuristic.edel_prec_loop h action a p rest prob

/-- Body of the double loop of `compute_edeletes` for fluent `p` and action `a`. -/
def H2_Heuristic.edel_step (h : H2_Heuristic) (p a : Nat) (prob : STRIPS_Problem) :
    STRIPS_Problem :=
  match prob.m_actions[a]? with
  | none => prob
  | some action =>
    let r1 := H2_Heuristic.edel_add_loop h a p action.add_vec prob
    if r1.2 then r1.1
    else
      let prob2 := H2_Heuristic.edel_prec_loop h action a p action.prec_vec r1.1
      match prob2.m_actions[a]? with
      | none => prob2
      | some action2 =>
        if !action2.edel_set.isset p && action2.del_isset p then record_edelete prob2 a p
        else prob2

/-- `H2_Heuristic::compute_edeletes( prob )`: returns the problem with the e-deletes recorded and
the heuristic object holding the mutex table. -/
def H2_Heuristic.compute_edeletes (prob : STRIPS_Problem) (fuel : Nat) (h : H2_Heuristic) :
    Option (STRIPS_Problem × H2_Heuristic) :=
  let h1 := H2_Heuristic.initialize h prob.m_init
  match H2_Heuristic.compute_mutexes_only prob fuel h1 with
  | none => none
  | some h2 =>
    some (forLoop prob.m_num_fluents (fun p prob1 =>
      forLoop prob1.m_num_actions (fun a prob2 => H2_Heuristic.edel_step h2 p a prob2) prob1) prob,
      h2)

/-- The problem of the e-delete scenario: fluents at-A, at-B, at-C, init at-A, and the two moves
from A. -/
def moves : STRIPS_Problem :=
  let p0 := STRIPS_Problem.new "moves" "from-a"
  let p1 := (add_fluent p0 "(at A)").2
  let p2 := (add_fluent p1 "(at B)").2
  let p3 := (add_fluent p2 "(at C)").2
  let p4 := (add_action p3 "(move A B)" [0] [1] [0] [] 1).2
  let p5 := (add_action p4 "(move A C)" [0] [2] [0] [] 1).2
  make_action_tables { p5 with m_init := [0] }

/-- The e-delete condition of `compute_edeletes` for action `act` and fluent `p` on the table of
`h`: `p` is mutex with an add, or `p` is not an add and is mutex with a precondition, or `p` is
deleted. -/
def H2_Heuristic.edel_cond (h : H2_Heuristic) (act : Action) (p : Nat) : Bool :=
  act.add_vec.any (fun q => decide (h.value p q = infty)) ||
    (!act.add_isset p && act.prec_vec.any (fun r => decide (h.value p r = infty))) ||
    act.del_isset p

/-- E-delete sequence of `act` once the fluents below `n` have been processed. -/
def H2_Heuristic.edelOf (h : H2_Heuristic) (act : Action) (n : Nat) : Fluent_Vec :=
  (List.range n).filter (fun p => h.edel_cond act p)

/-- Row `p` of `edeleting` once the actions below `m` have been processed for `p`. -/
def H2_Heuristic.edeletingOf (h : H2_Heuristic) (acts : List Action) (p m : Nat) : List Nat :=
  (List.range m).filter (fun a =>
    match acts[a]? with
    | some act => h.edel_cond act p
    | none => false)

/-- The action `act1` differs from `act` at most in its e-delete sequence and bitset. -/
def Action.same_static (act act1 : Action) : Prop :=
  act1 = { act with edel_vec := act1.edel_vec, edel_set := act1.edel_set }

/-- State of the problem in `compute_edeletes` once, for every fluent below `n` all actions, and for
fluent `n` the actions below `m`, have been processed. -/
structure H2_Heuristic.EdelInv (h : H2_Heuristic) (P Q : STRIPS_Problem) (n m : Nat) : Prop where
  num_fluents : Q.m_num_fluents = P.m_num_fluents
  num_actions : Q.m_num_actions = P.m_num_actions
  len : Q.m_actions.length = P.m_actions.length
  rows : Q.m_edeleting.length = P.m_num_fluents
  acts : ∀ (i : Nat) (act : Action), P.m_actions[i]? = some act →
    ∃ act1, Q.m_actions[i]? = some act1 ∧ act.same_static act1 ∧
      act1.edel_vec = h.edelOf act (if i < m then n + 1 else n) ∧
      act1.edel_set.bits.length = P.m_num_fluents ∧
      ∀ p, act1.edel_set.isset p = true ↔ p ∈ act1.edel_vec
  table : ∀ p, row Q.m_edeleting p =
    if p < n then h.edeletingOf P.m_actions p P.m_num_actions
    else if p = n then h.edeletingOf P.m_actions p m else []

/-! ### Novelty (novelty.hxx) -/

/-- `std::vector::resize( n, d )`. -/
def vec_resize {α : Type} (l : List α) (n : Nat) (d : α) : List α :=
  l.take n ++ List.replicate (n - l.length) d

/-- Members of `Novelty`; a `State*` in the table is the state it points to, `NULL` is `none`. -/
structure Novelty where
  m_nodes_tuples : List (Option State)
  m_arity : Nat
  m_num_tuples : Nat
  m_num_fluents : Nat
  m_max_memory_size_MB : Nat

/-- `sizeof( State* )` on the 64-bit targets of the toolkit. -/
def sizeof_ptr : Nat := 8

/-! #### IEEE 754 arithmetic of `set_arity`

`set_arity` computes the table size in `float` and `double`.  The values that occur are 0 or at
least `1 / 128000`, far above the subnormal range, so a format is given by its precision and
the power of two from which a rounded value overflows to +infinity. -/

/-- Halving loop of `ilog2`, at most `fuel` halvings. -/
def ilog2_loop : Nat → Nat → Nat
  | 0, _ => 0
  | fuel + 1, n => if n < 2 then 0 else ilog2_loop fuel (n / 2) + 1

/-- Position of the leading bit of `n`: `2 ^ ilog2 n ≤ n < 2 ^ (ilog2 n + 1)` for `n > 0`. -/
def ilog2 (n : Nat) : Nat := ilog2_loop n n

/-- The binary exponent `e` of a positive rational: `2 ^ e ≤ x < 2 ^ (e + 1)`. -/
def binary_exponent (x : ℚ) : Int :=
  let d : Int := (ilog2 x.num.natAbs : Int) - (ilog2 x.den : Int)
  if (2 : ℚ) ^ d ≤ x then d else d - 1

/-- The integer nearest to `n`, the even one of the two when `n` is halfway. -/
def nearest_even (n : ℚ) : Int :=
  let f : Int := ⌊n⌋
  if n - f < 1 / 2 then f
  else if 1 / 2 < n - f then f + 1
  else if f % 2 = 0 then f else f + 1

/-- Round-to-nearest, ties to even, of a rational to `p` significant bits (no exponent bound);
0 for a value that is not positive. -/
def round_nearest_even (p : Nat) (x : ℚ) : ℚ :=
  if x ≤ 0 then 0
  else
    let ulp : ℚ := (2 : ℚ) ^ binary_exponent x / 2 ^ (p - 1)
    (nearest_even (x / ulp) : ℚ) * ulp

/-- Rounding to the binary format with `p` significant bits whose values are below `2 ^ emax`:
a result of `2 ^ emax` or more is +infinity. -/
def ieee_round (p emax : Nat) (x : ℚ) : Val :=
  if (2 : ℚ) ^ emax ≤ round_nearest_even p x then infty
  else ((round_nearest_even p x : ℚ) : Val)

/-- Conversion to `float` (binary32): 24 significant bits, values below `2 ^ 128`. -/
def to_float (x : ℚ) : Val := ieee_round 24 128 x

/-- A result in `double` (binary64): 53 significant bits, values below `2 ^ 1024`. -/
def to_double (x : ℚ) : Val := ieee_round 53 1024 x

/-- A floating-point operation applied to a value that may be +infinity already. -/
def Val.through (v : Val) (f : ℚ → Val) : Val :=
  match (v : Option ℚ) with
  | none => infty
  | some q => f q

/-- The size in MB that `set_arity` compares with the cap,
`float size_novelty = ( (float) pow( F, k ) / 1024000. ) * sizeof( State* )`: `pow` returns a
`double` (taken as correctly rounded; it is exact below `2 ^ 53`), the cast rounds it to
`float`, the division by the `double` constant and the product with the `size_t` are done in
`double`, and the initialisation rounds the result to `float`. -/
def size_novelty (num_fluents arity : Nat) : Val :=
  let pw : Val := to_double ((num_fluents : ℚ) ^ arity)
  let fl : Val := pw.through to_float
  let quot : Val := fl.through (fun y => to_double (y / 1024000))
  let prod : Val := quot.through (fun y => to_double (y * (sizeof_ptr : ℚ)))
  prod.through to_float

/-- The size of the table in MB in the words of the spec:
`F ^ k * sizeof( reference ) / 1024000`, computed exactly. -/
def size_in_MB (num_fluents arity : Nat) : ℚ :=
  (num_fluents : ℚ) ^ arity * (sizeof_ptr : ℚ) / 1024000

/-- The float value `v` stands for the exact value `t` up to the factors `a` and `b`, and when
`v` is +infinity the exact value is at least `T`. -/
structure FloatNear (a b T : ℚ) (v : Val) (t : ℚ) : Prop where
  fin : ∀ s : ℚ, v = ((s : ℚ) : Val) → a * t ≤ s ∧ s ≤ b * t
  inf : v = infty → T ≤ t

/-- `Novelty::set_arity( max_arity )`; `m_num_tuples` is an `unsigned long`.  In the comparison
`size_novelty > m_max_memory_size_MB` of a `float` with an `unsigned`, the cap is converted to
`float`. -/
def Novelty.set_arity (P : STRIPS_Problem) (nov : Novelty) (max_arity : Nat) : Novelty :=
  let nov1 : Novelty :=
    { nov with m_arity := max_arity, m_num_tuples := 1, m_num_fluents := P.m_num_fluents }
  let nov2 : Novelty :=
    if size_novelty nov1.m_num_fluents nov1.m_arity >
        to_float (nov1.m_max_memory_size_MB : ℚ) then
      { nov1 with m_arity := 1 }
    else nov1
  let nov3 : Novelty :=
    forLoop nov2.m_arity (fun _ (n : Novelty) =>
      { n with m_num_tuples := (n.m_num_tuples * n.m_num_fluents) % 2 ^ 64 }) nov2
  { nov3 with m_nodes_tuples := vec_resize nov3.m_nodes_tuples nov3.m_num_tuples none }

/-- Constructor `Novelty( prob, max_arity, max_MB )`. -/
def Novelty.new (P : STRIPS_Problem) (max_arity : Nat) (max_MB : Nat) : Novelty :=
  Novelty.set_arity P
    { m_nodes_tuples := [], m_arity := 0, m_num_tuples := 0, m_num_fluents := 0,
      m_max_memory_size_MB := max_MB } max_arity

/-- `Novelty::tuple2idx( indexes, arity )`: the loop `for ( i = arity - 1; i >= 0; i-- )` with
`count = i + 1` positions left, in `unsigned` arithmetic. -/
def Novelty.tuple2idx_loop (num_fluents : Nat) (indexes : List Nat) : Nat → Nat → Nat → Nat
  | 0, idx, _ => idx
  | i + 1, idx, dimension =>
    Novelty.tuple2idx_loop num_fluents indexes i
      ((idx + indexes.getD i 0 * dimension) % 2 ^ 32) ((dimension * num_fluents) % 2 ^ 32)

/-- `Novelty::tuple2idx( indexes, arity )`. -/
def Novelty.tuple2idx (nov : Novelty) (indexes : List Nat) (arity : Nat) : Nat :=
  Novelty.tuple2idx_loop nov.m_num_fluents indexes arity 0 1

/-- `Novelty::idx2tuple`: the loop `for ( i = arity - 1; ; i-- )` from position `i` down to 0. -/
def Novelty.idx2tuple_loop (s : State) : Nat → List Nat → Nat → List Nat
  | i, tuple, current_idx =>
    let n_atoms := s.fluent_vec.length
    let div := (n_atoms ^ i) % 2 ^ 32
    let next_idx := current_idx % div
    let current_idx1 := if current_idx / div ≠ 0 ∨ i ≠ 0 then current_idx / div else next_idx
    let tuple1 := tuple.set i (s.fluent_vec.getD current_idx1 0)
    match i with
    | 0 => tuple1
    | j + 1 => Novelty.idx2tuple_loop s j tuple1 next_idx

/-- `Novelty::idx2tuple( tuple, s, idx, arity )`, for `arity ≥ 1`. -/
def Novelty.idx2tuple (tuple : List Nat) (s : State) (idx arity : Nat) : List Nat :=
  Novelty.idx2tuple_loop s (arity - 1) tuple idx

/-- Body of the loop of `cover_tuples( s, arity )` for one `idx`; `is_better` is constantly
false. -/
def Novelty.cover_step (s : State) (arity : Nat) (idx : Nat) (st : Novelty × List Nat × Bool) :
    Novelty × List Nat × Bool :=
  let tuple := Novelty.idx2tuple st.2.1 s idx arity
  let tuple_idx := st.1.tuple2idx tuple arity
  let cover_new_tuple :=
    match st.1.m_nodes_tuples.getD tuple_idx none with
    | none => true
    | some _ => false
  if cover_new_tuple then
    ({ st.1 with m_nodes_tuples := st.1.m_nodes_tuples.set tuple_idx (some s) }, tuple, true)
  else (st.1, tuple, st.2.2)

/-- `Novelty::cover_tuples( const State& s, arity )`: returns the table and `new_covers`. -/
def Novelty.cover_tuples (nov : Novelty) (s : State) (arity : Nat) : Novelty × Bool :=
  let n_combinations := (s.fluent_vec.length ^ arity) % 2 ^ 32
  let r := forLoop n_combinations (Novelty.cover_step s arity)
    (nov, List.replicate arity 0, false)
  (r.1, r.2.2)

/-- `Novelty::compute( s, novelty )` for a state: the loop `for ( i = 1; i <= m_arity; i++ )`;
the `float` result always holds a small integer and is a `Nat` here. -/
def Novelty.compute (nov : Novelty) (s : State) : Novelty × Nat :=
  forLoop nov.m_arity (fun k (st : Novelty × Nat) =>
    let i := k + 1
    let r := st.1.cover_tuples s i
    if r.2 then (if i < st.2 then (r.1, i) else (r.1, st.2)) else (r.1, st.2))
    (nov, nov.m_arity + 1)

/-- `Novelty::eval( s, h_val )`. -/
def Novelty.eval (nov : Novelty) (s : State) : Novelty × Nat := nov.compute s

/-- The list `t` is a `w`-tuple of fluents of the state `s`. -/
def State.has_tuple (s : State) (w : Nat) (t : List Nat) : Prop :=
  t.length = w ∧ ∀ x ∈ t, x ∈ s.fluent_vec

/-- The state `s` contains a `w`-tuple of its fluents that no state of `prev` contains. -/
def new_tuple (prev : List State) (s : State) (w : Nat) : Prop :=
  ∃ t, s.has_tuple w t ∧ ∀ s1 ∈ prev, ¬ ∀ x ∈ t, x ∈ s1.fluent_vec

/-- Modelled from the spec: equality of states, "two states are equal iff they present the same
fluent set"; the hash tables of the engine look nodes up by it. -/
def State.same (s t : State) : Bool :=
  s.fluent_vec.all (fun f => t.fluent_vec.contains f) &&
    t.fluent_vec.all (fun f => s.fluent_vec.contains f)

/-- Modelled from the spec: the `Search_Model` template parameter (search_prob.hxx is not under
src/): initial state, goal test, the actions the `Action_Iterator` yields for a state in order,
successor state, action cost and number of actions. -/
structure Search_Model where
  init : State
  goal : State → Bool
  applicable : State → List Nat
  next : State → Nat → State
  cost : State → Nat → ℚ
  num_actions : Nat

/-- What surrounds an engine: the search problem, the two heuristic estimators (`eval( s, h, po )`
returns the value and the preferred operators) and the wall clock, `time_used()` giving its
`n`-th reading. -/
structure Search_Env where
  problem : Search_Model
  h1 : State → Val × List Nat
  h2 : State → Val × List Nat
  time_used : Nat → ℚ

/-- Modelled from the spec: `Node< State >` (the node class is not under src/): state, backpointer
to the parent, the action that produced it (`none` is `no_op`), `g`, `h1`, `h2`, `f`, the two
preferred-operator bitsets and the `seen` flag. Pointers to nodes are positions in the node store
of the engine. -/
structure Search_Node where
  m_state : State
  m_parent : Option Nat
  m_action : Option Nat
  m_g : ℚ
  m_h1 : Val
  m_h2 : Val
  m_f : Val
  m_po_1 : Bit_Set
  m_po_2 : Bit_Set
  m_seen : Bool
deriving DecidableEq

/-- Modelled from the spec: the node constructor `Node( state, cost, action, parent,
num_actions )`; the path cost `g` is the parent's plus `cost`. -/
def Search_Node.new (s : State) (cost : ℚ) (action : Option Nat) (parent : Option Nat)
    (parent_g : ℚ) (num_actions : Nat) : Search_Node :=
  { m_state := s, m_parent := parent, m_action := action, m_g := parent_g + cost,
    m_h1 := 0, m_h2 := 0, m_f := 0,
    m_po_1 := Bit_Set.mk_size num_actions, m_po_2 := Bit_Set.mk_size num_actions,
    m_seen := false }

/-- The product `m_W * h` of a weight and a heuristic value. -/
def wtimes (w : ℚ) : Val → Val
  | none => infty
  | some h => ((w * h : ℚ) : Val)

/-- The engine `AT_RWBFS_DQ_MH` with the members of its base `AT_BFS_DQ_MH` (at_bfs_dq_mh.hxx is
not under src/). `m_nodes` is the store of allocated nodes, `none` a deleted one; open, open hash,
closed and seen hold pointers into it. `m_B` is the bound, `m_ticks` the number of clock readings
taken so far. -/
structure AT_RWBFS_DQ_MH where
  m_nodes : List (Option Search_Node)
  m_open : List Nat
  m_open_hash : List Nat
  m_closed : List Nat
  m_seen : List Nat
  m_root : Nat
  m_B : Val
  m_W : ℚ
  m_decay : ℚ
  m_t0 : ℚ
  m_time_budget : Val
  m_ticks : Nat
  m_gen_count : Nat
  m_eval_count : Nat
  m_pruned_B_count : Nat
  m_replaced_open_count : Nat
deriving DecidableEq

namespace AT_RWBFS_DQ_MH

/-- Dereference a node pointer. -/
def node (E : AT_RWBFS_DQ_MH) (p : Nat) : Option Search_Node := E.m_nodes.getD p none

/-- Overwrite the node a pointer refers to. -/
def put_node (E : AT_RWBFS_DQ_MH) (p : Nat) (n : Search_Node) : AT_RWBFS_DQ_MH :=
  { E with m_nodes := E.m_nodes.set p (some n) }

/-- Allocation `new Search_Node( ... )`: returns the engine and the pointer. -/
def alloc (E : AT_RWBFS_DQ_MH) (n : Search_Node) : AT_RWBFS_DQ_MH × Nat :=
  ({ E with m_nodes := E.m_nodes ++ [some n] }, E.m_nodes.length)

/-- The statement `delete p`. -/
def delete (E : AT_RWBFS_DQ_MH) (p : Nat) : AT_RWBFS_DQ_MH :=
  { E with m_nodes := E.m_nodes.set p none }

/-- Modelled from the spec: `retrieve( n )` of a hash table of nodes (closed_list.hxx is not
under src/): the first stored pointer whose node has the state `s`. -/
def retrieve (E : AT_RWBFS_DQ_MH) (table : List Nat) (s : State) : Option Nat :=
  table.find? (fun p =>
    match E.node p with
    | some n => n.m_state.same s
    | none => false)

/-- The key of an open entry: the `f` of its node. -/
def key (E : AT_RWBFS_DQ_MH) (p : Nat) : Val :=
  match E.node p with
  | some n => n.m_f
  | none => infty

/-- Modelled from the spec: `pop()` of the open list (the open list class is a template parameter
and not under src/): the entry it serves next. The spec leaves the order among its queues open;
here the first entry of least `f` is served. -/
def pick (E : AT_RWBFS_DQ_MH) : List Nat → Option Nat
  | [] => none
  | p :: rest =>
    match pick E rest with
    | none => some p
    | some q => if E.key q < E.key p then some q else some p

/-- Modelled from the spec: `get_node()` of the base engine: takes the next entry out of open and
out of the open hash; `none` is `NULL`, returned when open is empty. -/
def get_node (E : AT_RWBFS_DQ_MH) : AT_RWBFS_DQ_MH × Option Nat :=
  match E.pick E.m_open with
  | none => (E, none)
  | some p => ({ E with m_open := E.m_open.erase p, m_open_hash := E.m_open_hash.erase p }, some p)

/-- Modelled from the spec: `close( n )` of the base engine, `closed().put( n )`. -/
def close (E : AT_RWBFS_DQ_MH) (p : Nat) : AT_RWBFS_DQ_MH :=
  { E with m_closed := E.m_closed ++ [p] }

/-- Modelled from the spec: `open_node( n, po_1, po_2 )` of the base engine: inserts the node in
open and in the open hash and counts it as generated. -/
def open_node (E : AT_RWBFS_DQ_MH) (p : Nat) (_po_1 _po_2 : Bool) : AT_RWBFS_DQ_MH :=
  { E with m_open := E.m_open ++ [p], m_open_hash := E.m_open_hash ++ [p],
           m_gen_count := E.m_gen_count + 1 }

/-- Modelled from the spec: `set_bound( v )` of the base engine. -/
def set_bound (E : AT_RWBFS_DQ_MH) (v : Val) : AT_RWBFS_DQ_MH := { E with m_B := v }

/-- Modelled from the spec: `is_closed( n )` of the base engine: a closed node of the same state
with `g` not larger discards `n`; one with larger `g` leaves closed, so that `n` takes its
place. -/
def is_closed (E : AT_RWBFS_DQ_MH) (n : Search_Node) : AT_RWBFS_DQ_MH × Bool :=
  match E.retrieve E.m_closed n.m_state with
  | none => (E, false)
  | some p2 =>
    match E.node p2 with
    | none => (E, false)
    | some n2 =>
      if n2.m_g ≤ n.m_g then (E, true)
      else ({ E with m_closed := E.m_closed.erase p2 }, false)

end AT_RWBFS_DQ_MH

namespace AT_RWBFS_DQ_MH

/-- `AT_RWBFS_DQ_MH::eval( candidate )`: a node carrying the seen flag is not evaluated. -/
def eval (env : Search_Env) (E : AT_RWBFS_DQ_MH) (p : Nat) : AT_RWBFS_DQ_MH :=
  match E.node p with
  | none => E
  | some c =>
    if c.m_seen then E
    else
      let r1 := env.h1 c.m_state
      let c1 := { c with m_h1 := r1.1, m_po_1 := r1.2.foldl Bit_Set.set c.m_po_1 }
      let r2 := env.h2 c1.m_state
      let c2 := { c1 with m_h2 := r2.1, m_po_2 := r2.2.foldl Bit_Set.set c1.m_po_2 }
      E.put_node p c2

/-- `AT_RWBFS_DQ_MH::is_open( n )`. -/
def is_open (E : AT_RWBFS_DQ_MH) (n : Search_Node) : AT_RWBFS_DQ_MH × Bool :=
  match E.retrieve E.m_open_hash n.m_state with
  | none => (E, false)
  | some p2 =>
    match E.node p2 with
    | none => (E, true)
    | some n2 =>
      if n.m_g < n2.m_g then
        let n3 := { n2 with m_parent := n.m_parent, m_action := n.m_action, m_g := n.m_g }
        let n4 := { n3 with m_f := wtimes E.m_W n3.m_h1 + (n3.m_g : Val) }
        ({ E.put_node p2 n4 with m_replaced_open_count := E.m_replaced_open_count + 1 }, true)
      else (E, true)

/-- The test `n->parent()->is_po_1( n->action() )`, and the same for the second heuristic. -/
def parent_po (E : AT_RWBFS_DQ_MH) (n : Search_Node) : Bool × Bool :=
  match n.m_parent, n.m_action with
  | some q, some a =>
    (match E.node q with
     | some pn => (pn.m_po_1.isset a, pn.m_po_2.isset a)
     | none => (false, false))
  | _, _ => (false, false)

/-- `AT_RWBFS_DQ_MH::is_seen( n )`. -/
def is_seen (E : AT_RWBFS_DQ_MH) (n : Search_Node) : AT_RWBFS_DQ_MH × Bool :=
  match E.retrieve E.m_seen n.m_state with
  | none => (E, false)
  | some p2 =>
    match E.node p2 with
    | none => (E, false)
    | some n2 =>
      let n3 :=
        if n.m_g < n2.m_g then
          { n2 with m_g := n.m_g, m_parent := n.m_parent, m_action := n.m_action }
        else n2
      let n4 := { n3 with m_f := wtimes E.m_W n3.m_h1 + (n3.m_g : Val) }
      let E1 := E.put_node p2 n4
      let E2 := { E1 with m_seen := E1.m_seen.erase p2 }
      let po := E2.parent_po n4
      (E2.open_node p2 po.1 po.2, true)

/-- Body of the loop of `process( head )` for the applicable action `a`. -/
def process_action (env : Search_Env) (head : Nat) (E : AT_RWBFS_DQ_MH) (a : Nat) :
    AT_RWBFS_DQ_MH :=
  match E.node head with
  | none => E
  | some hn =>
    let succ := env.problem.next hn.m_state a
    let n := Search_Node.new succ (env.problem.cost hn.m_state a) (some a) (some head) hn.m_g
      env.problem.num_actions
    let r1 := E.is_closed n
    if r1.2 then r1.1
    else
      let r2 := r1.1.is_open n
      if r2.2 then r2.1
      else
        let r3 := r2.1.is_seen n
        if r3.2 then r3.1
        else
          match r3.1.node head with
          | none => r3.1
          | some hn1 =>
            let n1 := { n with m_h1 := hn1.m_h1, m_h2 := hn1.m_h2 }
            let n2 := { n1 with m_f := wtimes r3.1.m_W n1.m_h1 + (n1.m_g : Val) }
            let r4 := r3.1.alloc n2
            r4.1.open_node r4.2 (hn1.m_po_1.isset a) (hn1.m_po_2.isset a)

/-- `AT_RWBFS_DQ_MH::process( head )`. -/
def process (env : Search_Env) (E : AT_RWBFS_DQ_MH) (head : Nat) : AT_RWBFS_DQ_MH :=
  match E.node head with
  | none => E
  | some hn =>
    let E1 := (env.problem.applicable hn.m_state).foldl (process_action env head) E
    { E1 with m_eval_count := E1.m_eval_count + 1 }

/-- Body of the first loop of `restart_search()` for the closed entry `it`. -/
def restart_step (E : AT_RWBFS_DQ_MH) (it : Nat) : AT_RWBFS_DQ_MH :=
  match E.node it with
  | none => E
  | some n =>
    let E1 := E.put_node it { n with m_seen := true }
    if it = E1.m_root then E1
    else
      match E1.retrieve E1.m_seen n.m_state with
      | none => { E1 with m_seen := E1.m_seen ++ [it] }
      | some p2 =>
        match E1.node p2 with
        | none => E1
        | some n2 =>
          if n2.m_g ≤ n.m_g then E1.delete it
          else { E1 with m_seen := E1.m_seen.erase p2 ++ [it] }

/-- The loop `while ( head ) { delete head; head = get_node(); }` of `restart_search()`; every
turn takes one entry out of open, so `m_open.length` turns empty it. -/
def drain_open : Nat → AT_RWBFS_DQ_MH → AT_RWBFS_DQ_MH
  | 0, E => E
  | n + 1, E =>
    match E.get_node with
    | (E1, none) => E1
    | (E1, some head) => drain_open n (E1.delete head)

/-- `AT_RWBFS_DQ_MH::restart_search()`. -/
def restart_search (E : AT_RWBFS_DQ_MH) : AT_RWBFS_DQ_MH :=
  let E1 := E.m_closed.foldl restart_step E
  let E2 := { E1 with m_closed := [], m_open_hash := [] }
  let E3 := drain_open E2.m_open.length E2
  E3.open_node E3.m_root false false

/-- The goal branch of `do_search()`: close the head, set the bound to its `g`, decay the weight
and restart. -/
def found_goal (E : AT_RWBFS_DQ_MH) (head : Nat) (hn : Search_Node) : AT_RWBFS_DQ_MH :=
  let E1 := E.close head
  let E2 := E1.set_bound (hn.m_g : Val)
  let E3 := { E2 with m_W := E2.m_W * E2.m_decay }
  let E4 := if E3.m_W < 1 then { E3 with m_W := 1 } else E3
  E4.restart_search

/-- The loop `while ( head )` of `do_search()`, one turn per unit of fuel; the result is the
engine with the returned pointer (`none` is `NULL`), and `none` when the fuel runs out or the
head is a deleted node. -/
def do_search_loop (env : Search_Env) :
    Nat → AT_RWBFS_DQ_MH → Nat → Option (AT_RWBFS_DQ_MH × Option Nat)
  | 0, _, _ => none
  | fuel + 1, E, head =>
    match E.node head with
    | none => none
    | some hn =>
      if E.m_B ≤ (hn.m_g : Val) then
        let E1 := { E with m_pruned_B_count := E.m_pruned_B_count + 1 }
        let r := (E1.close head).get_node
        match r.2 with
        | none => some (r.1, none)
        | some next => do_search_loop env fuel r.1 next
      else if env.problem.goal hn.m_state then
        some (E.found_goal head hn, some head)
      else
        let t := env.time_used E.m_ticks
        let E1 := { E with m_ticks := E.m_ticks + 1 }
        if E1.m_time_budget < ((t - E1.m_t0 : ℚ) : Val) then some (E1, none)
        else
          let E2 := eval env E1 head
          let E3 := process env E2 head
          let r := (E3.close head).get_node
          match r.2 with
          | none => some (r.1, none)
          | some next => do_search_loop env fuel r.1 next

/-- `AT_RWBFS_DQ_MH::do_search()`. -/
def do_search (env : Search_Env) (fuel : Nat) (E : AT_RWBFS_DQ_MH) :
    Option (AT_RWBFS_DQ_MH × Option Nat) :=
  let r := E.get_node
  match r.2 with
  | none => some (r.1, none)
  | some head => do_search_loop env fuel r.1 head

/-- Modelled from the spec: the constructor with `W` and `decay`: empty containers, no bound, no
time budget. -/
def new (W decay : ℚ) : AT_RWBFS_DQ_MH :=
  { m_nodes := [], m_open := [], m_open_hash := [], m_closed := [], m_seen := [], m_root := 0,
    m_B := infty, m_W := W, m_decay := decay, m_t0 := 0, m_time_budget := infty, m_ticks := 0,
    m_gen_count := 0, m_eval_count := 0, m_pruned_B_count := 0, m_replaced_open_count := 0 }

/-- Modelled from the spec: `start()` of the base engine, "a root node is created from the
problem's initial state" and opened. -/
def start (env : Search_Env) (E : AT_RWBFS_DQ_MH) : AT_RWBFS_DQ_MH :=
  let r := E.alloc (Search_Node.new env.problem.init 0 none none 0 env.problem.num_actions)
  ({ r.1 with m_root := r.2 }).open_node r.2 false false

end AT_RWBFS_DQ_MH

/-- A search problem with a dear short route and a cheap long one from state 0 to the goal state
4: actions 0 (0 to 1, cost 1), 1 (0 to 2, cost 2), 2 (1 to 4, cost 5), 3 (2 to 3, cost 1) and
4 (3 to 4, cost 1). -/
def routes : Search_Model :=
  { init := ⟨[0]⟩,
    goal := fun s => s.fluent_vec == [4],
    applicable := fun s =>
      match s.fluent_vec with
      | [0] => [0, 1]
      | [1] => [2]
      | [2] => [3]
      | [3] => [4]
      | _ => [],
    next := fun _ a =>
      match a with
      | 0 => ⟨[1]⟩
      | 1 => ⟨[2]⟩
      | 3 => ⟨[3]⟩
      | _ => ⟨[4]⟩,
    cost := fun _ a =>
      match a with
      | 1 => 2
      | 2 => 5
      | _ => 1,
    num_actions := 5 }

/-- The routes problem with a first heuristic that overrates state 2, a null second heuristic and
a clock that advances one unit per reading, starting at 1. -/
def routes_env : Search_Env :=
  { problem := routes,
    h1 := fun s => if s.fluent_vec == [2] then (10, []) else (0, []),
    h2 := fun _ => (0, []),
    time_used := fun n => (n : ℚ) + 1 }

/-- The engine with `W = 5` and `decay = 0.75` started on the routes problem. -/
def routes_engine : AT_RWBFS_DQ_MH :=
  AT_RWBFS_DQ_MH.start routes_env (AT_RWBFS_DQ_MH.new 5 (3 / 4))

/-- First and second `do_search()` on the routes engine, enough fuel given. -/
def routes_first : AT_RWBFS_DQ_MH × Option Nat :=
  (AT_RWBFS_DQ_MH.do_search routes_env 10 routes_engine).getD (routes_engine, none)

def routes_second : AT_RWBFS_DQ_MH × Option Nat :=
  (AT_RWBFS_DQ_MH.do_search routes_env 10 routes_first.1).getD (routes_engine, none)

/-- The bound, the weight and the decay of two engine states agree. -/
def AT_RWBFS_DQ_MH.same_params (E E1 : AT_RWBFS_DQ_MH) : Prop :=
  E1.m_B = E.m_B ∧ E1.m_W = E.m_W ∧ E1.m_decay = E.m_decay

/-- The call `do_search()` on the routes engine when the time budget is 0. -/
def routes_timeout : AT_RWBFS_DQ_MH × Option Nat :=
  (AT_RWBFS_DQ_MH.do_search routes_env 10 { routes_engine with m_time_budget := 0 }).getD
    (routes_engine, some 0)

/-! ### Initial state, goal and the building operations (strips_prob.cxx) -/

/-- `STRIPS_Problem::set_init( p, init_vec )`; the `assert`s are compiled under `DEBUG` only. -/
def set_init (p : STRIPS_Problem) (init_vec : Fluent_Vec) : STRIPS_Problem :=
  let p1 : STRIPS_Problem :=
    if p.m_in_init.isEmpty then
      { p with m_in_init := vec_resize p.m_in_init p.m_num_fluents false }
    else
      forLoop p.m_num_fluents (fun k (q : STRIPS_Problem) =>
        { q with m_in_init := q.m_in_init.set k false }) p
  let p2 : STRIPS_Problem := { p1 with m_init := init_vec }
  forLoop init_vec.length (fun k (q : STRIPS_Problem) =>
    { q with m_in_init := q.m_in_init.set (init_vec.getD k 0) true }) p2

/-- The call `p.actions()[ idx ]->set_cost( c )`. -/
def set_cost_at (p : STRIPS_Problem) (idx : Nat) (c : ℚ) : STRIPS_Problem :=
  match p.m_actions[idx]? with
  | none => p
  | some a => { p with m_actions := p.m_actions.set idx { a with cost := c } }

/-- `STRIPS_Problem::set_goal( p, goal_vec, create_end_op )`; the cost argument that the call of
`add_action` leaves to its default is overwritten by `set_cost( 0 )` right after. -/
def set_goal (p : STRIPS_Problem) (goal_vec : Fluent_Vec) (create_end_op : Bool) :
    STRIPS_Problem :=
  let p1 : STRIPS_Problem :=
    if p.m_in_goal.isEmpty then
      { p with m_in_goal := vec_resize p.m_in_goal p.m_num_fluents false }
    else
      forLoop p.m_num_fluents (fun k (q : STRIPS_Problem) =>
        { q with m_in_goal := q.m_in_goal.set k false }) p
  let p2 : STRIPS_Problem := { p1 with m_goal := goal_vec }
  let p3 : STRIPS_Problem :=
    forLoop goal_vec.length (fun k (q : STRIPS_Problem) =>
      { q with m_in_goal := q.m_in_goal.set (goal_vec.getD k 0) true }) p2
  if create_end_op then
    let r := add_action p3 "(END)" goal_vec [] [] [] 1
    let p4 : STRIPS_Problem := { r.2 with m_end_operator_id := some r.1 }
    set_cost_at p4 r.1 0
  else p3

/-- A call of one of the operations that build or change a problem. -/
inductive Build_Op where
  | fluent (signature : String)
  | action (signature : String) (pre add del : Fluent_Vec) (ceffs : List Conditional_Effect)
      (cost : ℚ)
  | init (init_vec : Fluent_Vec)
  | goal (goal_vec : Fluent_Vec) (create_end_op : Bool)
  | tables

/-- The problem after one building operation. -/
def Build_Op.run (p : STRIPS_Problem) : Build_Op → STRIPS_Problem
  | .fluent signature => (add_fluent p signature).2
  | .action signature pre add del ceffs cost => (add_action p signature pre add del ceffs cost).2
  | .init init_vec => set_init p init_vec
  | .goal goal_vec create_end_op => set_goal p goal_vec create_end_op
  | .tables => make_action_tables p

/-- The problem after a sequence of building operations. -/
def build (ops : List Build_Op) (p : STRIPS_Problem) : STRIPS_Problem :=
  ops.foldl Build_Op.run p

/-- The counters agree with the vectors and every fluent and action carries its position as its
index. -/
structure STRIPS_Problem.indexed (P : STRIPS_Problem) : Prop where
  num_fluents : P.m_num_fluents = P.m_fluents.length
  num_actions : P.m_num_actions = P.m_actions.length
  fluent_index : ∀ (i : Nat) (f : Fluent), P.m_fluents[i]? = some f → f.index = i
  action_index : ∀ (i : Nat) (a : Action), P.m_actions[i]? = some a → a.index = i

/-- Some fluent index of the vectors handed to `add_action` is not below `nf`. -/
def bad_fluent_index (nf : Nat) (pre add del : Fluent_Vec) (ceffs : List Conditional_Effect) :
    Prop :=
  (∃ f ∈ pre, nf ≤ f) ∨ (∃ f ∈ add, nf ≤ f) ∨ (∃ f ∈ del, nf ≤ f) ∨
    ∃ c ∈ ceffs, (∃ f ∈ c.prec_vec, nf ≤ f) ∨ (∃ f ∈ c.add_vec, nf ≤ f) ∨ ∃ f ∈ c.del_vec, nf ≤ f

/-- The relational tables of two problems are the same. -/
def STRIPS_Problem.same_tables (P Q : STRIPS_Problem) : Prop :=
  Q.m_requiring = P.m_requiring ∧ Q.m_adding = P.m_adding ∧ Q.m_deleting = P.m_deleting ∧
    Q.m_edeleting = P.m_edeleting ∧ Q.m_ceffs_adding = P.m_ceffs_adding ∧
    Q.m_empty_precs = P.m_empty_precs

/-- The flag vector after the loop `for ( k < n ) flags[ idx k ] = b`. -/
def set_flags (n : Nat) (idx : Nat → Nat) (b : Bool) (flags : List Bool) : List Bool :=
  forLoop n (fun k (l : List Bool) => l.set (idx k) b) flags

/-- The flag vector `m_in_init` / `m_in_goal` that `set_init` / `set_goal` leave for the vector
`v`, from the flags `flags` of a problem with `nf` fluents. -/
def flags_after (nf : Nat) (flags : List Bool) (v : Fluent_Vec) : List Bool :=
  set_flags v.length (fun k => v.getD k 0) true
    (if flags.isEmpty then vec_resize flags nf false else set_flags nf (fun k => k) false flags)

/-- The action `(END)` that `set_goal` creates on a problem with `nf` fluents and `na` actions. -/
def end_operator (nf na : Nat) (goal_vec : Fluent_Vec) : Action :=
  { signature := "(END)", index := na, cost := 0, prec_vec := goal_vec, add_vec := [],
    del_vec := [], ceff_vec := [], edel_vec := [], edel_set := Bit_Set.mk_size nf }

/-- The result of `compute_edeletes` on the problem of the e-delete scenario, enough fuel
given. -/
def moves_edeletes : STRIPS_Problem × H2_Heuristic :=
  (H2_Heuristic.compute_edeletes moves 10 (H2_Heuristic.new moves)).getD
    (moves, H2_Heuristic.new moves)

/-- The problem of main.cxx (five rooms, one fluent per room, one move per directed edge of the
graph, in the order of the loops of `main`) without the edge between the sitting room and the
balcony: fluents 0 Kitchen, 1 Sitting_Room, 2 Balcony, 3 Bathroom, 4 Bedroom; the agent starts in
the kitchen and wants to be on the balcony. -/
def five_rooms_cut : STRIPS_Problem :=
  let p0 := STRIPS_Problem.new "" ""
  let p1 := (add_fluent p0 "(at Kitchen)").2
  let p2 := (add_fluent p1 "(at Sitting_Room)").2
  let p3 := (add_fluent p2 "(at Balcony)").2
  let p4 := (add_fluent p3 "(at Bathroom)").2
  let p5 := (add_fluent p4 "(at Bedroom)").2
  let p6 := (add_action p5 "(move Kitchen Sitting_Room)" [0] [1] [0] [] 1).2
  let p7 := (add_action p6 "(move Sitting_Room Kitchen)" [1] [0] [1] [] 1).2
  let p8 := (add_action p7 "(move Sitting_Room Bathroom)" [1] [3] [1] [] 1).2
  let p9 := (add_action p8 "(move Sitting_Room Bedroom)" [1] [4] [1] [] 1).2
  let p10 := (add_action p9 "(move Bathroom Sitting_Room)" [3] [1] [3] [] 1).2
  let p11 := (add_action p10 "(move Bedroom Sitting_Room)" [4] [1] [4] [] 1).2
  set_goal (set_init (make_action_tables p11) [0]) [2] false

/-- No action of the problem adds the fluent `g`, directly or through a conditional effect. -/
def STRIPS_Problem.never_added (P : STRIPS_Problem) (g : Nat) : Prop :=
  ∀ a ∈ P.m_actions, g ∉ a.add_vec ∧ ∀ c ∈ a.ceff_vec, g ∉ c.add_vec

/-! ### Reachability with persisting fluents (h_1.hxx) -/

/-- Modelled from the spec: `Action::asserts( f )` (action.hxx is not under src/), the action
adds `f`. -/
def Action.asserts (a : Action) (f : Nat) : Bool := a.add_isset f

/-- Modelled from the spec: `Action::edeletes( f )` (action.hxx is not under src/), `f` is in the
e-delete set of the action. -/
def Action.edeletes (a : Action) (f : Nat) : Bool := a.edel_set.isset f

/-- The loop over `persist_fluents` in `compute_reachability`: the value left in `*it`, false at
the first fluent the action asserts or e-deletes. -/
def persist_allows (a : Action) : Fluent_Vec → Bool
  | [] => true
  | fl :: rest => if a.asserts fl || a.edeletes fl then false else persist_allows a rest

/-- First loop of `compute_reachability( persist_fluents )`: fills `m_allowed_actions`; `none`
is the `NULL` pointer. -/
def H1_Heuristic.allow_actions (P : STRIPS_Problem) (persist_fluents : Option Fluent_Vec)
    (h : H1_Heuristic) : H1_Heuristic :=
  { h with m_allowed_actions :=
      forLoop h.m_allowed_actions.length (fun i (l : List Bool) =>
        match persist_fluents with
        | none => l.set i true
        | some pf =>
          match P.m_actions[i]? with
          | none => l.set i true
          | some a => l.set i (persist_allows a pf)) h.m_allowed_actions }

/-- Body of the action loop of `compute_reachability` for the popped fluent `p` and action `i`. -/
def H1_Heuristic.reach_action (P : STRIPS_Problem)
    (eval_func : List Val → Fluent_Vec → Val → Val) (p : Nat) (i : Nat) (h : H1_Heuristic) :
    H1_Heuristic :=
  match P.m_actions[i]? with
  | none => h
  | some a =>
    if !h.m_allowed_actions.getD i false then h
    else
      let relevant := a.prec_isset p || a.ceff_vec.any (fun ceff => ceff.prec_isset p)
      if !relevant then h
      else
        let h_pre := eval_func h.m_values a.prec_vec 0
        if h_pre = infty then h
        else
          let v : Val := 0
          let h1 := a.add_vec.foldl (fun (h : H1_Heuristic) f => h.update_sup f v i) h
          a.ceff_vec.foldl (fun (h : H1_Heuristic) ceff =>
            let h_cond := max (eval_func h.m_values ceff.prec_vec 0) h_pre
            if h_cond = infty then h
            else
              let v_eff : Val := 0
              ceff.add_vec.foldl (fun (h : H1_Heuristic) f => h.update_sup f v_eff i) h) h1

/-- The `while ( !m_updated.empty() )` loop of `compute_reachability`, bounded by `fuel`
iterations; `none` when the fuel runs out before the queue is empty. -/
def H1_Heuristic.reach_loop (P : STRIPS_Problem) (eval_func : List Val → Fluent_Vec → Val → Val) :
    Nat → H1_Heuristic → Option H1_Heuristic
  | fuel, h =>
    match h.m_updated, fuel with
    | [], _ => some h
    | _ :: _, 0 => none
    | p :: rest, fuel + 1 =>
      let h1 : H1_Heuristic :=
        { h with m_updated := rest, m_already_updated := h.m_already_updated.unset p }
      H1_Heuristic.reach_loop P eval_func fuel
        (forLoop P.m_num_actions (H1_Heuristic.reach_action P eval_func p) h1)

/-- `H1_Heuristic::compute_reachability( persist_fluents )`. -/
def H1_Heuristic.compute_reachability (P : STRIPS_Problem)
    (eval_func : List Val → Fluent_Vec → Val → Val) (fuel : Nat)
    (persist_fluents : Option Fluent_Vec) (h : H1_Heuristic) : Option H1_Heuristic :=
  H1_Heuristic.reach_loop P eval_func fuel (h.allow_actions P persist_fluents)

/-- `H1_Heuristic::eval_reachability( s, h_val, persist_fluents )`: returns `h_val` and the
heuristic object afterwards. -/
def H1_Heuristic.eval_reachability (P : STRIPS_Problem)
    (eval_func : List Val → Fluent_Vec → Val → Val) (opt : H1_Cost_Function) (fuel : Nat)
    (h : H1_Heuristic) (s : State) (persist_fluents : Option Fluent_Vec) :
    Option (Val × H1_Heuristic) :=
  let h0 : H1_Heuristic :=
    { h with m_already_updated := h.m_already_updated.reset, m_updated := [] }
  let h1 := H1_Heuristic.initialize P opt h0 s
  match H1_Heuristic.compute_reachability P eval_func fuel persist_fluents h1 with
  | none => none
  | some h2 => some (eval_func h2.m_values P.m_goal 0, h2)

/-- One fluent "(have)" that the only action "(receive)", of cost 1 and without precondition,
adds; nothing holds initially and the goal is to have it. -/
def gift : STRIPS_Problem :=
  let p0 := STRIPS_Problem.new "gift" "have-it"
  let p1 := (add_fluent p0 "(have)").2
  let p2 := (add_action p1 "(receive)" [] [0] [] [] 1).2
  set_goal (set_init (make_action_tables p2) []) [0] false

/-- The result of `eval_reachability` on the gift problem from the empty state with the fluent
"(have)" persisting. -/
def gift_reachability : Val × H1_Heuristic :=
  (H1_Heuristic.eval_reachability gift H_Max_Evaluation_Function .Use_Costs 5
    (H1_Heuristic.new gift) ⟨[]⟩ (some [0])).getD (0, H1_Heuristic.new gift)

/-! ### Fixed point of the h¹ relaxation -/

/-- Sum of `v` and the values of the fluents of `fs`: what `H_Add_Evaluation_Function` computes,
without the early exit. -/
def hsumF (val : Nat → Val) (fs : Fluent_Vec) (v : Val) : Val :=
  fs.foldl (fun acc f => acc + val f) v

/-- What the fixed-point argument needs of the aggregation functor: it is monotone in the table
and in its starting value, it is not below its starting value on a nonnegative table, and
aggregating two lists in a row is aggregating their concatenation. -/
structure EvalMono (eval_func : List Val → Fluent_Vec → Val → Val) : Prop where
  mono : ∀ (vals vals1 : List Val) (fs : Fluent_Vec) (v v1 : Val),
    (∀ f ∈ fs, vals1.getD f infty ≤ vals.getD f infty) → v1 ≤ v →
    eval_func vals1 fs v1 ≤ eval_func vals fs v
  ge : ∀ (vals : List Val) (fs : Fluent_Vec) (v : Val),
    (∀ f ∈ fs, 0 ≤ vals.getD f infty) → v ≤ eval_func vals fs v
  append : ∀ (vals : List Val) (fs gs : Fluent_Vec) (v : Val),
    eval_func vals gs (eval_func vals fs v) = eval_func vals (fs ++ gs) v

/-- Body of the inner loop of `cover_tuples( n, arity )` for one `idx`: the first `arity - 1`
components are read from the state, the last one is the added fluent already in the tuple. -/
def Novelty.cover_step_node (s : State) (arity : Nat) (idx : Nat)
    (st : Novelty × List Nat × Bool) : Novelty × List Nat × Bool :=
  let atoms_arity := arity - 1
  let tuple := if atoms_arity > 0 then Novelty.idx2tuple st.2.1 s idx atoms_arity else st.2.1
  let tuple_idx := st.1.tuple2idx tuple arity
  let cover_new_tuple :=
    match st.1.m_nodes_tuples.getD tuple_idx none with
    | none => true
    | some _ => false
  if cover_new_tuple then
    ({ st.1 with m_nodes_tuples := st.1.m_nodes_tuples.set tuple_idx (some s) }, tuple, true)
  else (st.1, tuple, st.2.2)

/-- `Novelty::cover_tuples( const Node& n, arity )`, the node given by its state and the action
that produced it. -/
def Novelty.cover_tuples_node (P : STRIPS_Problem) (nov : Novelty) (s : State) (action : Nat)
    (arity : Nat) : Novelty × Bool :=
  let add :=
    match P.m_actions[action]? with
    | some a => a.add_vec
    | none => []
  let atoms_arity := arity - 1
  let n_combinations := (s.fluent_vec.length ^ atoms_arity) % 2 ^ 32
  let r := add.foldl (fun (st : Novelty × List Nat × Bool) it_add =>
    forLoop n_combinations (Novelty.cover_step_node s arity)
      (st.1, st.2.1.set atoms_arity it_add, st.2.2)) (nov, List.replicate arity 0, false)
  (r.1, r.2.2)

/-- `Novelty::compute( n, novelty )` for a node. -/
def Novelty.compute_node (P : STRIPS_Problem) (nov : Novelty) (s : State) (action : Nat) :
    Novelty × Nat :=
  forLoop nov.m_arity (fun k (st : Novelty × Nat) =>
    let i := k + 1
    let r := st.1.cover_tuples_node P s action i
    if r.2 then (if i < st.2 then (r.1, i) else (r.1, st.2)) else (r.1, st.2))
    (nov, nov.m_arity + 1)

/-- `Novelty::eval( const Node& n, h_val )`; `none` is `no_op`. -/
def Novelty.eval_node (P : STRIPS_Problem) (nov : Novelty) (s : State) (action : Option Nat) :
    Novelty × Nat :=
  match action with
  | some a => nov.compute_node P s a
  | none => nov.compute s

/-- Two fluents and two actions from fluent 0: action 0 moves to fluent 1 (adds 1, deletes 0),
action 1 adds fluent 1 and keeps fluent 0. -/
def pairs : STRIPS_Problem :=
  let p0 := STRIPS_Problem.new "pairs" "both"
  let p1 := (add_fluent p0 "(p0)").2
  let p2 := (add_fluent p1 "(p1)").2
  let p3 := (add_action p2 "(swap)" [0] [1] [0] [] 1).2
  let p4 := (add_action p3 "(gain)" [0] [1] [] [] 1).2
  set_goal (set_init (make_action_tables p4) [0]) [0, 1] false

/-- The novelty table of arity 2 for the pairs problem after the root state `{0}` was evaluated
by state and its successor `{1}` by action 0 as a node. -/
def pairs_table : Novelty :=
  (((Novelty.new pairs 2 600).eval_node pairs ⟨[0]⟩ none).1.eval_node pairs ⟨[1]⟩ (some 0)).1

/-- What `restart_search` needs of the engine: no pointer twice in closed, the pointers in closed
and seen refer to nodes that are not deleted, and open, closed and seen share no pointer. -/
structure AT_RWBFS_DQ_MH.restartable (E : AT_RWBFS_DQ_MH) : Prop where
  closed_nodup : E.m_closed.Nodup
  closed_live : ∀ p ∈ E.m_closed, (E.node p).isSome = true
  seen_live : ∀ p ∈ E.m_seen, (E.node p).isSome = true
  closed_seen : ∀ p ∈ E.m_closed, p ∉ E.m_seen
  open_closed : ∀ p ∈ E.m_open, p ∉ E.m_closed
  open_seen : ∀ p ∈ E.m_open, p ∉ E.m_seen

/-- Invariant of the first loop of `restart_search` from the engine `E0`, after the closed entries
`done`: nodes keep state and `g`, the processed ones carry the seen flag unless deleted, seen holds
live nodes that come from the old seen list or from `done` without the root, and every old seen
entry and every processed entry but the root has a seen entry of its state with `g` not
larger. -/
structure AT_RWBFS_DQ_MH.Moved (E0 : AT_RWBFS_DQ_MH) (done : List Nat) (E : AT_RWBFS_DQ_MH) :
    Prop where
  root : E.m_root = E0.m_root
  opn : E.m_open = E0.m_open
  untouched : ∀ p, p ∉ done → E.node p = E0.node p
  kept : ∀ p n0, E0.node p = some n0 → E.node p = none ∨
    ∃ n, E.node p = some n ∧ n.m_state = n0.m_state ∧ n.m_g = n0.m_g ∧
      (p ∈ done → n.m_seen = true)
  gone : ∀ p, E0.node p = none → E.node p = none
  root_kept : ∀ n0, E0.node E0.m_root = some n0 → ∃ n, E.node E0.m_root = some n
  seen_from : ∀ q ∈ E.m_seen,
    (q ∈ E0.m_seen ∨ (q ∈ done ∧ q ≠ E0.m_root)) ∧ ∃ m, E.node q = some m
  dominated : ∀ p, (p ∈ E0.m_seen ∨ (p ∈ done ∧ p ≠ E0.m_root)) →
    ∀ n0, E0.node p = some n0 →
      ∃ q ∈ E.m_seen, ∃ m, E.node q = some m ∧ m.m_state.same n0.m_state = true ∧
        m.m_g ≤ n0.m_g

/-- One turn of the loop of `do_search()` on the routes engine for a head that is no goal:
evaluate, process and close the head. -/
def routes_turn (E : AT_RWBFS_DQ_MH) (head : Nat) : AT_RWBFS_DQ_MH :=
  ((AT_RWBFS_DQ_MH.eval routes_env E head).process routes_env head).close head

/-- The routes engine after two turns: the root and node 1 are closed, nodes 2 and 3 are open. -/
def routes_expanded : AT_RWBFS_DQ_MH :=
  routes_turn (routes_turn routes_engine.get_node.1 0).get_node.1 1

/-! ### Serialized search (serialized_search.hxx) -/

/-- The members of `Serialized_Search` that `is_goal` reads and writes; `m_reachability` is the
`H1_Reachability` object, h¹ with max aggregation and the default cost option. -/
structure Serialized_Search where
  m_reachability : H1_Heuristic
  m_goals_achieved : Fluent_Vec
  m_goal_candidates : Fluent_Vec

/-- Body of the loop over `m_goal_candidates` in `is_goal( s )` for the candidate `c`; the state
of the loop is the object, `new_goal_achieved` and `unachieved`. `none` when the reachability
computation runs out of fuel. -/
def Serialized_Search.try_candidate (P : STRIPS_Problem) (fuel : Nat) (s : State)
    (st : Serialized_Search × Bool × Fluent_Vec) (c : Nat) :
    Option (Serialized_Search × Bool × Fluent_Vec) :=
  if s.entails c then
    let S1 : Serialized_Search :=
      { st.1 with m_goals_achieved := st.1.m_goals_achieved ++ [c] }
    match H1_Heuristic.eval_reachability P H_Max_Evaluation_Function .Use_Costs fuel
        S1.m_reachability s (some S1.m_goals_achieved) with
    | none => none
    | some r =>
      let S2 : Serialized_Search := { S1 with m_reachability := r.2 }
      if r.1 ≠ infty then some (S2, true, st.2.2)
      else some ({ S2 with m_goals_achieved := S2.m_goals_achieved.dropLast }, st.2.1,
        st.2.2 ++ [c])
  else some (st.1, st.2.1, st.2.2 ++ [c])

/-- The loop over `m_goal_candidates` in `is_goal( s )`. -/
def Serialized_Search.try_candidates (P : STRIPS_Problem) (fuel : Nat) (s : State) :
    Fluent_Vec → Serialized_Search × Bool × Fluent_Vec →
      Option (Serialized_Search × Bool × Fluent_Vec)
  | [], st => some st
  | c :: rest, st =>
    match Serialized_Search.try_candidate P fuel s st c with
    | none => none
    | some st1 => Serialized_Search.try_candidates P fuel s rest st1

/-- `Serialized_Search::is_goal( s )`: the object afterwards and the value returned. -/
def Serialized_Search.is_goal (P : STRIPS_Problem) (fuel : Nat) (S : Serialized_Search)
    (s : State) : Option (Serialized_Search × Bool) :=
  if S.m_goals_achieved.any (fun f => !s.entails f) then some (S, false)
  else
    match Serialized_Search.try_candidates P fuel s S.m_goal_candidates (S, false, []) with
    | none => none
    | some st =>
      if st.2.1 then some ({ st.1 with m_goal_candidates := st.2.2 }, true)
      else some (st.1, false)

/-- The reachability test in the words of the spec: `eval_reachability` from the state `s` with
the fluents `persist` persisting, on a reachability object as constructed, returns a finite
value. -/
def reachable_with (P : STRIPS_Problem) (fuel : Nat) (s : State) (persist : Fluent_Vec) : Bool :=
  match H1_Heuristic.eval_reachability P H_Max_Evaluation_Function .Use_Costs fuel
      (H1_Heuristic.new P) s (some persist) with
  | none => false
  | some r => decide (r.1 ≠ infty)

/-- The candidates in the words of the spec: each candidate in turn passes when the state entails
it and the test succeeds with the fluents achieved so far and the candidate persisting; the
result is the achieved list and the candidates that did not pass. -/
def sift_goals (test : Fluent_Vec → Bool) (s : State) :
    Fluent_Vec → Fluent_Vec → Fluent_Vec → Fluent_Vec × Fluent_Vec
  | achieved, unachieved, [] => (achieved, unachieved)
  | achieved, unachieved, c :: rest =>
    if s.entails c && test (achieved ++ [c]) then
      sift_goals test s (achieved ++ [c]) unachieved rest
    else sift_goals test s achieved (unachieved ++ [c]) rest

/-- The reachability object has the dimensions given by its constructor. -/
structure H1_Heuristic.shaped (P : STRIPS_Problem) (h : H1_Heuristic) : Prop where
  values : h.m_values.length = P.m_num_fluents
  bits : h.m_already_updated.bits.length = P.m_num_fluents
  allowed : h.m_allowed_actions.length = P.m_num_actions

/-- Two h¹ objects with the same table, queue and queue bits. -/
def H1_Heuristic.agree (h h1 : H1_Heuristic) : Prop :=
  h.m_values = h1.m_values ∧ h.m_updated = h1.m_updated ∧
    h.m_already_updated = h1.m_already_updated

/-- Two h¹ objects that differ at most in the best supporters. -/
def H1_Heuristic.agree_all (h h1 : H1_Heuristic) : Prop :=
  h.agree h1 ∧ h.m_allowed_actions = h1.m_allowed_actions

/-- Termination measure of the loop of `compute_reachability`: the length of the queue plus the
number of positive table entries. -/
def H1_Heuristic.reach_measure (h : H1_Heuristic) : Nat :=
  h.m_updated.length + h.m_values.countP (fun v => decide (0 < v))

/-- Fuel that suffices for `eval_reachability` from the state `s`, whatever fluents persist. -/
def reach_fuel (P : STRIPS_Problem) (s : State) : Nat :=
  ( H1_Heuristic.initialize P .Use_Costs
    { H1_Heuristic.new P with
      m_already_updated := (H1_Heuristic.new P).m_already_updated.reset, m_updated := [] }
    s).reach_measure

/-- The object `h1` comes from `h` by steps of the loop of `compute_reachability` that do not
raise the measure and keep the dimensions and the allowed actions. -/
structure H1_Heuristic.Shrunk (h h1 : H1_Heuristic) : Prop where
  measure : h1.reach_measure ≤ h.reach_measure
  len : h1.m_values.length = h.m_values.length
  bits : h1.m_already_updated.bits.length = h.m_already_updated.bits.length
  allowed : h1.m_allowed_actions = h.m_allowed_actions

/-- Two goals to be achieved in turn: "(first)" leads from "(at-start)" to "(g1)" and "(second)"
from "(g1)" to "(g2)"; nothing is deleted. -/
def two_steps : STRIPS_Problem :=
  let p0 := STRIPS_Problem.new "two-steps" "in-turn"
  let p1 := (add_fluent p0 "(at-start)").2
  let p2 := (add_fluent p1 "(g1)").2
  let p3 := (add_fluent p2 "(g2)").2
  let p4 := (add_action p3 "(first)" [0] [1] [] [] 1).2
  let p5 := (add_action p4 "(second)" [1] [2] [] [] 1).2
  set_goal (set_init (make_action_tables p5) [0]) [1, 2] false

/-- The serialized search on `two_steps` before any goal is achieved. -/
def two_steps_search : Serialized_Search :=
  { m_reachability := H1_Heuristic.new two_steps, m_goals_achieved := [],
    m_goal_candidates := [1, 2] }

/-- `H1_Heuristic::best_supporter( f )`: the recorded action position, `none` for `nullptr`. -/
def H1_Heuristic.best_supporter (h : H1_Heuristic) (f : Nat) : Option Nat :=
  h.m_best_supporters.getD f none

/-! ### The loop structure shared by `compute` and `compute_mutexes_only` -/

/-- Every finite entry of the pair table of `h` is finite in that of `m`. -/
def H2_Heuristic.Within (h m : H2_Heuristic) : Prop :=
  ∀ i, h.m_values.getD i infty ≠ infty → m.m_values.getD i infty ≠ infty

/-- The pair table of `h` is closed under the two rules of h² for the action `a`. -/
def H2_Heuristic.ClosedAt (nf : Nat) (h : H2_Heuristic) (a : Nat) (action : Action) : Prop :=
  h.eval_vec action.prec_vec ≠ infty →
    (∀ p ∈ action.add_vec, ∀ q ∈ action.add_vec, h.value p q ≠ infty) ∧
    ∀ p ∈ action.add_vec, ∀ r, r < nf → h.interferes a r = false →
      h.value r r ≠ infty → (∀ s ∈ action.prec_vec, h.value r s ≠ infty) →
      h.value p r ≠ infty

/-- A search problem with a detour: from the root state 0 the actions 0 (to state 1, cost 4),
1 (to state 2, cost 1/2) and 2 (to the goal state 4, cost 9/2); from state 1 the action 3 (to
state 3, cost 1/4); from state 2 the action 4 (to the goal state 5, cost 1/2). -/
def detour : Search_Model :=
  { init := ⟨[0]⟩,
    goal := fun s => s.fluent_vec == [4] || s.fluent_vec == [5],
    applicable := fun s =>
      match s.fluent_vec with
      | [0] => [0, 1, 2]
      | [1] => [3]
      | [2] => [4]
      | _ => [],
    next := fun _ a =>
      match a with
      | 0 => ⟨[1]⟩
      | 1 => ⟨[2]⟩
      | 2 => ⟨[4]⟩
      | 3 => ⟨[3]⟩
      | _ => ⟨[5]⟩,
    cost := fun _ a =>
      match a with
      | 0 => 4
      | 1 => 1 / 2
      | 2 => 9 / 2
      | 3 => 1 / 4
      | _ => 1 / 2,
    num_actions := 5 }

/-- The detour problem with a first heuristic that rates state 2 at 2 and every other state at
0, a null second heuristic and a clock that advances one unit per reading. -/
def detour_env : Search_Env :=
  { problem := detour,
    h1 := fun s => if s.fluent_vec == [2] then (2, []) else (0, []),
    h2 := fun _ => (0, []),
    time_used := fun n => (n : ℚ) + 1 }

/-- The engine with `W = 2` and `decay = 0.5` started on the detour problem. -/
def detour_engine : AT_RWBFS_DQ_MH :=
  AT_RWBFS_DQ_MH.start detour_env (AT_RWBFS_DQ_MH.new 2 (1 / 2))

/-- First and second `do_search()` on the detour engine, enough fuel given. -/
def detour_first : AT_RWBFS_DQ_MH × Option Nat :=
  (AT_RWBFS_DQ_MH.do_search detour_env 10 detour_engine).getD (detour_engine, none)

def detour_second : AT_RWBFS_DQ_MH × Option Nat :=
  (AT_RWBFS_DQ_MH.do_search detour_env 10 detour_first.1).getD (detour_engine, none)

/-- A problem that holds `n` fluents and nothing else: `n` calls of `add_fluent` on a new
problem. -/
def fluents_only (n : Nat) : STRIPS_Problem :=
  build ((List.range n).map (fun i => Build_Op.fluent (toString i)))
    (STRIPS_Problem.new "wide" "wide")

/-- `STRIPS_Problem::get_fluent_index( signature )`: `m_fluents_map[ signature ]` on a
`std::map`, which returns the stored index and enters the signature with index 0 when the map does
not hold it. -/
def STRIPS_Problem.get_fluent_index (p : STRIPS_Problem) (signature : String) :
    Nat × STRIPS_Problem :=
  match map_find p.m_fluents_map signature with
  | some idx => (idx, p)
  | none => (0, { p with m_fluents_map := map_set p.m_fluents_map signature 0 })

/-- The index returned by the most recent `add_fluent` call with the signature among the calls
`ops` run from `p`; `acc` when there is none. -/
def last_added (signature : String) : List Build_Op → STRIPS_Problem → Option Nat → Option Nat
  | [], _, acc => acc
  | .fluent s :: ops, p, acc =>
    last_added signature ops (Build_Op.run p (.fluent s))
      (if s = signature then some (add_fluent p s).1 else acc)
  | op :: ops, p, acc => last_added signature ops (Build_Op.run p op) acc

/-- A problem built with a signature used twice. -/
def twice_named : List Build_Op :=
  [.fluent "(a)", .fluent "(b)", .action "(op)" [0] [1] [] [] 1, .fluent "(a)", .init [0],
    .goal [2] false, .tables]

/-! ## Theorems -/

theorem forLoop_succ {σ : Type} (n : Nat) (body : Nat → σ → σ) (s : σ) :
    forLoop (n + 1) body s = body n (forLoop n body s) := rfl

theorem length_push_at {α : Type} (t : List (List α)) (f : Nat) (x : α) :
    (push_at t f x).length = t.length := by
  induction t generalizing f with
  | nil => rfl
  | cons r rest ih => cases f <;> simp [push_at, ih]

theorem row_nil {α : Type} (g : Nat) : row ([] : List (List α)) g = [] := by simp [row]

theorem row_cons_zero {α : Type} (r : List α) (t : List (List α)) : row (r :: t) 0 = r := rfl

theorem row_cons_succ {α : Type} (r : List α) (t : List (List α)) (g : Nat) :
    row (r :: t) (g + 1) = row t g := rfl

theorem row_of_length_le {α : Type} (t : List (List α)) (g : Nat) (h : t.length ≤ g) :
    row t g = [] := by
  induction t generalizing g with
  | nil => exact row_nil g
  | cons r rest ih =>
    cases g with
    | zero => simp at h
    | succ g => rw [row_cons_succ]; exact ih g (by simpa using h)

theorem row_push_at {α : Type} (t : List (List α)) (f g : Nat) (x : α) :
    row (push_at t f x) g = if g = f ∧ f < t.length then row t g ++ [x] else row t g := by
  induction t generalizing f g with
  | nil => simp [push_at]
  | cons r rest ih =>
    cases f with
    | zero => cases g <;> simp [push_at, row_cons_zero, row_cons_succ]
    | succ f =>
      cases g with
      | zero => simp [push_at, row_cons_zero]
      | succ g => simp [push_at, row_cons_succ, ih f g]

theorem length_push_all {α : Type} (fs : Fluent_Vec) (t : List (List α)) (x : α) :
    (push_all t fs x).length = t.length := by
  induction fs generalizing t with
  | nil => rfl
  | cons f fs ih => simp [push_all, List.foldl_cons] at ih ⊢; rw [ih, length_push_at]

theorem row_push_all {α : Type} (fs : Fluent_Vec) (t : List (List α)) (x : α) (g : Nat)
    (hg : g < t.length) :
    row (push_all t fs x) g = row t g ++ List.replicate (fs.count g) x := by
  induction fs generalizing t with
  | nil => simp [push_all]
  | cons f fs ih =>
    have h1 := ih (push_at t f x) (by rw [length_push_at]; exact hg)
    simp only [push_all, List.foldl_cons] at h1 ⊢
    rw [h1, row_push_at]
    by_cases hfg : g = f
    · subst hfg
      simp [hg, List.replicate_succ]
    · have : ¬ (f = g) := fun h => hfg h.symm
      simp [hfg, List.count_cons, this]

theorem register_m_actions (P : STRIPS_Problem) (idx : Nat) (a : Action) :
    (register_action_in_tables P idx a).m_actions = P.m_actions ∧
    (register_action_in_tables P idx a).m_fluents = P.m_fluents ∧
    (register_action_in_tables P idx a).m_edeleting = P.m_edeleting := by
  unfold register_action_in_tables
  simp only
  generalize a.ceff_vec.length = n
  induction n with
  | zero => split <;> simp [forLoop]
  | succ n ih => simpa [forLoop] using ih

theorem ceff_loop_spec (a : Action) (idx : Nat) (P : STRIPS_Problem) (n : Nat) :
    let Q := forLoop n (fun k (Q : STRIPS_Problem) =>
      let ce := a.ceff_vec.getD k ⟨[], [], []⟩
      { Q with m_ceffs_adding := push_all Q.m_ceffs_adding ce.add_vec (k, idx) }) P
    Q.m_adding = P.m_adding ∧ Q.m_deleting = P.m_deleting ∧ Q.m_requiring = P.m_requiring ∧
    Q.m_empty_precs = P.m_empty_precs ∧ Q.m_ceffs_adding.length = P.m_ceffs_adding.length ∧
    ∀ g, g < P.m_ceffs_adding.length →
      row Q.m_ceffs_adding g = row P.m_ceffs_adding g ++ ceffRegs a idx g n := by
  induction n with
  | zero => simp [forLoop, ceffRegs]
  | succ n ih =>
    obtain ⟨h1, h2, h3, h4, h5, h6⟩ := ih
    simp only [forLoop] at h1 h2 h3 h4 h5 h6 ⊢
    refine ⟨h1, h2, h3, h4, ?_, ?_⟩
    · rw [length_push_all, h5]
    · intro g hg
      rw [row_push_all _ _ _ _ (by rw [h5]; exact hg), h6 g hg, ceffRegs, List.append_assoc]

theorem register_tables (P : STRIPS_Problem) (idx : Nat) (a : Action) :
    let R := register_action_in_tables P idx a
    R.m_adding = push_all P.m_adding a.add_vec idx ∧
    R.m_deleting = push_all P.m_deleting a.del_vec idx ∧
    R.m_requiring = push_all P.m_requiring a.prec_vec idx ∧
    R.m_empty_precs = P.m_empty_precs ++ (if a.prec_vec.isEmpty then [idx] else []) ∧
    R.m_ceffs_adding.length = P.m_ceffs_adding.length ∧
    ∀ g, g < P.m_ceffs_adding.length →
      row R.m_ceffs_adding g = row P.m_ceffs_adding g ++ ceffRegs a idx g a.ceff_vec.length := by
  intro R
  by_cases he : a.prec_vec.isEmpty
  · have hnil : a.prec_vec = [] := by simpa using he
    have := ceff_loop_spec a idx
      { P with m_empty_precs := P.m_empty_precs ++ [idx],
               m_adding := push_all P.m_adding a.add_vec idx } a.ceff_vec.length
    obtain ⟨h1, h2, h3, h4, h5, h6⟩ := this
    simp only [R, register_action_in_tables, if_pos he]
    simp only at h1 h2 h3 h4 h5 h6
    refine ⟨h1, by rw [h2], ?_, h4, h5, h6⟩
    rw [h3, hnil]; rfl
  · have := ceff_loop_spec a idx
      { P with m_requiring := push_all P.m_requiring a.prec_vec idx,
               m_adding := push_all P.m_adding a.add_vec idx } a.ceff_vec.length
    obtain ⟨h1, h2, h3, h4, h5, h6⟩ := this
    simp only [R, register_action_in_tables, if_neg he]
    simp only at h1 h2 h3 h4 h5 h6
    refine ⟨h1, by rw [h2], h3, ?_, h5, h6⟩
    rw [h4, List.append_nil]

theorem tables_loop_spec (P : STRIPS_Problem) (n : Nat) :
    let Q := forLoop n (fun k (Q : STRIPS_Problem) =>
      match Q.m_actions[k]? with
      | some a => register_action_in_tables Q k a
      | none => Q) P
    Q.m_actions = P.m_actions ∧ Q.m_fluents = P.m_fluents ∧ Q.m_edeleting = P.m_edeleting ∧
    Q.m_adding.length = P.m_adding.length ∧ Q.m_deleting.length = P.m_deleting.length ∧
    Q.m_requiring.length = P.m_requiring.length ∧
    Q.m_ceffs_adding.length = P.m_ceffs_adding.length ∧
    Q.m_empty_precs = P.m_empty_precs ++ emptyRegsUpTo P.m_actions n ∧
    (∀ g, g < P.m_adding.length →
      row Q.m_adding g = row P.m_adding g ++ regsUpTo P.m_actions Action.add_vec g n) ∧
    (∀ g, g < P.m_deleting.length →
      row Q.m_deleting g = row P.m_deleting g ++ regsUpTo P.m_actions Action.del_vec g n) ∧
    (∀ g, g < P.m_requiring.length →
      row Q.m_requiring g = row P.m_requiring g ++ regsUpTo P.m_actions Action.prec_vec g n) ∧
    (∀ g, g < P.m_ceffs_adding.length →
      row Q.m_ceffs_adding g = row P.m_ceffs_adding g ++ ceffRegsUpTo P.m_actions g n) := by
  induction n with
  | zero => simp [forLoop, regsUpTo, ceffRegsUpTo, emptyRegsUpTo]
  | succ n ih =>
    simp only [forLoop] at ih ⊢
    generalize forLoop n (fun k (Q : STRIPS_Problem) =>
      match Q.m_actions[k]? with
      | some a => register_action_in_tables Q k a
      | none => Q) P = Q at ih ⊢
    obtain ⟨ha, hf, he, l1, l2, l3, l4, hemp, r1, r2, r3, r4⟩ := ih
    rw [ha]
    cases hk : P.m_actions[n]? with
    | none =>
      simp only [regsUpTo, ceffRegsUpTo, emptyRegsUpTo, hk, List.append_nil]
      exact ⟨ha, hf, he, l1, l2, l3, l4, hemp, r1, r2, r3, r4⟩
    | some a =>
      obtain ⟨t1, t2, t3, t4, t5, t6⟩ := register_tables Q n a
      obtain ⟨u1, u2, u3⟩ := register_m_actions Q n a
      simp only [regsUpTo, ceffRegsUpTo, emptyRegsUpTo, hk]
      refine ⟨by rw [u1, ha], by rw [u2, hf], by rw [u3, he], ?_, ?_, ?_, ?_, ?_, ?_, ?_, ?_, ?_⟩
      · rw [t1, length_push_all, l1]
      · rw [t2, length_push_all, l2]
      · rw [t3, length_push_all, l3]
      · rw [t5, l4]
      · rw [t4, hemp, List.append_assoc]
      · intro g hg
        rw [t1, row_push_all _ _ _ _ (by rw [l1]; exact hg), r1 g hg, List.append_assoc]
      · intro g hg
        rw [t2, row_push_all _ _ _ _ (by rw [l2]; exact hg), r2 g hg, List.append_assoc]
      · intro g hg
        rw [t3, row_push_all _ _ _ _ (by rw [l3]; exact hg), r3 g hg, List.append_assoc]
      · intro g hg
        rw [t6 g (by rw [l4]; exact hg), r4 g hg, List.append_assoc]

theorem length_resize {α : Type} (t : List (List α)) (n : Nat) : (resize t n).length = n := by
  simp [resize]; omega

theorem resize_nil_row {α : Type} (n g : Nat) : row (resize ([] : List (List α)) n) g = [] := by
  simp [resize, row, List.getD_eq_getElem?_getD, List.getElem?_replicate]
  split <;> simp

theorem resize_of_length {α : Type} (t : List (List α)) : resize t t.length = t := by
  simp [resize]

theorem mem_regsUpTo (acts : List Action) (sel : Action → Fluent_Vec) (g n i : Nat) :
    i ∈ regsUpTo acts sel g n ↔ i < n ∧ ∃ a, acts[i]? = some a ∧ g ∈ sel a := by
  induction n with
  | zero => simp [regsUpTo]
  | succ n ih =>
    simp only [regsUpTo, List.mem_append, ih]
    constructor
    · rintro (⟨h1, h2⟩ | h)
      · exact ⟨by omega, h2⟩
      · cases hk : acts[n]? with
        | none => simp [hk] at h
        | some a =>
          simp only [hk, List.mem_replicate] at h
          obtain ⟨hc, hin⟩ := h
          subst hin
          exact ⟨by omega, a, hk, List.count_pos_iff.mp (Nat.pos_of_ne_zero hc)⟩
    · rintro ⟨h1, a, ha, hg⟩
      by_cases hin : i < n
      · exact Or.inl ⟨hin, a, ha, hg⟩
      · have : i = n := by omega
        subst this
        right
        simp only [ha, List.mem_replicate]
        exact ⟨Nat.pos_iff_ne_zero.mp (List.count_pos_iff.mpr hg), trivial⟩

theorem mem_ceffRegs (a : Action) (idx g n : Nat) (x : Nat × Nat) :
    x ∈ ceffRegs a idx g n ↔
      x.2 = idx ∧ x.1 < n ∧ g ∈ (a.ceff_vec.getD x.1 ⟨[], [], []⟩).add_vec := by
  induction n with
  | zero => simp [ceffRegs]
  | succ n ih =>
    simp only [ceffRegs, List.mem_append, ih, List.mem_replicate]
    constructor
    · rintro (⟨h1, h2, h3⟩ | ⟨hc, hx⟩)
      · exact ⟨h1, by omega, h3⟩
      · subst hx
        exact ⟨rfl, by simp, List.count_pos_iff.mp (Nat.pos_of_ne_zero hc)⟩
    · rintro ⟨h1, h2, h3⟩
      by_cases hin : x.1 < n
      · exact Or.inl ⟨h1, hin, h3⟩
      · have hx : x.1 = n := by omega
        right
        refine ⟨?_, ?_⟩
        · rw [← hx]; exact Nat.pos_iff_ne_zero.mp (List.count_pos_iff.mpr h3)
        · rw [← hx, ← h1]

theorem mem_ceffRegsUpTo (acts : List Action) (g n k i : Nat) :
    (k, i) ∈ ceffRegsUpTo acts g n ↔
      i < n ∧ ∃ a c, acts[i]? = some a ∧ a.ceff_vec[k]? = some c ∧ g ∈ c.add_vec := by
  induction n with
  | zero => simp [ceffRegsUpTo]
  | succ n ih =>
    simp only [ceffRegsUpTo, List.mem_append, ih]
    have key : ∀ a : Action, (k, n) ∈ ceffRegs a n g a.ceff_vec.length ↔
        ∃ c, a.ceff_vec[k]? = some c ∧ g ∈ c.add_vec := by
      intro a
      rw [mem_ceffRegs]
      simp only [true_and]
      constructor
      · rintro ⟨h1, h2⟩
        refine ⟨a.ceff_vec[k], by simp [h1], ?_⟩
        simpa [List.getD_eq_getElem?_getD, h1] using h2
      · rintro ⟨c, hc, hg⟩
        have hlt : k < a.ceff_vec.length := by
          by_contra hcon
          rw [List.getElem?_eq_none (by omega)] at hc
          cases hc
        refine ⟨hlt, ?_⟩
        simpa [List.getD_eq_getElem?_getD, hc] using hg
    constructor
    · rintro (⟨h1, h2⟩ | h)
      · exact ⟨by omega, h2⟩
      · cases hk : acts[n]? with
        | none => simp [hk] at h
        | some a =>
          simp only [hk] at h
          have hin : i = n := by
            have := (mem_ceffRegs a n g a.ceff_vec.length (k, i)).mp h
            exact this.1
          subst hin
          obtain ⟨c, hc, hg⟩ := (key a).mp h
          exact ⟨by omega, a, c, hk, hc, hg⟩
    · rintro ⟨h1, a, c, ha, hc, hg⟩
      by_cases hin : i < n
      · exact Or.inl ⟨hin, a, c, ha, hc, hg⟩
      · have : i = n := by omega
        subst this
        right
        simp only [ha]
        exact (key a).mpr ⟨c, hc, hg⟩

theorem mem_emptyRegsUpTo (acts : List Action) (n i : Nat) :
    i ∈ emptyRegsUpTo acts n ↔ i < n ∧ ∃ a, acts[i]? = some a ∧ a.prec_vec = [] := by
  induction n with
  | zero => simp [emptyRegsUpTo]
  | succ n ih =>
    simp only [emptyRegsUpTo, List.mem_append, ih]
    constructor
    · rintro (⟨h1, h2⟩ | h)
      · exact ⟨by omega, h2⟩
      · cases hk : acts[n]? with
        | none => simp [hk] at h
        | some a =>
          simp only [hk] at h
          by_cases he : a.prec_vec.isEmpty
          · simp only [he, if_true, List.mem_singleton] at h
            subst h
            exact ⟨by omega, a, hk, by simpa using he⟩
          · simp [he] at h
    · rintro ⟨h1, a, ha, hg⟩
      by_cases hin : i < n
      · exact Or.inl ⟨hin, a, ha, hg⟩
      · have : i = n := by omega
        subst this
        right
        simp [ha, hg]

theorem getElem?_lt_of_some {α : Type} (l : List α) (i : Nat) (a : α) (h : l[i]? = some a) :
    i < l.length := by
  by_contra hcon
  rw [List.getElem?_eq_none (by omega)] at h
  cases h

/-- Shape of the tables after `make_action_tables` on any problem: every row of index below the
number of fluents is the resized old row followed by the registrations of all actions. -/
theorem make_action_tables_rows (P : STRIPS_Problem) :
    let Q := make_action_tables P
    let n := P.m_fluents.length
    Q.m_actions = P.m_actions ∧ Q.m_fluents = P.m_fluents ∧
    Q.m_adding.length = n ∧ Q.m_deleting.length = n ∧ Q.m_requiring.length = n ∧
    Q.m_ceffs_adding.length = n ∧
    Q.m_empty_precs = P.m_empty_precs ++ emptyRegsUpTo P.m_actions P.m_actions.length ∧
    (∀ g, g < n → row Q.m_adding g =
      row (resize P.m_adding n) g ++ regsUpTo P.m_actions Action.add_vec g P.m_actions.length) ∧
    (∀ g, g < n → row Q.m_deleting g =
      row (resize P.m_deleting n) g ++ regsUpTo P.m_actions Action.del_vec g P.m_actions.length) ∧
    (∀ g, g < n → row Q.m_requiring g =
      row (resize P.m_requiring n) g ++
        regsUpTo P.m_actions Action.prec_vec g P.m_actions.length) ∧
    (∀ g, g < n → row Q.m_ceffs_adding g =
      row (resize P.m_ceffs_adding n) g ++ ceffRegsUpTo P.m_actions g P.m_actions.length) := by
  intro Q n
  have h := tables_loop_spec
    { P with
      m_requiring := resize P.m_requiring n
      m_deleting := resize P.m_deleting n
      m_edeleting := resize P.m_edeleting n
      m_adding := resize P.m_adding n
      m_ceffs_adding := resize P.m_ceffs_adding n } P.m_actions.length
  simp only [length_resize] at h
  obtain ⟨ha, hf, _, l1, l2, l3, l4, hemp, r1, r2, r3, r4⟩ := h
  exact ⟨ha, hf, l1, l2, l3, l4, hemp, r1, r2, r3, r4⟩

/-- C1: after one call of `make_action_tables` on a problem with empty tables whose actions mention
only fluents below `num_fluents`, for every fluent `f` and action position `i`: `i` is in
`actions_adding(f)` iff `f` is in the action's `add_vec`; likewise `actions_deleting` / `del_vec`
and `actions_requiring` / `prec_vec`; `(k, i)` is in `ceffs_adding(f)` iff `f` is in the `add_vec`
of the `k`-th conditional effect; and `i` is in `empty_prec_actions` iff `prec_vec` is empty. -/
theorem make_action_tables_consistent (P : STRIPS_Problem) (hempty : P.tables_empty)
    (hnum : P.m_num_fluents = P.m_fluents.length)
    (_hrange : ∀ a ∈ P.m_actions, a.in_range P.m_num_fluents)
    (f : Nat) (hf : f < P.m_num_fluents) (i : Nat) :
    (i ∈ (make_action_tables P).actions_adding f ↔
      ∃ a, P.m_actions[i]? = some a ∧ f ∈ a.add_vec) ∧
    (i ∈ (make_action_tables P).actions_deleting f ↔
      ∃ a, P.m_actions[i]? = some a ∧ f ∈ a.del_vec) ∧
    (i ∈ (make_action_tables P).actions_requiring f ↔
      ∃ a, P.m_actions[i]? = some a ∧ f ∈ a.prec_vec) ∧
    (∀ k, (k, i) ∈ (make_action_tables P).ceffs_adding f ↔
      ∃ a c, P.m_actions[i]? = some a ∧ a.ceff_vec[k]? = some c ∧ f ∈ c.add_vec) ∧
    (i ∈ (make_action_tables P).empty_prec_actions ↔
      ∃ a, P.m_actions[i]? = some a ∧ a.prec_vec = []) := by
  obtain ⟨e1, e2, _, e4, e5, e6⟩ := hempty
  obtain ⟨_, _, _, _, _, _, hemp, r1, r2, r3, r4⟩ := make_action_tables_rows P
  have hf' : f < P.m_fluents.length := hnum ▸ hf
  have hlt : ∀ (Pr : Action → Prop), (i < P.m_actions.length ∧ ∃ a, P.m_actions[i]? = some a ∧ Pr a) ↔
      ∃ a, P.m_actions[i]? = some a ∧ Pr a := by
    intro Pr
    constructor
    · exact fun h => h.2
    · rintro ⟨a, ha, hp⟩
      exact ⟨getElem?_lt_of_some _ _ _ ha, a, ha, hp⟩
  refine ⟨?_, ?_, ?_, ?_, ?_⟩
  · rw [STRIPS_Problem.actions_adding, r1 f hf', e4, resize_nil_row, List.nil_append,
      mem_regsUpTo, hlt]
  · rw [STRIPS_Problem.actions_deleting, r2 f hf', e2, resize_nil_row, List.nil_append,
      mem_regsUpTo, hlt]
  · rw [STRIPS_Problem.actions_requiring, r3 f hf', e1, resize_nil_row, List.nil_append,
      mem_regsUpTo, hlt]
  · intro k
    rw [STRIPS_Problem.ceffs_adding, r4 f hf', e5, resize_nil_row, List.nil_append,
      mem_ceffRegsUpTo]
    constructor
    · exact fun h => h.2
    · rintro ⟨a, c, ha, hp⟩
      exact ⟨getElem?_lt_of_some _ _ _ ha, a, c, ha, hp⟩
  · rw [STRIPS_Problem.empty_prec_actions, hemp, e6, List.nil_append, mem_emptyRegsUpTo, hlt]

theorem exTiny_tables_empty : exTiny.tables_empty := by
  simp [STRIPS_Problem.tables_empty, exTiny, add_action, add_fluent, STRIPS_Problem.new]

theorem exTiny_in_range : ∀ a ∈ exTiny.m_actions, a.in_range exTiny.m_num_fluents := by
  simp [exTiny, add_action, add_fluent, STRIPS_Problem.new, Action.in_range, Action.define]

/-- Witness for C1 on the one-fluent, one-action problem. -/
theorem make_action_tables_consistent_witness :
    (0 ∈ (make_action_tables exTiny).actions_adding 0 ↔
      ∃ a, exTiny.m_actions[0]? = some a ∧ 0 ∈ a.add_vec) ∧
    (0 ∈ (make_action_tables exTiny).actions_deleting 0 ↔
      ∃ a, exTiny.m_actions[0]? = some a ∧ 0 ∈ a.del_vec) ∧
    (0 ∈ (make_action_tables exTiny).actions_requiring 0 ↔
      ∃ a, exTiny.m_actions[0]? = some a ∧ 0 ∈ a.prec_vec) ∧
    (∀ k, (k, 0) ∈ (make_action_tables exTiny).ceffs_adding 0 ↔
      ∃ a c, exTiny.m_actions[0]? = some a ∧ a.ceff_vec[k]? = some c ∧ 0 ∈ c.add_vec) ∧
    (0 ∈ (make_action_tables exTiny).empty_prec_actions ↔
      ∃ a, exTiny.m_actions[0]? = some a ∧ a.prec_vec = []) :=
  make_action_tables_consistent exTiny exTiny_tables_empty (by decide) exTiny_in_range 0
    (by decide) 0

/-- C2 (counterexample): on the one-fluent, one-action problem the second call of
`make_action_tables` changes `adding` and `empty_precs`: the action is listed twice. -/
theorem make_action_tables_not_idempotent :
    (make_action_tables exTiny).m_adding = [[0]] ∧
    (make_action_tables (make_action_tables exTiny)).m_adding = [[0, 0]] ∧
    (make_action_tables exTiny).m_empty_precs = [0] ∧
    (make_action_tables (make_action_tables exTiny)).m_empty_precs = [0, 0] ∧
    (make_action_tables (make_action_tables exTiny)).m_adding ≠
      (make_action_tables exTiny).m_adding := by
  decide

/-- C2 (amended): on a problem whose tables are still empty, a second call of `make_action_tables`
appends every registration again: each row of `requiring`, `adding`, `deleting`, `ceffs_adding`, and
`empty_precs`, is afterwards the row left by the first call followed by itself (same entries,
doubled multiplicities). -/
theorem make_action_tables_twice (P : STRIPS_Problem) (hempty : P.tables_empty) (g : Nat) :
    row (make_action_tables (make_action_tables P)).m_requiring g =
      row (make_action_tables P).m_requiring g ++ row (make_action_tables P).m_requiring g ∧
    row (make_action_tables (make_action_tables P)).m_adding g =
      row (make_action_tables P).m_adding g ++ row (make_action_tables P).m_adding g ∧
    row (make_action_tables (make_action_tables P)).m_deleting g =
      row (make_action_tables P).m_deleting g ++ row (make_action_tables P).m_deleting g ∧
    row (make_action_tables (make_action_tables P)).m_ceffs_adding g =
      row (make_action_tables P).m_ceffs_adding g ++
        row (make_action_tables P).m_ceffs_adding g ∧
    (make_action_tables (make_action_tables P)).m_empty_precs =
      (make_action_tables P).m_empty_precs ++ (make_action_tables P).m_empty_precs := by
  obtain ⟨e1, e2, _, e4, e5, e6⟩ := hempty
  obtain ⟨ha, hfl, l1, l2, l3, l4, hemp, r1, r2, r3, r4⟩ := make_action_tables_rows P
  obtain ⟨_, _, m1, m2, m3, m4, hemp2, s1, s2, s3, s4⟩ :=
    make_action_tables_rows (make_action_tables P)
  rw [hfl] at m1 m2 m3 m4 s1 s2 s3 s4
  rw [ha] at hemp2 s1 s2 s3 s4
  by_cases hg : g < P.m_fluents.length
  · have q1 := s1 g hg
    have q2 := s2 g hg
    have q3 := s3 g hg
    have q4 := s4 g hg
    rw [← l1, resize_of_length] at q1
    rw [← l2, resize_of_length] at q2
    rw [← l3, resize_of_length] at q3
    rw [← l4, resize_of_length] at q4
    have p1 := r1 g hg
    have p2 := r2 g hg
    have p3 := r3 g hg
    have p4 := r4 g hg
    rw [e4, resize_nil_row, List.nil_append] at p1
    rw [e2, resize_nil_row, List.nil_append] at p2
    rw [e1, resize_nil_row, List.nil_append] at p3
    rw [e5, resize_nil_row, List.nil_append] at p4
    rw [e6, List.nil_append] at hemp
    refine ⟨?_, ?_, ?_, ?_, ?_⟩
    · rw [q3, ← p3]
    · rw [q1, ← p1]
    · rw [q2, ← p2]
    · rw [q4, ← p4]
    · rw [hemp2, ← hemp]
  · rw [e6, List.nil_append] at hemp
    have hg' : P.m_fluents.length ≤ g := by omega
    refine ⟨?_, ?_, ?_, ?_, ?_⟩
    · rw [row_of_length_le _ g (by rw [m3]; exact hg'), row_of_length_le _ g (by rw [l3]; exact hg')]
      rfl
    · rw [row_of_length_le _ g (by rw [m1]; exact hg'), row_of_length_le _ g (by rw [l1]; exact hg')]
      rfl
    · rw [row_of_length_le _ g (by rw [m2]; exact hg'), row_of_length_le _ g (by rw [l2]; exact hg')]
      rfl
    · rw [row_of_length_le _ g (by rw [m4]; exact hg'), row_of_length_le _ g (by rw [l4]; exact hg')]
      rfl
    · rw [hemp2, ← hemp]

/-- Witness for the amended C2 on the one-fluent, one-action problem. -/
theorem make_action_tables_twice_witness :
    row (make_action_tables (make_action_tables exTiny)).m_requiring 0 =
      row (make_action_tables exTiny).m_requiring 0 ++
        row (make_action_tables exTiny).m_requiring 0 ∧
    row (make_action_tables (make_action_tables exTiny)).m_adding 0 =
      row (make_action_tables exTiny).m_adding 0 ++ row (make_action_tables exTiny).m_adding 0 ∧
    row (make_action_tables (make_action_tables exTiny)).m_deleting 0 =
      row (make_action_tables exTiny).m_deleting 0 ++
        row (make_action_tables exTiny).m_deleting 0 ∧
    row (make_action_tables (make_action_tables exTiny)).m_ceffs_adding 0 =
      row (make_action_tables exTiny).m_ceffs_adding 0 ++
        row (make_action_tables exTiny).m_ceffs_adding 0 ∧
    (make_action_tables (make_action_tables exTiny)).m_empty_precs =
      (make_action_tables exTiny).m_empty_precs ++ (make_action_tables exTiny).m_empty_precs :=
  make_action_tables_twice exTiny
    (by simp [STRIPS_Problem.tables_empty, exTiny, add_action, add_fluent, STRIPS_Problem.new]) 0

theorem map_find_map_set (m : List (String × Nat)) (k : String) (v : Nat) :
    map_find (map_set m k v) k = some v := by
  induction m with
  | nil => simp [map_set, map_find]
  | cons kv m ih =>
    obtain ⟨k', v'⟩ := kv
    by_cases h : k' = k
    · simp [map_set, map_find, h]
    · simp [map_set, map_find, h, ih]

/-- C10 (counterexample): `add_fluent` with the already registered signature `"(f)"` returns the new
index 1 and changes the problem: two fluents instead of one, the signature re-mapped to 1. -/
theorem add_fluent_duplicate_succeeds :
    map_find exTiny.m_fluents_map "(f)" = some 0 ∧ exTiny.m_num_fluents = 1 ∧
    (add_fluent exTiny "(f)").1 = 1 ∧
    (add_fluent exTiny "(f)").2.m_num_fluents = 2 ∧
    (add_fluent exTiny "(f)").2.m_fluents = [⟨0, "(f)"⟩, ⟨1, "(f)"⟩] ∧
    (add_fluent exTiny "(f)").2.m_fluents_map = [("(f)", 1)] := by
  decide

/-- C10 (amended): `add_fluent` with an already registered signature does not fail: it returns the
number of fluents held before the call as the new index, appends a fluent with that index and
signature, increments `num_fluents`, and re-maps the signature to the new index. -/
theorem add_fluent_duplicate (p : STRIPS_Problem) (signature : String)
    (_hdup : (map_find p.m_fluents_map signature).isSome) :
    (add_fluent p signature).1 = p.m_fluents.length ∧
    (add_fluent p signature).2.m_fluents = p.m_fluents ++ [⟨p.m_fluents.length, signature⟩] ∧
    (add_fluent p signature).2.m_num_fluents = p.m_num_fluents + 1 ∧
    map_find (add_fluent p signature).2.m_fluents_map signature = some p.m_fluents.length := by
  refine ⟨by simp [add_fluent], rfl, rfl, ?_⟩
  simp [add_fluent, map_find_map_set]

/-- Witness for the amended C10. -/
theorem add_fluent_duplicate_witness :
    (add_fluent exTiny "(f)").1 = exTiny.m_fluents.length ∧
    (add_fluent exTiny "(f)").2.m_fluents =
      exTiny.m_fluents ++ [⟨exTiny.m_fluents.length, "(f)"⟩] ∧
    (add_fluent exTiny "(f)").2.m_num_fluents = exTiny.m_num_fluents + 1 ∧
    map_find (add_fluent exTiny "(f)").2.m_fluents_map "(f)" = some exTiny.m_fluents.length :=
  add_fluent_duplicate exTiny "(f)" (by decide)

theorem getD_set_val (l : List Val) (p f : Nat) (x : Val) :
    (l.set p x).getD f infty = if f = p ∧ p < l.length then x else l.getD f infty := by
  simp only [List.getD_eq_getElem?_getD, List.getElem?_set]
  by_cases h : p = f
  · subst h
    by_cases h2 : p < l.length
    · simp [h2]
    · simp [h2, List.getElem?_eq_none (Nat.le_of_not_lt h2)]
  · have : ¬ (f = p) := fun e => h e.symm
    simp [h, this]

theorem hmaxF_le_iff (val : Nat → Val) (fs : Fluent_Vec) (v b : Val) :
    hmaxF val fs v ≤ b ↔ v ≤ b ∧ ∀ f ∈ fs, val f ≤ b := by
  induction fs generalizing v with
  | nil => simp [hmaxF]
  | cons f fs ih =>
    have := ih (max v (val f))
    simp only [hmaxF, List.foldl_cons] at this ⊢
    rw [this, max_le_iff]
    simp only [List.mem_cons, forall_eq_or_imp]
    tauto

theorem le_hmaxF (val : Nat → Val) (fs : Fluent_Vec) (v : Val) : v ≤ hmaxF val fs v :=
  ((hmaxF_le_iff val fs v _).mp le_rfl).1

theorem mem_le_hmaxF (val : Nat → Val) (fs : Fluent_Vec) (v : Val) (f : Nat) (hf : f ∈ fs) :
    val f ≤ hmaxF val fs v :=
  ((hmaxF_le_iff val fs v _).mp le_rfl).2 f hf

theorem hmaxF_congr (val val1 : Nat → Val) (fs : Fluent_Vec) (v : Val)
    (h : ∀ f ∈ fs, val f = val1 f) : hmaxF val fs v = hmaxF val1 fs v := by
  induction fs generalizing v with
  | nil => rfl
  | cons f fs ih =>
    simp only [hmaxF, List.foldl_cons]
    rw [h f (List.mem_cons_self _ _)]
    exact ih _ (fun g hg => h g (List.mem_cons_of_mem _ hg))

theorem hmaxF_top (val : Nat → Val) (fs : Fluent_Vec) : hmaxF val fs ⊤ = ⊤ :=
  top_le_iff.mp (le_hmaxF val fs ⊤)

theorem H_Max_eq_hmaxF (vals : List Val) (fs : Fluent_Vec) (v : Val) :
    H_Max_Evaluation_Function vals fs v = hmaxF (fun f => vals.getD f infty) fs v := by
  induction fs generalizing v with
  | nil => rfl
  | cons f fs ih =>
    simp only [H_Max_Evaluation_Function, hmaxF, List.foldl_cons]
    have hmax : (if v < vals.getD f infty then vals.getD f infty else v) = max v (vals.getD f infty) := by
      by_cases hlt : v < vals.getD f infty
      · rw [if_pos hlt, max_eq_right hlt.le]
      · rw [if_neg hlt, max_eq_left (not_lt.mp hlt)]
    rw [hmax]
    by_cases htop : max v (vals.getD f infty) = infty
    · rw [if_pos htop, htop]
      exact (hmaxF_top _ fs).symm
    · rw [if_neg htop, ih]
      rfl

theorem getD_set_bool (l : List Bool) (p f : Nat) (x : Bool) :
    (l.set p x).getD f false = if f = p ∧ p < l.length then x else l.getD f false := by
  simp only [List.getD_eq_getElem?_getD, List.getElem?_set]
  by_cases h : p = f
  · subst h
    by_cases h2 : p < l.length
    · simp [h2]
    · simp [h2, List.getElem?_eq_none (Nat.le_of_not_lt h2)]
  · have : ¬ (f = p) := fun e => h e.symm
    simp [h, this]

theorem isset_set (b : Bit_Set) (p q : Nat) :
    (b.set p).isset q = (decide (q = p ∧ p < b.bits.length) || b.isset q) := by
  simp only [Bit_Set.isset, Bit_Set.set, getD_set_bool]
  by_cases h : q = p ∧ p < b.bits.length <;> simp [h]

theorem isset_unset (b : Bit_Set) (p q : Nat) :
    (b.unset p).isset q = (!decide (q = p ∧ p < b.bits.length) && b.isset q) := by
  simp only [Bit_Set.isset, Bit_Set.unset, getD_set_bool]
  by_cases h : q = p ∧ p < b.bits.length <;> simp [h]

theorem isset_reset (b : Bit_Set) (q : Nat) : b.reset.isset q = false := by
  simp only [Bit_Set.isset, Bit_Set.reset, List.getD_eq_getElem?_getD, List.getElem?_replicate]
  split <;> rfl

theorem isset_mk_size (n q : Nat) : (Bit_Set.mk_size n).isset q = false := by
  simp only [Bit_Set.isset, Bit_Set.mk_size, List.getD_eq_getElem?_getD, List.getElem?_replicate]
  split <;> rfl

theorem H1_Heuristic.Lower.lrefl (h : H1_Heuristic) (hq : h.queued) : h.Lower h :=
  ⟨hq, rfl, fun _ => le_rfl, fun _ hq => hq, fun _ hne => absurd rfl hne⟩

theorem H1_Heuristic.Lower.ltrans {h h1 h2 : H1_Heuristic} (a : h.Lower h1) (b : h1.Lower h2) :
    h.Lower h2 := by
  refine ⟨b.queued, b.len.trans a.len, fun f => (b.mono f).trans (a.mono f),
    fun q hq => b.sub q (a.sub q hq), ?_⟩
  intro f hne
  by_cases h12 : h2.val f = h1.val f
  · exact b.sub f (a.changed f (by rw [← h12]; exact hne))
  · exact b.changed f h12

/-- The enqueue tail shared by `update` and `set`. -/
theorem enqueue_queued (h : H1_Heuristic) (hq : h.queued) (p : Nat) (vals : List Val)
    (sup : List (Option Nat)) :
    let h1 : H1_Heuristic := { h with m_values := vals, m_best_supporters := sup }
    let h2 : H1_Heuristic :=
      if !h1.m_already_updated.isset p then
        { h1 with m_updated := h1.m_updated ++ [p]
                  m_already_updated := h1.m_already_updated.set p }
      else h1
    h2.queued ∧ p ∈ h2.m_updated ∧ (∀ q ∈ h.m_updated, q ∈ h2.m_updated) ∧
      h2.m_values = vals := by
  intro h1 h2
  by_cases hb : h.m_already_updated.isset p = true
  · have e : h2 = h1 := by simp [h2, h1, hb]
    rw [e]
    exact ⟨hq, hq p hb, fun q hq => hq, rfl⟩
  · have e : h2 = { h1 with m_updated := h1.m_updated ++ [p]
                            m_already_updated := h1.m_already_updated.set p } := by
      simp [h2, h1, hb]
    rw [e]
    refine ⟨?_, by simp, fun q hq => by simp [h1, hq], rfl⟩
    intro q hqs
    simp only [isset_set, Bool.or_eq_true, decide_eq_true_eq] at hqs
    rcases hqs with ⟨rfl, _⟩ | hqs
    · simp
    · simp [h1, hq q hqs]

theorem H1_Heuristic.update_sup_spec (h : H1_Heuristic) (hq : h.queued) (p : Nat) (v : Val)
    (a : Nat) :
    h.Lower (h.update_sup p v a) ∧ (p < h.m_values.length → (h.update_sup p v a).val p ≤ v) := by
  unfold H1_Heuristic.update_sup
  by_cases hge : v ≥ h.m_values.getD p infty
  · rw [if_pos hge]
    exact ⟨Lower.lrefl h hq, fun _ => hge⟩
  · rw [if_neg hge]
    obtain ⟨q1, q2, q3, q4⟩ := enqueue_queued h hq p (h.m_values.set p v) h.m_best_supporters
    simp only at q1 q2 q3 q4 ⊢
    have hval : ∀ f, H1_Heuristic.val
        { (if (!h.m_already_updated.isset p) = true then
            ({ h with m_values := h.m_values.set p v, m_updated := h.m_updated ++ [p],
                      m_already_updated := h.m_already_updated.set p } : H1_Heuristic)
           else { h with m_values := h.m_values.set p v }) with
          m_best_supporters := (if (!h.m_already_updated.isset p) = true then
            ({ h with m_values := h.m_values.set p v, m_updated := h.m_updated ++ [p],
                      m_already_updated := h.m_already_updated.set p } : H1_Heuristic)
           else { h with m_values := h.m_values.set p v }).m_best_supporters.set p (some a) } f =
        if f = p ∧ p < h.m_values.length then v else h.val f := by
      intro f
      simp only [H1_Heuristic.val, q4, getD_set_val]
    refine ⟨⟨q1, by simp only [q4, List.length_set], ?_, q3, ?_⟩, ?_⟩
    · intro f
      rw [hval]
      split
      · rename_i hfp
        rw [hfp.1]
        exact (not_le.mp hge).le
      · exact le_rfl
    · intro f hne
      rw [hval] at hne
      by_cases hfp : f = p ∧ p < h.m_values.length
      · rw [hfp.1]; exact q2
      · rw [if_neg hfp] at hne; exact absurd rfl hne
    · intro hp
      rw [hval, if_pos ⟨rfl, hp⟩]

theorem H1_Heuristic.update_spec (h : H1_Heuristic) (hq : h.queued) (p : Nat) (v : Val) :
    h.Lower (h.update p v) ∧ (p < h.m_values.length → (h.update p v).val p ≤ v) := by
  unfold H1_Heuristic.update
  by_cases hge : v ≥ h.m_values.getD p infty
  · rw [if_pos hge]
    exact ⟨Lower.lrefl h hq, fun _ => hge⟩
  · rw [if_neg hge]
    obtain ⟨q1, q2, q3, q4⟩ := enqueue_queued h hq p (h.m_values.set p v) h.m_best_supporters
    simp only at q1 q2 q3 q4 ⊢
    have hval : ∀ f, H1_Heuristic.val
        (if (!h.m_already_updated.isset p) = true then
            ({ h with m_values := h.m_values.set p v, m_updated := h.m_updated ++ [p],
                      m_already_updated := h.m_already_updated.set p } : H1_Heuristic)
           else { h with m_values := h.m_values.set p v }) f =
        if f = p ∧ p < h.m_values.length then v else h.val f := by
      intro f
      simp only [H1_Heuristic.val, q4, getD_set_val]
    refine ⟨⟨q1, by simp only [q4, List.length_set], ?_, q3, ?_⟩, ?_⟩
    · intro f
      rw [hval]
      split
      · rename_i hfp
        rw [hfp.1]
        exact (not_le.mp hge).le
      · exact le_rfl
    · intro f hne
      rw [hval] at hne
      by_cases hfp : f = p ∧ p < h.m_values.length
      · rw [hfp.1]; exact q2
      · rw [if_neg hfp] at hne; exact absurd rfl hne
    · intro hp
      rw [hval, if_pos ⟨rfl, hp⟩]

theorem H1_Heuristic.set_spec (h : H1_Heuristic) (hq : h.queued) (p : Nat) (v : Val)
    (hle : v ≤ h.val p) :
    h.Lower (h.set p v) ∧ (p < h.m_values.length → (h.set p v).val p = v) ∧
      p ∈ (h.set p v).m_updated := by
  unfold H1_Heuristic.set
  obtain ⟨q1, q2, q3, q4⟩ := enqueue_queued h hq p (h.m_values.set p v) h.m_best_supporters
  simp only at q1 q2 q3 q4 ⊢
  have hval : ∀ f, H1_Heuristic.val
      (if (!h.m_already_updated.isset p) = true then
          ({ h with m_values := h.m_values.set p v, m_updated := h.m_updated ++ [p],
                    m_already_updated := h.m_already_updated.set p } : H1_Heuristic)
         else { h with m_values := h.m_values.set p v }) f =
      if f = p ∧ p < h.m_values.length then v else h.val f := by
    intro f
    simp only [H1_Heuristic.val, q4, getD_set_val]
  refine ⟨⟨q1, by simp only [q4, List.length_set], ?_, q3, ?_⟩, ?_, q2⟩
  · intro f
    rw [hval]
    split
    · rename_i hfp
      rw [hfp.1]
      exact hle
    · exact le_rfl
  · intro f hne
    rw [hval] at hne
    by_cases hfp : f = p ∧ p < h.m_values.length
    · rw [hfp.1]; exact q2
    · rw [if_neg hfp] at hne; exact absurd rfl hne
  · intro hp
    rw [hval, if_pos ⟨rfl, hp⟩]

/-- The loop `for f in fs: update( f, v, a )`. -/
theorem H1_Heuristic.update_sup_loop (fs : Fluent_Vec) (v : Val) (a : Nat) (h : H1_Heuristic)
    (hq : h.queued) :
    h.Lower (fs.foldl (fun (h : H1_Heuristic) f => h.update_sup f v a) h) ∧
    ∀ f ∈ fs, f < h.m_values.length →
      (fs.foldl (fun (h : H1_Heuristic) f => h.update_sup f v a) h).val f ≤ v := by
  induction fs generalizing h with
  | nil => exact ⟨Lower.lrefl h hq, fun f hf => by simp at hf⟩
  | cons g fs ih =>
    obtain ⟨l1, v1⟩ := h.update_sup_spec hq g v a
    obtain ⟨l2, v2⟩ := ih (h.update_sup g v a) l1.queued
    simp only [List.foldl_cons]
    refine ⟨l1.ltrans l2, ?_⟩
    intro f hf hlt
    rcases List.mem_cons.mp hf with rfl | hf
    · exact (l2.mono f).trans (v1 hlt)
    · exact v2 f hf (by rw [l1.len]; exact hlt)

/-- The loop `for f in fs: update( f, v )`. -/
theorem H1_Heuristic.update_loop (fs : Fluent_Vec) (v : Val) (h : H1_Heuristic)
    (hq : h.queued) :
    h.Lower (fs.foldl (fun (h : H1_Heuristic) f => h.update f v) h) ∧
    ∀ f ∈ fs, f < h.m_values.length →
      (fs.foldl (fun (h : H1_Heuristic) f => h.update f v) h).val f ≤ v := by
  induction fs generalizing h with
  | nil => exact ⟨Lower.lrefl h hq, fun f hf => by simp at hf⟩
  | cons g fs ih =>
    obtain ⟨l1, v1⟩ := h.update_spec hq g v
    obtain ⟨l2, v2⟩ := ih (h.update g v) l1.queued
    simp only [List.foldl_cons]
    refine ⟨l1.ltrans l2, ?_⟩
    intro f hf hlt
    rcases List.mem_cons.mp hf with rfl | hf
    · exact (l2.mono f).trans (v1 hlt)
    · exact v2 f hf (by rw [l1.len]; exact hlt)

theorem propose_top (opt : H1_Cost_Function) (a : Action) : opt.propose a infty = infty := by
  cases opt <;> simp [H1_Cost_Function.propose, infty]

theorem H_Max_ok : EvalOK H_Max_Evaluation_Function where
  congr := by
    intro vals vals1 fs v h
    rw [H_Max_eq_hmaxF, H_Max_eq_hmaxF]
    exact hmaxF_congr _ _ fs v h
  top := by
    intro vals fs
    rw [H_Max_eq_hmaxF]
    exact hmaxF_top _ fs
  nil := fun _ _ => rfl
  finite := by
    intro vals fs v hne f hf htop
    apply hne
    rw [H_Max_eq_hmaxF]
    have := mem_le_hmaxF (fun f => vals.getD f infty) fs v f hf
    simp only [htop] at this
    exact top_le_iff.mp this

/-- Lowering values and enqueueing every changed fluent keeps an action settled. -/
theorem H1_Heuristic.Settled.lower {eval_func : List Val → Fluent_Vec → Val → Val}
    (hE : EvalOK eval_func) {opt : H1_Cost_Function} {h h1 : H1_Heuristic} {a : Action}
    (hs : h.Settled eval_func opt a) (hl : h.Lower h1) : h1.Settled eval_func opt a := by
  rcases hs with hst | ⟨p, hp, hr⟩
  · by_cases hc : h1.Covered a
    · exact Or.inr hc
    · left
      have hsame : ∀ q, Relevant a q → h1.m_values.getD q infty = h.m_values.getD q infty := by
        intro q hq
        by_contra hne
        exact hc ⟨q, hl.changed q hne, hq⟩
      have hpre : eval_func h1.m_values a.prec_vec 0 = eval_func h.m_values a.prec_vec 0 :=
        hE.congr _ _ _ _ (fun f hf => hsame f (Or.inl hf))
      refine ⟨?_, ?_⟩
      · intro f hf
        rw [hpre]
        exact (hl.mono f).trans (hst.1 f hf)
      · intro c hc f hf
        rw [hpre, hE.congr h1.m_values h.m_values c.prec_vec _
          (fun g hg => hsame g (Or.inr ⟨c, hc, hg⟩))]
        exact (hl.mono f).trans (hst.2 c hc f hf)
  · exact Or.inr ⟨p, hl.sub p hp, hr⟩

/-- The conditional-effect loop of `compute` for one action. -/
theorem H1_Heuristic.ceff_loop (eval_func : List Val → Fluent_Vec → Val → Val)
    (opt : H1_Cost_Function) (a : Action) (i : Nat) (h_pre : Val) (cs : List Conditional_Effect)
    (h : H1_Heuristic) (hq : h.queued) (n : Nat) (hn : h.m_values.length = n)
    (hr : ∀ c ∈ cs, ∀ f ∈ c.add_vec, f < n) :
    let body := fun (h : H1_Heuristic) (ceff : Conditional_Effect) =>
      let h_cond := eval_func h.m_values ceff.prec_vec h_pre
      if h_cond = infty then h
      else
        let v_eff := opt.propose a h_cond
        ceff.add_vec.foldl (fun (h : H1_Heuristic) f => h.update_sup f v_eff i) h
    h.Lower (cs.foldl body h) ∧
    ∀ c ∈ cs, ∃ hj : H1_Heuristic, h.Lower hj ∧ hj.Lower (cs.foldl body h) ∧
      ∀ f ∈ c.add_vec,
        (cs.foldl body h).val f ≤ opt.propose a (eval_func hj.m_values c.prec_vec h_pre) := by
  intro body
  induction cs generalizing h with
  | nil => exact ⟨Lower.lrefl h hq, fun c hc => by simp at hc⟩
  | cons c cs ih =>
    have hstep : h.Lower (body h c) ∧ ∀ f ∈ c.add_vec,
        (body h c).val f ≤ opt.propose a (eval_func h.m_values c.prec_vec h_pre) := by
      by_cases htop : eval_func h.m_values c.prec_vec h_pre = infty
      · simp only [body, htop, if_true]
        refine ⟨Lower.lrefl h hq, fun f _ => ?_⟩
        rw [propose_top]
        exact le_top
      · simp only [body, if_neg htop]
        obtain ⟨l1, v1⟩ := H1_Heuristic.update_sup_loop c.add_vec
          (opt.propose a (eval_func h.m_values c.prec_vec h_pre)) i h hq
        exact ⟨l1, fun f hf => v1 f hf (by rw [hn]; exact hr c (List.mem_cons_self _ _) f hf)⟩
    obtain ⟨l1, v1⟩ := hstep
    obtain ⟨l2, v2⟩ := ih (body h c) l1.queued (by rw [l1.len]; exact hn)
      (fun c1 hc1 => hr c1 (List.mem_cons_of_mem _ hc1))
    simp only [List.foldl_cons]
    refine ⟨l1.ltrans l2, ?_⟩
    intro c1 hc1
    rcases List.mem_cons.mp hc1 with rfl | hc1
    · exact ⟨h, Lower.lrefl h hq, l1.ltrans l2, fun f hf => (l2.mono f).trans (v1 f hf)⟩
    · obtain ⟨hj, a1, a2, a3⟩ := v2 c1 hc1
      exact ⟨hj, l1.ltrans a1, a2, a3⟩

theorem relevant_iff (a : Action) (p : Nat) :
    (a.prec_isset p || a.ceff_vec.any (fun ceff => ceff.prec_isset p)) = true ↔ Relevant a p := by
  simp [Relevant, Action.prec_isset, Conditional_Effect.prec_isset]

theorem getElem?_mem_of_some {α : Type} (l : List α) (i : Nat) (a : α) (h : l[i]? = some a) :
    a ∈ l := by
  have hlt := getElem?_lt_of_some l i a h
  rw [List.getElem?_eq_getElem hlt] at h
  cases h
  exact List.getElem_mem hlt

/-- Core of the relaxation step: after the direct adds and then the conditional effects of `a` have
been proposed, `a` is settled. -/
theorem H1_Heuristic.settle_core {eval_func : List Val → Fluent_Vec → Val → Val}
    (hE : EvalOK eval_func) (opt : H1_Cost_Function) (a : Action) (h h1 h2 : H1_Heuristic)
    (l1 : h.Lower h1) (l2 : h1.Lower h2)
    (v1 : ∀ f ∈ a.add_vec, h1.val f ≤ opt.propose a (eval_func h.m_values a.prec_vec 0))
    (v2 : ∀ c ∈ a.ceff_vec, ∃ hj : H1_Heuristic, h1.Lower hj ∧ hj.Lower h2 ∧
      ∀ f ∈ c.add_vec, h2.val f ≤
        opt.propose a (eval_func hj.m_values c.prec_vec (eval_func h.m_values a.prec_vec 0))) :
    h2.Settled eval_func opt a := by
  by_cases hc : h2.Covered a
  · exact Or.inr hc
  · left
    have hsame : ∀ (hj : H1_Heuristic), hj.Lower h2 → ∀ q, Relevant a q →
        h2.m_values.getD q infty = hj.m_values.getD q infty := by
      intro hj hl q hq
      by_contra hne
      exact hc ⟨q, hl.changed q hne, hq⟩
    have hpre : eval_func h2.m_values a.prec_vec 0 = eval_func h.m_values a.prec_vec 0 :=
      hE.congr _ _ _ _ (fun f hf => hsame h (l1.ltrans l2) f (Or.inl hf))
    refine ⟨?_, ?_⟩
    · intro f hf
      rw [hpre]
      exact (l2.mono f).trans (v1 f hf)
    · intro c hcm f hf
      obtain ⟨hj, a1, a2, a3⟩ := v2 c hcm
      rw [hpre, hE.congr h2.m_values hj.m_values c.prec_vec _
        (fun g hg => hsame hj a2 g (Or.inr ⟨c, hcm, hg⟩))]
      exact a3 f hf

/-- Relaxing action `i` lowers the table, and leaves the action settled if it was relevant. -/
theorem H1_Heuristic.relax_action_spec (P : STRIPS_Problem) (hwf : P.wf)
    {eval_func : List Val → Fluent_Vec → Val → Val} (hE : EvalOK eval_func)
    (opt : H1_Cost_Function) (p i : Nat) (h : H1_Heuristic) (hq : h.queued) (hs : h.sized P) :
    h.Lower (H1_Heuristic.relax_action P eval_func opt p i h) ∧
    ∀ a, P.m_actions[i]? = some a → Relevant a p →
      (H1_Heuristic.relax_action P eval_func opt p i h).Settled eval_func opt a := by
  unfold H1_Heuristic.relax_action
  cases hi : P.m_actions[i]? with
  | none => exact ⟨Lower.lrefl h hq, fun a ha => by cases ha⟩
  | some a =>
    simp only
    have hin := hwf.in_range a (getElem?_mem_of_some _ _ _ hi)
    by_cases hrel : (a.prec_isset p || a.ceff_vec.any (fun ceff => ceff.prec_isset p)) = true
    · simp only [hrel, Bool.not_true, Bool.false_eq_true, if_false]
      by_cases htop : eval_func h.m_values a.prec_vec 0 = infty
      · simp only [htop, if_true]
        refine ⟨Lower.lrefl h hq, ?_⟩
        intro a1 ha1 _
        cases ha1
        left
        refine ⟨fun f _ => ?_, fun c _ f _ => ?_⟩
        · rw [htop, propose_top]; exact le_top
        · rw [htop, hE.top, propose_top]; exact le_top
      · simp only [if_neg htop]
        obtain ⟨l1, v1⟩ := H1_Heuristic.update_sup_loop a.add_vec
          (opt.propose a (eval_func h.m_values a.prec_vec 0)) i h hq
        obtain ⟨l2, v2⟩ := H1_Heuristic.ceff_loop eval_func opt a i
          (eval_func h.m_values a.prec_vec 0) a.ceff_vec _ l1.queued P.m_num_fluents
          (by rw [l1.len]; exact hs) (fun c hc f hf => (hin.2.2.2 c hc).2.1 f hf)
        simp only at l2 v2
        refine ⟨l1.ltrans l2, ?_⟩
        intro a1 ha1 _
        cases ha1
        exact H1_Heuristic.settle_core hE opt a h _ _ l1 l2
          (fun f hf => v1 f hf (by rw [hs]; exact hin.2.1 f hf)) v2
    · simp only [hrel, Bool.not_false, if_true]
      exact ⟨Lower.lrefl h hq, fun a1 ha1 hr => by
        cases ha1
        exact absurd ((relevant_iff a p).mpr hr) hrel⟩

theorem H1_Heuristic.relax_loop (P : STRIPS_Problem) (hwf : P.wf)
    {eval_func : List Val → Fluent_Vec → Val → Val} (hE : EvalOK eval_func)
    (opt : H1_Cost_Function) (p : Nat) (h : H1_Heuristic) (hq : h.queued) (hs : h.sized P)
    (h0 : ∀ (i : Nat) (a : Action), P.m_actions[i]? = some a →
      h.Settled eval_func opt a ∨ Relevant a p) (k : Nat) :
    h.Lower (forLoop k (H1_Heuristic.relax_action P eval_func opt p) h) ∧
    ∀ (i : Nat) (a : Action), P.m_actions[i]? = some a →
      (forLoop k (H1_Heuristic.relax_action P eval_func opt p) h).Settled eval_func opt a ∨
        (Relevant a p ∧ k ≤ i) := by
  induction k with
  | zero =>
    refine ⟨Lower.lrefl h hq, fun i a ha => ?_⟩
    rcases h0 i a ha with hs | hr
    · exact Or.inl hs
    · exact Or.inr ⟨hr, Nat.zero_le _⟩
  | succ k ih =>
    obtain ⟨l1, s1⟩ := ih
    simp only [forLoop]
    obtain ⟨l2, s2⟩ := H1_Heuristic.relax_action_spec P hwf hE opt p k _ l1.queued
      (show H1_Heuristic.sized _ P from by rw [H1_Heuristic.sized, l1.len]; exact hs)
    refine ⟨l1.ltrans l2, fun i a ha => ?_⟩
    rcases s1 i a ha with hst | ⟨hr, hki⟩
    · exact Or.inl (hst.lower hE l2)
    · by_cases hik : i = k
      · subst hik
        exact Or.inl (s2 a ha hr)
      · exact Or.inr ⟨hr, by omega⟩

/-- One iteration of the `while` loop of `compute` keeps the invariant and only lowers values. -/
theorem H1_Heuristic.compute_step_spec (P : STRIPS_Problem) (hwf : P.wf)
    {eval_func : List Val → Fluent_Vec → Val → Val} (hE : EvalOK eval_func)
    (opt : H1_Cost_Function) (p : Nat) (rest : List Nat) (h : H1_Heuristic)
    (hinv : h.Inv P eval_func opt) (hqueue : h.m_updated = p :: rest) :
    (H1_Heuristic.compute_step P eval_func opt p rest h).Inv P eval_func opt ∧
    ∀ f, (H1_Heuristic.compute_step P eval_func opt p rest h).val f ≤ h.val f := by
  have hq1 : H1_Heuristic.queued
      { h with m_updated := rest, m_already_updated := h.m_already_updated.unset p } := by
    intro q hqs
    simp only [isset_unset, Bool.and_eq_true, Bool.not_eq_true', decide_eq_false_iff_not] at hqs
    obtain ⟨hne, hset⟩ := hqs
    have hmem := hinv.queued q hset
    rw [hqueue] at hmem
    rcases List.mem_cons.mp hmem with rfl | hmem
    · exfalso
      apply hne
      refine ⟨rfl, ?_⟩
      by_contra hlen
      simp [Bit_Set.isset, List.getD_eq_getElem?_getD,
        List.getElem?_eq_none (Nat.le_of_not_lt hlen)] at hset
    · exact hmem
  obtain ⟨l, s⟩ := H1_Heuristic.relax_loop P hwf hE opt p
    { h with m_updated := rest, m_already_updated := h.m_already_updated.unset p } hq1 hinv.sized
    (by
      intro i a ha
      rcases hinv.settled i a ha with hst | ⟨q, hq, hr⟩
      · exact Or.inl (Or.inl hst)
      · rw [hqueue] at hq
        rcases List.mem_cons.mp hq with rfl | hq
        · exact Or.inr hr
        · exact Or.inl (Or.inr ⟨q, hq, hr⟩)) P.m_num_actions
  refine ⟨⟨l.queued, ?_, ?_⟩, fun f => l.mono f⟩
  · show List.length _ = _
    rw [H1_Heuristic.compute_step, l.len]; exact hinv.sized
  · intro i a ha
    rcases s i a ha with hst | ⟨_, hle⟩
    · exact hst
    · exfalso
      have := getElem?_lt_of_some _ _ _ ha
      rw [hwf.num_actions] at hle
      omega

/-- If `compute` returns, the invariant holds with an empty queue: every action is stable. -/
theorem H1_Heuristic.compute_spec (P : STRIPS_Problem) (hwf : P.wf)
    {eval_func : List Val → Fluent_Vec → Val → Val} (hE : EvalOK eval_func)
    (opt : H1_Cost_Function) (fuel : Nat) (h h1 : H1_Heuristic)
    (hinv : h.Inv P eval_func opt)
    (hres : H1_Heuristic.compute P eval_func opt fuel h = some h1) :
    h1.Inv P eval_func opt ∧ h1.m_updated = [] ∧ ∀ f, h1.val f ≤ h.val f := by
  induction fuel generalizing h with
  | zero =>
    unfold H1_Heuristic.compute at hres
    cases hqueue : h.m_updated with
    | nil =>
      simp only [hqueue] at hres
      cases hres
      exact ⟨hinv, hqueue, fun _ => le_rfl⟩
    | cons p rest => simp [hqueue] at hres
  | succ fuel ih =>
    unfold H1_Heuristic.compute at hres
    cases hqueue : h.m_updated with
    | nil =>
      simp only [hqueue] at hres
      cases hres
      exact ⟨hinv, hqueue, fun _ => le_rfl⟩
    | cons p rest =>
      simp only [hqueue] at hres
      obtain ⟨i1, m1⟩ := H1_Heuristic.compute_step_spec P hwf hE opt p rest h hinv hqueue
      obtain ⟨i2, e2, m2⟩ := ih _ i1 hres
      exact ⟨i2, e2, fun f => (m2 f).trans (m1 f)⟩

theorem H1_Heuristic.update_val (h : H1_Heuristic) (p : Nat) (v : Val) (f : Nat) :
    (h.update p v).val f = h.val f ∨ (h.update p v).val f = v := by
  unfold H1_Heuristic.update
  by_cases hge : v ≥ h.m_values.getD p infty
  · rw [if_pos hge]; exact Or.inl rfl
  · rw [if_neg hge]
    have hval : H1_Heuristic.val
        (if (!h.m_already_updated.isset p) = true then
            ({ h with m_values := h.m_values.set p v, m_updated := h.m_updated ++ [p],
                      m_already_updated := h.m_already_updated.set p } : H1_Heuristic)
           else { h with m_values := h.m_values.set p v }) f =
        if f = p ∧ p < h.m_values.length then v else h.val f := by
      by_cases hb : (!h.m_already_updated.isset p) = true
      · rw [if_pos hb]; simp only [H1_Heuristic.val, getD_set_val]
      · rw [if_neg hb]; simp only [H1_Heuristic.val, getD_set_val]
    simp only at hval ⊢
    rw [hval]
    split
    · exact Or.inr rfl
    · exact Or.inl rfl

theorem H1_Heuristic.update_loop_nonneg (fs : Fluent_Vec) (v : Val) (hv : 0 ≤ v)
    (h : H1_Heuristic) (hn : ∀ f, 0 ≤ h.val f) :
    ∀ f, 0 ≤ (fs.foldl (fun (h : H1_Heuristic) f => h.update f v) h).val f := by
  induction fs generalizing h with
  | nil => exact hn
  | cons g fs ih =>
    simp only [List.foldl_cons]
    apply ih
    intro f
    rcases h.update_val g v f with e | e
    · rw [e]; exact hn f
    · rw [e]; exact hv

/-- The values after the first loop of `initialize`: every entry is `infty`. -/
theorem H1_Heuristic.init_values (n : Nat) (h : H1_Heuristic) :
    let h1 := forLoop n (fun k (h : H1_Heuristic) =>
      { h with m_values := h.m_values.set k infty
               m_best_supporters := h.m_best_supporters.set k none }) h
    h1.m_values.length = h.m_values.length ∧ h1.m_updated = h.m_updated ∧
    h1.m_already_updated = h.m_already_updated ∧
    ∀ f, h1.val f = if f < n then infty else h.val f := by
  induction n with
  | zero => simp [forLoop]
  | succ n ih =>
    obtain ⟨a1, a2, a3, a4⟩ := ih
    simp only [forLoop] at a1 a2 a3 a4 ⊢
    refine ⟨by rw [List.length_set, a1], a2, a3, ?_⟩
    intro f
    have := a4 f
    simp only [H1_Heuristic.val] at this ⊢
    rw [getD_set_val, this]
    by_cases hfn : f = n
    · subst hfn
      rw [if_pos (Nat.lt_succ_self f)]
      by_cases hlen : f < h.m_values.length
      · rw [if_pos ⟨rfl, by rw [a1]; exact hlen⟩]
      · have hd : h.m_values.getD f infty = infty := by
          simp [List.getD_eq_getElem?_getD, List.getElem?_eq_none (Nat.le_of_not_lt hlen)]
        rw [if_neg (fun hh => hlen (by rw [← a1]; exact hh.2)), if_neg (Nat.lt_irrefl f), hd]
    · have h1 : ¬ (f = n ∧ n < (forLoop n (fun k (h : H1_Heuristic) =>
          { h with m_values := h.m_values.set k infty
                   m_best_supporters := h.m_best_supporters.set k none }) h).m_values.length) :=
        fun hh => hfn hh.1
      rw [if_neg h1]
      by_cases hlt : f < n
      · rw [if_pos hlt, if_pos (by omega)]
      · rw [if_neg hlt, if_neg (by omega)]

theorem H1_Heuristic.init_ceff_loop (v : Val) (hv : 0 ≤ v) (cs : List Conditional_Effect)
    (h : H1_Heuristic) (hq : h.queued) (hn : ∀ f, 0 ≤ h.val f) (n : Nat)
    (hlen : h.m_values.length = n) (hr : ∀ c ∈ cs, ∀ f ∈ c.add_vec, f < n) :
    let body := fun (h : H1_Heuristic) (ceff : Conditional_Effect) =>
      if !ceff.prec_vec.isEmpty then h
      else
        let v_eff := v
        ceff.add_vec.foldl (fun (h : H1_Heuristic) f => h.update f v_eff) h
    h.Lower (cs.foldl body h) ∧ (∀ f, 0 ≤ (cs.foldl body h).val f) ∧
    ∀ c ∈ cs, c.prec_vec = [] → ∀ f ∈ c.add_vec, (cs.foldl body h).val f ≤ v := by
  intro body
  induction cs generalizing h with
  | nil => exact ⟨Lower.lrefl h hq, hn, fun c hc => by simp at hc⟩
  | cons c cs ih =>
    have hstep : h.Lower (body h c) ∧ (∀ f, 0 ≤ (body h c).val f) ∧
        (c.prec_vec = [] → ∀ f ∈ c.add_vec, (body h c).val f ≤ v) := by
      by_cases he : c.prec_vec.isEmpty = true
      · simp only [body, he, Bool.not_true, Bool.false_eq_true, if_false]
        obtain ⟨l1, v1⟩ := H1_Heuristic.update_loop c.add_vec v h hq
        exact ⟨l1, H1_Heuristic.update_loop_nonneg c.add_vec v hv h hn,
          fun _ f hf => v1 f hf (by rw [hlen]; exact hr c (List.mem_cons_self _ _) f hf)⟩
      · simp only [body, he, Bool.not_false, if_true]
        refine ⟨Lower.lrefl h hq, hn, fun hnil => ?_⟩
        simp [hnil] at he
    obtain ⟨l1, n1, v1⟩ := hstep
    obtain ⟨l2, n2, v2⟩ := ih (body h c) l1.queued n1 (by rw [l1.len]; exact hlen)
      (fun c1 hc1 => hr c1 (List.mem_cons_of_mem _ hc1))
    simp only [List.foldl_cons]
    refine ⟨l1.ltrans l2, n2, ?_⟩
    intro c1 hc1 hnil f hf
    rcases List.mem_cons.mp hc1 with rfl | hc1
    · exact (l2.mono f).trans (v1 hnil f hf)
    · exact v2 c1 hc1 hnil f hf

/-- What `initialize` does for the empty-precondition actions listed in `idxs`. -/
theorem H1_Heuristic.init_empty_loop (P : STRIPS_Problem) (hwf : P.wf) (opt : H1_Cost_Function)
    (hcost : ∀ a ∈ P.m_actions, 0 ≤ opt.base a) (idxs : List Nat)
    (h : H1_Heuristic) (hq : h.queued) (hn : ∀ f, 0 ≤ h.val f) (hs : h.sized P) :
    let body := fun (h : H1_Heuristic) (idx : Nat) =>
      match P.m_actions[idx]? with
      | none => h
      | some a =>
        let v := opt.base a
        let h3 := a.add_vec.foldl (fun (h : H1_Heuristic) f => h.update f v) h
        a.ceff_vec.foldl (fun (h : H1_Heuristic) ceff =>
          if !ceff.prec_vec.isEmpty then h
          else
            let v_eff := v
            ceff.add_vec.foldl (fun (h : H1_Heuristic) f => h.update f v_eff) h) h3
    h.Lower (idxs.foldl body h) ∧ (∀ f, 0 ≤ (idxs.foldl body h).val f) ∧
    ∀ idx ∈ idxs, ∀ a, P.m_actions[idx]? = some a →
      (∀ f ∈ a.add_vec, (idxs.foldl body h).val f ≤ opt.base a) ∧
      ∀ c ∈ a.ceff_vec, c.prec_vec = [] → ∀ f ∈ c.add_vec, (idxs.foldl body h).val f ≤ opt.base a := by
  intro body
  induction idxs generalizing h with
  | nil => exact ⟨Lower.lrefl h hq, hn, fun c hc => by simp at hc⟩
  | cons idx idxs ih =>
    have hstep : h.Lower (body h idx) ∧ (∀ f, 0 ≤ (body h idx).val f) ∧
        ∀ a, P.m_actions[idx]? = some a →
          (∀ f ∈ a.add_vec, (body h idx).val f ≤ opt.base a) ∧
          ∀ c ∈ a.ceff_vec, c.prec_vec = [] → ∀ f ∈ c.add_vec, (body h idx).val f ≤ opt.base a := by
      cases hi : P.m_actions[idx]? with
      | none =>
        simp only [body, hi]
        exact ⟨Lower.lrefl h hq, hn, fun a ha => by cases ha⟩
      | some a =>
        simp only [body, hi]
        have hmem := getElem?_mem_of_some _ _ _ hi
        have hin := hwf.in_range a hmem
        obtain ⟨l1, v1⟩ := H1_Heuristic.update_loop a.add_vec (opt.base a) h hq
        have n1 := H1_Heuristic.update_loop_nonneg a.add_vec (opt.base a) (hcost a hmem) h hn
        obtain ⟨l2, n2, v2⟩ := H1_Heuristic.init_ceff_loop (opt.base a) (hcost a hmem) a.ceff_vec
          _ l1.queued n1 P.m_num_fluents (by rw [l1.len]; exact hs)
          (fun c hc f hf => (hin.2.2.2 c hc).2.1 f hf)
        refine ⟨l1.ltrans l2, n2, ?_⟩
        intro a1 ha1
        cases ha1
        exact ⟨fun f hf => (l2.mono f).trans (v1 f hf (by rw [hs]; exact hin.2.1 f hf)), v2⟩
    obtain ⟨l1, n1, v1⟩ := hstep
    obtain ⟨l2, n2, v2⟩ := ih (body h idx) l1.queued n1
      (show H1_Heuristic.sized _ P from by rw [H1_Heuristic.sized, l1.len]; exact hs)
    simp only [List.foldl_cons]
    refine ⟨l1.ltrans l2, n2, ?_⟩
    intro idx1 hidx1 a ha
    rcases List.mem_cons.mp hidx1 with rfl | hidx1
    · obtain ⟨w1, w2⟩ := v1 a ha
      exact ⟨fun f hf => (l2.mono f).trans (w1 f hf),
        fun c hc hnil f hf => (l2.mono f).trans (w2 c hc hnil f hf)⟩
    · exact v2 idx1 hidx1 a ha

theorem H1_Heuristic.set_val (h : H1_Heuristic) (p : Nat) (v : Val) (f : Nat) :
    (h.set p v).val f = if f = p ∧ p < h.m_values.length then v else h.val f := by
  unfold H1_Heuristic.set
  by_cases hb : (!h.m_already_updated.isset p) = true
  · simp only [hb, if_true]
    simp only [H1_Heuristic.val, getD_set_val]
  · rw [if_neg hb]
    simp only [H1_Heuristic.val, getD_set_val]

/-- The last loop of `initialize`: `set( f, 0 )` for the fluents of the state. -/
theorem H1_Heuristic.init_set_loop (fs : Fluent_Vec) (h : H1_Heuristic) (hq : h.queued)
    (hn : ∀ f, 0 ≤ h.val f) :
    h.Lower (fs.foldl (fun (h : H1_Heuristic) f => h.set f 0) h) ∧
    (∀ f, 0 ≤ (fs.foldl (fun (h : H1_Heuristic) f => h.set f 0) h).val f) ∧
    ∀ f ∈ fs, f < h.m_values.length →
      (fs.foldl (fun (h : H1_Heuristic) f => h.set f 0) h).val f = 0 := by
  induction fs generalizing h with
  | nil => exact ⟨Lower.lrefl h hq, hn, fun f hf => by simp at hf⟩
  | cons g fs ih =>
    obtain ⟨l1, v1, _⟩ := h.set_spec hq g 0 (hn g)
    have n1 : ∀ f, 0 ≤ (h.set g 0).val f := by
      intro f
      rw [H1_Heuristic.set_val]
      split
      · exact le_rfl
      · exact hn f
    obtain ⟨l2, n2, v2⟩ := ih (h.set g 0) l1.queued n1
    simp only [List.foldl_cons]
    refine ⟨l1.ltrans l2, n2, ?_⟩
    intro f hf hlt
    rcases List.mem_cons.mp hf with rfl | hf
    · exact le_antisymm ((l2.mono f).trans (v1 hlt).le) (n2 f)
    · exact v2 f hf (by rw [l1.len]; exact hlt)

theorem propose_zero (opt : H1_Cost_Function) (a : Action) : opt.propose a 0 = opt.base a := by
  cases opt <;> simp [H1_Cost_Function.propose, H1_Cost_Function.base]

/-- After `initialize` the loop invariant of `compute` holds, the fluents of the state have value 0
and no value is negative. -/
theorem H1_Heuristic.initialize_inv (P : STRIPS_Problem) (hwf : P.wf)
    (hcomplete : P.empty_precs_complete)
    {eval_func : List Val → Fluent_Vec → Val → Val} (hE : EvalOK eval_func)
    (opt : H1_Cost_Function) (hcost : ∀ a ∈ P.m_actions, 0 ≤ opt.base a)
    (h : H1_Heuristic) (hs : h.sized P) (s : State) :
    ( H1_Heuristic.initialize P opt
      { h with m_already_updated := h.m_already_updated.reset, m_updated := [] } s).Inv
        P eval_func opt ∧
    (∀ f ∈ s.fluent_vec, f < P.m_num_fluents → ( H1_Heuristic.initialize P opt
      { h with m_already_updated := h.m_already_updated.reset, m_updated := [] } s).val f = 0) ∧
    ∀ f, 0 ≤ ( H1_Heuristic.initialize P opt
      { h with m_already_updated := h.m_already_updated.reset, m_updated := [] } s).val f := by
  obtain ⟨a1, a2, a3, a4⟩ := H1_Heuristic.init_values P.m_num_fluents
    { h with m_already_updated := h.m_already_updated.reset, m_updated := [] }
  simp only at a1 a2 a3 a4
  have hq1 : H1_Heuristic.queued (forLoop P.m_num_fluents (fun k (h : H1_Heuristic) =>
      { h with m_values := h.m_values.set k infty
               m_best_supporters := h.m_best_supporters.set k none })
      { h with m_already_updated := h.m_already_updated.reset, m_updated := [] }) := by
    intro q hqs
    rw [a3, isset_reset] at hqs
    cases hqs
  have htop : ∀ f, H1_Heuristic.val (forLoop P.m_num_fluents (fun k (h : H1_Heuristic) =>
      { h with m_values := h.m_values.set k infty
               m_best_supporters := h.m_best_supporters.set k none })
      { h with m_already_updated := h.m_already_updated.reset, m_updated := [] }) f = infty := by
    intro f
    rw [a4]
    split
    · rfl
    · rename_i hlt
      simp only [H1_Heuristic.val, List.getD_eq_getElem?_getD]
      rw [List.getElem?_eq_none (by rw [hs]; omega)]
      rfl
  obtain ⟨l2, n2, v2⟩ := H1_Heuristic.init_empty_loop P hwf opt hcost P.empty_prec_actions _ hq1
    (fun f => by rw [htop]; exact le_top)
    (show H1_Heuristic.sized _ P from by rw [H1_Heuristic.sized, a1]; exact hs)
  simp only at l2 n2 v2
  obtain ⟨l3, n3, v3⟩ := H1_Heuristic.init_set_loop s.fluent_vec _ l2.queued n2
  have l13 := l2.ltrans l3
  have hfin : ∀ f, H1_Heuristic.val ( H1_Heuristic.initialize P opt
      { h with m_already_updated := h.m_already_updated.reset, m_updated := [] } s) f ≠ infty →
      f ∈ ( H1_Heuristic.initialize P opt
      { h with m_already_updated := h.m_already_updated.reset, m_updated := [] } s).m_updated := by
    intro f hne
    apply l13.changed f
    rw [htop]
    exact hne
  refine ⟨⟨l3.queued, ?_, ?_⟩, ?_, n3⟩
  · show List.length _ = _
    rw [ H1_Heuristic.initialize, l13.len, a1]
    exact hs
  · intro i a ha
    by_cases hc : H1_Heuristic.Covered ( H1_Heuristic.initialize P opt
      { h with m_already_updated := h.m_already_updated.reset, m_updated := [] } s) a
    · exact Or.inr hc
    · left
      have hnofin : ∀ q, Relevant a q → H1_Heuristic.val ( H1_Heuristic.initialize P opt
          { h with m_already_updated := h.m_already_updated.reset, m_updated := [] } s) q
            = infty := by
        intro q hq
        by_contra hne
        exact hc ⟨q, hfin q hne, hq⟩
      have hevtop : ∀ (fs : Fluent_Vec) (v : Val), fs ≠ [] → (∀ q ∈ fs, Relevant a q) →
          eval_func ( H1_Heuristic.initialize P opt
          { h with m_already_updated := h.m_already_updated.reset, m_updated := [] } s).m_values
            fs v = infty := by
        intro fs v hne hrel
        by_contra hfinv
        obtain ⟨q, hq⟩ := List.exists_mem_of_ne_nil fs hne
        exact hE.finite _ fs v hfinv q hq (hnofin q (hrel q hq))
      by_cases hp : a.prec_vec = []
      · obtain ⟨w1, w2⟩ := v2 i (hcomplete i a ha hp) a ha
        refine ⟨?_, ?_⟩
        · intro f hf
          rw [hp, hE.nil, propose_zero]
          exact (l3.mono f).trans (w1 f hf)
        · intro c hcm f hf
          rw [hp, hE.nil]
          by_cases hcp : c.prec_vec = []
          · rw [hcp, hE.nil, propose_zero]
            exact (l3.mono f).trans (w2 c hcm hcp f hf)
          · rw [hevtop c.prec_vec 0 hcp (fun q hq => Or.inr ⟨c, hcm, hq⟩), propose_top]
            exact le_top
      · have hpre := hevtop a.prec_vec 0 hp (fun q hq => Or.inl hq)
        refine ⟨?_, ?_⟩
        · intro f _
          rw [hpre, propose_top]
          exact le_top
        · intro c _ f _
          rw [hpre, hE.top, propose_top]
          exact le_top
  · intro f hf hlt
    exact v3 f hf (by rw [l2.len, a1, hs]; exact hlt)

theorem gnum_grid (D : Nat) (hD : 0 < D) (n : Nat) :
    gnum D (((n : ℚ) / (D : ℚ) : ℚ) : Val) = n := by
  have hD' : (D : ℚ) ≠ 0 := by exact_mod_cast hD.ne'
  show ((((n : ℚ) / (D : ℚ)) * D).num.toNat) = n
  rw [div_mul_cancel₀ _ hD']
  simp

theorem grid_lt (D : Nat) (hD : 0 < D) (n m : Nat)
    (h : ((((n : ℚ) / (D : ℚ) : ℚ) : Val)) < (((m : ℚ) / (D : ℚ) : ℚ) : Val)) : n < m := by
  have hD' : (0 : ℚ) < D := by exact_mod_cast hD
  have h1 : (n : ℚ) / D < (m : ℚ) / D := by exact_mod_cast h
  rw [div_lt_div_iff_of_pos_right hD'] at h1
  exact_mod_cast h1

theorem coe_ne_infty (q : ℚ) : ((q : ℚ) : Val) ≠ infty := WithTop.coe_ne_top

/-- Lowering an in-range entry of a grid table to a grid value decreases the measure. -/
theorem tblLt_set (D : Nat) (hD : 0 < D) (t : List Val) (p : Nat) (n : Nat)
    (hg : ∀ v ∈ t, onGrid D v) (hp : p < t.length)
    (hlt : (((n : ℚ) / (D : ℚ) : ℚ) : Val) < t.getD p infty) :
    tblLt D (t.set p (((n : ℚ) / (D : ℚ) : ℚ) : Val)) t := by
  induction t generalizing p with
  | nil => simp at hp
  | cons v t ih =>
    cases p with
    | zero =>
      simp only [List.set_cons_zero, tblLt, tblTop, tblSum]
      have hlt' : (((n : ℚ) / (D : ℚ) : ℚ) : Val) < v := by simpa using hlt
      rw [if_neg (coe_ne_infty _)]
      rcases hg v (List.mem_cons_self _ _) with hv | ⟨m, hv⟩
      · left
        rw [if_pos hv]
        omega
      · right
        rw [hv, if_neg (coe_ne_infty _), gnum_grid D hD, gnum_grid D hD]
        rw [hv] at hlt'
        have := grid_lt D hD n m hlt'
        omega
    | succ p =>
      have hlt' : (((n : ℚ) / (D : ℚ) : ℚ) : Val) < t.getD p infty := by simpa using hlt
      have := ih p (fun w hw => hg w (List.mem_cons_of_mem _ hw)) (by simpa using hp) hlt'
      simp only [List.set_cons_succ, tblLt, tblTop, tblSum] at this ⊢
      rcases this with h1 | ⟨h1, h2⟩
      · left; omega
      · right; omega

theorem tblLt_trans (D : Nat) {a b c : List Val} (h1 : tblLt D a b) (h2 : tblLt D b c) :
    tblLt D a c := by
  unfold tblLt at *
  omega

theorem onGrid_set (D : Nat) (t : List Val) (p : Nat) (x : Val) (hx : onGrid D x)
    (hg : ∀ v ∈ t, onGrid D v) : ∀ v ∈ t.set p x, onGrid D v := by
  intro v hv
  rcases List.mem_or_eq_of_mem_set hv with h | h
  · exact hg v h
  · rw [h]; exact hx

theorem H1_Heuristic.Dec.drefl (D : Nat) (h : H1_Heuristic) (hg : h.grid D) : h.Dec D h :=
  ⟨hg, rfl, Or.inl ⟨rfl, rfl⟩⟩

theorem H1_Heuristic.Dec.dtrans {D : Nat} {h h1 h2 : H1_Heuristic} (a : h.Dec D h1)
    (b : h1.Dec D h2) : h.Dec D h2 := by
  refine ⟨b.grid, b.len.trans a.len, ?_⟩
  rcases a.dec with ⟨e1, e2⟩ | l1
  · rcases b.dec with ⟨f1, f2⟩ | l2
    · exact Or.inl ⟨f1.trans e1, f2.trans e2⟩
    · right; rw [← e1]; exact l2
  · rcases b.dec with ⟨f1, _⟩ | l2
    · right; rw [f1]; exact l1
    · exact Or.inr (tblLt_trans D l2 l1)

theorem H1_Heuristic.update_sup_dec (D : Nat) (hD : 0 < D) (h : H1_Heuristic) (hg : h.grid D)
    (p : Nat) (hp : p < h.m_values.length) (n : Nat) (a : Nat) :
    h.Dec D (h.update_sup p (((n : ℚ) / (D : ℚ) : ℚ) : Val) a) := by
  unfold H1_Heuristic.update_sup
  by_cases hge : (((n : ℚ) / (D : ℚ) : ℚ) : Val) ≥ h.m_values.getD p infty
  · rw [if_pos hge]
    exact Dec.drefl D h hg
  · rw [if_neg hge]
    have hvals : H1_Heuristic.m_values
        (if (!h.m_already_updated.isset p) = true then
            ({ h with m_values := h.m_values.set p (((n : ℚ) / (D : ℚ) : ℚ) : Val),
                      m_updated := h.m_updated ++ [p],
                      m_already_updated := h.m_already_updated.set p } : H1_Heuristic)
           else { h with m_values := h.m_values.set p (((n : ℚ) / (D : ℚ) : ℚ) : Val) }) =
        h.m_values.set p (((n : ℚ) / (D : ℚ) : ℚ) : Val) := by
      by_cases hb : (!h.m_already_updated.isset p) = true
      · simp only [hb, if_true]
      · simp only [hb]; rfl
    refine ⟨?_, ?_, Or.inr ?_⟩
    · show ∀ v ∈ H1_Heuristic.m_values _, onGrid D v
      simp only
      rw [hvals]
      exact onGrid_set D _ p _ (Or.inr ⟨n, rfl⟩) hg
    · simp only
      rw [hvals, List.length_set]
    · simp only
      rw [hvals]
      exact tblLt_set D hD h.m_values p n hg hp (not_le.mp hge)

theorem H1_Heuristic.update_sup_loop_dec (D : Nat) (hD : 0 < D) (fs : Fluent_Vec) (n : Nat)
    (a : Nat) (h : H1_Heuristic) (hg : h.grid D) (hr : ∀ f ∈ fs, f < h.m_values.length) :
    h.Dec D (fs.foldl (fun (h : H1_Heuristic) f =>
      h.update_sup f (((n : ℚ) / (D : ℚ) : ℚ) : Val) a) h) := by
  induction fs generalizing h with
  | nil => exact Dec.drefl D h hg
  | cons g fs ih =>
    have d1 := H1_Heuristic.update_sup_dec D hD h hg g (hr g (List.mem_cons_self _ _)) n a
    have d2 := ih _ d1.grid (fun f hf => by rw [d1.len]; exact hr f (List.mem_cons_of_mem _ hf))
    simp only [List.foldl_cons]
    exact d1.dtrans d2

theorem cost_den_pos (P : STRIPS_Problem) : 0 < P.cost_den := by
  unfold STRIPS_Problem.cost_den
  apply List.prod_pos
  intro d hd
  obtain ⟨a, _, rfl⟩ := List.mem_map.mp hd
  exact a.cost.den_pos

theorem cost_on_grid (P : STRIPS_Problem) (a : Action) (ha : a ∈ P.m_actions)
    (hc : 0 ≤ a.cost) : ∃ n : Nat, a.cost = (n : ℚ) / (P.cost_den : ℚ) := by
  have hdvd : a.cost.den ∣ P.cost_den :=
    List.dvd_prod (List.mem_map.mpr ⟨a, ha, rfl⟩)
  obtain ⟨k, hk⟩ := hdvd
  have hnum : 0 ≤ a.cost.num := Rat.num_nonneg.mpr hc
  refine ⟨a.cost.num.toNat * k, ?_⟩
  have hden : (a.cost.den : ℚ) ≠ 0 := by exact_mod_cast a.cost.den_pos.ne'
  have hkpos : (k : ℚ) ≠ 0 := by
    intro h0
    have : k = 0 := by exact_mod_cast h0
    have := cost_den_pos P
    rw [hk, ‹k = 0›] at this
    simp at this
  have hnumcast : ((a.cost.num.toNat : ℕ) : ℚ) = (a.cost.num : ℚ) := by
    have : ((a.cost.num.toNat : ℕ) : ℤ) = a.cost.num := Int.toNat_of_nonneg hnum
    exact_mod_cast congrArg (fun z : ℤ => (z : ℚ)) this
  rw [hk]
  push_cast
  rw [hnumcast, mul_div_mul_right _ _ hkpos]
  exact (Rat.num_div_den a.cost).symm

theorem onGrid_one (D : Nat) (hD : 0 < D) : ∃ n : Nat, (1 : ℚ) = (n : ℚ) / (D : ℚ) := by
  refine ⟨D, ?_⟩
  have : (D : ℚ) ≠ 0 := by exact_mod_cast hD.ne'
  rw [div_self this]

theorem grid_add (D : Nat) (n m : Nat) :
    ((n : ℚ) / (D : ℚ)) + ((m : ℚ) / (D : ℚ)) = ((n + m : ℕ) : ℚ) / (D : ℚ) := by
  push_cast
  rw [add_div]

/-- A proposal computed from a finite grid value is a finite grid value. -/
theorem propose_grid (P : STRIPS_Problem) (opt : H1_Cost_Function) (a : Action)
    (ha : a ∈ P.m_actions) (hc : 0 ≤ a.cost) (x : Val) (hx : onGrid P.cost_den x)
    (hfin : x ≠ infty) :
    ∃ n : Nat, opt.propose a x = (((n : ℚ) / (P.cost_den : ℚ) : ℚ) : Val) := by
  rcases hx with hx | ⟨m, hx⟩
  · exact absurd hx hfin
  · obtain ⟨c, hc'⟩ := cost_on_grid P a ha hc
    obtain ⟨o, ho⟩ := onGrid_one P.cost_den (cost_den_pos P)
    subst hx
    cases opt with
    | Ignore_Costs =>
      refine ⟨o + m, ?_⟩
      simp only [H1_Cost_Function.propose]
      rw [← grid_add, ← ho]
      norm_cast
    | Use_Costs =>
      refine ⟨c + m, ?_⟩
      simp only [H1_Cost_Function.propose]
      rw [← grid_add, ← hc']
      norm_cast
    | LAMA =>
      refine ⟨o + c + m, ?_⟩
      simp only [H1_Cost_Function.propose]
      rw [← grid_add, ← grid_add, ← hc', ← ho]
      norm_cast

theorem H_Max_gridOK : GridOK H_Max_Evaluation_Function := by
  intro D vals fs v hg hv
  rw [H_Max_eq_hmaxF]
  induction fs generalizing v with
  | nil => exact hv
  | cons f fs ih =>
    simp only [hmaxF, List.foldl_cons]
    apply ih
    have hf : onGrid D (vals.getD f infty) := by
      by_cases hlt : f < vals.length
      · rw [List.getD_eq_getElem _ _ hlt]
        exact hg _ (List.getElem_mem hlt)
      · left
        simp [List.getD_eq_getElem?_getD, List.getElem?_eq_none (Nat.le_of_not_lt hlt)]
    rcases le_total v (vals.getD f infty) with h | h
    · rw [max_eq_right h]; exact hf
    · rw [max_eq_left h]; exact hv

theorem onGrid_zero (D : Nat) : onGrid D 0 := by
  right
  exact ⟨0, by simp⟩

theorem H1_Heuristic.ceff_loop_dec (P : STRIPS_Problem)
    {eval_func : List Val → Fluent_Vec → Val → Val} (hG : GridOK eval_func)
    (opt : H1_Cost_Function) (a : Action) (ha : a ∈ P.m_actions) (hc : 0 ≤ a.cost) (i : Nat)
    (h_pre : Val) (hpre : onGrid P.cost_den h_pre) (cs : List Conditional_Effect)
    (h : H1_Heuristic) (hg : h.grid P.cost_den)
    (hr : ∀ c ∈ cs, ∀ f ∈ c.add_vec, f < h.m_values.length) :
    h.Dec P.cost_den (cs.foldl (fun (h : H1_Heuristic) (ceff : Conditional_Effect) =>
      let h_cond := eval_func h.m_values ceff.prec_vec h_pre
      if h_cond = infty then h
      else
        let v_eff := opt.propose a h_cond
        ceff.add_vec.foldl (fun (h : H1_Heuristic) f => h.update_sup f v_eff i) h) h) := by
  induction cs generalizing h with
  | nil => exact Dec.drefl _ h hg
  | cons c cs ih =>
    simp only [List.foldl_cons]
    by_cases htop : eval_func h.m_values c.prec_vec h_pre = infty
    · simp only [htop, if_true]
      exact ih h hg (fun c1 hc1 => hr c1 (List.mem_cons_of_mem _ hc1))
    · simp only [if_neg htop]
      obtain ⟨n, hn⟩ := propose_grid P opt a ha hc _ (hG _ h.m_values c.prec_vec h_pre hg hpre) htop
      rw [hn]
      have d1 := H1_Heuristic.update_sup_loop_dec P.cost_den (cost_den_pos P) c.add_vec n i h hg
        (hr c (List.mem_cons_self _ _))
      have d2 := ih _ d1.grid
        (fun c1 hc1 f hf => by rw [d1.len]; exact hr c1 (List.mem_cons_of_mem _ hc1) f hf)
      exact d1.dtrans d2

theorem H1_Heuristic.relax_action_dec (P : STRIPS_Problem) (hwf : P.wf)
    (hcost : ∀ a ∈ P.m_actions, 0 ≤ a.cost)
    {eval_func : List Val → Fluent_Vec → Val → Val} (hG : GridOK eval_func)
    (opt : H1_Cost_Function) (p i : Nat) (h : H1_Heuristic) (hg : h.grid P.cost_den)
    (hs : h.sized P) :
    h.Dec P.cost_den (H1_Heuristic.relax_action P eval_func opt p i h) := by
  unfold H1_Heuristic.relax_action
  cases hi : P.m_actions[i]? with
  | none => exact Dec.drefl _ h hg
  | some a =>
    simp only
    have hmem := getElem?_mem_of_some _ _ _ hi
    have hin := hwf.in_range a hmem
    by_cases hrel : (a.prec_isset p || a.ceff_vec.any (fun ceff => ceff.prec_isset p)) = true
    · simp only [hrel, Bool.not_true, Bool.false_eq_true, if_false]
      by_cases htop : eval_func h.m_values a.prec_vec 0 = infty
      · simp only [htop, if_true]
        exact Dec.drefl _ h hg
      · simp only [if_neg htop]
        have hpre := hG _ h.m_values a.prec_vec 0 hg (onGrid_zero _)
        obtain ⟨n, hn⟩ := propose_grid P opt a hmem (hcost a hmem) _ hpre htop
        rw [hn]
        have d1 := H1_Heuristic.update_sup_loop_dec P.cost_den (cost_den_pos P) a.add_vec n i h hg
          (fun f hf => by rw [hs]; exact hin.2.1 f hf)
        have d2 := H1_Heuristic.ceff_loop_dec P hG opt a hmem (hcost a hmem) i _ hpre a.ceff_vec
          _ d1.grid (fun c hc f hf => by rw [d1.len, hs]; exact (hin.2.2.2 c hc).2.1 f hf)
        exact d1.dtrans d2
    · simp only [hrel, Bool.not_false, if_true]
      exact Dec.drefl _ h hg

theorem H1_Heuristic.relax_loop_dec (P : STRIPS_Problem) (hwf : P.wf)
    (hcost : ∀ a ∈ P.m_actions, 0 ≤ a.cost)
    {eval_func : List Val → Fluent_Vec → Val → Val} (hG : GridOK eval_func)
    (opt : H1_Cost_Function) (p : Nat) (h : H1_Heuristic) (hg : h.grid P.cost_den)
    (hs : h.sized P) (k : Nat) :
    h.Dec P.cost_den (forLoop k (H1_Heuristic.relax_action P eval_func opt p) h) := by
  induction k with
  | zero => exact Dec.drefl _ h hg
  | succ k ih =>
    simp only [forLoop]
    exact ih.dtrans (H1_Heuristic.relax_action_dec P hwf hcost hG opt p k _ ih.grid
      (show H1_Heuristic.sized _ P from by rw [H1_Heuristic.sized, ih.len]; exact hs))

/-- The `while` loop of `compute` terminates: from any table on the cost grid some amount of fuel
suffices. -/
theorem H1_Heuristic.compute_terminates (P : STRIPS_Problem) (hwf : P.wf)
    (hcost : ∀ a ∈ P.m_actions, 0 ≤ a.cost)
    {eval_func : List Val → Fluent_Vec → Val → Val} (hG : GridOK eval_func)
    (opt : H1_Cost_Function) :
    ∀ (a b c : Nat) (h : H1_Heuristic), tblTop h.m_values = a →
      tblSum P.cost_den h.m_values = b → h.m_updated.length = c → h.grid P.cost_den →
      h.sized P → ∃ fuel h1, H1_Heuristic.compute P eval_func opt fuel h = some h1 := by
  intro a
  induction a using Nat.strong_induction_on with
  | _ a iha =>
    intro b
    induction b using Nat.strong_induction_on with
    | _ b ihb =>
      intro c
      induction c using Nat.strong_induction_on with
      | _ c ihc =>
        intro h ea eb ec hg hs
        cases hqueue : h.m_updated with
        | nil =>
          refine ⟨0, h, ?_⟩
          unfold H1_Heuristic.compute
          simp [hqueue]
        | cons p rest =>
          have d := H1_Heuristic.relax_loop_dec P hwf hcost hG opt p
            { h with m_updated := rest, m_already_updated := h.m_already_updated.unset p }
            hg hs P.m_num_actions
          have hs1 : H1_Heuristic.sized (H1_Heuristic.compute_step P eval_func opt p rest h) P := by
            show List.length _ = _
            rw [H1_Heuristic.compute_step, d.len]; exact hs
          have hrec : ∃ fuel h1, H1_Heuristic.compute P eval_func opt fuel
              (H1_Heuristic.compute_step P eval_func opt p rest h) = some h1 := by
            rcases d.dec with ⟨e1, e2⟩ | hl | ⟨hl1, hl2⟩
            · refine ihc rest.length (by rw [← ec, hqueue]; simp) _ ?_ ?_ ?_ d.grid hs1
              · rw [H1_Heuristic.compute_step, e1]; exact ea
              · rw [H1_Heuristic.compute_step, e1]; exact eb
              · rw [H1_Heuristic.compute_step, e2]
            · exact iha _ (by rw [← ea]; exact hl) _ _ _ rfl rfl rfl d.grid hs1
            · exact ihb _ (by rw [← eb]; exact hl2) _ _ (hl1.trans ea) rfl rfl d.grid hs1
          obtain ⟨fuel, h1, hres⟩ := hrec
          refine ⟨fuel + 1, h1, ?_⟩
          unfold H1_Heuristic.compute
          simp only [hqueue]
          exact hres

theorem H1_Heuristic.update_grid (D : Nat) (h : H1_Heuristic) (hg : h.grid D) (p : Nat) (v : Val)
    (hv : onGrid D v) : (h.update p v).grid D := by
  unfold H1_Heuristic.update
  by_cases hge : v ≥ h.m_values.getD p infty
  · rw [if_pos hge]; exact hg
  · rw [if_neg hge]
    by_cases hb : (!h.m_already_updated.isset p) = true
    · simp only [hb, if_true]
      exact onGrid_set D _ p v hv hg
    · simp only [hb]
      exact onGrid_set D _ p v hv hg

theorem H1_Heuristic.set_grid (D : Nat) (h : H1_Heuristic) (hg : h.grid D) (p : Nat) (v : Val)
    (hv : onGrid D v) : (h.set p v).grid D := by
  unfold H1_Heuristic.set
  by_cases hb : (!h.m_already_updated.isset p) = true
  · simp only [hb, if_true]
    exact onGrid_set D _ p v hv hg
  · simp only [hb]
    exact onGrid_set D _ p v hv hg

theorem H1_Heuristic.update_loop_grid (D : Nat) (fs : Fluent_Vec) (v : Val) (hv : onGrid D v)
    (h : H1_Heuristic) (hg : h.grid D) :
    (fs.foldl (fun (h : H1_Heuristic) f => h.update f v) h).grid D := by
  induction fs generalizing h with
  | nil => exact hg
  | cons g fs ih =>
    simp only [List.foldl_cons]
    exact ih _ (H1_Heuristic.update_grid D h hg g v hv)

theorem base_grid (P : STRIPS_Problem) (opt : H1_Cost_Function) (a : Action)
    (ha : a ∈ P.m_actions) (hc : 0 ≤ a.cost) : onGrid P.cost_den (opt.base a) := by
  obtain ⟨n, hn⟩ := propose_grid P opt a ha hc 0 (onGrid_zero _) (by
    show (0 : Val) ≠ ⊤
    exact WithTop.zero_ne_top)
  rw [propose_zero] at hn
  exact Or.inr ⟨n, hn⟩

theorem H1_Heuristic.update_len (h : H1_Heuristic) (p : Nat) (v : Val) :
    (h.update p v).m_values.length = h.m_values.length := by
  unfold H1_Heuristic.update
  by_cases hge : v ≥ h.m_values.getD p infty
  · rw [if_pos hge]
  · rw [if_neg hge]
    by_cases hb : (!h.m_already_updated.isset p) = true
    · simp only [hb, if_true, List.length_set]
    · rw [if_neg hb]
      simp only [List.length_set]

theorem H1_Heuristic.set_len (h : H1_Heuristic) (p : Nat) (v : Val) :
    (h.set p v).m_values.length = h.m_values.length := by
  unfold H1_Heuristic.set
  by_cases hb : (!h.m_already_updated.isset p) = true
  · simp only [hb, if_true, List.length_set]
  · rw [if_neg hb]
    simp only [List.length_set]

theorem foldl_len {α : Type} (step : H1_Heuristic → α → H1_Heuristic)
    (hstep : ∀ h x, (step h x).m_values.length = h.m_values.length) (xs : List α)
    (h : H1_Heuristic) : (xs.foldl step h).m_values.length = h.m_values.length := by
  induction xs generalizing h with
  | nil => rfl
  | cons x xs ih => simp only [List.foldl_cons]; rw [ih, hstep]

theorem H1_Heuristic.initialize_len (P : STRIPS_Problem) (opt : H1_Cost_Function)
    (h : H1_Heuristic) (s : State) :
    ( H1_Heuristic.initialize P opt h s).m_values.length = h.m_values.length := by
  obtain ⟨a1, _, _, _⟩ := H1_Heuristic.init_values P.m_num_fluents h
  unfold H1_Heuristic.initialize
  simp only
  rw [foldl_len _ (fun h f => H1_Heuristic.set_len h f 0), foldl_len, a1]
  intro h idx
  cases P.m_actions[idx]? with
  | none => rfl
  | some a =>
    simp only
    rw [foldl_len, foldl_len _ (fun h f => H1_Heuristic.update_len h f _)]
    intro h c
    by_cases he : (!c.prec_vec.isEmpty) = true
    · rw [if_pos he]
    · rw [if_neg he]
      exact foldl_len _ (fun h f => H1_Heuristic.update_len h f _) _ _

/-- After `initialize` every table entry is on the cost grid. -/
theorem H1_Heuristic.initialize_grid (P : STRIPS_Problem)
    (hcost : ∀ a ∈ P.m_actions, 0 ≤ a.cost) (opt : H1_Cost_Function)
    (h : H1_Heuristic) (hs : h.sized P) (s : State) :
    ( H1_Heuristic.initialize P opt h s).grid P.cost_den := by
  obtain ⟨a1, _, _, a4⟩ := H1_Heuristic.init_values P.m_num_fluents h
  have g1 : H1_Heuristic.grid P.cost_den (forLoop P.m_num_fluents (fun k (h : H1_Heuristic) =>
      { h with m_values := h.m_values.set k infty
               m_best_supporters := h.m_best_supporters.set k none }) h) := by
    intro v hv
    left
    obtain ⟨k, hk, rfl⟩ := List.getElem_of_mem hv
    have := a4 k
    rw [if_pos (by rw [a1, hs] at hk; exact hk)] at this
    simp only [H1_Heuristic.val, List.getD_eq_getElem _ _ hk] at this
    exact this
  have g2 : ∀ (idxs : List Nat) (h : H1_Heuristic), h.grid P.cost_den →
      H1_Heuristic.grid P.cost_den (idxs.foldl (fun (h : H1_Heuristic) idx =>
        match P.m_actions[idx]? with
        | none => h
        | some a =>
          let v := opt.base a
          let h3 := a.add_vec.foldl (fun (h : H1_Heuristic) f => h.update f v) h
          a.ceff_vec.foldl (fun (h : H1_Heuristic) ceff =>
            if !ceff.prec_vec.isEmpty then h
            else
              let v_eff := v
              ceff.add_vec.foldl (fun (h : H1_Heuristic) f => h.update f v_eff) h) h3) h) := by
    intro idxs
    induction idxs with
    | nil => intro h hg; exact hg
    | cons idx idxs ih =>
      intro h hg
      simp only [List.foldl_cons]
      apply ih
      cases hi : P.m_actions[idx]? with
      | none => exact hg
      | some a =>
        simp only
        have hmem := getElem?_mem_of_some _ _ _ hi
        have hb := base_grid P opt a hmem (hcost a hmem)
        have g3 := H1_Heuristic.update_loop_grid P.cost_den a.add_vec (opt.base a) hb h hg
        have g4 : ∀ (cs : List Conditional_Effect) (h : H1_Heuristic), h.grid P.cost_den →
            H1_Heuristic.grid P.cost_den (cs.foldl (fun (h : H1_Heuristic) ceff =>
              if !ceff.prec_vec.isEmpty then h
              else
                let v_eff := opt.base a
                ceff.add_vec.foldl (fun (h : H1_Heuristic) f => h.update f v_eff) h) h) := by
          intro cs
          induction cs with
          | nil => intro h hg; exact hg
          | cons c cs ihc =>
            intro h hg
            simp only [List.foldl_cons]
            apply ihc
            by_cases he : (!c.prec_vec.isEmpty) = true
            · rw [if_pos he]; exact hg
            · rw [if_neg he]
              exact H1_Heuristic.update_loop_grid P.cost_den c.add_vec _ hb h hg
        exact g4 a.ceff_vec _ g3
  have g5 : ∀ (fs : Fluent_Vec) (h : H1_Heuristic), h.grid P.cost_den →
      H1_Heuristic.grid P.cost_den (fs.foldl (fun (h : H1_Heuristic) f => h.set f 0) h) := by
    intro fs
    induction fs with
    | nil => intro h hg; exact hg
    | cons f fs ih =>
      intro h hg
      simp only [List.foldl_cons]
      exact ih _ (H1_Heuristic.set_grid P.cost_den h hg f 0 (onGrid_zero _))
  exact g5 _ _ (g2 _ _ g1)

/-- `eval` returns: for every problem with nonnegative costs some amount of fuel suffices. -/
theorem H1_Heuristic.eval_terminates (P : STRIPS_Problem) (hwf : P.wf)
    (hcost : ∀ a ∈ P.m_actions, 0 ≤ a.cost)
    {eval_func : List Val → Fluent_Vec → Val → Val} (hG : GridOK eval_func)
    (opt : H1_Cost_Function) (h : H1_Heuristic) (hs : h.sized P) (s : State) :
    ∃ fuel r, H1_Heuristic.eval P eval_func opt fuel h s = some r := by
  have hg := H1_Heuristic.initialize_grid P hcost opt
    { h with m_already_updated := h.m_already_updated.reset, m_updated := [] } hs s
  have hs1 : H1_Heuristic.sized ( H1_Heuristic.initialize P opt
      { h with m_already_updated := h.m_already_updated.reset, m_updated := [] } s) P := by
    show List.length _ = _
    rw [H1_Heuristic.initialize_len]
    exact hs
  obtain ⟨fuel, h1, hres⟩ := H1_Heuristic.compute_terminates P hwf hcost hG opt _ _ _ _
    rfl rfl rfl hg hs1
  refine ⟨fuel, (eval_func h1.m_values P.m_goal 0, h1), ?_⟩
  unfold H1_Heuristic.eval
  simp only [hres]

/-- After `make_action_tables` every empty-precondition action is listed in `empty_prec_actions`. -/
theorem make_action_tables_complete (P : STRIPS_Problem) :
    (make_action_tables P).empty_precs_complete := by
  obtain ⟨ha, _, _, _, _, _, hemp, _⟩ := make_action_tables_rows P
  intro i a hi hp
  rw [ha] at hi
  rw [STRIPS_Problem.empty_prec_actions, hemp, List.mem_append, mem_emptyRegsUpTo]
  exact Or.inr ⟨getElem?_lt_of_some _ _ _ hi, a, hi, hp⟩

theorem rooms_wf : rooms.wf := ⟨by decide, by decide⟩

theorem rooms_cost : ∀ a ∈ rooms.m_actions, 0 ≤ a.cost := by
  decide!

theorem tri_succ (n : Nat) : tri (n + 1) = tri n + (n + 1) := by
  unfold tri
  have : (n + 1) * (n + 1 + 1) = n * (n + 1) + 2 * (n + 1) := by ring
  rw [this, Nat.add_mul_div_left _ _ (by norm_num : 0 < 2)]

theorem tri_mono {n m : Nat} (h : n ≤ m) : tri n ≤ tri m := by
  induction m with
  | zero =>
    have : n = 0 := by omega
    subst this
    exact le_rfl
  | succ m ih =>
    by_cases hnm : n = m + 1
    · subst hnm; exact le_rfl
    · have := ih (by omega)
      rw [tri_succ]
      omega

theorem tri_lt_of_lt {n m : Nat} (h : n < m) : tri n + n < tri m := by
  have h1 : tri (n + 1) ≤ tri m := tri_mono h
  rw [tri_succ] at h1
  omega

theorem mul_succ_lt_pow (p : Nat) (hp : p < 65536) : p * (p + 1) < 2 ^ 32 := by
  have h1 : p * (p + 1) ≤ 65535 * 65536 := Nat.mul_le_mul (by omega) (by omega)
  have h2 : 65535 * 65536 < 2 ^ 32 := by norm_num
  omega

theorem tri_le_bound (p : Nat) (hp : p < 65536) : tri p ≤ 2147450880 := by
  have h1 : tri p ≤ tri 65535 := tri_mono (by omega)
  have h2 : tri 65535 = 2147450880 := by decide
  omega

/-- Below 65536 fluents the `unsigned` arithmetic of `pair_index` does not wrap. -/
theorem pair_index_eq (p q : Nat) (hp : p < 65536) (hq : q < 65536) :
    pair_index p q = if p ≥ q then tri p + q else tri q + p := by
  unfold pair_index
  have hb : (2 : Nat) ^ 32 = 4294967296 := by norm_num
  by_cases h : p ≥ q
  · rw [if_pos h, if_pos h, Nat.mod_eq_of_lt (mul_succ_lt_pow p hp)]
    show (tri p + q) % 2 ^ 32 = _
    have := tri_le_bound p hp
    rw [Nat.mod_eq_of_lt (by omega)]
  · rw [if_neg h, if_neg h, Nat.mod_eq_of_lt (mul_succ_lt_pow q hq)]
    show (tri q + p) % 2 ^ 32 = _
    have := tri_le_bound q hq
    rw [Nat.mod_eq_of_lt (by omega)]

theorem pair_index_comm (p q : Nat) : pair_index p q = pair_index q p := by
  unfold pair_index
  by_cases h1 : p ≥ q
  · by_cases h2 : q ≥ p
    · have : p = q := by omega
      subst this
      rfl
    · rw [if_pos h1, if_neg h2]
  · have h2 : q ≥ p := by omega
    rw [if_neg h1, if_pos h2]

theorem pair_index_max_min (p q : Nat) (hp : p < 65536) (hq : q < 65536) :
    pair_index p q = tri (max p q) + min p q := by
  rw [pair_index_eq p q hp hq]
  by_cases h : p ≥ q
  · rw [if_pos h, max_eq_left h, min_eq_right h]
  · rw [if_neg h, max_eq_right (by omega), min_eq_left (by omega)]

/-- Injectivity of `pair_index` on unordered pairs. -/
theorem pair_index_inj (p q p1 q1 : Nat) (hp : p < 65536) (hq : q < 65536) (hp1 : p1 < 65536)
    (hq1 : q1 < 65536) (h : pair_index p q = pair_index p1 q1) :
    (p = p1 ∧ q = q1) ∨ (p = q1 ∧ q = p1) := by
  rw [pair_index_max_min p q hp hq, pair_index_max_min p1 q1 hp1 hq1] at h
  have hmax : max p q = max p1 q1 := by
    by_contra hne
    rcases Nat.lt_or_gt_of_ne hne with hlt | hgt
    · have := tri_lt_of_lt hlt
      have : min p q ≤ max p q := min_le_max
      omega
    · have := tri_lt_of_lt hgt
      have : min p1 q1 ≤ max p1 q1 := min_le_max
      omega
  rw [hmax] at h
  have hmin : min p q = min p1 q1 := by omega
  rcases le_total p q with a | a <;> rcases le_total p1 q1 with b | b
  · rw [max_eq_right a, max_eq_right b] at hmax
    rw [min_eq_left a, min_eq_left b] at hmin
    exact Or.inl ⟨hmin, hmax⟩
  · rw [max_eq_right a, max_eq_left b] at hmax
    rw [min_eq_left a, min_eq_right b] at hmin
    exact Or.inr ⟨hmin, hmax⟩
  · rw [max_eq_left a, max_eq_right b] at hmax
    rw [min_eq_right a, min_eq_left b] at hmin
    exact Or.inr ⟨hmax, hmin⟩
  · rw [max_eq_left a, max_eq_left b] at hmax
    rw [min_eq_right a, min_eq_right b] at hmin
    exact Or.inl ⟨hmax, hmin⟩

theorem pair_index_lt (F p q : Nat) (hF : F < 65536) (hp : p < F) (hq : q < F) :
    pair_index p q < tri F := by
  rw [pair_index_max_min p q (by omega) (by omega)]
  have h1 : max p q < F := max_lt hp hq
  have h2 := tri_lt_of_lt h1
  have : min p q ≤ max p q := min_le_max
  omega

theorem table_size_eq (F : Nat) (hF : F < 65536) :
    ((F * F) % 2 ^ 32 + F) % 2 ^ 32 / 2 = tri F := by
  have h1 : F * F ≤ 65535 * 65535 := Nat.mul_le_mul (by omega) (by omega)
  have h2 : 65535 * 65535 + 65535 < 2 ^ 32 := by norm_num
  rw [Nat.mod_eq_of_lt (by omega), Nat.mod_eq_of_lt (by omega)]
  unfold tri
  congr 1

theorem eval_inner_eq (h : H2_Heuristic) (x : Nat) (ys : Fluent_Vec) (v : Val) :
    H2_Heuristic.eval_inner h x ys v = hmaxF (h.value x) ys v := by
  induction ys generalizing v with
  | nil => rfl
  | cons y ys ih =>
    simp only [H2_Heuristic.eval_inner, hmaxF, List.foldl_cons]
    by_cases htop : max v (h.value x y) = infty
    · rw [if_pos htop, htop]
      exact (hmaxF_top _ ys).symm
    · rw [if_neg htop, ih]
      rfl

theorem pmaxF_top (val2 : Nat → Nat → Val) (fs : Fluent_Vec) : pmaxF val2 fs ⊤ = ⊤ := by
  induction fs with
  | nil => rfl
  | cons x rest ih =>
    simp only [pmaxF]
    rw [hmaxF_top, ih]

theorem eval_outer_eq (h : H2_Heuristic) (fs : Fluent_Vec) (v : Val) :
    H2_Heuristic.eval_outer h fs v = pmaxF h.value fs v := by
  induction fs generalizing v with
  | nil => rfl
  | cons x rest ih =>
    simp only [H2_Heuristic.eval_outer, pmaxF]
    rw [eval_inner_eq]
    by_cases htop : hmaxF (h.value x) (x :: rest) v = infty
    · rw [if_pos htop, htop]
      exact (pmaxF_top _ rest).symm
    · rw [if_neg htop, ih]

theorem le_pmaxF (val2 : Nat → Nat → Val) (fs : Fluent_Vec) (v : Val) : v ≤ pmaxF val2 fs v := by
  induction fs generalizing v with
  | nil => exact le_rfl
  | cons x rest ih =>
    simp only [pmaxF]
    exact (le_hmaxF _ _ v).trans (ih _)

theorem diag_le_pmaxF (val2 : Nat → Nat → Val) (fs : Fluent_Vec) (v : Val) (x : Nat)
    (hx : x ∈ fs) : val2 x x ≤ pmaxF val2 fs v := by
  induction fs generalizing v with
  | nil => simp at hx
  | cons y rest ih =>
    simp only [pmaxF]
    rcases List.mem_cons.mp hx with rfl | hx
    · exact (mem_le_hmaxF _ _ v x (List.mem_cons_self _ _)).trans (le_pmaxF _ _ _)
    · exact ih _ hx

theorem pmaxF_le_iff (val2 : Nat → Nat → Val) (fs : Fluent_Vec) (v b : Val)
    (hb : ∀ x ∈ fs, ∀ y ∈ fs, val2 x y ≤ b) (hv : v ≤ b) : pmaxF val2 fs v ≤ b := by
  induction fs generalizing v with
  | nil => exact hv
  | cons x rest ih =>
    simp only [pmaxF]
    apply ih
    · intro a ha c hc
      exact hb a (List.mem_cons_of_mem _ ha) c (List.mem_cons_of_mem _ hc)
    · rw [hmaxF_le_iff]
      exact ⟨hv, fun f hf => hb x (List.mem_cons_self _ _) f hf⟩

theorem H2_Heuristic.value_set_value (h : H2_Heuristic) (p q : Nat) (v : Val) (p1 q1 : Nat) :
    (h.set_value p q v).value p1 q1 =
      if pair_index p1 q1 = pair_index p q ∧ pair_index p q < h.m_values.length then v
      else h.value p1 q1 := by
  simp only [H2_Heuristic.value, H2_Heuristic.set_value, getD_set_val]

theorem H2_Heuristic.value_comm (h : H2_Heuristic) (p q : Nat) : h.value p q = h.value q p := by
  simp only [H2_Heuristic.value, pair_index_comm p q]

theorem H2_Heuristic.Above.set {v1 : List Val} {F : Nat} {h : H2_Heuristic}
    (ha : H2_Heuristic.Above v1 F h) (hF : F < 65536) (p q : Nat) (hp : p < F) (hq : q < F)
    (v : Val) (h1 : v1.getD p infty ≤ v) (h2 : v1.getD q infty ≤ v) :
    H2_Heuristic.Above v1 F (h.set_value p q v) := by
  intro p1 q1 hp1 hq1
  rw [H2_Heuristic.value_set_value]
  split
  · rename_i hidx
    rcases pair_index_inj p1 q1 p q (by omega) (by omega) (by omega) (by omega) hidx.1 with
      ⟨e, _⟩ | ⟨e, _⟩
    · rw [e]; exact h1
    · rw [e]; exact h2
  · exact ha p1 q1 hp1 hq1

/-- With the pair values above `v1`, `eval( fs )` of h² is at least the max aggregation of `v1`. -/
theorem H2_Heuristic.Above.eval_vec {v1 : List Val} {F : Nat} {h : H2_Heuristic}
    (ha : H2_Heuristic.Above v1 F h) (fs : Fluent_Vec) (hr : ∀ f ∈ fs, f < F) :
    H_Max_Evaluation_Function v1 fs 0 ≤ h.eval_vec fs := by
  rw [H_Max_eq_hmaxF, hmaxF_le_iff, H2_Heuristic.eval_vec, eval_outer_eq]
  refine ⟨le_pmaxF _ _ _, fun f hf => ?_⟩
  exact (ha f f (hr f hf) (hr f hf)).trans (diag_le_pmaxF _ _ _ f hf)

theorem extra_use (a : Action) (x : Val) :
    H2_Cost_Function.Use_Costs.extra a x = x + (a.cost : Val) := by
  simp [H2_Cost_Function.extra]

theorem forLoop_inv {σ : Type} (I : σ → Prop) (body : Nat → σ → σ) (n : Nat)
    (hbody : ∀ k s, k < n → I s → I (body k s)) (s : σ) (hs : I s) : I (forLoop n body s) := by
  induction n with
  | zero => exact hs
  | succ n ih =>
    simp only [forLoop]
    exact hbody n _ (Nat.lt_succ_self n) (ih (fun k s hk => hbody k s (Nat.lt_succ_of_lt hk)))

theorem foldl_inv {σ α : Type} (I : σ → Prop) (body : σ → α → σ) (xs : List α)
    (hbody : ∀ s x, x ∈ xs → I s → I (body s x)) (s : σ) (hs : I s) : I (xs.foldl body s) := by
  induction xs generalizing s with
  | nil => exact hs
  | cons x xs ih =>
    simp only [List.foldl_cons]
    exact ih (fun s y hy => hbody s y (List.mem_cons_of_mem _ hy)) _
      (hbody s x (List.mem_cons_self _ _) hs)

theorem H2_Heuristic.relax_pair_above (v1 : List Val) (F : Nat) (hF : F < 65536)
    (action : Action) (a p q : Nat) (hm : Val) (hp : p < F) (hq : q < F)
    (h1 : v1.getD p infty ≤ (action.cost : Val) + hm)
    (h2 : v1.getD q infty ≤ (action.cost : Val) + hm)
    (st : H2_Heuristic × Bool)
    (hst : H2_Heuristic.Above v1 F st.1 ∧ hm ≤ st.1.op_value a) :
    H2_Heuristic.Above v1 F (H2_Heuristic.relax_pair .Use_Costs action a p q st).1 ∧
      hm ≤ (H2_Heuristic.relax_pair .Use_Costs action a p q st).1.op_value a := by
  unfold H2_Heuristic.relax_pair
  simp only
  by_cases h0 : st.1.value p q = 0
  · rw [if_pos h0]; exact hst
  · rw [if_neg h0]
    by_cases hlt : H2_Cost_Function.Use_Costs.extra action (st.1.op_value a) < st.1.value p q
    · rw [if_pos hlt]
      refine ⟨hst.1.set hF p q hp hq _ ?_ ?_, hst.2⟩
      · rw [extra_use, add_comm]
        exact h1.trans (add_le_add_left hst.2 _)
      · rw [extra_use, add_comm]
        exact h2.trans (add_le_add_left hst.2 _)
    · rw [if_neg hlt]; exact hst

theorem H2_Heuristic.relax_noop_above (v1 : List Val) (F : Nat) (hF : F < 65536)
    (action : Action) (hc : 0 ≤ action.cost) (a p r : Nat) (hm : Val) (hp : p < F) (hr : r < F)
    (h1 : v1.getD p infty ≤ (action.cost : Val) + hm)
    (st : H2_Heuristic × Bool)
    (hst : H2_Heuristic.Above v1 F st.1 ∧ hm ≤ st.1.op_value a) :
    H2_Heuristic.Above v1 F (H2_Heuristic.relax_noop .Use_Costs action a p r st).1 ∧
      hm ≤ (H2_Heuristic.relax_noop .Use_Costs action a p r st).1.op_value a := by
  unfold H2_Heuristic.relax_noop
  simp only
  by_cases h0 : (st.1.interferes a r || decide (st.1.value p r = 0)) = true
  · rw [if_pos h0]; exact hst
  · rw [if_neg h0]
    by_cases htop : max (st.1.op_value a) (st.1.value r r) = infty
    · rw [if_pos htop]; exact hst
    · rw [if_neg htop]
      split
      · refine ⟨hst.1.set hF p r hp hr _ ?_ ?_, hst.2⟩
        · rw [extra_use, add_comm]
          refine h1.trans (add_le_add_left ?_ _)
          exact hst.2.trans ((le_max_left _ _).trans (le_hmaxF (st.1.value r) _ _))
        · rw [extra_use]
          have hrr : v1.getD r infty ≤ st.1.value r r := hst.1 r r hr hr
          have hcost : (0 : Val) ≤ (action.cost : Val) := by exact_mod_cast hc
          calc v1.getD r infty ≤ st.1.value r r := hrr
            _ ≤ max (st.1.op_value a) (st.1.value r r) := le_max_right _ _
            _ ≤ hmaxF (st.1.value r) action.prec_vec
                  (max (st.1.op_value a) (st.1.value r r)) := le_hmaxF _ _ _
            _ ≤ _ := le_add_of_nonneg_right hcost
      · exact hst

theorem H2_Heuristic.relax_adds_above (v1 : List Val) (F : Nat) (hF : F < 65536)
    (action : Action) (hc : 0 ≤ action.cost) (a : Nat) (hm : Val) (adds : Fluent_Vec)
    (hr : ∀ f ∈ adds, f < F)
    (h1 : ∀ f ∈ adds, v1.getD f infty ≤ (action.cost : Val) + hm)
    (st : H2_Heuristic × Bool)
    (hst : H2_Heuristic.Above v1 F st.1 ∧ hm ≤ st.1.op_value a) :
    H2_Heuristic.Above v1 F (H2_Heuristic.relax_adds F .Use_Costs action a adds st).1 ∧
      hm ≤ (H2_Heuristic.relax_adds F .Use_Costs action a adds st).1.op_value a := by
  induction adds generalizing st with
  | nil => exact hst
  | cons p rest ih =>
    simp only [H2_Heuristic.relax_adds]
    apply ih (fun f hf => hr f (List.mem_cons_of_mem _ hf))
      (fun f hf => h1 f (List.mem_cons_of_mem _ hf))
    refine forLoop_inv
      (fun st : H2_Heuristic × Bool => H2_Heuristic.Above v1 F st.1 ∧ hm ≤ st.1.op_value a)
      _ _ ?_ _ ?_
    · intro r st hrF hI
      exact H2_Heuristic.relax_noop_above v1 F hF action hc a p r hm
        (hr p (List.mem_cons_self _ _)) hrF (h1 p (List.mem_cons_self _ _)) st hI
    · refine foldl_inv
        (fun st : H2_Heuristic × Bool => H2_Heuristic.Above v1 F st.1 ∧ hm ≤ st.1.op_value a)
        _ _ ?_ _ hst
      intro st q hq hI
      exact H2_Heuristic.relax_pair_above v1 F hF action a p q hm
        (hr p (List.mem_cons_self _ _)) (hr q hq) (h1 p (List.mem_cons_self _ _)) (h1 q hq) st hI

theorem H2_Heuristic.relax_pair_ops (opt : H2_Cost_Function) (action : Action) (a p q : Nat)
    (st : H2_Heuristic × Bool) :
    (H2_Heuristic.relax_pair opt action a p q st).1.m_op_values = st.1.m_op_values ∧
    (H2_Heuristic.relax_pair opt action a p q st).1.m_values.length = st.1.m_values.length ∧
    (H2_Heuristic.relax_pair opt action a p q st).1.m_interfering_ops =
      st.1.m_interfering_ops := by
  unfold H2_Heuristic.relax_pair
  simp only
  split
  · exact ⟨rfl, rfl, rfl⟩
  · split
    · exact ⟨rfl, by simp [H2_Heuristic.set_value], rfl⟩
    · exact ⟨rfl, rfl, rfl⟩

theorem H2_Heuristic.relax_noop_ops (opt : H2_Cost_Function) (action : Action) (a p r : Nat)
    (st : H2_Heuristic × Bool) :
    (H2_Heuristic.relax_noop opt action a p r st).1.m_op_values = st.1.m_op_values ∧
    (H2_Heuristic.relax_noop opt action a p r st).1.m_values.length = st.1.m_values.length ∧
    (H2_Heuristic.relax_noop opt action a p r st).1.m_interfering_ops =
      st.1.m_interfering_ops := by
  unfold H2_Heuristic.relax_noop
  simp only
  split
  · exact ⟨rfl, rfl, rfl⟩
  · split
    · exact ⟨rfl, rfl, rfl⟩
    · split
      · exact ⟨rfl, by simp [H2_Heuristic.set_value], rfl⟩
      · exact ⟨rfl, rfl, rfl⟩

theorem H2_Heuristic.relax_adds_ops (nf : Nat) (opt : H2_Cost_Function) (action : Action)
    (a : Nat) (adds : Fluent_Vec) (st : H2_Heuristic × Bool) :
    (H2_Heuristic.relax_adds nf opt action a adds st).1.m_op_values = st.1.m_op_values ∧
    (H2_Heuristic.relax_adds nf opt action a adds st).1.m_values.length =
      st.1.m_values.length ∧
    (H2_Heuristic.relax_adds nf opt action a adds st).1.m_interfering_ops =
      st.1.m_interfering_ops := by
  induction adds generalizing st with
  | nil => exact ⟨rfl, rfl, rfl⟩
  | cons p rest ih =>
    simp only [H2_Heuristic.relax_adds]
    have key1 : ∀ (qs : Fluent_Vec) (st : H2_Heuristic × Bool),
        (qs.foldl (fun st q => H2_Heuristic.relax_pair opt action a p q st) st).1.m_op_values =
          st.1.m_op_values ∧
        (qs.foldl (fun st q => H2_Heuristic.relax_pair opt action a p q st) st).1.m_values.length =
          st.1.m_values.length ∧
        (qs.foldl (fun st q => H2_Heuristic.relax_pair opt action a p q st)
          st).1.m_interfering_ops = st.1.m_interfering_ops := by
      intro qs
      induction qs with
      | nil => intro st; exact ⟨rfl, rfl, rfl⟩
      | cons q qs ihq =>
        intro st
        simp only [List.foldl_cons]
        obtain ⟨a1, a2, a3⟩ := ihq (H2_Heuristic.relax_pair opt action a p q st)
        obtain ⟨b1, b2, b3⟩ := H2_Heuristic.relax_pair_ops opt action a p q st
        exact ⟨a1.trans b1, a2.trans b2, a3.trans b3⟩
    have key2 : ∀ (n : Nat) (st : H2_Heuristic × Bool),
        (forLoop n (fun r st => H2_Heuristic.relax_noop opt action a p r st) st).1.m_op_values =
          st.1.m_op_values ∧
        (forLoop n (fun r st => H2_Heuristic.relax_noop opt action a p r st) st).1.m_values.length =
          st.1.m_values.length ∧
        (forLoop n (fun r st => H2_Heuristic.relax_noop opt action a p r st)
          st).1.m_interfering_ops = st.1.m_interfering_ops := by
      intro n st
      induction n with
      | zero => exact ⟨rfl, rfl, rfl⟩
      | succ n ihn =>
        simp only [forLoop]
        obtain ⟨a1, a2, a3⟩ := ihn
        obtain ⟨b1, b2, b3⟩ := H2_Heuristic.relax_noop_ops opt action a p n
          (forLoop n (fun r st => H2_Heuristic.relax_noop opt action a p r st) st)
        exact ⟨b1.trans a1, b2.trans a2, b3.trans a3⟩
    obtain ⟨a1, a2, a3⟩ := ih (forLoop nf (fun r st => H2_Heuristic.relax_noop opt action a p r st)
      ((p :: rest).foldl (fun st q => H2_Heuristic.relax_pair opt action a p q st) st))
    obtain ⟨b1, b2, b3⟩ := key2 nf
      ((p :: rest).foldl (fun st q => H2_Heuristic.relax_pair opt action a p q st) st)
    obtain ⟨c1, c2, c3⟩ := key1 (p :: rest) st
    exact ⟨a1.trans (b1.trans c1), a2.trans (b2.trans c2), a3.trans (b3.trans c3)⟩

theorem getD_set_self (l : List Val) (a : Nat) (x : Val) (ha : a < l.length) :
    (l.set a x).getD a infty = x := by
  rw [getD_set_val, if_pos ⟨rfl, ha⟩]

/-- One action of a pass of h² `compute` keeps the pair values above the stable h¹ table. -/
theorem H2_Heuristic.relax_action_above (P : STRIPS_Problem) (hwf : P.wf)
    (hF : P.m_num_fluents < 65536) (hcost : ∀ a ∈ P.m_actions, 0 ≤ a.cost) (v1 : List Val)
    (hst1 : ∀ (i : Nat) (a : Action), P.m_actions[i]? = some a →
      Stable H_Max_Evaluation_Function .Use_Costs v1 a)
    (a : Nat) (st : H2_Heuristic × Bool)
    (hst : H2_Heuristic.Above v1 P.m_num_fluents st.1 ∧ st.1.sized P) :
    H2_Heuristic.Above v1 P.m_num_fluents (H2_Heuristic.relax_action P .Use_Costs a st).1 ∧
      (H2_Heuristic.relax_action P .Use_Costs a st).1.sized P := by
  unfold H2_Heuristic.relax_action
  cases hi : P.m_actions[a]? with
  | none => exact hst
  | some action =>
    simp only
    have hmem := getElem?_mem_of_some _ _ _ hi
    have hin := hwf.in_range action hmem
    have ha : a < st.1.m_op_values.length := by
      rw [hst.2.ops, hwf.num_actions]
      exact getElem?_lt_of_some _ _ _ hi
    have hab1 : H2_Heuristic.Above v1 P.m_num_fluents
        { st.1 with m_op_values := st.1.m_op_values.set a (st.1.eval_vec action.prec_vec) } :=
      hst.1
    have hsz1 : H2_Heuristic.sized
        { st.1 with m_op_values := st.1.m_op_values.set a (st.1.eval_vec action.prec_vec) } P :=
      ⟨hst.2.values, by simp only [List.length_set]; exact hst.2.ops⟩
    have hop : H2_Heuristic.op_value
        { st.1 with m_op_values := st.1.m_op_values.set a (st.1.eval_vec action.prec_vec) } a =
        st.1.eval_vec action.prec_vec := by
      simp only [H2_Heuristic.op_value]
      exact getD_set_self _ _ _ ha
    split
    · exact ⟨hab1, hsz1⟩
    · obtain ⟨r1, _⟩ := H2_Heuristic.relax_adds_above v1 P.m_num_fluents hF action
        (hcost action hmem) a (H_Max_Evaluation_Function v1 action.prec_vec 0) action.add_vec
        hin.2.1 (fun f hf => (hst1 a action hi).1 f hf)
        ({ st.1 with m_op_values := st.1.m_op_values.set a (st.1.eval_vec action.prec_vec) },
          st.2)
        ⟨hab1, by rw [hop]; exact hst.1.eval_vec action.prec_vec hin.1⟩
      obtain ⟨o1, o2, _⟩ := H2_Heuristic.relax_adds_ops P.m_num_fluents .Use_Costs action a
        action.add_vec
        ({ st.1 with m_op_values := st.1.m_op_values.set a (st.1.eval_vec action.prec_vec) },
          st.2)
      exact ⟨r1, ⟨o2.trans hsz1.values, by rw [o1]; exact hsz1.ops⟩⟩

theorem H2_Heuristic.compute_above (P : STRIPS_Problem) (hwf : P.wf)
    (hF : P.m_num_fluents < 65536) (hcost : ∀ a ∈ P.m_actions, 0 ≤ a.cost) (v1 : List Val)
    (hst1 : ∀ (i : Nat) (a : Action), P.m_actions[i]? = some a →
      Stable H_Max_Evaluation_Function .Use_Costs v1 a)
    (fuel : Nat) (h h1 : H2_Heuristic)
    (hab : H2_Heuristic.Above v1 P.m_num_fluents h) (hs : h.sized P)
    (hres : H2_Heuristic.compute P .Use_Costs fuel h = some h1) :
    H2_Heuristic.Above v1 P.m_num_fluents h1 ∧ h1.sized P := by
  induction fuel generalizing h with
  | zero => simp [H2_Heuristic.compute] at hres
  | succ fuel ih =>
    have hpass : H2_Heuristic.Above v1 P.m_num_fluents
        (H2_Heuristic.compute_pass P .Use_Costs h).1 ∧
        (H2_Heuristic.compute_pass P .Use_Costs h).1.sized P := by
      unfold H2_Heuristic.compute_pass
      refine forLoop_inv
        (fun st : H2_Heuristic × Bool => H2_Heuristic.Above v1 P.m_num_fluents st.1 ∧ st.1.sized P)
        _ _ ?_ _ ⟨hab, hs⟩
      intro k st _ hI
      exact H2_Heuristic.relax_action_above P hwf hF hcost v1 hst1 k st hI
    simp only [H2_Heuristic.compute] at hres
    by_cases hfp : (H2_Heuristic.compute_pass P .Use_Costs h).2 = true
    · rw [if_pos hfp] at hres
      cases hres
      exact hpass
    · rw [if_neg hfp] at hres
      exact ih _ hpass.1 hpass.2 hres

theorem getD_replicate_infty (n i : Nat) : (List.replicate n infty).getD i infty = infty := by
  simp only [List.getD_eq_getElem?_getD, List.getElem?_replicate]
  split <;> rfl

theorem H2_Heuristic.init_pairs_inv (I : H2_Heuristic → Prop) (fs : Fluent_Vec)
    (hset : ∀ h p q, p ∈ fs → q ∈ fs → I h → I (h.set_value p q 0)) (h : H2_Heuristic)
    (hI : I h) : I (H2_Heuristic.init_pairs fs h) := by
  induction fs generalizing h with
  | nil => exact hI
  | cons p rest ih =>
    simp only [H2_Heuristic.init_pairs]
    apply ih (fun h a b ha hb => hset h a b (List.mem_cons_of_mem _ ha) (List.mem_cons_of_mem _ hb))
    refine foldl_inv I _ _ ?_ _ (hset h p p (List.mem_cons_self _ _) (List.mem_cons_self _ _) hI)
    intro h1 q hq hI1
    exact hset h1 p q (List.mem_cons_self _ _) (List.mem_cons_of_mem _ hq) hI1

/-- After `initialize` of h² the pair values are above any table that is 0 on the state. -/
theorem H2_Heuristic.initialize_above (P : STRIPS_Problem) (hF : P.m_num_fluents < 65536)
    (v1 : List Val) (h : H2_Heuristic) (hs : h.sized P) (fs : Fluent_Vec)
    (hr : ∀ f ∈ fs, f < P.m_num_fluents) (h0 : ∀ f ∈ fs, v1.getD f infty ≤ 0) :
    H2_Heuristic.Above v1 P.m_num_fluents ( H2_Heuristic.initialize h fs) ∧
      H2_Heuristic.sized ( H2_Heuristic.initialize h fs) P := by
  unfold H2_Heuristic.initialize
  simp only
  refine H2_Heuristic.init_pairs_inv
    (fun h1 : H2_Heuristic => H2_Heuristic.Above v1 P.m_num_fluents h1 ∧ h1.sized P) fs ?_ _ ?_
  · intro h1 p q hp hq hI
    refine ⟨hI.1.set hF p q (hr p hp) (hr q hq) 0 (h0 p hp) (h0 q hq), ?_, hI.2.ops⟩
    simp only [H2_Heuristic.set_value, List.length_set]
    exact hI.2.values
  · refine ⟨?_, ?_, ?_⟩
    · intro p q _ _
      simp only [H2_Heuristic.value, getD_replicate_infty]
      exact le_top
    · simp only [List.length_replicate]; exact hs.values
    · simp only [List.length_replicate]; exact hs.ops

theorem H2_Heuristic.Prog.prefl (D : Nat) (st : H2_Heuristic × Bool) (hg : st.1.grid D) :
    H2_Heuristic.Prog D st st :=
  ⟨hg, rfl, rfl, Or.inl ⟨rfl, rfl⟩⟩

theorem H2_Heuristic.Prog.ptrans {D : Nat} {st st1 st2 : H2_Heuristic × Bool}
    (a : H2_Heuristic.Prog D st st1) (b : H2_Heuristic.Prog D st1 st2) :
    H2_Heuristic.Prog D st st2 := by
  refine ⟨b.grid, b.len.trans a.len, b.ops.trans a.ops, ?_⟩
  rcases a.dec with ⟨e1, e2⟩ | ⟨l1, f1⟩
  · rcases b.dec with ⟨g1, g2⟩ | ⟨l2, f2⟩
    · exact Or.inl ⟨g1.trans e1, g2.trans e2⟩
    · right; rw [← e1]; exact ⟨l2, f2⟩
  · rcases b.dec with ⟨g1, g2⟩ | ⟨l2, f2⟩
    · right; rw [g1, g2]; exact ⟨l1, f1⟩
    · exact Or.inr ⟨tblLt_trans D l2 l1, f2⟩

theorem onGrid_getD (D : Nat) (l : List Val) (hl : ∀ v ∈ l, onGrid D v) (i : Nat) :
    onGrid D (l.getD i infty) := by
  by_cases hlt : i < l.length
  · rw [List.getD_eq_getElem _ _ hlt]
    exact hl _ (List.getElem_mem hlt)
  · left
    simp [List.getD_eq_getElem?_getD, List.getElem?_eq_none (Nat.le_of_not_lt hlt)]

theorem onGrid_max (D : Nat) (x y : Val) (hx : onGrid D x) (hy : onGrid D y) :
    onGrid D (max x y) := by
  rcases le_total x y with h | h
  · rw [max_eq_right h]; exact hy
  · rw [max_eq_left h]; exact hx

theorem onGrid_hmaxF (D : Nat) (val : Nat → Val) (hval : ∀ f, onGrid D (val f))
    (fs : Fluent_Vec) (v : Val) (hv : onGrid D v) : onGrid D (hmaxF val fs v) := by
  induction fs generalizing v with
  | nil => exact hv
  | cons f fs ih =>
    simp only [hmaxF, List.foldl_cons]
    exact ih _ (onGrid_max D _ _ hv (hval f))

theorem onGrid_pmaxF (D : Nat) (val2 : Nat → Nat → Val) (hval : ∀ p q, onGrid D (val2 p q))
    (fs : Fluent_Vec) (v : Val) (hv : onGrid D v) : onGrid D (pmaxF val2 fs v) := by
  induction fs generalizing v with
  | nil => exact hv
  | cons x rest ih =>
    simp only [pmaxF]
    exact ih _ (onGrid_hmaxF D _ (hval x) _ v hv)

theorem onGrid_add (D : Nat) (x y : Val) (hx : onGrid D x) (hy : onGrid D y) :
    onGrid D (x + y) := by
  rcases hx with hx | ⟨n, hx⟩
  · left; rw [hx]; exact top_add _
  · rcases hy with hy | ⟨m, hy⟩
    · left; rw [hy]; exact add_top _
    · right
      refine ⟨n + m, ?_⟩
      rw [hx, hy, ← grid_add]
      norm_cast

/-- The cost increment of h² keeps a value on the cost grid. -/
theorem extra_grid (P : STRIPS_Problem) (opt : H2_Cost_Function) (a : Action)
    (ha : a ∈ P.m_actions) (hc : 0 ≤ a.cost) (x : Val) (hx : onGrid P.cost_den x) :
    onGrid P.cost_den (opt.extra a x) := by
  have hone : onGrid P.cost_den 1 := by
    obtain ⟨o, ho⟩ := onGrid_one P.cost_den (cost_den_pos P)
    right
    refine ⟨o, ?_⟩
    rw [← ho]
    rfl
  have hcg : onGrid P.cost_den (a.cost : Val) := by
    obtain ⟨c, hc'⟩ := cost_on_grid P a ha hc
    right
    exact ⟨c, by rw [← hc']⟩
  unfold H2_Cost_Function.extra
  simp only
  split
  · split
    · exact onGrid_add _ _ _ (onGrid_add _ _ _ hx hone) hcg
    · exact onGrid_add _ _ _ hx hcg
  · split
    · exact onGrid_add _ _ _ hx hone
    · exact hx

theorem H2_Heuristic.set_value_prog (D : Nat) (hD : 0 < D) (st : H2_Heuristic × Bool)
    (hg : st.1.grid D) (p q : Nat) (hidx : pair_index p q < st.1.m_values.length) (v : Val)
    (hv : onGrid D v) (hlt : v < st.1.value p q) :
    H2_Heuristic.Prog D st (st.1.set_value p q v, false) := by
  have hfin : v ≠ infty := fun h => by
    rw [h] at hlt
    exact not_top_lt hlt
  rcases hv with hv | ⟨n, hv⟩
  · exact absurd hv hfin
  · subst hv
    refine ⟨⟨onGrid_set D _ _ _ (Or.inr ⟨n, rfl⟩) hg.1, hg.2⟩, ?_, rfl, Or.inr ⟨?_, rfl⟩⟩
    · simp [H2_Heuristic.set_value]
    · exact tblLt_set D hD st.1.m_values (pair_index p q) n hg.1 hidx hlt

theorem H2_Heuristic.value_grid (D : Nat) (h : H2_Heuristic) (hg : h.grid D) (p q : Nat) :
    onGrid D (h.value p q) := onGrid_getD D _ hg.1 _

theorem H2_Heuristic.relax_pair_prog (P : STRIPS_Problem) (opt : H2_Cost_Function)
    (action : Action) (hmem : action ∈ P.m_actions) (hc : 0 ≤ action.cost) (a p q : Nat)
    (st : H2_Heuristic × Bool) (hg : st.1.grid P.cost_den)
    (hidx : pair_index p q < st.1.m_values.length) :
    H2_Heuristic.Prog P.cost_den st (H2_Heuristic.relax_pair opt action a p q st) := by
  unfold H2_Heuristic.relax_pair
  simp only
  split
  · exact Prog.prefl _ st hg
  · split
    · rename_i hlt
      exact H2_Heuristic.set_value_prog _ (cost_den_pos P) st hg p q hidx _
        (extra_grid P opt action hmem hc _ (onGrid_getD _ _ hg.2 _)) hlt
    · exact Prog.prefl _ st hg

theorem H2_Heuristic.relax_noop_prog (P : STRIPS_Problem) (opt : H2_Cost_Function)
    (action : Action) (hmem : action ∈ P.m_actions) (hc : 0 ≤ action.cost) (a p r : Nat)
    (st : H2_Heuristic × Bool) (hg : st.1.grid P.cost_den)
    (hidx : pair_index p r < st.1.m_values.length) :
    H2_Heuristic.Prog P.cost_den st (H2_Heuristic.relax_noop opt action a p r st) := by
  unfold H2_Heuristic.relax_noop
  simp only
  split
  · exact Prog.prefl _ st hg
  · split
    · exact Prog.prefl _ st hg
    · split
      · rename_i hlt
        refine H2_Heuristic.set_value_prog _ (cost_den_pos P) st hg p r hidx _
          (extra_grid P opt action hmem hc _ ?_) hlt
        exact onGrid_hmaxF _ _ (fun f => H2_Heuristic.value_grid _ _ hg r f) _ _
          (onGrid_max _ _ _ (onGrid_getD _ _ hg.2 _) (H2_Heuristic.value_grid _ _ hg r r))
      · exact Prog.prefl _ st hg

theorem H2_Heuristic.relax_adds_prog (P : STRIPS_Problem) (hF : P.m_num_fluents < 65536)
    (opt : H2_Cost_Function) (action : Action) (hmem : action ∈ P.m_actions)
    (hc : 0 ≤ action.cost) (a : Nat) (adds : Fluent_Vec)
    (hr : ∀ f ∈ adds, f < P.m_num_fluents) (st : H2_Heuristic × Bool)
    (hg : st.1.grid P.cost_den) (hlen : st.1.m_values.length = tri P.m_num_fluents) :
    H2_Heuristic.Prog P.cost_den st
      (H2_Heuristic.relax_adds P.m_num_fluents opt action a adds st) := by
  induction adds generalizing st with
  | nil => exact Prog.prefl _ st hg
  | cons p rest ih =>
    simp only [H2_Heuristic.relax_adds]
    have hp := hr p (List.mem_cons_self _ _)
    have key1 : ∀ (qs : Fluent_Vec), (∀ q ∈ qs, q < P.m_num_fluents) →
        ∀ (st : H2_Heuristic × Bool), st.1.grid P.cost_den →
        st.1.m_values.length = tri P.m_num_fluents →
        H2_Heuristic.Prog P.cost_den st
          (qs.foldl (fun st q => H2_Heuristic.relax_pair opt action a p q st) st) := by
      intro qs
      induction qs with
      | nil => intro _ st hg _; exact Prog.prefl _ st hg
      | cons q qs ihq =>
        intro hq st hg hlen
        simp only [List.foldl_cons]
        have s1 := H2_Heuristic.relax_pair_prog P opt action hmem hc a p q st hg
          (by rw [hlen]; exact pair_index_lt _ p q hF hp (hq q (List.mem_cons_self _ _)))
        exact s1.ptrans (ihq (fun x hx => hq x (List.mem_cons_of_mem _ hx)) _ s1.grid
          (s1.len.trans hlen))
    have key2 : ∀ (n : Nat), n ≤ P.m_num_fluents →
        ∀ (st : H2_Heuristic × Bool), st.1.grid P.cost_den →
        st.1.m_values.length = tri P.m_num_fluents →
        H2_Heuristic.Prog P.cost_den st
          (forLoop n (fun r st => H2_Heuristic.relax_noop opt action a p r st) st) := by
      intro n
      induction n with
      | zero => intro _ st hg _; exact Prog.prefl _ st hg
      | succ n ihn =>
        intro hn st hg hlen
        simp only [forLoop]
        have s1 := ihn (by omega) st hg hlen
        exact s1.ptrans (H2_Heuristic.relax_noop_prog P opt action hmem hc a p n _ s1.grid
          (by rw [s1.len, hlen]; exact pair_index_lt _ p n hF hp (by omega)))
    have s1 := key1 (p :: rest) hr st hg hlen
    have s2 := key2 P.m_num_fluents le_rfl _ s1.grid (s1.len.trans hlen)
    have s3 := ih (fun f hf => hr f (List.mem_cons_of_mem _ hf)) _ s2.grid
      (s2.len.trans (s1.len.trans hlen))
    exact s1.ptrans (s2.ptrans s3)

theorem H2_Heuristic.relax_action_prog (P : STRIPS_Problem) (hwf : P.wf)
    (hF : P.m_num_fluents < 65536) (hcost : ∀ a ∈ P.m_actions, 0 ≤ a.cost)
    (opt : H2_Cost_Function) (a : Nat) (st : H2_Heuristic × Bool)
    (hg : st.1.grid P.cost_den) (hlen : st.1.m_values.length = tri P.m_num_fluents) :
    H2_Heuristic.Prog P.cost_den st (H2_Heuristic.relax_action P opt a st) := by
  unfold H2_Heuristic.relax_action
  cases hi : P.m_actions[a]? with
  | none => exact Prog.prefl _ st hg
  | some action =>
    simp only
    have hmem := getElem?_mem_of_some _ _ _ hi
    have hin := hwf.in_range action hmem
    have hev : onGrid P.cost_den (st.1.eval_vec action.prec_vec) := by
      rw [H2_Heuristic.eval_vec, eval_outer_eq]
      exact onGrid_pmaxF _ _ (fun p q => H2_Heuristic.value_grid _ _ hg p q) _ _ (onGrid_zero _)
    have s0 : H2_Heuristic.Prog P.cost_den st
        ({ st.1 with m_op_values := st.1.m_op_values.set a (st.1.eval_vec action.prec_vec) },
          st.2) :=
      ⟨⟨hg.1, onGrid_set _ _ _ _ hev hg.2⟩, rfl, by simp, Or.inl ⟨rfl, rfl⟩⟩
    split
    · exact s0
    · exact s0.ptrans (H2_Heuristic.relax_adds_prog P hF opt action hmem (hcost action hmem) a
        action.add_vec hin.2.1 _ s0.grid (s0.len.trans hlen))

theorem H2_Heuristic.compute_pass_prog (P : STRIPS_Problem) (hwf : P.wf)
    (hF : P.m_num_fluents < 65536) (hcost : ∀ a ∈ P.m_actions, 0 ≤ a.cost)
    (opt : H2_Cost_Function) (h : H2_Heuristic)
    (hg : h.grid P.cost_den) (hlen : h.m_values.length = tri P.m_num_fluents) :
    H2_Heuristic.Prog P.cost_den (h, true) (H2_Heuristic.compute_pass P opt h) := by
  unfold H2_Heuristic.compute_pass
  generalize P.m_num_actions = n
  induction n with
  | zero => exact Prog.prefl _ _ hg
  | succ n ih =>
    simp only [forLoop]
    exact ih.ptrans (H2_Heuristic.relax_action_prog P hwf hF hcost opt n _ ih.grid
      (ih.len.trans hlen))

/-- The `do … while` loop of h² `compute` terminates on every table on the cost grid. -/
theorem H2_Heuristic.h2_compute_terminates (P : STRIPS_Problem) (hwf : P.wf)
    (hF : P.m_num_fluents < 65536) (hcost : ∀ a ∈ P.m_actions, 0 ≤ a.cost)
    (opt : H2_Cost_Function) :
    ∀ (a b : Nat) (h : H2_Heuristic), tblTop h.m_values = a →
      tblSum P.cost_den h.m_values = b → h.grid P.cost_den →
      h.m_values.length = tri P.m_num_fluents →
      ∃ fuel h1, H2_Heuristic.compute P opt fuel h = some h1 := by
  intro a
  induction a using Nat.strong_induction_on with
  | _ a iha =>
    intro b
    induction b using Nat.strong_induction_on with
    | _ b ihb =>
      intro h ea eb hg hlen
      have d := H2_Heuristic.compute_pass_prog P hwf hF hcost opt h hg hlen
      by_cases hfp : (H2_Heuristic.compute_pass P opt h).2 = true
      · refine ⟨1, (H2_Heuristic.compute_pass P opt h).1, ?_⟩
        simp only [H2_Heuristic.compute, hfp, if_true]
      · have hrec : ∃ fuel h1, H2_Heuristic.compute P opt fuel
            (H2_Heuristic.compute_pass P opt h).1 = some h1 := by
          rcases d.dec with ⟨_, e2⟩ | ⟨hl | ⟨hl1, hl2⟩, _⟩
          · exact absurd e2 hfp
          · exact iha _ (by rw [← ea]; exact hl) _ _ rfl rfl d.grid (d.len.trans hlen)
          · exact ihb _ (by rw [← eb]; exact hl2) _ (hl1.trans ea) rfl d.grid (d.len.trans hlen)
        obtain ⟨fuel, h1, hres⟩ := hrec
        refine ⟨fuel + 1, h1, ?_⟩
        simp only [H2_Heuristic.compute, hfp]
        exact hres

/-- What `eval` of h¹ leaves behind when it returns: a table that is stable for every action and
at most 0 on the fluents of the state, and the aggregated goal value. -/
theorem H1_Heuristic.eval_result (P : STRIPS_Problem) (hwf : P.wf)
    (hcomplete : P.empty_precs_complete)
    {eval_func : List Val → Fluent_Vec → Val → Val} (hE : EvalOK eval_func)
    (opt : H1_Cost_Function) (hcost : ∀ a ∈ P.m_actions, 0 ≤ opt.base a)
    (h : H1_Heuristic) (hs : h.sized P) (s : State)
    (hsr : ∀ f ∈ s.fluent_vec, f < P.m_num_fluents) (fuel : Nat) (r : Val × H1_Heuristic)
    (hres : H1_Heuristic.eval P eval_func opt fuel h s = some r) :
    (∀ (i : Nat) (a : Action), P.m_actions[i]? = some a → Stable eval_func opt r.2.m_values a) ∧
    (∀ f ∈ s.fluent_vec, r.2.m_values.getD f infty ≤ 0) ∧
    r.1 = eval_func r.2.m_values P.m_goal 0 ∧ r.2.sized P := by
  unfold H1_Heuristic.eval at hres
  simp only at hres
  obtain ⟨i0, z0, _⟩ := H1_Heuristic.initialize_inv P hwf hcomplete hE opt hcost h hs s
  cases hc : H1_Heuristic.compute P eval_func opt fuel
      ( H1_Heuristic.initialize P opt
        { h with m_already_updated := h.m_already_updated.reset, m_updated := [] } s) with
  | none => simp [hc] at hres
  | some h2 =>
    simp only [hc, Option.some.injEq] at hres
    subst hres
    obtain ⟨i2, e2, m2⟩ := H1_Heuristic.compute_spec P hwf hE opt fuel _ h2 i0 hc
    refine ⟨?_, ?_, rfl, i2.sized⟩
    · intro i a ha
      rcases i2.settled i a ha with hst | ⟨q, hq, _⟩
      · exact hst
      · rw [e2] at hq
        cases hq
    · intro f hf
      exact (m2 f).trans (z0 f hf (hsr f hf)).le

theorem H2_Heuristic.h2_initialize_grid (D : Nat) (h : H2_Heuristic) (fs : Fluent_Vec) :
    H2_Heuristic.grid D ( H2_Heuristic.initialize h fs) := by
  unfold H2_Heuristic.initialize
  simp only
  refine H2_Heuristic.init_pairs_inv (fun h1 : H2_Heuristic => h1.grid D) fs ?_ _ ?_
  · intro h1 p q _ _ hI
    exact ⟨onGrid_set D _ _ _ (onGrid_zero D) hI.1, hI.2⟩
  · refine ⟨?_, ?_⟩
    · intro v hv
      left
      exact (List.mem_replicate.mp hv).2
    · intro v hv
      left
      exact (List.mem_replicate.mp hv).2

/-- `eval` of h² returns: some amount of fuel suffices. -/
theorem H2_Heuristic.h2_eval_terminates (P : STRIPS_Problem) (hwf : P.wf)
    (hF : P.m_num_fluents < 65536) (hcost : ∀ a ∈ P.m_actions, 0 ≤ a.cost)
    (opt : H2_Cost_Function) (h : H2_Heuristic) (hs : h.sized P) (s : State)
    (hsr : ∀ f ∈ s.fluent_vec, f < P.m_num_fluents) :
    ∃ fuel r, H2_Heuristic.eval P opt fuel h s = some r := by
  have hg := H2_Heuristic.h2_initialize_grid P.cost_den h s.fluent_vec
  have hsz := (H2_Heuristic.initialize_above P hF (List.replicate P.m_num_fluents 0) h hs
    s.fluent_vec hsr (fun f hf => by
      rw [List.getD_eq_getElem _ _ (by rw [List.length_replicate]; exact hsr f hf)]
      simp)).2
  obtain ⟨fuel, h1, hres⟩ := H2_Heuristic.h2_compute_terminates P hwf hF hcost opt _ _ _ rfl rfl hg
    hsz.values
  refine ⟨fuel, (h1.eval_vec P.m_goal, h1), ?_⟩
  unfold H2_Heuristic.eval
  simp only [hres]

/-- C4: h² dominates h_max.  For a well-formed problem with nonnegative costs (fewer than 65536
fluents, so that `pair_index` does not wrap) and every state `s`, both `eval`s return, and every
value returned by `H2_Heuristic::eval` (cost option `Use_Costs`) is at least every value returned by
`H1_Heuristic::eval` with max aggregation and `Use_Costs`. -/
theorem h2_ge_h_max (P : STRIPS_Problem) (hwf : P.wf) (hF : P.m_num_fluents < 65536)
    (hcomplete : P.empty_precs_complete) (hcost : ∀ a ∈ P.m_actions, 0 ≤ a.cost)
    (hgoal : ∀ g ∈ P.m_goal, g < P.m_num_fluents)
    (h1 : H1_Heuristic) (hs1 : h1.sized P) (h2 : H2_Heuristic) (hs2 : h2.sized P) (s : State)
    (hsr : ∀ f ∈ s.fluent_vec, f < P.m_num_fluents) :
    (∃ fuel r, H1_Heuristic.eval P H_Max_Evaluation_Function .Use_Costs fuel h1 s = some r) ∧
    (∃ fuel r, H2_Heuristic.eval P .Use_Costs fuel h2 s = some r) ∧
    ∀ fuel1 fuel2 r1 r2,
      H1_Heuristic.eval P H_Max_Evaluation_Function .Use_Costs fuel1 h1 s = some r1 →
      H2_Heuristic.eval P .Use_Costs fuel2 h2 s = some r2 → r1.1 ≤ r2.1 := by
  refine ⟨H1_Heuristic.eval_terminates P hwf hcost H_Max_gridOK .Use_Costs h1 hs1 s,
    H2_Heuristic.h2_eval_terminates P hwf hF hcost .Use_Costs h2 hs2 s hsr, ?_⟩
  intro fuel1 fuel2 r1 r2 e1 e2
  obtain ⟨hst, hzero, hval, _⟩ := H1_Heuristic.eval_result P hwf hcomplete H_Max_ok .Use_Costs
    (fun a ha => by
      simp only [H1_Cost_Function.base]
      exact_mod_cast hcost a ha) h1 hs1 s hsr fuel1 r1 e1
  unfold H2_Heuristic.eval at e2
  simp only at e2
  obtain ⟨ab0, sz0⟩ := H2_Heuristic.initialize_above P hF r1.2.m_values h2 hs2 s.fluent_vec hsr
    hzero
  cases hc : H2_Heuristic.compute P .Use_Costs fuel2 ( H2_Heuristic.initialize h2 s.fluent_vec) with
  | none => simp [hc] at e2
  | some h3 =>
    simp only [hc, Option.some.injEq] at e2
    subst e2
    obtain ⟨ab1, _⟩ := H2_Heuristic.compute_above P hwf hF hcost r1.2.m_values hst fuel2 _ h3
      ab0 sz0 hc
    rw [hval]
    exact ab1.eval_vec P.m_goal hgoal

theorem rooms_goal : ∀ g ∈ rooms.m_goal, g < rooms.m_num_fluents := by decide

theorem rooms_h2_sized : (H2_Heuristic.new rooms).sized rooms := ⟨by decide, by decide⟩

/-- Witness for C4 on the three-room problem, from the kitchen. -/
theorem h2_ge_h_max_witness :
    (∃ fuel r, H1_Heuristic.eval rooms H_Max_Evaluation_Function .Use_Costs fuel
      (H1_Heuristic.new rooms) ⟨[0]⟩ = some r) ∧
    (∃ fuel r, H2_Heuristic.eval rooms .Use_Costs fuel (H2_Heuristic.new rooms) ⟨[0]⟩ = some r) ∧
    ∀ fuel1 fuel2 r1 r2,
      H1_Heuristic.eval rooms H_Max_Evaluation_Function .Use_Costs fuel1
        (H1_Heuristic.new rooms) ⟨[0]⟩ = some r1 →
      H2_Heuristic.eval rooms .Use_Costs fuel2 (H2_Heuristic.new rooms) ⟨[0]⟩ = some r2 →
      r1.1 ≤ r2.1 :=
  h2_ge_h_max rooms rooms_wf (by decide) (make_action_tables_complete _) rooms_cost rooms_goal
    (H1_Heuristic.new rooms) (by unfold H1_Heuristic.sized; decide) (H2_Heuristic.new rooms)
    rooms_h2_sized ⟨[0]⟩ (by decide)

theorem H2_Heuristic.edel_add_loop_eq (h : H2_Heuristic) (a p : Nat) (qs : Fluent_Vec)
    (prob : STRIPS_Problem) :
    H2_Heuristic.edel_add_loop h a p qs prob =
      if qs.any (fun q => decide (h.value p q = infty)) then (record_edelete prob a p, true)
      else (prob, false) := by
  induction qs with
  | nil => rfl
  | cons q rest ih =>
    simp only [H2_Heuristic.edel_add_loop, List.any_cons]
    by_cases hq : h.value p q = infty
    · simp [hq]
    · simp [hq, ih]

theorem H2_Heuristic.edel_prec_loop_eq (h : H2_Heuristic) (action : Action) (a p : Nat)
    (rs : Fluent_Vec) (prob : STRIPS_Problem) :
    H2_Heuristic.edel_prec_loop h action a p rs prob =
      if (!action.add_isset p && rs.any (fun r => decide (h.value p r = infty))) then
        record_edelete prob a p
      else prob := by
  induction rs with
  | nil => simp [H2_Heuristic.edel_prec_loop]
  | cons r rest ih =>
    simp only [H2_Heuristic.edel_prec_loop, List.any_cons]
    by_cases hadd : action.add_isset p = true
    · simp [hadd, ih]
    · by_cases hr : h.value p r = infty
      · simp [hadd, hr]
      · simp [hadd, hr, ih]

/-- The body of the double loop of `compute_edeletes` records the e-delete exactly when the
condition holds, provided the bit of `p` is still clear. -/
theorem H2_Heuristic.edel_step_eq (h : H2_Heuristic) (p a : Nat) (prob : STRIPS_Problem)
    (action : Action) (ha : prob.m_actions[a]? = some action)
    (hclear : action.edel_set.isset p = false) (hp : p < action.edel_set.bits.length) :
    H2_Heuristic.edel_step h p a prob =
      if h.edel_cond action p then record_edelete prob a p else prob := by
  have halt := getElem?_lt_of_some _ _ _ ha
  unfold H2_Heuristic.edel_step
  simp only [ha, H2_Heuristic.edel_add_loop_eq, H2_Heuristic.edel_prec_loop_eq,
    H2_Heuristic.edel_cond]
  by_cases h1 : action.add_vec.any (fun q => decide (h.value p q = infty)) = true
  · simp [h1]
  · simp only [h1, Bool.false_eq_true, if_false, Bool.false_or]
    by_cases h2 : (!action.add_isset p &&
        action.prec_vec.any (fun r => decide (h.value p r = infty))) = true
    · simp only [h2, if_true, Bool.true_or]
      have hrec : (record_edelete prob a p).m_actions[a]? =
          some { action with edel_vec := action.edel_vec ++ [p],
                             edel_set := action.edel_set.set p } := by
        simp only [record_edelete, ha]
        rw [List.getElem?_set_self halt]
      rw [hrec]
      simp only
      have : (action.edel_set.set p).isset p = true := by
        rw [isset_set]
        simp [hp]
      simp [this]
    · simp only [h2, Bool.false_eq_true, if_false, Bool.false_or, ha, hclear, Bool.not_false,
        Bool.true_and]

theorem edel_cond_static (h : H2_Heuristic) (act act1 : Action) (hs : act.same_static act1)
    (p : Nat) : h.edel_cond act1 p = h.edel_cond act p := by
  unfold Action.same_static at hs
  rw [hs]
  rfl

theorem H2_Heuristic.edelOf_succ (h : H2_Heuristic) (act : Action) (n : Nat) :
    h.edelOf act (n + 1) = h.edelOf act n ++ (if h.edel_cond act n then [n] else []) := by
  simp only [H2_Heuristic.edelOf, List.range_succ, List.filter_append, List.filter_cons,
    List.filter_nil]

theorem H2_Heuristic.mem_edelOf (h : H2_Heuristic) (act : Action) (n p : Nat) :
    p ∈ h.edelOf act n ↔ p < n ∧ h.edel_cond act p = true := by
  simp [H2_Heuristic.edelOf]

theorem H2_Heuristic.edeletingOf_succ (h : H2_Heuristic) (acts : List Action) (p m : Nat) :
    h.edeletingOf acts p (m + 1) = h.edeletingOf acts p m ++
      (if (match acts[m]? with
           | some act => h.edel_cond act p
           | none => false) then [m] else []) := by
  simp only [H2_Heuristic.edeletingOf, List.range_succ, List.filter_append, List.filter_cons,
    List.filter_nil]

/-- One step of the inner loop of `compute_edeletes` advances the invariant. -/
theorem H2_Heuristic.EdelInv.step {h : H2_Heuristic} {P Q : STRIPS_Problem} {n m : Nat}
    (inv : h.EdelInv P Q n m) (hn : n < P.m_num_fluents) (hm : m < P.m_actions.length) :
    h.EdelInv P (H2_Heuristic.edel_step h n m Q) n (m + 1) := by
  have hget : P.m_actions[m]? = some P.m_actions[m] := List.getElem?_eq_getElem hm
  obtain ⟨act1, hq, hstat, hvec, hbits, hiff⟩ := inv.acts m _ hget
  rw [if_neg (Nat.lt_irrefl m)] at hvec
  have hclear : act1.edel_set.isset n = false := by
    by_contra hne
    have h1 : act1.edel_set.isset n = true := by simpa using hne
    have h2 := (hiff n).mp h1
    rw [hvec, H2_Heuristic.mem_edelOf] at h2
    exact Nat.lt_irrefl n h2.1
  rw [H2_Heuristic.edel_step_eq h n m Q act1 hq hclear (by rw [hbits]; exact hn),
    edel_cond_static h _ act1 hstat]
  have hmQ : m < Q.m_actions.length := by rw [inv.len]; exact hm
  by_cases hc : h.edel_cond P.m_actions[m] n = true
  · rw [if_pos hc]
    have hrec : record_edelete Q m n =
        { Q with
          m_actions := Q.m_actions.set m
            { act1 with edel_vec := act1.edel_vec ++ [n], edel_set := act1.edel_set.set n }
          m_edeleting := push_at Q.m_edeleting n m } := by
      simp only [record_edelete, hq]
    rw [hrec]
    refine ⟨inv.num_fluents, inv.num_actions, ?_, ?_, ?_, ?_⟩
    · simp only [List.length_set]; exact inv.len
    · simp only [length_push_at]; exact inv.rows
    · intro i act hi
      by_cases him : i = m
      · subst him
        rw [hget] at hi
        cases hi
        refine ⟨{ act1 with edel_vec := act1.edel_vec ++ [n], edel_set := act1.edel_set.set n },
          ?_, ?_, ?_, ?_, ?_⟩
        · simp only
          rw [List.getElem?_set_self hmQ]
        · unfold Action.same_static at hstat ⊢
          rw [hstat]
        · simp only
          rw [if_pos (Nat.lt_succ_self i), H2_Heuristic.edelOf_succ, if_pos hc, hvec]
        · simp only [Bit_Set.set, List.length_set]
          exact hbits
        · intro p
          simp only [isset_set, Bool.or_eq_true, decide_eq_true_eq, List.mem_append,
            List.mem_singleton, hiff p, hbits]
          constructor
          · rintro (⟨rfl, _⟩ | h1)
            · exact Or.inr rfl
            · exact Or.inl h1
          · rintro (h1 | rfl)
            · exact Or.inr h1
            · exact Or.inl ⟨rfl, hn⟩
      · obtain ⟨act2, hq2, hstat2, hvec2, hbits2, hiff2⟩ := inv.acts i act hi
        refine ⟨act2, ?_, hstat2, ?_, hbits2, hiff2⟩
        · simp only
          rw [List.getElem?_set_ne (fun e => him e.symm)]
          exact hq2
        · rw [hvec2]
          by_cases hlt : i < m
          · rw [if_pos hlt, if_pos (by omega)]
          · rw [if_neg hlt, if_neg (by omega)]
    · intro p
      simp only
      rw [row_push_at, inv.table p]
      by_cases hpn : p = n
      · subst hpn
        rw [if_pos ⟨rfl, by rw [inv.rows]; exact hn⟩, if_neg (Nat.lt_irrefl p),
          if_pos rfl, if_neg (Nat.lt_irrefl p), if_pos rfl, H2_Heuristic.edeletingOf_succ, hget]
        simp only [hc, if_true]
      · rw [if_neg (fun hh => hpn hh.1), if_neg hpn, if_neg hpn]
  · rw [if_neg hc]
    refine ⟨inv.num_fluents, inv.num_actions, inv.len, inv.rows, ?_, ?_⟩
    · intro i act hi
      obtain ⟨act2, hq2, hstat2, hvec2, hbits2, hiff2⟩ := inv.acts i act hi
      refine ⟨act2, hq2, hstat2, ?_, hbits2, hiff2⟩
      rw [hvec2]
      by_cases him : i = m
      · subst him
        rw [hget] at hi
        cases hi
        rw [if_neg (Nat.lt_irrefl i), if_pos (Nat.lt_succ_self i), H2_Heuristic.edelOf_succ,
          if_neg hc, List.append_nil]
      · by_cases hlt : i < m
        · rw [if_pos hlt, if_pos (by omega)]
        · rw [if_neg hlt, if_neg (by omega)]
    · intro p
      rw [inv.table p]
      by_cases hpn : p = n
      · subst hpn
        rw [if_neg (Nat.lt_irrefl p), if_pos rfl, if_pos rfl, H2_Heuristic.edeletingOf_succ, hget]
        simp only [hc, Bool.false_eq_true, if_false, List.append_nil]
        rw [if_neg (Nat.lt_irrefl p)]
      · by_cases hlt : p < n
        · rw [if_pos hlt, if_pos hlt]
        · rw [if_neg hlt, if_neg hlt, if_neg hpn, if_neg hpn]

theorem H2_Heuristic.EdelInv.inner {h : H2_Heuristic} {P Q : STRIPS_Problem} {n : Nat}
    (inv : h.EdelInv P Q n 0) (hn : n < P.m_num_fluents) (m : Nat) (hm : m ≤ P.m_actions.length) :
    h.EdelInv P (forLoop m (fun a prob2 => H2_Heuristic.edel_step h n a prob2) Q) n m := by
  induction m with
  | zero => exact inv
  | succ m ih =>
    simp only [forLoop]
    exact (ih (by omega)).step hn (by omega)

theorem H2_Heuristic.EdelInv.next {h : H2_Heuristic} {P Q : STRIPS_Problem} {n : Nat}
    (hwf : P.wf) (inv : h.EdelInv P Q n P.m_actions.length) : h.EdelInv P Q (n + 1) 0 := by
  refine ⟨inv.num_fluents, inv.num_actions, inv.len, inv.rows, ?_, ?_⟩
  · intro i act hi
    obtain ⟨act2, hq2, hstat2, hvec2, hbits2, hiff2⟩ := inv.acts i act hi
    refine ⟨act2, hq2, hstat2, ?_, hbits2, hiff2⟩
    rw [hvec2, if_pos (getElem?_lt_of_some _ _ _ hi), if_neg (Nat.not_lt_zero i)]
  · intro p
    rw [inv.table p]
    by_cases hlt : p < n
    · rw [if_pos hlt, if_pos (by omega)]
    · rw [if_neg hlt]
      by_cases hpn : p = n
      · rw [if_pos hpn, if_pos (by omega), hwf.num_actions]
      · rw [if_neg hpn, if_neg (by omega)]
        by_cases hp1 : p = n + 1
        · rw [if_pos hp1]
          rfl
        · rw [if_neg hp1]

theorem H2_Heuristic.EdelInv.outer {h : H2_Heuristic} {P : STRIPS_Problem} (hwf : P.wf)
    (inv : h.EdelInv P P 0 0) (n : Nat) (hn : n ≤ P.m_num_fluents) :
    h.EdelInv P (forLoop n (fun p prob1 =>
      forLoop prob1.m_num_actions (fun a prob2 => H2_Heuristic.edel_step h p a prob2) prob1) P)
      n 0 := by
  induction n with
  | zero => exact inv
  | succ n ih =>
    simp only [forLoop]
    have i1 := ih (by omega)
    have i2 := i1.inner (by omega) P.m_actions.length le_rfl
    rw [i1.num_actions, hwf.num_actions]
    exact i2.next hwf

/-- The e-delete sets are empty before `compute_edeletes`: no action has an e-delete, the bitsets
have one clear bit per fluent, and `edeleting` has one empty row per fluent. -/
theorem H2_Heuristic.EdelInv.start (h : H2_Heuristic) (P : STRIPS_Problem)
    (hact : ∀ a ∈ P.m_actions, a.edel_vec = [] ∧ a.edel_set = Bit_Set.mk_size P.m_num_fluents)
    (hrows : P.m_edeleting = List.replicate P.m_num_fluents []) : h.EdelInv P P 0 0 := by
  refine ⟨rfl, rfl, rfl, by rw [hrows, List.length_replicate], ?_, ?_⟩
  · intro i act hi
    obtain ⟨e1, e2⟩ := hact act (getElem?_mem_of_some _ _ _ hi)
    refine ⟨act, hi, rfl, ?_, ?_, ?_⟩
    · rw [e1, if_neg (Nat.not_lt_zero i)]
      rfl
    · rw [e2]
      simp [Bit_Set.mk_size]
    · intro p
      rw [e1, e2, isset_mk_size]
      simp
  · intro p
    rw [hrows]
    rw [if_neg (Nat.not_lt_zero p)]
    have : row (List.replicate P.m_num_fluents ([] : List Nat)) p = [] := by
      simp only [row, List.getD_eq_getElem?_getD, List.getElem?_replicate]
      split <;> rfl
    rw [this]
    split <;> rfl

theorem onGrid_pos (D : Nat) (hD : 0 < D) (x : Val) (hx : onGrid D x) (h0 : x ≠ 0) : 0 < x := by
  rcases hx with hx | ⟨n, hx⟩
  · rw [hx]
    exact WithTop.top_pos
  · rw [hx] at h0 ⊢
    have hn : n ≠ 0 := by
      rintro rfl
      apply h0
      simp
    have hD' : (0 : ℚ) < D := by exact_mod_cast hD
    have hn' : (0 : ℚ) < n := by exact_mod_cast Nat.pos_of_ne_zero hn
    have : (0 : ℚ) < (n : ℚ) / (D : ℚ) := div_pos hn' hD'
    exact_mod_cast this

theorem H2_Heuristic.mutex_pair_prog (p q : Nat) (st : H2_Heuristic × Bool)
    (hg : st.1.grid 1) (hidx : pair_index p q < st.1.m_values.length) :
    H2_Heuristic.Prog 1 st (H2_Heuristic.mutex_pair p q st) := by
  unfold H2_Heuristic.mutex_pair
  simp only
  split
  · exact Prog.prefl _ st hg
  · rename_i h0
    exact H2_Heuristic.set_value_prog 1 Nat.one_pos st hg p q hidx 0 (onGrid_zero 1)
      (onGrid_pos 1 Nat.one_pos _ (H2_Heuristic.value_grid 1 _ hg p q) h0)

theorem H2_Heuristic.mutex_noop_prog (action : Action) (a p r : Nat) (st : H2_Heuristic × Bool)
    (hg : st.1.grid 1) (hidx : pair_index p r < st.1.m_values.length) :
    H2_Heuristic.Prog 1 st (H2_Heuristic.mutex_noop action a p r st) := by
  unfold H2_Heuristic.mutex_noop
  simp only
  split
  · exact Prog.prefl _ st hg
  · rename_i h0
    split
    · exact Prog.prefl _ st hg
    · split
      · exact Prog.prefl _ st hg
      · have hne : st.1.value p r ≠ 0 := by
          intro hz
          apply h0
          simp [hz]
        exact H2_Heuristic.set_value_prog 1 Nat.one_pos st hg p r hidx 0 (onGrid_zero 1)
          (onGrid_pos 1 Nat.one_pos _ (H2_Heuristic.value_grid 1 _ hg p r) hne)

theorem H2_Heuristic.mutex_adds_prog (F : Nat) (hF : F < 65536) (action : Action) (a : Nat)
    (adds : Fluent_Vec) (hr : ∀ f ∈ adds, f < F) (st : H2_Heuristic × Bool)
    (hg : st.1.grid 1) (hlen : st.1.m_values.length = tri F) :
    H2_Heuristic.Prog 1 st (H2_Heuristic.mutex_adds F action a adds st) := by
  induction adds generalizing st with
  | nil => exact Prog.prefl _ st hg
  | cons p rest ih =>
    simp only [H2_Heuristic.mutex_adds]
    have hp := hr p (List.mem_cons_self _ _)
    have key1 : ∀ (qs : Fluent_Vec), (∀ q ∈ qs, q < F) →
        ∀ (st : H2_Heuristic × Bool), st.1.grid 1 → st.1.m_values.length = tri F →
        H2_Heuristic.Prog 1 st (qs.foldl (fun st q => H2_Heuristic.mutex_pair p q st) st) := by
      intro qs
      induction qs with
      | nil => intro _ st hg _; exact Prog.prefl _ st hg
      | cons q qs ihq =>
        intro hq st hg hlen
        simp only [List.foldl_cons]
        have s1 := H2_Heuristic.mutex_pair_prog p q st hg
          (by rw [hlen]; exact pair_index_lt _ p q hF hp (hq q (List.mem_cons_self _ _)))
        exact s1.ptrans (ihq (fun x hx => hq x (List.mem_cons_of_mem _ hx)) _ s1.grid
          (s1.len.trans hlen))
    have key2 : ∀ (n : Nat), n ≤ F →
        ∀ (st : H2_Heuristic × Bool), st.1.grid 1 → st.1.m_values.length = tri F →
        H2_Heuristic.Prog 1 st
          (forLoop n (fun r st => H2_Heuristic.mutex_noop action a p r st) st) := by
      intro n
      induction n with
      | zero => intro _ st hg _; exact Prog.prefl _ st hg
      | succ n ihn =>
        intro hn st hg hlen
        simp only [forLoop]
        have s1 := ihn (by omega) st hg hlen
        exact s1.ptrans (H2_Heuristic.mutex_noop_prog action a p n _ s1.grid
          (by rw [s1.len, hlen]; exact pair_index_lt _ p n hF hp (by omega)))
    have s1 := key1 (p :: rest) hr st hg hlen
    have s2 := key2 F le_rfl _ s1.grid (s1.len.trans hlen)
    have s3 := ih (fun f hf => hr f (List.mem_cons_of_mem _ hf)) _ s2.grid
      (s2.len.trans (s1.len.trans hlen))
    exact s1.ptrans (s2.ptrans s3)

theorem H2_Heuristic.mutex_action_prog (P : STRIPS_Problem) (hwf : P.wf)
    (hF : P.m_num_fluents < 65536) (a : Nat) (st : H2_Heuristic × Bool)
    (hg : st.1.grid 1) (hlen : st.1.m_values.length = tri P.m_num_fluents) :
    H2_Heuristic.Prog 1 st (H2_Heuristic.mutex_action P a st) := by
  unfold H2_Heuristic.mutex_action
  cases hi : P.m_actions[a]? with
  | none => exact Prog.prefl _ st hg
  | some action =>
    simp only
    have hin := hwf.in_range action (getElem?_mem_of_some _ _ _ hi)
    have hev : onGrid 1 (st.1.eval_vec action.prec_vec) := by
      rw [H2_Heuristic.eval_vec, eval_outer_eq]
      exact onGrid_pmaxF _ _ (fun p q => H2_Heuristic.value_grid _ _ hg p q) _ _ (onGrid_zero _)
    have s0 : H2_Heuristic.Prog 1 st
        ({ st.1 with m_op_values := st.1.m_op_values.set a (st.1.eval_vec action.prec_vec) },
          st.2) :=
      ⟨⟨hg.1, onGrid_set _ _ _ _ hev hg.2⟩, rfl, by simp, Or.inl ⟨rfl, rfl⟩⟩
    split
    · exact s0
    · exact s0.ptrans (H2_Heuristic.mutex_adds_prog P.m_num_fluents hF action a
        action.add_vec hin.2.1 _ s0.grid (s0.len.trans hlen))

theorem H2_Heuristic.mutex_pass_prog (P : STRIPS_Problem) (hwf : P.wf)
    (hF : P.m_num_fluents < 65536) (h : H2_Heuristic)
    (hg : h.grid 1) (hlen : h.m_values.length = tri P.m_num_fluents) :
    H2_Heuristic.Prog 1 (h, true) (H2_Heuristic.mutex_pass P h) := by
  unfold H2_Heuristic.mutex_pass
  generalize P.m_num_actions = n
  induction n with
  | zero => exact Prog.prefl _ _ hg
  | succ n ih =>
    simp only [forLoop]
    exact ih.ptrans (H2_Heuristic.mutex_action_prog P hwf hF n _ ih.grid (ih.len.trans hlen))

/-- The `do … while` loop of `compute_mutexes_only` terminates. -/
theorem H2_Heuristic.compute_mutexes_only_terminates (P : STRIPS_Problem) (hwf : P.wf)
    (hF : P.m_num_fluents < 65536) :
    ∀ (a b : Nat) (h : H2_Heuristic), tblTop h.m_values = a →
      tblSum 1 h.m_values = b → h.grid 1 →
      h.m_values.length = tri P.m_num_fluents →
      ∃ fuel h1, H2_Heuristic.compute_mutexes_only P fuel h = some h1 := by
  intro a
  induction a using Nat.strong_induction_on with
  | _ a iha =>
    intro b
    induction b using Nat.strong_induction_on with
    | _ b ihb =>
      intro h ea eb hg hlen
      have d := H2_Heuristic.mutex_pass_prog P hwf hF h hg hlen
      by_cases hfp : (H2_Heuristic.mutex_pass P h).2 = true
      · refine ⟨1, (H2_Heuristic.mutex_pass P h).1, ?_⟩
        simp only [H2_Heuristic.compute_mutexes_only, hfp, if_true]
      · have hrec : ∃ fuel h1, H2_Heuristic.compute_mutexes_only P fuel
            (H2_Heuristic.mutex_pass P h).1 = some h1 := by
          rcases d.dec with ⟨_, e2⟩ | ⟨hl | ⟨hl1, hl2⟩, _⟩
          · exact absurd e2 hfp
          · exact iha _ (by rw [← ea]; exact hl) _ _ rfl rfl d.grid (d.len.trans hlen)
          · exact ihb _ (by rw [← eb]; exact hl2) _ (hl1.trans ea) rfl d.grid (d.len.trans hlen)
        obtain ⟨fuel, h1, hres⟩ := hrec
        refine ⟨fuel + 1, h1, ?_⟩
        simp only [H2_Heuristic.compute_mutexes_only, hfp]
        exact hres

theorem H2_Heuristic.h2_initialize_len (h : H2_Heuristic) (fs : Fluent_Vec) :
    ( H2_Heuristic.initialize h fs).m_values.length = h.m_values.length := by
  unfold H2_Heuristic.initialize
  simp only
  refine H2_Heuristic.init_pairs_inv
    (fun h1 : H2_Heuristic => h1.m_values.length = h.m_values.length) fs ?_ _ ?_
  · intro h1 p q _ _ hI
    simp only [H2_Heuristic.set_value, List.length_set]
    exact hI
  · simp only [List.length_replicate]

theorem contains_iff (l : List Nat) (p : Nat) : l.contains p = true ↔ p ∈ l := by simp

theorem H2_Heuristic.edel_cond_iff (h : H2_Heuristic) (act : Action) (p : Nat) :
    h.edel_cond act p = true ↔
      ((∃ q ∈ act.add_vec, h.value p q = infty) ∨
        (p ∉ act.add_vec ∧ ∃ r ∈ act.prec_vec, h.value p r = infty) ∨ p ∈ act.del_vec) := by
  simp only [H2_Heuristic.edel_cond, Action.add_isset, Action.del_isset, Bool.or_eq_true,
    List.any_eq_true, decide_eq_true_eq, Bool.and_eq_true, Bool.not_eq_true', or_assoc,
    contains_iff]
  constructor
  · rintro (h1 | ⟨h2, h3⟩ | h4)
    · exact Or.inl h1
    · refine Or.inr (Or.inl ⟨?_, h3⟩)
      intro hmem
      have := (contains_iff _ _).mpr hmem
      rw [h2] at this
      cases this
    · exact Or.inr (Or.inr h4)
  · rintro (h1 | ⟨h2, h3⟩ | h4)
    · exact Or.inl h1
    · refine Or.inr (Or.inl ⟨?_, h3⟩)
      cases hc : act.add_vec.contains p with
      | false => rfl
      | true => exact absurd ((contains_iff _ _).mp hc) h2
    · exact Or.inr (Or.inr h4)

theorem H2_Heuristic.mem_edeletingOf (h : H2_Heuristic) (acts : List Action) (p m a : Nat) :
    a ∈ h.edeletingOf acts p m ↔ a < m ∧ ∃ act, acts[a]? = some act ∧ h.edel_cond act p = true := by
  simp only [H2_Heuristic.edeletingOf, List.mem_filter, List.mem_range]
  constructor
  · rintro ⟨h1, h2⟩
    cases ha : acts[a]? with
    | none => simp [ha] at h2
    | some act =>
      simp only [ha] at h2
      exact ⟨h1, act, rfl, h2⟩
  · rintro ⟨h1, act, ha, hc⟩
    exact ⟨h1, by simp only [ha]; exact hc⟩

/-- C5: `compute_edeletes` on a problem whose e-delete sets and `edeleting` rows are still empty
returns, and afterwards, for every action `a` and fluent `p`: `p` is in the e-delete sequence of `a`
iff `p` is mutex with an add of `a`, or `p` is not an add and is mutex with a precondition, or `p`
is deleted by `a` (mutex: `value(p,q) = infty` in the table left by `compute_mutexes_only` from the
init); `p` occurs there exactly once; the bitset agrees with the sequence; and `a` is in
`actions_edeleting(p)` iff `p` is e-deleted by `a`. -/
theorem compute_edeletes_spec (P : STRIPS_Problem) (hwf : P.wf) (hF : P.m_num_fluents < 65536)
    (hact : ∀ a ∈ P.m_actions, a.edel_vec = [] ∧ a.edel_set = Bit_Set.mk_size P.m_num_fluents)
    (hrows : P.m_edeleting = List.replicate P.m_num_fluents [])
    (h : H2_Heuristic) (hs : h.sized P) :
    (∃ fuel r, H2_Heuristic.compute_edeletes P fuel h = some r) ∧
    ∀ fuel Q h2, H2_Heuristic.compute_edeletes P fuel h = some (Q, h2) →
      H2_Heuristic.compute_mutexes_only P fuel ( H2_Heuristic.initialize h P.m_init) = some h2 ∧
      ∀ (a : Nat) (act : Action), P.m_actions[a]? = some act →
        ∃ act1, Q.m_actions[a]? = some act1 ∧ act.same_static act1 ∧
          ∀ p, p < P.m_num_fluents →
            (p ∈ act1.edel_vec ↔
              ((∃ q ∈ act.add_vec, h2.value p q = infty) ∨
                (p ∉ act.add_vec ∧ ∃ r ∈ act.prec_vec, h2.value p r = infty) ∨
                p ∈ act.del_vec)) ∧
            (p ∈ act1.edel_vec → act1.edel_vec.count p = 1) ∧
            (act1.edel_set.isset p = true ↔ p ∈ act1.edel_vec) ∧
            (a ∈ Q.actions_edeleting p ↔ p ∈ act1.edel_vec) := by
  constructor
  · obtain ⟨fuel, h1, hres⟩ := H2_Heuristic.compute_mutexes_only_terminates P hwf hF _ _
      ( H2_Heuristic.initialize h P.m_init) rfl rfl (H2_Heuristic.h2_initialize_grid 1 h P.m_init)
      ((H2_Heuristic.h2_initialize_len h P.m_init).trans hs.values)
    refine ⟨fuel, (forLoop P.m_num_fluents (fun p prob1 =>
      forLoop prob1.m_num_actions (fun a prob2 => H2_Heuristic.edel_step h1 p a prob2) prob1) P,
      h1), ?_⟩
    unfold H2_Heuristic.compute_edeletes
    simp only [hres]
  · intro fuel Q h2 hres
    unfold H2_Heuristic.compute_edeletes at hres
    simp only at hres
    cases hc : H2_Heuristic.compute_mutexes_only P fuel ( H2_Heuristic.initialize h P.m_init) with
    | none => simp [hc] at hres
    | some h3 =>
      simp only [hc, Option.some.injEq, Prod.mk.injEq] at hres
      obtain ⟨hQ, hh⟩ := hres
      subst hh
      refine ⟨rfl, ?_⟩
      have inv := (H2_Heuristic.EdelInv.start h3 P hact hrows).outer hwf P.m_num_fluents le_rfl
      rw [hQ] at inv
      intro a act ha
      obtain ⟨act1, hq, hstat, hvec, _, hiff⟩ := inv.acts a act ha
      rw [if_neg (Nat.not_lt_zero a)] at hvec
      refine ⟨act1, hq, hstat, ?_⟩
      intro p hp
      have hmem : p ∈ act1.edel_vec ↔ h3.edel_cond act p = true := by
        rw [hvec, H2_Heuristic.mem_edelOf]
        exact ⟨fun hh => hh.2, fun hh => ⟨hp, hh⟩⟩
      refine ⟨?_, ?_, hiff p, ?_⟩
      · rw [hmem, H2_Heuristic.edel_cond_iff]
      · intro hin
        rw [hvec] at hin ⊢
        exact List.count_eq_one_of_mem ((List.nodup_range _).filter _) hin
      · rw [STRIPS_Problem.actions_edeleting, inv.table p, if_pos hp,
          H2_Heuristic.mem_edeletingOf, hmem]
        constructor
        · rintro ⟨_, act2, ha2, hc2⟩
          rw [ha] at ha2
          cases ha2
          exact hc2
        · intro hc2
          exact ⟨by rw [hwf.num_actions]; exact getElem?_lt_of_some _ _ _ ha, act, ha, hc2⟩

theorem moves_wf : moves.wf := ⟨by decide, by decide⟩

theorem moves_edel_empty :
    ∀ a ∈ moves.m_actions, a.edel_vec = [] ∧ a.edel_set = Bit_Set.mk_size moves.m_num_fluents := by
  decide

/-- Witness for C5 on the two-moves problem. -/
theorem compute_edeletes_spec_witness :
    (∃ fuel r, H2_Heuristic.compute_edeletes moves fuel (H2_Heuristic.new moves) = some r) ∧
    ∀ fuel Q h2, H2_Heuristic.compute_edeletes moves fuel (H2_Heuristic.new moves) = some (Q, h2) →
      H2_Heuristic.compute_mutexes_only moves fuel
        ( H2_Heuristic.initialize (H2_Heuristic.new moves) moves.m_init) = some h2 ∧
      ∀ (a : Nat) (act : Action), moves.m_actions[a]? = some act →
        ∃ act1, Q.m_actions[a]? = some act1 ∧ act.same_static act1 ∧
          ∀ p, p < moves.m_num_fluents →
            (p ∈ act1.edel_vec ↔
              ((∃ q ∈ act.add_vec, h2.value p q = infty) ∨
                (p ∉ act.add_vec ∧ ∃ r ∈ act.prec_vec, h2.value p r = infty) ∨
                p ∈ act.del_vec)) ∧
            (p ∈ act1.edel_vec → act1.edel_vec.count p = 1) ∧
            (act1.edel_set.isset p = true ↔ p ∈ act1.edel_vec) ∧
            (a ∈ Q.actions_edeleting p ↔ p ∈ act1.edel_vec) :=
  compute_edeletes_spec moves moves_wf (by decide) moves_edel_empty (by decide)
    (H2_Heuristic.new moves) ⟨by decide, by decide⟩

theorem pow_le_pow_arity (F : Nat) {i k : Nat} (hi : 1 ≤ i) (hik : i ≤ k) : F ^ i ≤ F ^ k := by
  rcases Nat.eq_zero_or_pos F with h0 | hpos
  · subst h0
    rw [zero_pow (by omega), zero_pow (by omega)]
  · exact Nat.pow_le_pow_right hpos hik

theorem Novelty.set_arity_loop (F : Nat) (nov : Novelty) (hF : nov.m_num_fluents = F)
    (h1 : nov.m_num_tuples = 1) (j : Nat) (hj : F ^ j < 2 ^ 64 ∧ ∀ i, i ≤ j → F ^ i < 2 ^ 64) :
    forLoop j (fun _ (n : Novelty) =>
      { n with m_num_tuples := (n.m_num_tuples * n.m_num_fluents) % 2 ^ 64 }) nov =
    { nov with m_num_tuples := F ^ j } := by
  induction j with
  | zero =>
    simp only [forLoop, pow_zero]
    rw [← h1]
  | succ j ih =>
    simp only [forLoop]
    rw [ih ⟨hj.2 j (by omega), fun i hi => hj.2 i (by omega)⟩]
    simp only [hF]
    rw [← pow_succ, Nat.mod_eq_of_lt hj.1]

namespace AT_RWBFS_DQ_MH

theorem same_params.srefl (E : AT_RWBFS_DQ_MH) : E.same_params E := ⟨rfl, rfl, rfl⟩

theorem same_params.strans {E E1 E2 : AT_RWBFS_DQ_MH} (h1 : E.same_params E1)
    (h2 : E1.same_params E2) : E.same_params E2 :=
  ⟨h2.1.trans h1.1, h2.2.1.trans h1.2.1, h2.2.2.trans h1.2.2⟩

theorem get_node_params (E : AT_RWBFS_DQ_MH) : E.same_params E.get_node.1 := by
  unfold get_node
  split
  · exact same_params.srefl E
  · exact ⟨rfl, rfl, rfl⟩

theorem is_closed_params (E : AT_RWBFS_DQ_MH) (n : Search_Node) :
    E.same_params (E.is_closed n).1 := by
  unfold is_closed
  split
  · exact same_params.srefl E
  · split
    · exact same_params.srefl E
    · split
      · exact same_params.srefl E
      · exact ⟨rfl, rfl, rfl⟩

theorem is_open_params (E : AT_RWBFS_DQ_MH) (n : Search_Node) :
    E.same_params (E.is_open n).1 := by
  unfold is_open
  split
  · exact same_params.srefl E
  · split
    · exact same_params.srefl E
    · split
      · exact ⟨rfl, rfl, rfl⟩
      · exact same_params.srefl E

theorem is_seen_params (E : AT_RWBFS_DQ_MH) (n : Search_Node) :
    E.same_params (E.is_seen n).1 := by
  unfold is_seen
  split
  · exact same_params.srefl E
  · split
    · exact same_params.srefl E
    · exact ⟨rfl, rfl, rfl⟩

theorem process_action_params (env : Search_Env) (head : Nat) (E : AT_RWBFS_DQ_MH) (a : Nat) :
    E.same_params (process_action env head E a) := by
  unfold process_action
  split
  · exact same_params.srefl E
  · rename_i hn _
    simp only
    have h1 := is_closed_params E (Search_Node.new (env.problem.next hn.m_state a)
      (env.problem.cost hn.m_state a) (some a) (some head) hn.m_g env.problem.num_actions)
    split
    · exact h1
    · have h2 := is_open_params (E.is_closed (Search_Node.new (env.problem.next hn.m_state a)
        (env.problem.cost hn.m_state a) (some a) (some head) hn.m_g env.problem.num_actions)).1
        (Search_Node.new (env.problem.next hn.m_state a)
        (env.problem.cost hn.m_state a) (some a) (some head) hn.m_g env.problem.num_actions)
      split
      · exact h1.strans h2
      · have h3 := is_seen_params ((E.is_closed (Search_Node.new (env.problem.next hn.m_state a)
          (env.problem.cost hn.m_state a) (some a) (some head) hn.m_g
          env.problem.num_actions)).1.is_open (Search_Node.new (env.problem.next hn.m_state a)
          (env.problem.cost hn.m_state a) (some a) (some head) hn.m_g
          env.problem.num_actions)).1
          (Search_Node.new (env.problem.next hn.m_state a)
          (env.problem.cost hn.m_state a) (some a) (some head) hn.m_g env.problem.num_actions)
        split
        · exact (h1.strans h2).strans h3
        · split
          · exact (h1.strans h2).strans h3
          · exact ((h1.strans h2).strans h3).strans ⟨rfl, rfl, rfl⟩

theorem process_params (env : Search_Env) (E : AT_RWBFS_DQ_MH) (head : Nat) :
    E.same_params (process env E head) := by
  unfold process
  split
  · exact same_params.srefl E
  · rename_i hn _
    have h : ∀ (l : List Nat) (E1 : AT_RWBFS_DQ_MH), E.same_params E1 →
        E.same_params (l.foldl (process_action env head) E1) := by
      intro l
      induction l with
      | nil => exact fun E1 h => h
      | cons a rest ih =>
        intro E1 h1
        exact ih _ (h1.strans (process_action_params env head E1 a))
    exact (h _ E (same_params.srefl E)).strans ⟨rfl, rfl, rfl⟩

theorem eval_params (env : Search_Env) (E : AT_RWBFS_DQ_MH) (p : Nat) :
    E.same_params (eval env E p) := by
  unfold eval
  split
  · exact same_params.srefl E
  · split
    · exact same_params.srefl E
    · exact ⟨rfl, rfl, rfl⟩

theorem restart_step_params (E : AT_RWBFS_DQ_MH) (it : Nat) :
    E.same_params (restart_step E it) := by
  unfold restart_step
  split
  · exact same_params.srefl E
  · simp only
    split
    · exact ⟨rfl, rfl, rfl⟩
    · split
      · exact ⟨rfl, rfl, rfl⟩
      · split
        · exact ⟨rfl, rfl, rfl⟩
        · split
          · exact ⟨rfl, rfl, rfl⟩
          · exact ⟨rfl, rfl, rfl⟩

theorem drain_open_params (n : Nat) : ∀ E : AT_RWBFS_DQ_MH, E.same_params (drain_open n E) := by
  induction n with
  | zero => exact fun E => same_params.srefl E
  | succ n ih =>
    intro E
    unfold drain_open
    have hg := get_node_params E
    split
    · rename_i E1 h
      rw [h] at hg
      exact hg
    · rename_i E1 head h
      rw [h] at hg
      exact (hg.strans ⟨rfl, rfl, rfl⟩).strans (ih (E1.delete head))

theorem open_node_params (E : AT_RWBFS_DQ_MH) (p : Nat) (a b : Bool) :
    E.same_params (E.open_node p a b) := ⟨rfl, rfl, rfl⟩

theorem restart_search_params (E : AT_RWBFS_DQ_MH) : E.same_params E.restart_search := by
  unfold restart_search
  have h : ∀ (l : List Nat) (E1 : AT_RWBFS_DQ_MH), E.same_params E1 →
      E.same_params (l.foldl restart_step E1) := by
    intro l
    induction l with
    | nil => exact fun E1 h => h
    | cons a rest ih =>
      intro E1 h1
      exact ih _ (h1.strans (restart_step_params E1 a))
  have h1 := h E.m_closed E (same_params.srefl E)
  have h2 : (E.m_closed.foldl restart_step E).same_params
      { E.m_closed.foldl restart_step E with m_closed := [], m_open_hash := [] } :=
    ⟨rfl, rfl, rfl⟩
  have h3 := drain_open_params (E.m_closed.foldl restart_step E).m_open.length
    { E.m_closed.foldl restart_step E with m_closed := [], m_open_hash := [] }
  exact ((h1.strans h2).strans h3).strans (open_node_params _ _ false false)

end AT_RWBFS_DQ_MH

namespace AT_RWBFS_DQ_MH

theorem found_goal_params (E : AT_RWBFS_DQ_MH) (head : Nat) (hn : Search_Node) :
    (E.found_goal head hn).m_B = (hn.m_g : Val) ∧
    (E.found_goal head hn).m_W = max 1 (E.m_W * E.m_decay) ∧
    (E.found_goal head hn).m_decay = E.m_decay := by
  unfold found_goal
  simp only
  by_cases hW : ((E.close head).set_bound (hn.m_g : Val)).m_W *
      ((E.close head).set_bound (hn.m_g : Val)).m_decay < 1
  · rw [if_pos hW]
    have h := restart_search_params
      { ((E.close head).set_bound (hn.m_g : Val)) with m_W := 1 }
    refine ⟨h.1, ?_, h.2.2⟩
    rw [h.2.1]
    have hW1 : E.m_W * E.m_decay < 1 := hW
    exact (max_eq_left (le_of_lt hW1)).symm
  · rw [if_neg hW]
    have h := restart_search_params
      { ((E.close head).set_bound (hn.m_g : Val)) with
        m_W := ((E.close head).set_bound (hn.m_g : Val)).m_W *
          ((E.close head).set_bound (hn.m_g : Val)).m_decay }
    refine ⟨h.1, ?_, h.2.2⟩
    rw [h.2.1]
    have hW1 : ¬ E.m_W * E.m_decay < 1 := hW
    exact (max_eq_right (not_lt.mp hW1)).symm

/-- A node returned by the loop of `do_search()` was dequeued in an engine state `E0` with the
bound, weight and decay of the start, is a goal node with `g` below the bound, and the engine
returned is the one its goal branch leaves. -/
theorem do_search_loop_goal (env : Search_Env) :
    ∀ (fuel : Nat) (E : AT_RWBFS_DQ_MH) (head : Nat) (E1 : AT_RWBFS_DQ_MH) (p : Nat),
      do_search_loop env fuel E head = some (E1, some p) →
      ∃ (E0 : AT_RWBFS_DQ_MH) (hn : Search_Node), E.same_params E0 ∧ E0.node p = some hn ∧
        (hn.m_g : Val) < E0.m_B ∧ env.problem.goal hn.m_state = true ∧
        E1 = E0.found_goal p hn := by
  intro fuel
  induction fuel with
  | zero =>
    intro E head E1 p h
    simp [do_search_loop] at h
  | succ fuel ih =>
    intro E head E1 p h
    unfold do_search_loop at h
    split at h
    · exact absurd h (by simp)
    · rename_i hn hnode
      by_cases hB : E.m_B ≤ (hn.m_g : Val)
      · rw [if_pos hB] at h
        simp only at h
        split at h
        · simp at h
        · rename_i next hnext
          obtain ⟨E0, hn0, hp, rest⟩ := ih _ next E1 p h
          refine ⟨E0, hn0, ?_, rest⟩
          have a1 : E.same_params
              ({ E with m_pruned_B_count := E.m_pruned_B_count + 1 }.close head) :=
            ⟨rfl, rfl, rfl⟩
          have a2 := get_node_params
            ({ E with m_pruned_B_count := E.m_pruned_B_count + 1 }.close head)
          exact (a1.strans a2).strans hp
      · rw [if_neg hB] at h
        by_cases hG : env.problem.goal hn.m_state = true
        · rw [if_pos hG] at h
          simp only [Option.some.injEq, Prod.mk.injEq] at h
          obtain ⟨h1, h2⟩ := h
          subst h2
          exact ⟨E, hn, same_params.srefl E, hnode, not_le.mp hB, hG, h1.symm⟩
        · rw [if_neg hG] at h
          simp only at h
          split at h
          · simp at h
          · split at h
            · simp at h
            · rename_i next hnext
              obtain ⟨E0, hn0, hp, rest⟩ := ih _ next E1 p h
              refine ⟨E0, hn0, ?_, rest⟩
              have a1 : E.same_params { E with m_ticks := E.m_ticks + 1 } := ⟨rfl, rfl, rfl⟩
              have a2 := eval_params env { E with m_ticks := E.m_ticks + 1 } head
              have a3 := process_params env (eval env { E with m_ticks := E.m_ticks + 1 } head) head
              have a4 := get_node_params ((process env
                (eval env { E with m_ticks := E.m_ticks + 1 } head) head).close head)
              exact ((((a1.strans a2).strans a3).strans ⟨rfl, rfl, rfl⟩).strans a4).strans hp

theorem do_search_goal (env : Search_Env) (fuel : Nat) (E E1 : AT_RWBFS_DQ_MH) (p : Nat)
    (h : do_search env fuel E = some (E1, some p)) :
    ∃ (E0 : AT_RWBFS_DQ_MH) (hn : Search_Node), E.same_params E0 ∧ E0.node p = some hn ∧
      (hn.m_g : Val) < E0.m_B ∧ env.problem.goal hn.m_state = true ∧
      E1 = E0.found_goal p hn := by
  unfold do_search at h
  simp only at h
  split at h
  · simp at h
  · rename_i head hhead
    obtain ⟨E0, hn0, hp, rest⟩ := do_search_loop_goal env fuel _ head E1 p h
    exact ⟨E0, hn0, (get_node_params E).strans hp, rest⟩

end AT_RWBFS_DQ_MH

theorem option_eq_of_snd {α β : Type} (o : Option (α × β)) (d : α × β) (b : β)
    (h : o.map Prod.snd = some b) : o = some ((o.getD d).1, b) := by
  cases o with
  | none => simp at h
  | some r =>
    simp only [Option.map_some', Option.some.injEq] at h
    simp [← h]

theorem routes_first_eq :
    AT_RWBFS_DQ_MH.do_search routes_env 10 routes_engine = some (routes_first.1, some 3) :=
  option_eq_of_snd _ (routes_engine, none) (some 3) (by decide!)

theorem routes_second_eq :
    AT_RWBFS_DQ_MH.do_search routes_env 10 routes_first.1 = some (routes_second.1, some 6) :=
  option_eq_of_snd _ (routes_engine, none) (some 6) (by decide!)

/-- C8: when `do_search()` returns a goal node the weight has become `max( 1, W * decay )` and
the decay is unchanged; from `W = 5` and `decay = 0.75` the weight after a second returned goal
node is `45/16 = 2.8125`. -/
theorem do_search_weight (env : Search_Env) (fuel : Nat) (E E1 : AT_RWBFS_DQ_MH) (p : Nat)
    (h : AT_RWBFS_DQ_MH.do_search env fuel E = some (E1, some p)) :
    E1.m_W = max 1 (E.m_W * E.m_decay) ∧ E1.m_decay = E.m_decay ∧
    (E.m_W = 5 → E.m_decay = 3 / 4 →
      ∀ (fuel2 : Nat) (E2 : AT_RWBFS_DQ_MH) (p2 : Nat),
        AT_RWBFS_DQ_MH.do_search env fuel2 E1 = some (E2, some p2) → E2.m_W = 45 / 16) := by
  have step : ∀ (fuel : Nat) (E E1 : AT_RWBFS_DQ_MH) (p : Nat),
      AT_RWBFS_DQ_MH.do_search env fuel E = some (E1, some p) →
      E1.m_W = max 1 (E.m_W * E.m_decay) ∧ E1.m_decay = E.m_decay := by
    intro fuel E E1 p h
    obtain ⟨E0, hn, hp, _, _, _, hE1⟩ := AT_RWBFS_DQ_MH.do_search_goal env fuel E E1 p h
    have hf := AT_RWBFS_DQ_MH.found_goal_params E0 p hn
    rw [hE1, hf.2.1, hf.2.2, hp.2.1, hp.2.2]
    exact ⟨rfl, rfl⟩
  have h1 := step fuel E E1 p h
  refine ⟨h1.1, h1.2, ?_⟩
  intro hW hd fuel2 E2 p2 h2
  have h3 := step fuel2 E1 E2 p2 h2
  rw [h3.1, h1.1, h1.2, hW, hd]
  norm_num

/-- Witness for C8: two successive calls on the routes engine, built with `W = 5` and
`decay = 0.75`, return the goal nodes 3 and 6, and the weight is then `45/16`. -/
theorem do_search_weight_witness :
    AT_RWBFS_DQ_MH.do_search routes_env 10 routes_engine = some (routes_first.1, some 3) ∧
    AT_RWBFS_DQ_MH.do_search routes_env 10 routes_first.1 = some (routes_second.1, some 6) ∧
    routes_first.1.m_W = max 1 (routes_engine.m_W * routes_engine.m_decay) ∧
    routes_second.1.m_W = 45 / 16 :=
  ⟨routes_first_eq, routes_second_eq,
    (do_search_weight routes_env 10 routes_engine routes_first.1 3 routes_first_eq).1,
    (do_search_weight routes_env 10 routes_engine routes_first.1 3 routes_first_eq).2.2
      rfl rfl 10 routes_second.1 6 routes_second_eq⟩

/-- C9: on the routes engine with time budget 0 the root is the only open node; `do_search()`
dequeues it, runs out of time and returns `NULL` with the root neither in open nor in closed, and
a further call, the budget lifted, finds open empty and returns `NULL` at once. -/
theorem do_search_timeout_drops_head :
    routes_engine.m_open = [0] ∧
    AT_RWBFS_DQ_MH.do_search routes_env 10 { routes_engine with m_time_budget := 0 } =
      some (routes_timeout.1, none) ∧
    0 ∉ routes_timeout.1.m_open ∧ 0 ∉ routes_timeout.1.m_closed ∧
    AT_RWBFS_DQ_MH.do_search routes_env 10 { routes_timeout.1 with m_time_budget := infty } =
      some ({ routes_timeout.1 with m_time_budget := infty }, none) := by
  refine ⟨by decide!, ?_, by decide!, by decide!, by decide!⟩
  exact option_eq_of_snd _ (routes_engine, some 0) none (by decide!)

theorem add_action_actions (p : STRIPS_Problem) (signature : String) (pre add del : Fluent_Vec)
    (ceffs : List Conditional_Effect) (cost : ℚ) :
    (add_action p signature pre add del ceffs cost).1 = p.m_actions.length ∧
    (add_action p signature pre add del ceffs cost).2.m_actions = p.m_actions ++
      [{ signature := signature, index := p.m_actions.length, cost := cost, prec_vec := pre,
         add_vec := add, del_vec := del, ceff_vec := ceffs, edel_vec := [],
         edel_set := Bit_Set.mk_size p.m_num_fluents }] ∧
    (add_action p signature pre add del ceffs cost).2.m_num_actions = p.m_num_actions + 1 ∧
    (add_action p signature pre add del ceffs cost).2.m_fluents = p.m_fluents ∧
    (add_action p signature pre add del ceffs cost).2.m_num_fluents = p.m_num_fluents ∧
    p.same_tables (add_action p signature pre add del ceffs cost).2 := by
  refine ⟨by simp [add_action], ?_, rfl, rfl, rfl, ⟨rfl, rfl, rfl, rfl, rfl, rfl⟩⟩
  simp [add_action, Action.define]

/-- Counterexample to C11: on a problem with one fluent, `add_action` with the indices 5, 7 and 9
in its vectors returns the index 0 and registers the action. -/
theorem add_action_bad_index_registered :
    (add_action (add_fluent (STRIPS_Problem.new "d" "p") "(f)").2 "(a)" [5] [7] [9] [] 1).1 = 0 ∧
    ((add_action (add_fluent (STRIPS_Problem.new "d" "p") "(f)").2 "(a)" [5] [7] [9] []
      1).2.m_actions.map (fun a => (a.prec_vec, a.add_vec, a.del_vec))) = [([5], [7], [9])] ∧
    (add_action (add_fluent (STRIPS_Problem.new "d" "p") "(f)").2 "(a)" [5] [7] [9] []
      1).2.m_num_actions = 1 := by
  decide

/-- C11 (amended): `add_action` does not validate its fluent vectors: also when some index is not
below `num_fluents` it returns the number of actions held before the call, appends the action
with the vectors as given and increments the action count. -/
theorem add_action_unchecked (p : STRIPS_Problem) (signature : String) (pre add del : Fluent_Vec)
    (ceffs : List Conditional_Effect) (cost : ℚ)
    (_hbad : bad_fluent_index p.m_num_fluents pre add del ceffs) :
    (add_action p signature pre add del ceffs cost).1 = p.m_actions.length ∧
    (add_action p signature pre add del ceffs cost).2.m_actions = p.m_actions ++
      [{ signature := signature, index := p.m_actions.length, cost := cost, prec_vec := pre,
         add_vec := add, del_vec := del, ceff_vec := ceffs, edel_vec := [],
         edel_set := Bit_Set.mk_size p.m_num_fluents }] ∧
    (add_action p signature pre add del ceffs cost).2.m_num_actions = p.m_num_actions + 1 := by
  have h := add_action_actions p signature pre add del ceffs cost
  exact ⟨h.1, h.2.1, h.2.2.1⟩

/-- Witness for the amended C11. -/
theorem add_action_unchecked_witness :
    bad_fluent_index exTiny.m_num_fluents [5] [7] [9] [] ∧
    (add_action exTiny "(b)" [5] [7] [9] [] 2).1 = exTiny.m_actions.length ∧
    (add_action exTiny "(b)" [5] [7] [9] [] 2).2.m_actions = exTiny.m_actions ++
      [{ signature := "(b)", index := exTiny.m_actions.length, cost := 2, prec_vec := [5],
         add_vec := [7], del_vec := [9], ceff_vec := [], edel_vec := [],
         edel_set := Bit_Set.mk_size exTiny.m_num_fluents }] ∧
    (add_action exTiny "(b)" [5] [7] [9] [] 2).2.m_num_actions = exTiny.m_num_actions + 1 :=
  ⟨Or.inl ⟨5, by simp, by decide⟩,
    add_action_unchecked exTiny "(b)" [5] [7] [9] [] 2 (Or.inl ⟨5, by simp, by decide⟩)⟩

theorem in_goal_loop (n : Nat) (idx : Nat → Nat) (b : Bool) (p : STRIPS_Problem) :
    forLoop n (fun k (q : STRIPS_Problem) => { q with m_in_goal := q.m_in_goal.set (idx k) b }) p =
      { p with m_in_goal := set_flags n idx b p.m_in_goal } := by
  induction n with
  | zero => rfl
  | succ n ih =>
    simp only [forLoop, set_flags] at ih ⊢
    rw [ih]

theorem in_init_loop (n : Nat) (idx : Nat → Nat) (b : Bool) (p : STRIPS_Problem) :
    forLoop n (fun k (q : STRIPS_Problem) => { q with m_in_init := q.m_in_init.set (idx k) b }) p =
      { p with m_in_init := set_flags n idx b p.m_in_init } := by
  induction n with
  | zero => rfl
  | succ n ih =>
    simp only [forLoop, set_flags] at ih ⊢
    rw [ih]

theorem set_init_eq (p : STRIPS_Problem) (v : Fluent_Vec) :
    set_init p v = { p with m_init := v, m_in_init := flags_after p.m_num_fluents p.m_in_init v } := by
  unfold set_init flags_after
  simp only [in_init_loop]
  by_cases h : p.m_in_init.isEmpty = true
  · simp only [h, if_true]
  · simp only [h]
    rfl

theorem set_goal_false_eq (p : STRIPS_Problem) (v : Fluent_Vec) :
    set_goal p v false =
      { p with m_goal := v, m_in_goal := flags_after p.m_num_fluents p.m_in_goal v } := by
  unfold set_goal flags_after
  simp only [in_goal_loop]
  by_cases h : p.m_in_goal.isEmpty = true
  · simp only [h, if_true]
    rfl
  · simp only [h]
    rfl

theorem set_goal_true_eq (p : STRIPS_Problem) (v : Fluent_Vec) :
    set_goal p v true =
      { p with m_goal := v, m_in_goal := flags_after p.m_num_fluents p.m_in_goal v,
               m_num_actions := p.m_num_actions + 1,
               m_actions := p.m_actions ++ [end_operator p.m_num_fluents p.m_actions.length v],
               m_end_operator_id := some p.m_actions.length } := by
  unfold set_goal flags_after
  simp only [in_goal_loop]
  by_cases h : p.m_in_goal.isEmpty = true
  · simp only [h, if_true]
    simp [add_action, Action.define, set_cost_at, end_operator]
  · simp only [h]
    simp [add_action, Action.define, set_cost_at, end_operator]

theorem register_counts (P : STRIPS_Problem) (idx : Nat) (a : Action) :
    (register_action_in_tables P idx a).m_num_fluents = P.m_num_fluents ∧
    (register_action_in_tables P idx a).m_num_actions = P.m_num_actions := by
  unfold register_action_in_tables
  simp only
  generalize a.ceff_vec.length = n
  induction n with
  | zero => split <;> simp [forLoop]
  | succ n ih =>
    simp only [forLoop]
    exact ih

theorem make_action_tables_counts (P : STRIPS_Problem) :
    (make_action_tables P).m_num_fluents = P.m_num_fluents ∧
    (make_action_tables P).m_num_actions = P.m_num_actions := by
  unfold make_action_tables
  simp only
  generalize P.m_actions.length = n
  induction n with
  | zero => exact ⟨rfl, rfl⟩
  | succ n ih =>
    simp only [forLoop]
    split
    · rename_i a _
      have h := register_counts (forLoop n (fun k (Q : STRIPS_Problem) =>
        match Q.m_actions[k]? with
        | some a => register_action_in_tables Q k a
        | none => Q)
        { P with
          m_requiring := resize P.m_requiring P.m_fluents.length
          m_deleting := resize P.m_deleting P.m_fluents.length
          m_edeleting := resize P.m_edeleting P.m_fluents.length
          m_adding := resize P.m_adding P.m_fluents.length
          m_ceffs_adding := resize P.m_ceffs_adding P.m_fluents.length }) n a
      exact ⟨h.1.trans ih.1, h.2.trans ih.2⟩
    · exact ih

theorem append_index {α : Type} (l : List α) (x : α) (idx : α → Nat)
    (h : ∀ (i : Nat) (y : α), l[i]? = some y → idx y = i) (hx : idx x = l.length) :
    ∀ (i : Nat) (y : α), (l ++ [x])[i]? = some y → idx y = i := by
  intro i y hy
  rcases Nat.lt_or_ge i l.length with hlt | hge
  · rw [List.getElem?_append_left hlt] at hy
    exact h i y hy
  · rw [List.getElem?_append_right hge] at hy
    have hi : i - l.length = 0 := by
      by_contra hne
      have : ([x] : List α)[i - l.length]? = none := by
        apply List.getElem?_eq_none
        simp
        omega
      rw [this] at hy
      simp at hy
    rw [hi] at hy
    simp only [List.getElem?_cons_zero, Option.some.injEq] at hy
    rw [← hy, hx]
    omega

theorem STRIPS_Problem.indexed.run_op {P : STRIPS_Problem} (hP : P.indexed) (op : Build_Op) :
    (Build_Op.run P op).indexed := by
  cases op with
  | fluent signature =>
    refine ⟨?_, hP.num_actions, ?_, hP.action_index⟩
    · show (add_fluent P signature).2.m_num_fluents = (add_fluent P signature).2.m_fluents.length
      simp [add_fluent, hP.num_fluents]
    · exact append_index P.m_fluents ⟨P.m_fluents.length, signature⟩ Fluent.index
        hP.fluent_index rfl
  | action signature pre add del ceffs cost =>
    have h := add_action_actions P signature pre add del ceffs cost
    refine ⟨?_, ?_, ?_, ?_⟩
    · show (add_action P signature pre add del ceffs cost).2.m_num_fluents = _
      rw [h.2.2.2.2.1, hP.num_fluents]
      show _ = (add_action P signature pre add del ceffs cost).2.m_fluents.length
      rw [h.2.2.2.1]
    · show (add_action P signature pre add del ceffs cost).2.m_num_actions = _
      rw [h.2.2.1, hP.num_actions]
      show _ = (add_action P signature pre add del ceffs cost).2.m_actions.length
      rw [h.2.1, List.length_append]
      rfl
    · show ∀ (i : Nat) (f : Fluent),
        (add_action P signature pre add del ceffs cost).2.m_fluents[i]? = some f → f.index = i
      rw [h.2.2.2.1]
      exact hP.fluent_index
    · show ∀ (i : Nat) (a : Action),
        (add_action P signature pre add del ceffs cost).2.m_actions[i]? = some a → a.index = i
      rw [h.2.1]
      exact append_index P.m_actions _ Action.index hP.action_index rfl
  | init init_vec =>
    show (set_init P init_vec).indexed
    rw [set_init_eq]
    exact ⟨hP.num_fluents, hP.num_actions, hP.fluent_index, hP.action_index⟩
  | goal goal_vec create_end_op =>
    show (set_goal P goal_vec create_end_op).indexed
    cases create_end_op with
    | false =>
      rw [set_goal_false_eq]
      exact ⟨hP.num_fluents, hP.num_actions, hP.fluent_index, hP.action_index⟩
    | true =>
      rw [set_goal_true_eq]
      refine ⟨hP.num_fluents, ?_, hP.fluent_index, ?_⟩
      · show P.m_num_actions + 1 = (P.m_actions ++ [_]).length
        rw [List.length_append, hP.num_actions]
        rfl
      · exact append_index P.m_actions _ Action.index hP.action_index rfl
  | tables =>
    show (make_action_tables P).indexed
    have h := make_action_tables_rows P
    have hc := make_action_tables_counts P
    simp only at h
    refine ⟨?_, ?_, ?_, ?_⟩
    · rw [hc.1, h.2.1]
      exact hP.num_fluents
    · rw [hc.2, h.1]
      exact hP.num_actions
    · rw [h.2.1]
      exact hP.fluent_index
    · rw [h.1]
      exact hP.action_index

theorem STRIPS_Problem.indexed.build_ops (ops : List Build_Op) :
    ∀ P : STRIPS_Problem, P.indexed → (aptk.build ops P).indexed := by
  induction ops with
  | nil => exact fun P h => h
  | cons op rest ih =>
    intro P h
    exact ih _ (h.run_op op)

theorem new_indexed (d n : String) : (STRIPS_Problem.new d n).indexed :=
  ⟨rfl, rfl, fun i f h => by simp [STRIPS_Problem.new] at h,
    fun i a h => by simp [STRIPS_Problem.new] at h⟩

/-- Counterexample to C12: after `make_action_tables` on the one-action problem, `add_action`
returns the index 1 and the action vector holds two actions, and so it does after `set_goal`
with `create_end_op = true`. -/
theorem add_action_after_tables_succeeds :
    (add_action (make_action_tables exTiny) "(b)" [0] [] [] [] 1).1 = 1 ∧
    (add_action (make_action_tables exTiny) "(b)" [0] [] [] [] 1).2.m_actions.length = 2 ∧
    (make_action_tables exTiny).m_actions.length = 1 ∧
    (set_goal (make_action_tables exTiny) [0] true).m_actions.length = 2 := by
  decide

/-- C12 (amended): after `make_action_tables`, `add_action` and `set_goal` with
`create_end_op = true` still succeed: each appends its action to the action vector and increments
the action count, and leaves the relational tables unchanged. -/
theorem add_action_after_tables (P : STRIPS_Problem) (signature : String)
    (pre add del goal_vec : Fluent_Vec) (ceffs : List Conditional_Effect) (cost : ℚ) :
    (add_action (make_action_tables P) signature pre add del ceffs cost).1 =
      (make_action_tables P).m_actions.length ∧
    (add_action (make_action_tables P) signature pre add del ceffs cost).2.m_actions =
      (make_action_tables P).m_actions ++
        [{ signature := signature, index := (make_action_tables P).m_actions.length,
           cost := cost, prec_vec := pre, add_vec := add, del_vec := del, ceff_vec := ceffs,
           edel_vec := [], edel_set := Bit_Set.mk_size (make_action_tables P).m_num_fluents }] ∧
    (add_action (make_action_tables P) signature pre add del ceffs cost).2.m_num_actions =
      (make_action_tables P).m_num_actions + 1 ∧
    (make_action_tables P).same_tables
      (add_action (make_action_tables P) signature pre add del ceffs cost).2 ∧
    (set_goal (make_action_tables P) goal_vec true).m_actions =
      (make_action_tables P).m_actions ++
        [end_operator (make_action_tables P).m_num_fluents
          (make_action_tables P).m_actions.length goal_vec] ∧
    (set_goal (make_action_tables P) goal_vec true).m_num_actions =
      (make_action_tables P).m_num_actions + 1 ∧
    (make_action_tables P).same_tables (set_goal (make_action_tables P) goal_vec true) := by
  have h := add_action_actions (make_action_tables P) signature pre add del ceffs cost
  refine ⟨h.1, h.2.1, h.2.2.1, h.2.2.2.2.2, ?_, ?_, ?_⟩
  · rw [set_goal_true_eq]
  · rw [set_goal_true_eq]
  · rw [set_goal_true_eq]
    exact ⟨rfl, rfl, rfl, rfl, rfl, rfl⟩

/-- C13: on a problem whose counters agree with its vectors, `add_fluent` returns the number `n`
of fluents held, stores the new fluent at position `n` with index `n` and makes the count `n + 1`;
`add_action` does the same with the actions; and when moreover every entity held carries its
position as its index, this is so again after any sequence of building operations. -/
theorem add_indices_contiguous (P : STRIPS_Problem) (hP : P.indexed) :
    (∀ signature : String,
      (add_fluent P signature).1 = P.m_fluents.length ∧
      (add_fluent P signature).2.m_fluents =
        P.m_fluents ++ [⟨P.m_fluents.length, signature⟩] ∧
      (add_fluent P signature).2.m_num_fluents = P.m_fluents.length + 1) ∧
    (∀ (signature : String) (pre add del : Fluent_Vec) (ceffs : List Conditional_Effect)
        (cost : ℚ),
      (add_action P signature pre add del ceffs cost).1 = P.m_actions.length ∧
      (∃ a : Action, a.index = P.m_actions.length ∧
        (add_action P signature pre add del ceffs cost).2.m_actions = P.m_actions ++ [a]) ∧
      (add_action P signature pre add del ceffs cost).2.m_num_actions =
        P.m_actions.length + 1) ∧
    ∀ ops : List Build_Op,
      (build ops P).m_num_fluents = (build ops P).m_fluents.length ∧
      (build ops P).m_num_actions = (build ops P).m_actions.length ∧
      (∀ (i : Nat) (f : Fluent), (build ops P).m_fluents[i]? = some f → f.index = i) ∧
      ∀ (i : Nat) (a : Action), (build ops P).m_actions[i]? = some a → a.index = i := by
  refine ⟨?_, ?_, ?_⟩
  · intro signature
    refine ⟨by simp [add_fluent], rfl, ?_⟩
    show P.m_num_fluents + 1 = _
    rw [hP.num_fluents]
  · intro signature pre add del ceffs cost
    have h := add_action_actions P signature pre add del ceffs cost
    refine ⟨h.1, ⟨_, ?_, h.2.1⟩, ?_⟩
    · rfl
    · rw [h.2.2.1, hP.num_actions]
  · intro ops
    have h := STRIPS_Problem.indexed.build_ops ops P hP
    exact ⟨h.num_fluents, h.num_actions, h.fluent_index, h.action_index⟩

/-- Witness for C13: the problem the constructor leaves. -/
theorem add_indices_contiguous_witness :
    (STRIPS_Problem.new "d" "p").indexed ∧
    ∀ ops : List Build_Op,
      (build ops (STRIPS_Problem.new "d" "p")).m_num_fluents =
        (build ops (STRIPS_Problem.new "d" "p")).m_fluents.length ∧
      (build ops (STRIPS_Problem.new "d" "p")).m_num_actions =
        (build ops (STRIPS_Problem.new "d" "p")).m_actions.length ∧
      (∀ (i : Nat) (f : Fluent),
        (build ops (STRIPS_Problem.new "d" "p")).m_fluents[i]? = some f → f.index = i) ∧
      ∀ (i : Nat) (a : Action),
        (build ops (STRIPS_Problem.new "d" "p")).m_actions[i]? = some a → a.index = i :=
  ⟨new_indexed "d" "p",
    (add_indices_contiguous (STRIPS_Problem.new "d" "p") (new_indexed "d" "p")).2.2⟩

/-- C15: `set_goal( g, true )` appends exactly one action, with precondition `g`, empty add list,
delete list and conditional effects and cost 0, whose index is the number of actions before the
call, and sets `end_operator_id` to that index; `set_goal( g, false )` adds no action and leaves
`end_operator_id` as it was. -/
theorem set_goal_end_operator (P : STRIPS_Problem) (g : Fluent_Vec) :
    (∃ a : Action, (set_goal P g true).m_actions = P.m_actions ++ [a] ∧
      a.prec_vec = g ∧ a.add_vec = [] ∧ a.del_vec = [] ∧ a.ceff_vec = [] ∧ a.cost = 0 ∧
      a.index = P.m_actions.length) ∧
    (set_goal P g true).m_end_operator_id = some P.m_actions.length ∧
    (set_goal P g true).m_num_actions = P.m_num_actions + 1 ∧
    (set_goal P g false).m_actions = P.m_actions ∧
    (set_goal P g false).m_num_actions = P.m_num_actions ∧
    (set_goal P g false).m_end_operator_id = P.m_end_operator_id := by
  rw [set_goal_true_eq, set_goal_false_eq]
  exact ⟨⟨end_operator P.m_num_fluents P.m_actions.length g, rfl, rfl, rfl, rfl, rfl, rfl, rfl⟩,
    rfl, rfl, rfl, rfl, rfl⟩

theorem set_flags_length (n : Nat) (idx : Nat → Nat) (b : Bool) (flags : List Bool) :
    (set_flags n idx b flags).length = flags.length := by
  induction n with
  | zero => rfl
  | succ n ih =>
    show ((set_flags n idx b flags).set (idx n) b).length = flags.length
    rw [List.length_set, ih]

theorem set_flags_getD (n : Nat) (idx : Nat → Nat) (b : Bool) (flags : List Bool) (f : Nat) :
    (set_flags n idx b flags).getD f false =
      if f < flags.length ∧ ∃ k, k < n ∧ idx k = f then b else flags.getD f false := by
  induction n with
  | zero =>
    show flags.getD f false = _
    rw [if_neg]
    rintro ⟨_, k, hk, _⟩
    omega
  | succ n ih =>
    show ((set_flags n idx b flags).set (idx n) b).getD f false = _
    rw [getD_set_bool, set_flags_length, ih]
    by_cases h1 : f = idx n ∧ idx n < flags.length
    · rw [if_pos h1, if_pos ⟨h1.1 ▸ h1.2, n, Nat.lt_succ_self n, h1.1.symm⟩]
    · rw [if_neg h1]
      by_cases h2 : f < flags.length ∧ ∃ k, k < n ∧ idx k = f
      · obtain ⟨h3, k, hk, hkf⟩ := h2
        rw [if_pos ⟨h3, k, hk, hkf⟩, if_pos ⟨h3, k, Nat.lt_succ_of_lt hk, hkf⟩]
      · rw [if_neg h2, if_neg]
        rintro ⟨h3, k, hk, hkf⟩
        rcases Nat.lt_succ_iff_lt_or_eq.mp hk with hlt | heq
        · exact h2 ⟨h3, k, hlt, hkf⟩
        · subst heq
          exact h1 ⟨hkf.symm, hkf ▸ h3⟩

/-- The flags that `set_init` / `set_goal` leave mark exactly the fluents of the vector, when the
old flag vector is empty or has one flag per fluent. -/
theorem flags_after_iff (nf : Nat) (flags : List Bool) (v : Fluent_Vec)
    (hflags : flags = [] ∨ flags.length = nf) (hv : ∀ f ∈ v, f < nf) (f : Nat) :
    (flags_after nf flags v).getD f false = true ↔ f ∈ v := by
  have hbase : ∀ (base : List Bool), base.length = nf → (∀ g, base.getD g false = false) →
      ((set_flags v.length (fun k => v.getD k 0) true base).getD f false = true ↔ f ∈ v) := by
    intro base hlen hfalse
    rw [set_flags_getD, hlen]
    constructor
    · intro h
      by_cases hc : f < nf ∧ ∃ k, k < v.length ∧ v.getD k 0 = f
      · obtain ⟨_, k, hk, hkf⟩ := hc
        rw [← hkf, List.getD_eq_getElem v 0 hk]
        exact List.getElem_mem hk
      · rw [if_neg hc, hfalse] at h
        exact absurd h (by simp)
    · intro hf
      obtain ⟨k, hk, hkf⟩ := List.getElem_of_mem hf
      rw [if_pos ⟨hv f hf, k, hk, by rw [List.getD_eq_getElem v 0 hk]; exact hkf⟩]
  unfold flags_after
  by_cases he : flags.isEmpty = true
  · rw [if_pos he]
    have hnil : flags = [] := List.isEmpty_iff.mp he
    subst hnil
    apply hbase
    · simp [vec_resize]
    · intro g
      simp only [vec_resize, List.take_nil, List.nil_append, List.length_nil, Nat.sub_zero,
        List.getD_eq_getElem?_getD, List.getElem?_replicate]
      split <;> rfl
  · rw [if_neg he]
    have hlen : flags.length = nf := by
      rcases hflags with h | h
      · rw [h] at he
        simp at he
      · exact h
    apply hbase
    · rw [set_flags_length, hlen]
    · intro g
      rw [set_flags_getD]
      by_cases hc : g < flags.length ∧ ∃ k, k < nf ∧ k = g
      · rw [if_pos hc]
      · rw [if_neg hc]
        have hg : ¬ g < flags.length := by
          intro hg
          exact hc ⟨hg, g, hlen ▸ hg, rfl⟩
        rw [List.getD_eq_getElem?_getD, List.getElem?_eq_none (Nat.le_of_not_lt hg)]
        rfl

/-- C14: on a problem whose flag vectors are still empty or hold one flag per fluent (the number
of fluents has not changed since the first `set_init` / `set_goal`), after `set_init( v )` with
the indices of `v` below `num_fluents`, `init()` is `v` and the in-init flag of `f` is set iff `f`
occurs in `v`, whatever the flags were before; and the same for `set_goal`, with or without the
end operator, `goal()` and the in-goal flags. -/
theorem set_init_goal_overwrite (P : STRIPS_Problem) (v : Fluent_Vec) (create_end_op : Bool)
    (hinit : P.m_in_init = [] ∨ P.m_in_init.length = P.m_num_fluents)
    (hgoal : P.m_in_goal = [] ∨ P.m_in_goal.length = P.m_num_fluents)
    (hv : ∀ f ∈ v, f < P.m_num_fluents) :
    (set_init P v).m_init = v ∧
    (∀ f, (set_init P v).m_in_init.getD f false = true ↔ f ∈ v) ∧
    (set_goal P v create_end_op).m_goal = v ∧
    (∀ f, (set_goal P v create_end_op).m_in_goal.getD f false = true ↔ f ∈ v) := by
  refine ⟨by rw [set_init_eq], ?_, ?_, ?_⟩
  · intro f
    rw [set_init_eq]
    exact flags_after_iff P.m_num_fluents P.m_in_init v hinit hv f
  · cases create_end_op
    · rw [set_goal_false_eq]
    · rw [set_goal_true_eq]
  · intro f
    cases create_end_op
    · rw [set_goal_false_eq]
      exact flags_after_iff P.m_num_fluents P.m_in_goal v hgoal hv f
    · rw [set_goal_true_eq]
      exact flags_after_iff P.m_num_fluents P.m_in_goal v hgoal hv f

/-- Witness for C14: the rooms problem after an earlier `set_init` and `set_goal`. -/
theorem set_init_goal_overwrite_witness :
    (set_init (set_goal (set_init rooms [0, 1]) [1] false) [2]).m_init = [2] ∧
    (∀ f, (set_init (set_goal (set_init rooms [0, 1]) [1] false) [2]).m_in_init.getD f false
      = true ↔ f ∈ [2]) ∧
    (set_goal (set_goal (set_init rooms [0, 1]) [1] false) [2] false).m_goal = [2] ∧
    (∀ f, (set_goal (set_goal (set_init rooms [0, 1]) [1] false) [2] false).m_in_goal.getD f false
      = true ↔ f ∈ [2]) :=
  set_init_goal_overwrite (set_goal (set_init rooms [0, 1]) [1] false) [2] false
    (Or.inr (by decide)) (Or.inr (by decide)) (by decide)

theorem vec_resize_length {α : Type} (l : List α) (n : Nat) (d : α) :
    (vec_resize l n d).length = n := by
  simp only [vec_resize, List.length_append, List.length_take, List.length_replicate]
  omega

theorem H2_Heuristic.compute_mutexes_only_fuel (P : STRIPS_Problem) :
    ∀ (fuel : Nat) (h r : H2_Heuristic), H2_Heuristic.compute_mutexes_only P fuel h = some r →
      ∀ k, H2_Heuristic.compute_mutexes_only P (fuel + k) h = some r := by
  intro fuel
  induction fuel with
  | zero =>
    intro h r hres
    simp [H2_Heuristic.compute_mutexes_only] at hres
  | succ fuel ih =>
    intro h r hres k
    have hk : fuel + 1 + k = (fuel + k) + 1 := by omega
    rw [hk]
    unfold H2_Heuristic.compute_mutexes_only at hres ⊢
    simp only at hres ⊢
    by_cases hfp : (H2_Heuristic.mutex_pass P h).2 = true
    · rw [if_pos hfp] at hres ⊢
      exact hres
    · rw [if_neg hfp] at hres ⊢
      exact ih _ r hres k

theorem H2_Heuristic.compute_mutexes_only_unique (P : STRIPS_Problem) (f1 f2 : Nat)
    (h r1 r2 : H2_Heuristic) (h1 : H2_Heuristic.compute_mutexes_only P f1 h = some r1)
    (h2 : H2_Heuristic.compute_mutexes_only P f2 h = some r2) : r1 = r2 := by
  have a := H2_Heuristic.compute_mutexes_only_fuel P f1 h r1 h1 f2
  have b := H2_Heuristic.compute_mutexes_only_fuel P f2 h r2 h2 f1
  rw [Nat.add_comm] at b
  rw [a] at b
  exact Option.some.inj b

theorem H2_Heuristic.compute_edeletes_unique (P : STRIPS_Problem) (f1 f2 : Nat)
    (h : H2_Heuristic) (r1 r2 : STRIPS_Problem × H2_Heuristic)
    (h1 : H2_Heuristic.compute_edeletes P f1 h = some r1)
    (h2 : H2_Heuristic.compute_edeletes P f2 h = some r2) : r1 = r2 := by
  unfold H2_Heuristic.compute_edeletes at h1 h2
  simp only at h1 h2
  split at h1
  · simp at h1
  · rename_i m1 e1
    split at h2
    · simp at h2
    · rename_i m2 e2
      have hm := H2_Heuristic.compute_mutexes_only_unique P f1 f2 _ m1 m2 e1 e2
      subst hm
      rw [← Option.some.inj h1, ← Option.some.inj h2]

theorem option_eq_getD {α : Type} (o : Option α) (d : α) (h : o.isSome = true) :
    o = some (o.getD d) := by
  cases o with
  | none => simp at h
  | some r => rfl

theorem moves_edeletes_eq :
    H2_Heuristic.compute_edeletes moves 10 (H2_Heuristic.new moves) = some moves_edeletes :=
  option_eq_getD _ _ (by decide!)

/-- C18: on the problem with fluents at-A, at-B, at-C (0, 1, 2), init at-A and the actions
move(A,B) and move(A,C) (0 and 1), `compute_edeletes` returns, at-B and at-C are mutex in its
table, at-C is in the e-delete sequence and bitset of move(A,B), at-B in those of move(A,C),
move(A,B) is in `actions_edeleting( at-C )` and move(A,C) in `actions_edeleting( at-B )`. -/
theorem edelete_scenario :
    (∃ fuel, H2_Heuristic.compute_edeletes moves fuel (H2_Heuristic.new moves) =
      some moves_edeletes) ∧
    (∀ fuel r, H2_Heuristic.compute_edeletes moves fuel (H2_Heuristic.new moves) = some r →
      r = moves_edeletes) ∧
    moves_edeletes.2.value 1 2 = infty ∧
    (moves_edeletes.1.m_actions.map (fun a => a.signature)) = ["(move A B)", "(move A C)"] ∧
    (∃ a0 a1, moves_edeletes.1.m_actions = [a0, a1] ∧
      2 ∈ a0.edel_vec ∧ a0.edel_set.isset 2 = true ∧
      1 ∈ a1.edel_vec ∧ a1.edel_set.isset 1 = true) ∧
    0 ∈ moves_edeletes.1.actions_edeleting 2 ∧ 1 ∈ moves_edeletes.1.actions_edeleting 1 := by
  refine ⟨⟨10, moves_edeletes_eq⟩, ?_, by decide!, by decide!, ?_, by decide!, by decide!⟩
  · intro fuel r hr
    exact H2_Heuristic.compute_edeletes_unique moves fuel 10 _ r moves_edeletes hr
      moves_edeletes_eq
  · have hlen : moves_edeletes.1.m_actions.length = 2 := by decide!
    match hm : moves_edeletes.1.m_actions, hlen with
    | [a0, a1], _ =>
      refine ⟨a0, a1, rfl, ?_⟩
      have h0 : moves_edeletes.1.m_actions[0]? = some a0 := by rw [hm]; rfl
      have h1 : moves_edeletes.1.m_actions[1]? = some a1 := by rw [hm]; rfl
      have e0 : (moves_edeletes.1.m_actions.map (fun a => (a.edel_vec, a.edel_set.bits)))[0]? =
          some ([0, 2], [true, false, true]) := by decide!
      have e1 : (moves_edeletes.1.m_actions.map (fun a => (a.edel_vec, a.edel_set.bits)))[1]? =
          some ([0, 1], [true, true, false]) := by decide!
      rw [List.getElem?_map, h0] at e0
      rw [List.getElem?_map, h1] at e1
      simp only [Option.map_some', Option.some.injEq, Prod.mk.injEq] at e0 e1
      refine ⟨?_, ?_, ?_, ?_⟩
      · rw [e0.1]
        decide
      · simp [Bit_Set.isset, e0.2]
      · rw [e1.1]
        decide
      · simp [Bit_Set.isset, e1.2]

/-- C20: `pair_index( p, q ) = pair_index( q, p )` for all `p` and `q`, so in every state of the
h² object `value( p, q )` and `value( q, p )` read the same entry, and an assignment to one is an
assignment to the other. -/
theorem pair_index_symmetric (p q : Nat) :
    pair_index p q = pair_index q p ∧
    (∀ h : H2_Heuristic, h.value p q = h.value q p) ∧
    ∀ (h : H2_Heuristic) (v : Val), h.set_value p q v = h.set_value q p v := by
  refine ⟨pair_index_comm p q, fun h => H2_Heuristic.value_comm h p q, ?_⟩
  intro h v
  simp only [H2_Heuristic.set_value, pair_index_comm p q]

theorem H1_Heuristic.update_other (h : H1_Heuristic) (p : Nat) (v : Val) (g : Nat)
    (hpg : p ≠ g) : (h.update p v).val g = h.val g := by
  unfold H1_Heuristic.update
  split
  · rfl
  · have hv : ({ h with m_values := h.m_values.set p v } : H1_Heuristic).val g = h.val g := by
      show (h.m_values.set p v).getD g infty = h.m_values.getD g infty
      rw [getD_set_val, if_neg]
      exact fun hc => hpg hc.1.symm
    simp only
    split
    · exact hv
    · exact hv

theorem H1_Heuristic.update_sup_other (h : H1_Heuristic) (p : Nat) (v : Val) (a g : Nat)
    (hpg : p ≠ g) : (h.update_sup p v a).val g = h.val g := by
  unfold H1_Heuristic.update_sup
  split
  · rfl
  · have hv : ({ h with m_values := h.m_values.set p v } : H1_Heuristic).val g = h.val g := by
      show (h.m_values.set p v).getD g infty = h.m_values.getD g infty
      rw [getD_set_val, if_neg]
      exact fun hc => hpg hc.1.symm
    simp only
    split
    · exact hv
    · exact hv

theorem H1_Heuristic.set_other (h : H1_Heuristic) (p : Nat) (v : Val) (g : Nat)
    (hpg : p ≠ g) : (h.set p v).val g = h.val g := by
  rw [H1_Heuristic.set_val, if_neg]
  exact fun hc => hpg hc.1.symm

theorem H1_Heuristic.update_loop_other (fs : Fluent_Vec) (v : Val) (g : Nat) (hg : g ∉ fs)
    (h : H1_Heuristic) :
    (fs.foldl (fun (h : H1_Heuristic) f => h.update f v) h).val g = h.val g := by
  induction fs generalizing h with
  | nil => rfl
  | cons f rest ih =>
    rw [List.foldl_cons, ih (fun hc => hg (List.mem_cons_of_mem _ hc)),
      H1_Heuristic.update_other h f v g (fun hc => hg (hc ▸ List.mem_cons_self _ _))]

theorem H1_Heuristic.update_sup_loop_other (fs : Fluent_Vec) (v : Val) (a g : Nat)
    (hg : g ∉ fs) (h : H1_Heuristic) :
    (fs.foldl (fun (h : H1_Heuristic) f => h.update_sup f v a) h).val g = h.val g := by
  induction fs generalizing h with
  | nil => rfl
  | cons f rest ih =>
    rw [List.foldl_cons, ih (fun hc => hg (List.mem_cons_of_mem _ hc)),
      H1_Heuristic.update_sup_other h f v a g (fun hc => hg (hc ▸ List.mem_cons_self _ _))]

/-- The value of a fluent that nothing adds and the state does not hold is `infty` after
`initialize`. -/
theorem H1_Heuristic.initialize_unreached (P : STRIPS_Problem) (opt : H1_Cost_Function)
    (h : H1_Heuristic) (hs : h.sized P) (s : State) (g : Nat) (hgs : g ∉ s.fluent_vec)
    (hadd : P.never_added g) :
    ( H1_Heuristic.initialize P opt h s).val g = infty := by
  unfold H1_Heuristic.initialize
  simp only
  have h1 := H1_Heuristic.init_values P.m_num_fluents h
  simp only at h1
  have hstart : (forLoop P.m_num_fluents (fun k (h : H1_Heuristic) =>
      { h with m_values := h.m_values.set k infty
               m_best_supporters := h.m_best_supporters.set k none }) h).val g = infty := by
    rw [h1.2.2.2 g]
    split
    · rfl
    · rename_i hge
      show h.m_values.getD g infty = infty
      rw [List.getD_eq_getElem?_getD, List.getElem?_eq_none (by rw [hs]; omega)]
      rfl
  have hset : ∀ (fs : Fluent_Vec) (h0 : H1_Heuristic), g ∉ fs →
      (fs.foldl (fun (h : H1_Heuristic) f => h.set f 0) h0).val g = h0.val g := by
    intro fs
    induction fs with
    | nil => exact fun _ _ => rfl
    | cons f rest ih =>
      intro h0 hg
      rw [List.foldl_cons, ih _ (fun hc => hg (List.mem_cons_of_mem _ hc)),
        H1_Heuristic.set_other h0 f 0 g (fun hc => hg (hc ▸ List.mem_cons_self _ _))]
  rw [hset _ _ hgs]
  refine foldl_inv (fun h0 : H1_Heuristic => h0.val g = infty) _ _ ?_ _ hstart
  intro h0 idx _ hI
  show (match P.m_actions[idx]? with
    | none => h0
    | some a => _).val g = infty
  split
  · exact hI
  · rename_i a ha
    have hmem := getElem?_mem_of_some _ _ _ ha
    have hna := hadd a hmem
    refine foldl_inv (fun h0 : H1_Heuristic => h0.val g = infty) _ _ ?_ _ ?_
    · intro h2 c hc hI2
      show (if (!c.prec_vec.isEmpty) = true then h2 else _).val g = infty
      split
      · exact hI2
      · exact (H1_Heuristic.update_loop_other c.add_vec (opt.base a) g (hna.2 c hc) h2).trans hI2
    · exact (H1_Heuristic.update_loop_other a.add_vec (opt.base a) g hna.1 h0).trans hI

theorem H1_Heuristic.relax_action_unreached (P : STRIPS_Problem)
    (eval_func : List Val → Fluent_Vec → Val → Val) (opt : H1_Cost_Function) (p i g : Nat)
    (hadd : P.never_added g) (h : H1_Heuristic) :
    (H1_Heuristic.relax_action P eval_func opt p i h).val g = h.val g := by
  unfold H1_Heuristic.relax_action
  split
  · rfl
  · rename_i a ha
    have hna := hadd a (getElem?_mem_of_some _ _ _ ha)
    simp only
    split
    · rfl
    · split
      · rfl
      · refine foldl_inv (fun h0 : H1_Heuristic => h0.val g = h.val g) _ _ ?_ _ ?_
        · intro h0 c hc hI
          show (if _ then h0 else _).val g = h.val g
          split
          · exact hI
          · exact (H1_Heuristic.update_sup_loop_other c.add_vec _ i g (hna.2 c hc) h0).trans hI
        · exact H1_Heuristic.update_sup_loop_other a.add_vec _ i g hna.1 h

theorem H1_Heuristic.compute_unreached (P : STRIPS_Problem)
    (eval_func : List Val → Fluent_Vec → Val → Val) (opt : H1_Cost_Function) (g : Nat)
    (hadd : P.never_added g) :
    ∀ (fuel : Nat) (h h1 : H1_Heuristic), H1_Heuristic.compute P eval_func opt fuel h = some h1 →
      h1.val g = h.val g := by
  intro fuel
  induction fuel with
  | zero =>
    intro h h1 hres
    unfold H1_Heuristic.compute at hres
    split at hres
    · cases hres
      rfl
    · cases hres
    · rename_i hfuel
      cases hfuel
  | succ fuel ih =>
    intro h h1 hres
    unfold H1_Heuristic.compute at hres
    split at hres
    · cases hres
      rfl
    · rename_i hfuel
      cases hfuel
    · rename_i p rest fuel1 _ hfuel
      cases hfuel
      rw [ih _ h1 hres]
      unfold H1_Heuristic.compute_step
      simp only
      exact forLoop_inv (fun h0 : H1_Heuristic => h0.val g = h.val g) _ _
        (fun k h0 _ hI =>
          (H1_Heuristic.relax_action_unreached P eval_func opt p k g hadd h0).trans hI) _ rfl

theorem H1_Heuristic.eval_unreached (P : STRIPS_Problem) (opt : H1_Cost_Function)
    (h : H1_Heuristic) (hs : h.sized P) (s : State) (g : Nat) (hgoal : g ∈ P.m_goal)
    (hgs : g ∉ s.fluent_vec) (hadd : P.never_added g) (fuel : Nat) (r : Val × H1_Heuristic)
    (hres : H1_Heuristic.eval P H_Max_Evaluation_Function opt fuel h s = some r) :
    r.1 = infty := by
  unfold H1_Heuristic.eval at hres
  simp only at hres
  split at hres
  · cases hres
  · rename_i h2 hcomp
    cases hres
    have hinit := H1_Heuristic.initialize_unreached P opt
      { h with m_already_updated := h.m_already_updated.reset, m_updated := [] } hs s g hgs hadd
    have hval := H1_Heuristic.compute_unreached P H_Max_Evaluation_Function opt g hadd fuel _ h2
      hcomp
    rw [hinit] at hval
    show H_Max_Evaluation_Function h2.m_values P.m_goal 0 = infty
    rw [H_Max_eq_hmaxF]
    have hle := mem_le_hmaxF (fun f => h2.m_values.getD f infty) P.m_goal 0 g hgoal
    have hg : h2.m_values.getD g infty = infty := hval
    simp only [hg] at hle
    exact top_le_iff.mp hle

theorem five_rooms_cut_wf : five_rooms_cut.wf := ⟨by decide, by decide⟩

theorem five_rooms_cut_cost : ∀ a ∈ five_rooms_cut.m_actions, 0 ≤ a.cost := by
  decide!

theorem five_rooms_cut_never : five_rooms_cut.never_added 2 := by
  unfold STRIPS_Problem.never_added
  decide

/-- C19: on the five-room problem without the edge between sitting room and balcony,
`H1_Heuristic::eval` of the initial state with max aggregation returns, and returns `infty`; and
on every well-formed problem with nonnegative costs, for every state `s` and every goal fluent
that `s` does not hold and that no action or conditional effect adds, the evaluation returns, and
returns `infty`, whatever the cost option. -/
theorem h_max_unsolvable :
    ((∃ fuel r, H1_Heuristic.eval five_rooms_cut H_Max_Evaluation_Function .Use_Costs fuel
        (H1_Heuristic.new five_rooms_cut) ⟨five_rooms_cut.m_init⟩ = some r) ∧
      ∀ fuel r, H1_Heuristic.eval five_rooms_cut H_Max_Evaluation_Function .Use_Costs fuel
        (H1_Heuristic.new five_rooms_cut) ⟨five_rooms_cut.m_init⟩ = some r → r.1 = infty) ∧
    ∀ (P : STRIPS_Problem) (opt : H1_Cost_Function) (h : H1_Heuristic) (s : State) (g : Nat),
      P.wf → (∀ a ∈ P.m_actions, 0 ≤ a.cost) → h.sized P →
      g ∈ P.m_goal → g ∉ s.fluent_vec → P.never_added g →
      (∃ fuel r, H1_Heuristic.eval P H_Max_Evaluation_Function opt fuel h s = some r) ∧
      ∀ fuel r, H1_Heuristic.eval P H_Max_Evaluation_Function opt fuel h s = some r →
        r.1 = infty := by
  have general : ∀ (P : STRIPS_Problem) (opt : H1_Cost_Function) (h : H1_Heuristic) (s : State)
      (g : Nat), P.wf → (∀ a ∈ P.m_actions, 0 ≤ a.cost) → h.sized P →
      g ∈ P.m_goal → g ∉ s.fluent_vec → P.never_added g →
      (∃ fuel r, H1_Heuristic.eval P H_Max_Evaluation_Function opt fuel h s = some r) ∧
      ∀ fuel r, H1_Heuristic.eval P H_Max_Evaluation_Function opt fuel h s = some r →
        r.1 = infty := by
    intro P opt h s g hwf hcost hs hgoal hgs hadd
    exact ⟨H1_Heuristic.eval_terminates P hwf hcost H_Max_gridOK opt h hs s,
      fun fuel r hres => H1_Heuristic.eval_unreached P opt h hs s g hgoal hgs hadd fuel r hres⟩
  refine ⟨?_, general⟩
  exact general five_rooms_cut .Use_Costs (H1_Heuristic.new five_rooms_cut)
    ⟨five_rooms_cut.m_init⟩ 2 five_rooms_cut_wf five_rooms_cut_cost
    (by unfold H1_Heuristic.sized; decide) (by decide) (by decide) five_rooms_cut_never

/-- Witness for C19: the five-room problem without the edge, from the bedroom. -/
theorem h_max_unsolvable_witness :
    (∃ fuel r, H1_Heuristic.eval five_rooms_cut H_Max_Evaluation_Function .LAMA fuel
      (H1_Heuristic.new five_rooms_cut) ⟨[4]⟩ = some r) ∧
    ∀ fuel r, H1_Heuristic.eval five_rooms_cut H_Max_Evaluation_Function .LAMA fuel
      (H1_Heuristic.new five_rooms_cut) ⟨[4]⟩ = some r → r.1 = infty :=
  h_max_unsolvable.2 five_rooms_cut .LAMA (H1_Heuristic.new five_rooms_cut) ⟨[4]⟩ 2
    five_rooms_cut_wf five_rooms_cut_cost (by unfold H1_Heuristic.sized; decide) (by decide)
    (by decide) five_rooms_cut_never

/-- C16: on the gift problem, from the empty state and with the fluent "(have)" persisting,
`eval_reachability` disables the only action, which adds that fluent, and still returns with the
value 1 for the fluent and for the goal: `initialize` has applied the action, which has no
precondition, at its cost. -/
theorem eval_reachability_counts_disabled :
    H1_Heuristic.eval_reachability gift H_Max_Evaluation_Function .Use_Costs 5
      (H1_Heuristic.new gift) ⟨[]⟩ (some [0]) = some gift_reachability ∧
    (gift.m_actions.map (fun a => (a.prec_vec, a.add_vec))) = [([], [0])] ∧
    gift_reachability.2.m_allowed_actions = [false] ∧
    gift_reachability.2.val 0 = 1 ∧ gift_reachability.1 = 1 := by
  refine ⟨option_eq_getD _ _ (by decide!), by decide, by decide!, by decide!, by decide!⟩

theorem hsumF_top (val : Nat → Val) (fs : Fluent_Vec) : hsumF val fs ⊤ = ⊤ := by
  induction fs with
  | nil => rfl
  | cons f rest ih =>
    simp only [hsumF, List.foldl_cons, top_add] at ih ⊢
    exact ih

theorem H_Add_eq_hsumF (vals : List Val) (fs : Fluent_Vec) (v : Val) :
    H_Add_Evaluation_Function vals fs v = hsumF (fun f => vals.getD f infty) fs v := by
  induction fs generalizing v with
  | nil => rfl
  | cons f rest ih =>
    simp only [H_Add_Evaluation_Function, hsumF, List.foldl_cons]
    split
    · rename_i htop
      rw [htop]
      have h1 : v + infty = ⊤ := add_top v
      rw [h1]
      exact (hsumF_top _ rest).symm
    · exact ih _

theorem hsumF_mono (val val1 : Nat → Val) (fs : Fluent_Vec) (v v1 : Val)
    (h : ∀ f ∈ fs, val1 f ≤ val f) (hv : v1 ≤ v) : hsumF val1 fs v1 ≤ hsumF val fs v := by
  induction fs generalizing v v1 with
  | nil => exact hv
  | cons f rest ih =>
    simp only [hsumF, List.foldl_cons]
    exact ih _ _ (fun g hg => h g (List.mem_cons_of_mem _ hg))
      (add_le_add hv (h f (List.mem_cons_self _ _)))

theorem hsumF_ge (val : Nat → Val) (fs : Fluent_Vec) (v : Val) (h : ∀ f ∈ fs, 0 ≤ val f) :
    v ≤ hsumF val fs v := by
  induction fs generalizing v with
  | nil => exact le_rfl
  | cons f rest ih =>
    simp only [hsumF, List.foldl_cons]
    exact (le_add_of_nonneg_right (h f (List.mem_cons_self _ _))).trans
      (ih _ (fun g hg => h g (List.mem_cons_of_mem _ hg)))

theorem H_Add_gridOK : GridOK H_Add_Evaluation_Function := by
  intro D vals fs v hg hv
  rw [H_Add_eq_hsumF]
  induction fs generalizing v with
  | nil => exact hv
  | cons f fs ih =>
    simp only [hsumF, List.foldl_cons]
    apply ih
    have hf : onGrid D (vals.getD f infty) := by
      by_cases hlt : f < vals.length
      · rw [List.getD_eq_getElem _ _ hlt]
        exact hg _ (List.getElem_mem hlt)
      · left
        simp [List.getD_eq_getElem?_getD, List.getElem?_eq_none (Nat.le_of_not_lt hlt)]
    exact onGrid_add D _ _ hv hf

theorem H_Add_mono : EvalMono H_Add_Evaluation_Function where
  mono := by
    intro vals vals1 fs v v1 h hv
    rw [H_Add_eq_hsumF, H_Add_eq_hsumF]
    exact hsumF_mono _ _ fs v v1 h hv
  ge := by
    intro vals fs v h
    rw [H_Add_eq_hsumF]
    exact hsumF_ge _ fs v h
  append := by
    intro vals fs gs v
    simp only [H_Add_eq_hsumF, hsumF, List.foldl_append]

theorem hmaxF_mono (val val1 : Nat → Val) (fs : Fluent_Vec) (v v1 : Val)
    (h : ∀ f ∈ fs, val1 f ≤ val f) (hv : v1 ≤ v) : hmaxF val1 fs v1 ≤ hmaxF val fs v := by
  induction fs generalizing v v1 with
  | nil => exact hv
  | cons f rest ih =>
    simp only [hmaxF, List.foldl_cons]
    exact ih _ _ (fun g hg => h g (List.mem_cons_of_mem _ hg))
      (max_le_max hv (h f (List.mem_cons_self _ _)))

theorem H_Max_mono : EvalMono H_Max_Evaluation_Function where
  mono := by
    intro vals vals1 fs v v1 h hv
    rw [H_Max_eq_hmaxF, H_Max_eq_hmaxF]
    exact hmaxF_mono _ _ fs v v1 h hv
  ge := by
    intro vals fs v _
    rw [H_Max_eq_hmaxF]
    exact le_hmaxF _ fs v
  append := by
    intro vals fs gs v
    simp only [H_Max_eq_hmaxF, hmaxF, List.foldl_append]

theorem propose_nonneg (opt : H1_Cost_Function) (a : Action) (hc : 0 ≤ a.cost) (x : Val)
    (hx : 0 ≤ x) : 0 ≤ opt.propose a x := by
  have hcv : (0 : Val) ≤ (a.cost : Val) := by exact_mod_cast hc
  cases opt <;> simp only [H1_Cost_Function.propose]
  · exact add_nonneg zero_le_one hx
  · exact add_nonneg hcv hx
  · exact add_nonneg (add_nonneg zero_le_one hcv) hx

theorem H1_Heuristic.update_sup_values (h : H1_Heuristic) (p : Nat) (v : Val) (a : Nat) :
    (h.update_sup p v a).m_values =
      if v ≥ h.m_values.getD p infty then h.m_values else h.m_values.set p v := by
  unfold H1_Heuristic.update_sup
  split
  · rfl
  · simp only
    split <;> rfl

theorem base_nonneg (opt : H1_Cost_Function) (a : Action) (hc : 0 ≤ a.cost) : 0 ≤ opt.base a := by
  rw [← propose_zero]
  exact propose_nonneg opt a hc 0 le_rfl

/-- C22: on the pairs problem with arity 2, after the root `{0}` was evaluated by state and its
successor `{1}` (action 0) as a node, the successor `{0, 1}` of the root by action 1, which adds
fluent 1, is evaluated as a node with result 3: the only new tuple `(0, 1)` has the table index
of the 1-tuple `(1)`. No earlier state holds both fluents, no 1-tuple of the state is new, and
the evaluation by state on the same table returns 2. -/
theorem novelty_node_misses_pair :
    (pairs.m_actions.map (fun a => (a.add_vec, (State.apply ⟨[0]⟩ a).fluent_vec))) =
      [([1], [1]), ([1], [0, 1])] ∧
    (pairs_table.eval_node pairs ⟨[0, 1]⟩ (some 1)).2 = 3 ∧
    new_tuple [⟨[0]⟩, ⟨[1]⟩] ⟨[0, 1]⟩ 2 ∧
    ¬ new_tuple [⟨[0]⟩, ⟨[1]⟩] ⟨[0, 1]⟩ 1 ∧
    (pairs_table.eval ⟨[0, 1]⟩).2 = 2 := by
  refine ⟨by decide, by decide!, ?_, ?_, by decide!⟩
  · refine ⟨[0, 1], ⟨rfl, by decide⟩, ?_⟩
    intro s1 hs1 hall
    rcases List.mem_cons.mp hs1 with h | h
    · subst h
      exact absurd (hall 1 (by decide)) (by decide)
    · rcases List.mem_cons.mp h with h2 | h2
      · subst h2
        exact absurd (hall 0 (by decide)) (by decide)
      · cases h2
  · rintro ⟨t, ⟨hlen, hin⟩, hnew⟩
    match t, hlen with
    | [x], _ =>
      have hx := hin x (List.mem_singleton_self x)
      rcases List.mem_cons.mp hx with h | h
      · subst h
        exact hnew ⟨[0]⟩ (by decide) (by decide)
      · rcases List.mem_cons.mp h with h2 | h2
        · subst h2
          exact hnew ⟨[1]⟩ (by decide) (by decide)
        · cases h2

theorem getD_set_any {α : Type} (l : List α) (p f : Nat) (x d : α) :
    (l.set p x).getD f d = if f = p ∧ p < l.length then x else l.getD f d := by
  simp only [List.getD_eq_getElem?_getD, List.getElem?_set]
  by_cases h : p = f
  · subst h
    by_cases h2 : p < l.length
    · simp [h2]
    · simp [h2, List.getElem?_eq_none (Nat.le_of_not_lt h2)]
  · have : ¬ (f = p) := fun e => h e.symm
    simp [h, this]

theorem State.same_iff (s t : State) :
    s.same t = true ↔ ∀ f, f ∈ s.fluent_vec ↔ f ∈ t.fluent_vec := by
  unfold State.same
  simp only [Bool.and_eq_true, List.all_eq_true, contains_iff]
  constructor
  · rintro ⟨h1, h2⟩ f
    exact ⟨h1 f, h2 f⟩
  · intro h
    exact ⟨fun f hf => (h f).mp hf, fun f hf => (h f).mpr hf⟩

theorem State.same_refl (s : State) : s.same s = true :=
  (State.same_iff s s).mpr (fun _ => Iff.rfl)

theorem State.same_symm {s t : State} (h : s.same t = true) : t.same s = true :=
  (State.same_iff t s).mpr (fun f => ((State.same_iff s t).mp h f).symm)

theorem State.same_trans {s t u : State} (h1 : s.same t = true) (h2 : t.same u = true) :
    s.same u = true :=
  (State.same_iff s u).mpr
    (fun f => ((State.same_iff s t).mp h1 f).trans ((State.same_iff t u).mp h2 f))

namespace AT_RWBFS_DQ_MH

theorem node_lt {E : AT_RWBFS_DQ_MH} {p : Nat} {n : Search_Node} (h : E.node p = some n) :
    p < E.m_nodes.length := by
  by_contra hc
  unfold node at h
  rw [List.getD_eq_getElem?_getD, List.getElem?_eq_none (Nat.le_of_not_lt hc)] at h
  cases h

theorem node_put_node (E : AT_RWBFS_DQ_MH) (p q : Nat) (n : Search_Node)
    (hp : p < E.m_nodes.length) :
    (E.put_node p n).node q = if q = p then some n else E.node q := by
  unfold node put_node
  simp only
  rw [getD_set_any]
  by_cases h : q = p
  · rw [if_pos ⟨h, hp⟩, if_pos h]
  · rw [if_neg (fun hc => h hc.1), if_neg h]

theorem node_delete (E : AT_RWBFS_DQ_MH) (p q : Nat) :
    (E.delete p).node q = if q = p then none else E.node q := by
  unfold node delete
  simp only
  rw [getD_set_any]
  by_cases h : q = p
  · rw [if_pos h]
    by_cases hp : p < E.m_nodes.length
    · rw [if_pos ⟨h, hp⟩]
    · rw [if_neg (fun hc => hp hc.2), h, List.getD_eq_getElem?_getD,
        List.getElem?_eq_none (Nat.le_of_not_lt hp)]
      rfl
  · rw [if_neg (fun hc => h hc.1), if_neg h]

theorem retrieve_some {E : AT_RWBFS_DQ_MH} {table : List Nat} {s : State} {p : Nat}
    (h : E.retrieve table s = some p) :
    p ∈ table ∧ ∃ n, E.node p = some n ∧ n.m_state.same s = true := by
  unfold retrieve at h
  have hmem := List.mem_of_find?_eq_some h
  have hp := List.find?_some h
  refine ⟨hmem, ?_⟩
  cases hn : E.node p with
  | none =>
    rw [hn] at hp
    cases hp
  | some n =>
    rw [hn] at hp
    exact ⟨n, rfl, hp⟩

theorem retrieve_isSome (E : AT_RWBFS_DQ_MH) (table : List Nat) (s : State) :
    (E.retrieve table s).isSome = true ↔
      ∃ p ∈ table, ∃ n, E.node p = some n ∧ n.m_state.same s = true := by
  constructor
  · intro h
    obtain ⟨p, hp⟩ := Option.isSome_iff_exists.mp h
    exact ⟨p, (retrieve_some hp).1, (retrieve_some hp).2⟩
  · rintro ⟨p, hp, n, hn, hs⟩
    unfold retrieve
    rw [List.find?_isSome]
    exact ⟨p, hp, by rw [hn]; exact hs⟩

theorem pick_none (E : AT_RWBFS_DQ_MH) (l : List Nat) : E.pick l = none ↔ l = [] := by
  cases l with
  | nil => simp [pick]
  | cons p rest =>
    simp only [pick]
    constructor
    · intro h
      split at h
      · cases h
      · split at h <;> cases h
    · intro h
      cases h

theorem pick_mem (E : AT_RWBFS_DQ_MH) (l : List Nat) (p : Nat) (h : E.pick l = some p) :
    p ∈ l := by
  induction l generalizing p with
  | nil => simp [pick] at h
  | cons q rest ih =>
    unfold pick at h
    cases hr : E.pick rest with
    | none =>
      rw [hr] at h
      cases h
      exact List.mem_cons_self _ _
    | some r =>
      rw [hr] at h
      simp only at h
      split at h
      · cases h
        exact List.mem_cons_of_mem _ (ih _ hr)
      · cases h
        exact List.mem_cons_self _ _

end AT_RWBFS_DQ_MH

namespace AT_RWBFS_DQ_MH

theorem Moved.initial (E0 : AT_RWBFS_DQ_MH) (hv : E0.restartable) : E0.Moved [] E0 where
  root := rfl
  opn := rfl
  untouched := fun _ _ => rfl
  kept := fun p n0 h => Or.inr ⟨n0, h, rfl, rfl, fun hc => by cases hc⟩
  gone := fun _ h => h
  root_kept := fun n0 h => ⟨n0, h⟩
  seen_from := fun q hq => ⟨Or.inl hq, Option.isSome_iff_exists.mp (hv.seen_live q hq)⟩
  dominated := by
    intro p hp n0 hn0
    rcases hp with hp | ⟨hp, _⟩
    · exact ⟨p, hp, n0, hn0, State.same_refl _, le_rfl⟩
    · cases hp

/-- One step of the loop seen from outside: the result `R` differs from `E` at most in the node
`it`, which is deleted or flagged, and in seen. -/
theorem Moved.frame {E0 E R : AT_RWBFS_DQ_MH} {done : List Nat} {it : Nat} {n0 : Search_Node}
    (hM : E0.Moved done E) (hit : it ∉ done) (hn0 : E0.node it = some n0)
    (hroot : R.m_root = E.m_root) (hopen : R.m_open = E.m_open)
    (hother : ∀ q, q ≠ it → R.node q = E.node q)
    (hself : (R.node it = none ∧ it ≠ E0.m_root) ∨
      R.node it = some { n0 with m_seen := true })
    (hS : ∀ q ∈ R.m_seen, (q ∈ E.m_seen ∨ (q = it ∧ it ≠ E0.m_root)) ∧ ∃ m, R.node q = some m)
    (hD : ∀ q ∈ E.m_seen, ∀ m, E.node q = some m →
      ∃ q1 ∈ R.m_seen, ∃ m1, R.node q1 = some m1 ∧ m1.m_state.same m.m_state = true ∧
        m1.m_g ≤ m.m_g)
    (hD1 : it ≠ E0.m_root → ∃ q1 ∈ R.m_seen, ∃ m1, R.node q1 = some m1 ∧
      m1.m_state.same n0.m_state = true ∧ m1.m_g ≤ n0.m_g) :
    E0.Moved (done ++ [it]) R where
  root := hroot.trans hM.root
  opn := hopen.trans hM.opn
  untouched := by
    intro p hp
    have h1 : p ≠ it := fun hc => hp (hc ▸ List.mem_append_right _ (List.mem_singleton_self _))
    have h2 : p ∉ done := fun hc => hp (List.mem_append_left _ hc)
    rw [hother p h1]
    exact hM.untouched p h2
  kept := by
    intro p np hp
    by_cases hpi : p = it
    · subst hpi
      rw [hn0] at hp
      cases hp
      rcases hself with h | h
      · exact Or.inl h.1
      · exact Or.inr ⟨_, h, rfl, rfl, fun _ => rfl⟩
    · rw [hother p hpi]
      rcases hM.kept p np hp with h | ⟨n, h1, h2, h3, h4⟩
      · exact Or.inl h
      · refine Or.inr ⟨n, h1, h2, h3, fun hc => h4 ?_⟩
        rcases List.mem_append.mp hc with h5 | h5
        · exact h5
        · exact absurd (List.mem_singleton.mp h5) hpi
  gone := by
    intro p hp
    have hpi : p ≠ it := by
      intro hc
      rw [hc, hn0] at hp
      cases hp
    rw [hother p hpi]
    exact hM.gone p hp
  root_kept := by
    intro nr hnr
    by_cases hri : E0.m_root = it
    · rcases hself with h | h
      · exact absurd hri.symm h.2
      · exact ⟨_, hri ▸ h⟩
    · rw [hother _ hri]
      exact hM.root_kept nr hnr
  seen_from := by
    intro q hq
    refine ⟨?_, (hS q hq).2⟩
    rcases (hS q hq).1 with h | ⟨h1, h2⟩
    · rcases (hM.seen_from q h).1 with h3 | ⟨h3, h4⟩
      · exact Or.inl h3
      · exact Or.inr ⟨List.mem_append_left _ h3, h4⟩
    · exact Or.inr ⟨h1 ▸ List.mem_append_right _ (List.mem_singleton_self _), h1 ▸ h2⟩
  dominated := by
    intro p hp np hnp
    have hold : (p ∈ E0.m_seen ∨ (p ∈ done ∧ p ≠ E0.m_root)) ∨ (p = it ∧ it ≠ E0.m_root) := by
      rcases hp with h | ⟨h1, h2⟩
      · exact Or.inl (Or.inl h)
      · rcases List.mem_append.mp h1 with h3 | h3
        · exact Or.inl (Or.inr ⟨h3, h2⟩)
        · have := List.mem_singleton.mp h3
          exact Or.inr ⟨this, this ▸ h2⟩
    rcases hold with h | ⟨h1, h2⟩
    · obtain ⟨q, hq, m, hm, hs, hg⟩ := hM.dominated p h np hnp
      obtain ⟨q1, hq1, m1, hm1, hs1, hg1⟩ := hD q hq m hm
      exact ⟨q1, hq1, m1, hm1, State.same_trans hs1 hs, hg1.trans hg⟩
    · subst h1
      rw [hn0] at hnp
      cases hnp
      exact hD1 h2

end AT_RWBFS_DQ_MH

namespace AT_RWBFS_DQ_MH

theorem Moved.restart_next {E0 E : AT_RWBFS_DQ_MH} {done : List Nat} {it : Nat}
    (hM : E0.Moved done E) (hit : it ∉ done) (hseen : it ∉ E0.m_seen)
    (hlive : ∃ n, E0.node it = some n) :
    E0.Moved (done ++ [it]) (E.restart_step it) := by
  obtain ⟨n0, hn0⟩ := hlive
  have hE : E.node it = some n0 := (hM.untouched it hit).trans hn0
  have hlt := node_lt hE
  have hitS : it ∉ E.m_seen := by
    intro hc
    rcases (hM.seen_from it hc).1 with h | ⟨h, _⟩
    · exact hseen h
    · exact hit h
  have hE1 : ∀ q, (E.put_node it { n0 with m_seen := true }).node q =
      if q = it then some { n0 with m_seen := true } else E.node q :=
    fun q => node_put_node E it q _ hlt
  have hE1o : ∀ q, q ≠ it → (E.put_node it { n0 with m_seen := true }).node q = E.node q := by
    intro q hq
    rw [hE1, if_neg hq]
  have hE1s : (E.put_node it { n0 with m_seen := true }).node it =
      some { n0 with m_seen := true } := by
    rw [hE1, if_pos rfl]
  have hlive1 : ∀ q ∈ E.m_seen, ∃ m, (E.put_node it { n0 with m_seen := true }).node q = some m := by
    intro q hq
    have hqi : q ≠ it := fun hc => hitS (hc ▸ hq)
    rw [hE1o q hqi]
    exact (hM.seen_from q hq).2
  unfold restart_step
  rw [hE]
  simp only
  by_cases hr : it = (E.put_node it { n0 with m_seen := true }).m_root
  · rw [if_pos hr]
    have hr0 : it = E0.m_root := hr.trans hM.root
    refine Moved.frame hM hit hn0 rfl rfl hE1o (Or.inr hE1s) ?_ ?_ (fun hc => absurd hr0 hc)
    · intro q hq
      exact ⟨Or.inl hq, hlive1 q hq⟩
    · intro q hq m hm
      have hqi : q ≠ it := fun hc => hitS (hc ▸ hq)
      exact ⟨q, hq, m, (hE1o q hqi).trans hm, State.same_refl _, le_rfl⟩
  · rw [if_neg hr]
    have hr0 : it ≠ E0.m_root := fun hc => hr (hc.trans hM.root.symm)
    cases hret : (E.put_node it { n0 with m_seen := true }).retrieve
        (E.put_node it { n0 with m_seen := true }).m_seen n0.m_state with
    | none =>
      simp only
      refine Moved.frame hM hit hn0 rfl rfl hE1o (Or.inr hE1s) ?_ ?_ ?_
      · intro q hq
        rcases List.mem_append.mp hq with h | h
        · exact ⟨Or.inl h, hlive1 q h⟩
        · have hqi := List.mem_singleton.mp h
          subst hqi
          exact ⟨Or.inr ⟨rfl, hr0⟩, ⟨_, hE1s⟩⟩
      · intro q hq m hm
        have hqi : q ≠ it := fun hc => hitS (hc ▸ hq)
        exact ⟨q, List.mem_append_left _ hq, m, (hE1o q hqi).trans hm, State.same_refl _,
          le_rfl⟩
      · intro _
        exact ⟨it, List.mem_append_right _ (List.mem_singleton_self _), _, hE1s,
          State.same_refl _, le_rfl⟩
    | some p2 =>
      obtain ⟨hp2, n2, hn2, hsame⟩ := retrieve_some hret
      have hp2S : p2 ∈ E.m_seen := hp2
      have hp2i : p2 ≠ it := fun hc => hitS (hc ▸ hp2S)
      simp only [hn2]
      by_cases hg : n2.m_g ≤ n0.m_g
      · rw [if_pos hg]
        refine Moved.frame hM hit hn0 rfl rfl ?_ (Or.inl ⟨?_, hr0⟩) ?_ ?_ ?_
        · intro q hq
          rw [node_delete, if_neg hq]
          exact hE1o q hq
        · rw [node_delete, if_pos rfl]
        · intro q hq
          have hq1 : q ∈ E.m_seen := hq
          have hqi : q ≠ it := fun hc => hitS (hc ▸ hq1)
          refine ⟨Or.inl hq1, ?_⟩
          rw [node_delete, if_neg hqi]
          exact hlive1 q hq1
        · intro q hq m hm
          have hqi : q ≠ it := fun hc => hitS (hc ▸ hq)
          refine ⟨q, hq, m, ?_, State.same_refl _, le_rfl⟩
          rw [node_delete, if_neg hqi]
          exact (hE1o q hqi).trans hm
        · intro _
          refine ⟨p2, hp2S, n2, ?_, hsame, hg⟩
          rw [node_delete, if_neg hp2i]
          exact hn2
      · rw [if_neg hg]
        have hg1 : n0.m_g < n2.m_g := lt_of_not_le hg
        refine Moved.frame hM hit hn0 rfl rfl hE1o (Or.inr hE1s) ?_ ?_ ?_
        · intro q hq
          rcases List.mem_append.mp hq with h | h
          · have h1 : q ∈ E.m_seen := List.mem_of_mem_erase h
            exact ⟨Or.inl h1, hlive1 q h1⟩
          · have hqi := List.mem_singleton.mp h
            subst hqi
            exact ⟨Or.inr ⟨rfl, hr0⟩, ⟨_, hE1s⟩⟩
        · intro q hq m hm
          have hqi : q ≠ it := fun hc => hitS (hc ▸ hq)
          by_cases hq2 : q = p2
          · subst hq2
            have hmn : n2 = m := by
              have := (hE1o q hqi).symm.trans hn2
              rw [hm] at this
              exact (Option.some.inj this).symm
            subst hmn
            exact ⟨it, List.mem_append_right _ (List.mem_singleton_self _), _, hE1s,
              State.same_symm hsame, le_of_lt hg1⟩
          · refine ⟨q, List.mem_append_left _ ((List.mem_erase_of_ne hq2).mpr hq), m,
              (hE1o q hqi).trans hm, State.same_refl _, le_rfl⟩
        · intro _
          exact ⟨it, List.mem_append_right _ (List.mem_singleton_self _), _, hE1s,
            State.same_refl _, le_rfl⟩

end AT_RWBFS_DQ_MH

namespace AT_RWBFS_DQ_MH

theorem Moved.restart_loop {E0 : AT_RWBFS_DQ_MH} (l : List Nat) :
    ∀ (done : List Nat) (E : AT_RWBFS_DQ_MH), E0.Moved done E → (done ++ l).Nodup →
      (∀ p ∈ l, p ∉ E0.m_seen ∧ ∃ n, E0.node p = some n) →
      E0.Moved (done ++ l) (l.foldl restart_step E) := by
  induction l with
  | nil =>
    intro done E hM _ _
    simpa using hM
  | cons it rest ih =>
    intro done E hM hnd hl
    have hit : it ∉ done := by
      intro hc
      have := List.nodup_append.mp hnd
      exact this.2.2 hc (List.mem_cons_self _ _)
    have h1 := Moved.restart_next hM hit (hl it (List.mem_cons_self _ _)).1
      (hl it (List.mem_cons_self _ _)).2
    have h2 := ih (done ++ [it]) (E.restart_step it) h1 (by simpa using hnd)
      (fun p hp => hl p (List.mem_cons_of_mem _ hp))
    simpa using h2

theorem restart_moved (E : AT_RWBFS_DQ_MH) (hv : E.restartable) :
    E.Moved E.m_closed (E.m_closed.foldl restart_step E) := by
  have h := Moved.restart_loop E.m_closed [] E (Moved.initial E hv) (by simpa using hv.closed_nodup)
    (fun p hp => ⟨hv.closed_seen p hp, Option.isSome_iff_exists.mp (hv.closed_live p hp)⟩)
  simpa using h

/-- The loop that empties open: every node in open is deleted, nothing else changes. -/
theorem drain_open_spec (n : Nat) : ∀ (E : AT_RWBFS_DQ_MH), E.m_open.length ≤ n →
    (drain_open n E).m_open = [] ∧ (drain_open n E).m_seen = E.m_seen ∧
    (drain_open n E).m_closed = E.m_closed ∧ (drain_open n E).m_root = E.m_root ∧
    (E.m_open_hash = [] → (drain_open n E).m_open_hash = []) ∧
    ∀ p, (drain_open n E).node p = if p ∈ E.m_open then none else E.node p := by
  induction n with
  | zero =>
    intro E h
    have h0 : E.m_open = [] := List.length_eq_zero.mp (Nat.le_zero.mp h)
    refine ⟨h0, rfl, rfl, rfl, fun h => h, fun p => ?_⟩
    show E.node p = _
    rw [h0]
    simp
  | succ n ih =>
    intro E h
    cases hp : E.pick E.m_open with
    | none =>
      have hstep : drain_open (n + 1) E = E := by
        unfold drain_open get_node
        rw [hp]
      rw [hstep]
      have h0 : E.m_open = [] := (pick_none E _).mp hp
      refine ⟨h0, rfl, rfl, rfl, fun h => h, fun p => ?_⟩
      rw [h0]
      simp
    | some head =>
      have hmem := pick_mem E _ _ hp
      have hstep : drain_open (n + 1) E = drain_open n ((E.get_node).1.delete head) := by
        simp only [drain_open, get_node, hp]
      have g1 : ((E.get_node).1.delete head).m_open = E.m_open.erase head := by
        unfold get_node
        rw [hp]
        rfl
      have g2 : ((E.get_node).1.delete head).m_open_hash = E.m_open_hash.erase head := by
        unfold get_node
        rw [hp]
        rfl
      have g3 : ((E.get_node).1.delete head).m_seen = E.m_seen := by
        unfold get_node
        rw [hp]
        rfl
      have g4 : ((E.get_node).1.delete head).m_closed = E.m_closed := by
        unfold get_node
        rw [hp]
        rfl
      have g5 : ((E.get_node).1.delete head).m_root = E.m_root := by
        unfold get_node
        rw [hp]
        rfl
      have g6 : ∀ p, ((E.get_node).1.delete head).node p =
          if p = head then none else E.node p := by
        intro p
        rw [node_delete]
        unfold get_node
        rw [hp]
        rfl
      have hlen : ((E.get_node).1.delete head).m_open.length ≤ n := by
        rw [g1, List.length_erase_of_mem hmem]
        omega
      obtain ⟨a1, a2, a3, a4, a5, a6⟩ := ih _ hlen
      rw [hstep]
      refine ⟨a1, a2.trans g3, a3.trans g4, a4.trans g5, ?_, fun p => ?_⟩
      · intro h0
        apply a5
        rw [g2, h0]
        rfl
      · rw [a6 p, g6, g1]
        by_cases hph : p = head
        · subst hph
          simp [hmem]
        · simp [List.mem_erase_of_ne hph, hph]

end AT_RWBFS_DQ_MH

namespace AT_RWBFS_DQ_MH

/-- The engine `restart_search` returns, in terms of the engine `E1` its first loop leaves: seen
is that of `E1`, the nodes are those of `E1` without the ones that were in open, closed is empty
and open and the open hash hold the root. -/
theorem restart_search_moved (E : AT_RWBFS_DQ_MH) (hv : E.restartable) :
    ∃ E1, E.Moved E.m_closed E1 ∧ E.restart_search.m_seen = E1.m_seen ∧
      (∀ p, E.restart_search.node p = if p ∈ E.m_open then none else E1.node p) ∧
      E.restart_search.m_closed = [] ∧ E.restart_search.m_open = [E.m_root] ∧
      E.restart_search.m_open_hash = [E.m_root] ∧ E.restart_search.m_root = E.m_root := by
  have hM := restart_moved E hv
  obtain ⟨E1, hE1⟩ : ∃ E1, E.m_closed.foldl restart_step E = E1 := ⟨_, rfl⟩
  rw [hE1] at hM
  refine ⟨E1, hM, ?_⟩
  obtain ⟨a1, a2, a3, a4, a5, a6⟩ :=
    drain_open_spec E1.m_open.length { E1 with m_closed := [], m_open_hash := [] } le_rfl
  have hR : E.restart_search = (drain_open E1.m_open.length
        { E1 with m_closed := [], m_open_hash := [] }).open_node
        (drain_open E1.m_open.length { E1 with m_closed := [], m_open_hash := [] }).m_root
        false false := by
    subst hE1
    rfl
  rw [hR]
  refine ⟨a2, ?_, a3, ?_, ?_, ?_⟩
  · intro p
    have := a6 p
    rw [← hM.opn]
    exact this
  · show _ ++ [_] = _
    rw [a1, a4]
    show [E1.m_root] = _
    rw [hM.root]
  · show _ ++ [_] = _
    rw [a5 rfl, a4]
    show [E1.m_root] = _
    rw [hM.root]
  · show (drain_open _ _).m_root = _
    rw [a4]
    exact hM.root

end AT_RWBFS_DQ_MH

/-- A root found in closed survives `restart_search` with the seen flag, outside seen. -/
theorem AT_RWBFS_DQ_MH.restart_root_seen (E : AT_RWBFS_DQ_MH) (hv : E.restartable)
    (hr : E.m_root ∈ E.m_closed) :
    E.m_root ∉ E.restart_search.m_seen ∧
      ∃ n, E.restart_search.node E.m_root = some n ∧ n.m_seen = true := by
  obtain ⟨E1, hM, hseen, hnode, _, _, _, _⟩ := AT_RWBFS_DQ_MH.restart_search_moved E hv
  constructor
  · intro hc
    rw [hseen] at hc
    rcases (hM.seen_from _ hc).1 with h | ⟨_, h⟩
    · exact hv.closed_seen _ hr h
    · exact h rfl
  · obtain ⟨n0, hn0⟩ := Option.isSome_iff_exists.mp (hv.closed_live _ hr)
    obtain ⟨n, hn⟩ := hM.root_kept n0 hn0
    have hpo : E.m_root ∉ E.m_open := fun hc => hv.open_closed _ hc hr
    refine ⟨n, ?_, ?_⟩
    · rw [hnode _, if_neg hpo]
      exact hn
    · rcases hM.kept _ n0 hn0 with h | ⟨n1, h1, _, _, h4⟩
      · rw [h] at hn
        cases hn
      · rw [h1] at hn
        cases hn
        exact h4 hr

/-- C23 (amended): on an engine whose closed list has no repetition, whose closed and seen
entries are live nodes and whose open, closed and seen lists are disjoint, `restart_search`
leaves closed empty and exactly the root in open and in the open hash; every closed entry is
deleted or keeps its state and `g` and carries the seen flag; every old seen entry and every
closed entry other than the root has an entry of its state in seen whose `g` is not larger; every
seen entry is a live node of the old seen list or of closed without the root, with the state and
`g` it had; and a closed root stays alive and carries the flag, without entering seen. -/
theorem restart_search_moves_closed (E : AT_RWBFS_DQ_MH) (hv : E.restartable) :
    E.restart_search.m_closed = [] ∧ E.restart_search.m_open = [E.m_root] ∧
    E.restart_search.m_open_hash = [E.m_root] ∧
    (∀ p ∈ E.m_closed, ∀ n0, E.node p = some n0 →
      E.restart_search.node p = none ∨
      ∃ n, E.restart_search.node p = some n ∧ n.m_seen = true ∧ n.m_state = n0.m_state ∧
        n.m_g = n0.m_g) ∧
    (∀ p, (p ∈ E.m_seen ∨ (p ∈ E.m_closed ∧ p ≠ E.m_root)) → ∀ n0, E.node p = some n0 →
      ∃ q ∈ E.restart_search.m_seen, ∃ m, E.restart_search.node q = some m ∧
        m.m_state.same n0.m_state = true ∧ m.m_g ≤ n0.m_g) ∧
    (∀ q ∈ E.restart_search.m_seen, (q ∈ E.m_seen ∨ (q ∈ E.m_closed ∧ q ≠ E.m_root)) ∧
      ∃ m m0, E.restart_search.node q = some m ∧ E.node q = some m0 ∧
        m.m_state = m0.m_state ∧ m.m_g = m0.m_g) ∧
    (E.m_root ∈ E.m_closed → E.m_root ∉ E.restart_search.m_seen ∧
      ∃ n, E.restart_search.node E.m_root = some n ∧ n.m_seen = true) := by
  obtain ⟨E1, hM, hseen, hnode, hclosed, hopen, hhash, _⟩ :=
    AT_RWBFS_DQ_MH.restart_search_moved E hv
  have hno : ∀ q, (q ∈ E.m_seen ∨ (q ∈ E.m_closed ∧ q ≠ E.m_root)) → q ∉ E.m_open := by
    intro q hq hc
    rcases hq with h | ⟨h, _⟩
    · exact hv.open_seen q hc h
    · exact hv.open_closed q hc h
  refine ⟨hclosed, hopen, hhash, ?_, ?_, ?_, ?_⟩
  · intro p hp n0 hn0
    have hpo : p ∉ E.m_open := fun hc => hv.open_closed p hc hp
    rw [hnode p, if_neg hpo]
    rcases hM.kept p n0 hn0 with h | ⟨n, h1, h2, h3, h4⟩
    · exact Or.inl h
    · exact Or.inr ⟨n, h1, h4 hp, h2, h3⟩
  · intro p hp n0 hn0
    obtain ⟨q, hq, m, hm, hs, hg⟩ := hM.dominated p hp n0 hn0
    refine ⟨q, hseen ▸ hq, m, ?_, hs, hg⟩
    rw [hnode q, if_neg (hno q (hM.seen_from q hq).1)]
    exact hm
  · intro q hq
    rw [hseen] at hq
    obtain ⟨horig, m, hm⟩ := hM.seen_from q hq
    refine ⟨horig, m, ?_⟩
    cases h0 : E.node q with
    | none =>
      rw [hM.gone q h0] at hm
      cases hm
    | some m0 =>
      refine ⟨m0, ?_, rfl, ?_⟩
      · rw [hnode q, if_neg (hno q horig)]
        exact hm
      · rcases hM.kept q m0 h0 with h | ⟨n, h1, h2, h3, _⟩
        · rw [h] at hm
          cases hm
        · rw [h1] at hm
          cases hm
          exact ⟨h2, h3⟩
  · exact AT_RWBFS_DQ_MH.restart_root_seen E hv

theorem routes_expanded_restartable : routes_expanded.restartable :=
  ⟨by decide!, by decide!, by decide!, by decide!, by decide!, by decide!⟩

/-- Witness for C23: the routes engine after two turns. -/
theorem restart_search_moves_closed_witness :
    routes_expanded.restartable ∧ routes_expanded.restart_search.m_closed = [] ∧
    routes_expanded.restart_search.m_open = [routes_expanded.m_root] :=
  ⟨routes_expanded_restartable,
    (restart_search_moves_closed routes_expanded routes_expanded_restartable).1,
    (restart_search_moves_closed routes_expanded routes_expanded_restartable).2.1⟩

/-- C23, as stated, fails on the root: on the routes engine after two turns the root 0 is in
closed, and after `restart_search` seen holds only node 1, while the root, created before the
restart, is the entry of the open hash. -/
theorem restart_search_skips_root :
    routes_expanded.m_closed = [0, 1] ∧ routes_expanded.m_root = 0 ∧
    routes_expanded.restart_search.m_seen = [1] ∧
    routes_expanded.restart_search.m_open_hash = [0] := by
  decide!

/-- C24: when `is_seen( n )` finds the pointer `p2` for the state of `n` in seen, `p2` refers to
a node `n2` of that state, the call returns true, takes `p2` out of seen and appends it to open
and to the open hash; the node then has `h1`, `h2`, state, preferred operators and flag of `n2`,
`g = min( n.g, n2.g )`, parent and action of `n` exactly when `n.g < n2.g`, and
`f = W * h1 + g` for the weight of the engine, which the call leaves as it is; the other nodes
are untouched. And `eval` on a node carrying the seen flag returns the engine unchanged, which
holds of the root after a restart that found it in closed. -/
theorem is_seen_reopens (env : Search_Env) (E : AT_RWBFS_DQ_MH) (n : Search_Node) (p2 : Nat)
    (h : E.retrieve E.m_seen n.m_state = some p2) :
    (∃ n2 n4, E.node p2 = some n2 ∧ n2.m_state.same n.m_state = true ∧ p2 ∈ E.m_seen ∧
      (E.is_seen n).2 = true ∧ (E.is_seen n).1.m_seen = E.m_seen.erase p2 ∧
      (E.m_seen.Nodup → p2 ∉ (E.is_seen n).1.m_seen) ∧
      (E.is_seen n).1.m_open = E.m_open ++ [p2] ∧
      (E.is_seen n).1.m_open_hash = E.m_open_hash ++ [p2] ∧
      (E.is_seen n).1.m_W = E.m_W ∧
      (∀ q, q ≠ p2 → (E.is_seen n).1.node q = E.node q) ∧
      (E.is_seen n).1.node p2 = some n4 ∧
      n4.m_h1 = n2.m_h1 ∧ n4.m_h2 = n2.m_h2 ∧ n4.m_state = n2.m_state ∧
      n4.m_po_1 = n2.m_po_1 ∧ n4.m_po_2 = n2.m_po_2 ∧ n4.m_seen = n2.m_seen ∧
      n4.m_g = min n.m_g n2.m_g ∧
      (n.m_g < n2.m_g → n4.m_parent = n.m_parent ∧ n4.m_action = n.m_action) ∧
      (¬ n.m_g < n2.m_g → n4.m_parent = n2.m_parent ∧ n4.m_action = n2.m_action) ∧
      n4.m_f = wtimes E.m_W n2.m_h1 + (n4.m_g : Val)) ∧
    (∀ (E1 : AT_RWBFS_DQ_MH) (p : Nat) (c : Search_Node), E1.node p = some c →
      c.m_seen = true → AT_RWBFS_DQ_MH.eval env E1 p = E1) ∧
    (∀ E1 : AT_RWBFS_DQ_MH, E1.restartable → E1.m_root ∈ E1.m_closed →
      AT_RWBFS_DQ_MH.eval env E1.restart_search E1.restart_search.m_root =
        E1.restart_search) := by
  have hev : ∀ (E1 : AT_RWBFS_DQ_MH) (p : Nat) (c : Search_Node), E1.node p = some c →
      c.m_seen = true → AT_RWBFS_DQ_MH.eval env E1 p = E1 := by
    intro E1 p c hc hs
    unfold AT_RWBFS_DQ_MH.eval
    rw [hc]
    simp [hs]
  refine ⟨?_, hev, ?_⟩
  · obtain ⟨hmem, n2, hn2, hsame⟩ := AT_RWBFS_DQ_MH.retrieve_some h
    have hlt := AT_RWBFS_DQ_MH.node_lt hn2
    by_cases hg : n.m_g < n2.m_g
    · refine ⟨n2,
        { n2 with
          m_g := n.m_g, m_parent := n.m_parent, m_action := n.m_action,
          m_f := wtimes E.m_W n2.m_h1 + (n.m_g : Val) }, hn2, hsame, hmem, ?_⟩
      unfold AT_RWBFS_DQ_MH.is_seen
      rw [h]
      dsimp only
      rw [hn2]
      dsimp only
      rw [if_pos hg]
      refine ⟨rfl, rfl, fun hnd => ?_, rfl, rfl, rfl, fun q hq => ?_, ?_, rfl, rfl, rfl, rfl,
        rfl, rfl, (min_eq_left (le_of_lt hg)).symm, fun _ => ⟨rfl, rfl⟩,
        fun hc => absurd hg hc, rfl⟩
      · exact fun hc => (hnd.mem_erase_iff.mp hc).1 rfl
      · exact (AT_RWBFS_DQ_MH.node_put_node E p2 q _ hlt).trans (if_neg hq)
      · exact (AT_RWBFS_DQ_MH.node_put_node E p2 p2 _ hlt).trans (if_pos rfl)
    · refine ⟨n2, { n2 with m_f := wtimes E.m_W n2.m_h1 + (n2.m_g : Val) }, hn2, hsame,
        hmem, ?_⟩
      unfold AT_RWBFS_DQ_MH.is_seen
      rw [h]
      dsimp only
      rw [hn2]
      dsimp only
      rw [if_neg hg]
      refine ⟨rfl, rfl, fun hnd => ?_, rfl, rfl, rfl, fun q hq => ?_, ?_, rfl, rfl, rfl, rfl,
        rfl, rfl, (min_eq_right (le_of_not_lt hg)).symm, fun hc => absurd hc hg,
        fun _ => ⟨rfl, rfl⟩, rfl⟩
      · exact fun hc => (hnd.mem_erase_iff.mp hc).1 rfl
      · exact (AT_RWBFS_DQ_MH.node_put_node E p2 q _ hlt).trans (if_neg hq)
      · exact (AT_RWBFS_DQ_MH.node_put_node E p2 p2 _ hlt).trans (if_pos rfl)
  · intro E1 hv hr
    obtain ⟨E2, _, _, _, _, _, _, hroot⟩ := AT_RWBFS_DQ_MH.restart_search_moved E1 hv
    obtain ⟨_, n, hn, hs⟩ := AT_RWBFS_DQ_MH.restart_root_seen E1 hv hr
    rw [hroot]
    exact hev _ _ n hn hs

theorem routes_first_seen :
    routes_first.1.retrieve routes_first.1.m_seen
      (Search_Node.new ⟨[1]⟩ (1 / 2) (some 0) (some 0) 0 5).m_state = some 1 := by
  decide!

/-- Witness for C24: the routes engine after its first `do_search()`, whose seen list holds the
node 1 of state 1, and a new node of that state. -/
theorem is_seen_reopens_witness :
    routes_first.1.retrieve routes_first.1.m_seen
      (Search_Node.new ⟨[1]⟩ (1 / 2) (some 0) (some 0) 0 5).m_state = some 1 ∧
    (routes_first.1.is_seen (Search_Node.new ⟨[1]⟩ (1 / 2) (some 0) (some 0) 0 5)).2 = true :=
  ⟨routes_first_seen,
    let ⟨_, _, h⟩ := (is_seen_reopens routes_env routes_first.1
      (Search_Node.new ⟨[1]⟩ (1 / 2) (some 0) (some 0) 0 5) 1 routes_first_seen).1
    h.2.2.2.1⟩

/-- C25: `is_open( n )` returns true exactly when the open hash holds a pointer to a node of the
state of `n`. When the hash returns the pointer `p2`, it refers to a node `n2` of that state; if
`n.g < n2.g` the engine returned is the old one with the node at `p2` carrying parent, action and
`g` of `n` and `f = W * n2.h1 + n.g`, every other field of the node (`h1` and `h2` among them) as
before, and the replaced-in-open counter one higher; otherwise the engine is returned
unchanged. -/
theorem is_open_replaces (E : AT_RWBFS_DQ_MH) (n : Search_Node) :
    ((E.is_open n).2 = true ↔
      ∃ p ∈ E.m_open_hash, ∃ m, E.node p = some m ∧ m.m_state.same n.m_state = true) ∧
    (E.retrieve E.m_open_hash n.m_state = none → E.is_open n = (E, false)) ∧
    ∀ p2, E.retrieve E.m_open_hash n.m_state = some p2 →
      ∃ n2, E.node p2 = some n2 ∧ n2.m_state.same n.m_state = true ∧ p2 ∈ E.m_open_hash ∧
        (E.is_open n).2 = true ∧
        (n.m_g < n2.m_g →
          (E.is_open n).1.m_replaced_open_count = E.m_replaced_open_count + 1 ∧
          (∀ q, q ≠ p2 → (E.is_open n).1.node q = E.node q) ∧
          ∃ n4, (E.is_open n).1.node p2 = some n4 ∧
            n4.m_parent = n.m_parent ∧ n4.m_action = n.m_action ∧ n4.m_g = n.m_g ∧
            n4.m_f = wtimes E.m_W n2.m_h1 + (n.m_g : Val) ∧
            n4.m_h1 = n2.m_h1 ∧ n4.m_h2 = n2.m_h2 ∧ n4.m_state = n2.m_state ∧
            n4.m_po_1 = n2.m_po_1 ∧ n4.m_po_2 = n2.m_po_2 ∧ n4.m_seen = n2.m_seen) ∧
        (¬ n.m_g < n2.m_g → (E.is_open n).1 = E) := by
  have hnone : E.retrieve E.m_open_hash n.m_state = none → E.is_open n = (E, false) := by
    intro h
    unfold AT_RWBFS_DQ_MH.is_open
    rw [h]
  have hsome : ∀ p2, E.retrieve E.m_open_hash n.m_state = some p2 →
      (E.is_open n).2 = true := by
    intro p2 h
    unfold AT_RWBFS_DQ_MH.is_open
    rw [h]
    dsimp only
    split
    · rfl
    · split <;> rfl
  refine ⟨?_, hnone, ?_⟩
  · rw [← AT_RWBFS_DQ_MH.retrieve_isSome]
    cases h : E.retrieve E.m_open_hash n.m_state with
    | none => simp [hnone h]
    | some p2 => simp [hsome p2 h]
  · intro p2 h
    obtain ⟨hmem, n2, hn2, hsame⟩ := AT_RWBFS_DQ_MH.retrieve_some h
    have hlt := AT_RWBFS_DQ_MH.node_lt hn2
    refine ⟨n2, hn2, hsame, hmem, hsome p2 h, ?_, ?_⟩
    · intro hg
      unfold AT_RWBFS_DQ_MH.is_open
      rw [h]
      dsimp only
      rw [hn2]
      dsimp only
      rw [if_pos hg]
      refine ⟨rfl, fun q hq => ?_,
        { n2 with
          m_parent := n.m_parent, m_action := n.m_action, m_g := n.m_g,
          m_f := wtimes E.m_W n2.m_h1 + (n.m_g : Val) },
        ?_, rfl, rfl, rfl, rfl, rfl, rfl, rfl, rfl, rfl, rfl⟩
      · exact (AT_RWBFS_DQ_MH.node_put_node E p2 q _ hlt).trans (if_neg hq)
      · exact (AT_RWBFS_DQ_MH.node_put_node E p2 p2 _ hlt).trans (if_pos rfl)
    · intro hg
      unfold AT_RWBFS_DQ_MH.is_open
      rw [h]
      dsimp only
      rw [hn2]
      dsimp only
      rw [if_neg hg]

theorem foldl_rel {σ α : Type} (R : σ → σ → Prop) (body : σ → α → σ) (xs : List α)
    (hbody : ∀ s t x, x ∈ xs → R s t → R (body s x) (body t x)) (s t : σ) (h : R s t) :
    R (xs.foldl body s) (xs.foldl body t) := by
  induction xs generalizing s t with
  | nil => exact h
  | cons x xs ih =>
    simp only [List.foldl_cons]
    exact ih (fun s t y hy => hbody s t y (List.mem_cons_of_mem _ hy)) _ _
      (hbody s t x (List.mem_cons_self _ _) h)

theorem forLoop_rel {σ : Type} (R : σ → σ → Prop) (body : Nat → σ → σ) (n : Nat)
    (hbody : ∀ k s t, k < n → R s t → R (body k s) (body k t)) (s t : σ) (h : R s t) :
    R (forLoop n body s) (forLoop n body t) := by
  induction n with
  | zero => exact h
  | succ n ih =>
    simp only [forLoop]
    exact hbody n _ _ (Nat.lt_succ_self n) (ih (fun k s t hk => hbody k s t (Nat.lt_succ_of_lt hk)))

theorem H1_Heuristic.update_agree (h h1 : H1_Heuristic) (p : Nat) (v : Val) (hag : h.agree h1) :
    (h.update p v).agree (h1.update p v) := by
  obtain ⟨e1, e2, e3⟩ := hag
  cases h
  cases h1
  simp only at e1 e2 e3
  subst e1 e2 e3
  unfold H1_Heuristic.update
  simp only
  split_ifs <;> exact ⟨rfl, rfl, rfl⟩

theorem H1_Heuristic.set_agree (h h1 : H1_Heuristic) (p : Nat) (v : Val) (hag : h.agree h1) :
    (h.set p v).agree (h1.set p v) := by
  obtain ⟨e1, e2, e3⟩ := hag
  cases h
  cases h1
  simp only at e1 e2 e3
  subst e1 e2 e3
  unfold H1_Heuristic.set
  simp only
  split_ifs <;> exact ⟨rfl, rfl, rfl⟩

theorem H1_Heuristic.update_sup_agree (h h1 : H1_Heuristic) (p : Nat) (v : Val) (a : Nat)
    (hag : h.agree_all h1) : (h.update_sup p v a).agree_all (h1.update_sup p v a) := by
  obtain ⟨⟨e1, e2, e3⟩, e4⟩ := hag
  cases h
  cases h1
  simp only at e1 e2 e3 e4
  subst e1 e2 e3 e4
  unfold H1_Heuristic.update_sup
  simp only
  split_ifs <;> exact ⟨⟨rfl, rfl, rfl⟩, rfl⟩

theorem val_list_ext (l l1 : List Val) (hl : l.length = l1.length)
    (h : ∀ f, l.getD f infty = l1.getD f infty) : l = l1 := by
  apply List.ext_getElem hl
  intro i h1 h2
  have := h i
  rwa [List.getD_eq_getElem _ _ h1, List.getD_eq_getElem _ _ h2] at this

/-- The first loop of `initialize` erases what the table held: two objects of the constructor's
table length with the same queue agree after it. -/
theorem H1_Heuristic.init_first_agree (n : Nat) (h h1 : H1_Heuristic)
    (hl : h.m_values.length = n) (hl1 : h1.m_values.length = n)
    (hu : h.m_updated = h1.m_updated) (hb : h.m_already_updated = h1.m_already_updated) :
    (forLoop n (fun k (h : H1_Heuristic) =>
      { h with m_values := h.m_values.set k infty
               m_best_supporters := h.m_best_supporters.set k none }) h).agree
    (forLoop n (fun k (h : H1_Heuristic) =>
      { h with m_values := h.m_values.set k infty
               m_best_supporters := h.m_best_supporters.set k none }) h1) := by
  obtain ⟨a1, a2, a3, a4⟩ := H1_Heuristic.init_values n h
  obtain ⟨b1, b2, b3, b4⟩ := H1_Heuristic.init_values n h1
  refine ⟨?_, a2.trans (hu.trans b2.symm), a3.trans (hb.trans b3.symm)⟩
  apply val_list_ext _ _ (a1.trans (hl.trans (hl1.symm.trans b1.symm)))
  intro f
  have c1 := a4 f
  have c2 := b4 f
  simp only [H1_Heuristic.val] at c1 c2
  rw [c1, c2]
  by_cases hf : f < n
  · rw [if_pos hf, if_pos hf]
  · rw [if_neg hf, if_neg hf]
    simp [List.getD_eq_getElem?_getD, List.getElem?_eq_none (Nat.le_of_not_lt (hl ▸ hf)),
      List.getElem?_eq_none (Nat.le_of_not_lt (hl1 ▸ hf))]

theorem H1_Heuristic.initialize_agree (P : STRIPS_Problem) (opt : H1_Cost_Function)
    (h h1 : H1_Heuristic) (s : State)
    (hl : h.m_values.length = P.m_num_fluents) (hl1 : h1.m_values.length = P.m_num_fluents)
    (hu : h.m_updated = h1.m_updated) (hb : h.m_already_updated = h1.m_already_updated) :
    ( H1_Heuristic.initialize P opt h s).agree ( H1_Heuristic.initialize P opt h1 s) := by
  unfold H1_Heuristic.initialize
  simp only
  apply foldl_rel H1_Heuristic.agree
  · intro a b f _ hab
    exact H1_Heuristic.set_agree a b f 0 hab
  apply foldl_rel H1_Heuristic.agree
  · intro a b idx _ hab
    cases P.m_actions[idx]? with
    | none => exact hab
    | some act =>
      simp only
      apply foldl_rel H1_Heuristic.agree
      · intro a1 b1 ceff _ hab1
        split_ifs
        · exact hab1
        · apply foldl_rel H1_Heuristic.agree
          · intro a2 b2 f _ hab2
            exact H1_Heuristic.update_agree a2 b2 f _ hab2
          · exact hab1
      · apply foldl_rel H1_Heuristic.agree
        · intro a2 b2 f _ hab2
          exact H1_Heuristic.update_agree a2 b2 f _ hab2
        · exact hab
  exact H1_Heuristic.init_first_agree P.m_num_fluents h h1 hl hl1 hu hb

theorem H1_Heuristic.reach_action_agree (P : STRIPS_Problem)
    (eval_func : List Val → Fluent_Vec → Val → Val) (p i : Nat) (h h1 : H1_Heuristic)
    (hag : h.agree_all h1) :
    ( H1_Heuristic.reach_action P eval_func p i h).agree_all
      ( H1_Heuristic.reach_action P eval_func p i h1) := by
  unfold H1_Heuristic.reach_action
  cases P.m_actions[i]? with
  | none => exact hag
  | some a =>
    simp only
    rw [← hag.2, ← hag.1.1]
    split_ifs
    · exact hag
    · exact hag
    · exact hag
    · apply foldl_rel H1_Heuristic.agree_all
      · intro a1 b1 ceff _ hab1
        rw [← hab1.1.1]
        split_ifs
        · exact hab1
        · apply foldl_rel H1_Heuristic.agree_all
          · intro a2 b2 f _ hab2
            exact H1_Heuristic.update_sup_agree a2 b2 f _ _ hab2
          · exact hab1
      · apply foldl_rel H1_Heuristic.agree_all
        · intro a2 b2 f _ hab2
          exact H1_Heuristic.update_sup_agree a2 b2 f _ _ hab2
        · exact hag

theorem H1_Heuristic.reach_loop_agree (P : STRIPS_Problem)
    (eval_func : List Val → Fluent_Vec → Val → Val) (fuel : Nat) :
    ∀ (h h1 : H1_Heuristic), h.agree_all h1 →
      ( H1_Heuristic.reach_loop P eval_func fuel h = none ∧
        H1_Heuristic.reach_loop P eval_func fuel h1 = none) ∨
      ∃ r r1, H1_Heuristic.reach_loop P eval_func fuel h = some r ∧
        H1_Heuristic.reach_loop P eval_func fuel h1 = some r1 ∧ r.agree_all r1 := by
  induction fuel with
  | zero =>
    intro h h1 hag
    unfold H1_Heuristic.reach_loop
    rw [← hag.1.2.1]
    cases h.m_updated with
    | nil => exact Or.inr ⟨h, h1, rfl, rfl, hag⟩
    | cons p rest => exact Or.inl ⟨rfl, rfl⟩
  | succ fuel ih =>
    intro h h1 hag
    unfold H1_Heuristic.reach_loop
    rw [← hag.1.2.1]
    cases h.m_updated with
    | nil => exact Or.inr ⟨h, h1, rfl, rfl, hag⟩
    | cons p rest =>
      simp only
      apply ih
      apply forLoop_rel H1_Heuristic.agree_all
      · intro k a b _ hab
        exact H1_Heuristic.reach_action_agree P eval_func p k a b hab
      · exact ⟨⟨hag.1.1, rfl, by simp only [hag.1.2.2]⟩, hag.2⟩

theorem countP_set_zero (l : List Val) : ∀ (p : Nat), p < l.length → 0 < l.getD p infty →
    (l.set p 0).countP (fun v => decide (0 < v)) + 1 = l.countP (fun v => decide (0 < v)) := by
  induction l with
  | nil =>
    intro p hp
    cases hp
  | cons x xs ih =>
    intro p hp hpos
    cases p with
    | zero =>
      have hx : 0 < x := by simpa using hpos
      simp [List.countP_cons, hx]
    | succ p =>
      have h1 := ih p (Nat.lt_of_succ_lt_succ hp) (by simpa using hpos)
      simp only [List.set_cons_succ, List.countP_cons]
      omega

theorem H1_Heuristic.Shrunk.same (h : H1_Heuristic) : h.Shrunk h :=
  ⟨le_rfl, rfl, rfl, rfl⟩

theorem H1_Heuristic.Shrunk.chain {h h1 h2 : H1_Heuristic} (a : h.Shrunk h1)
    (b : h1.Shrunk h2) : h.Shrunk h2 :=
  ⟨b.measure.trans a.measure, b.len.trans a.len, b.bits.trans a.bits, b.allowed.trans a.allowed⟩

theorem H1_Heuristic.update_sup_shrunk (h : H1_Heuristic) (p a : Nat)
    (hp : p < h.m_values.length) : h.Shrunk (h.update_sup p 0 a) := by
  unfold H1_Heuristic.update_sup
  by_cases hge : (0 : Val) ≥ h.m_values.getD p infty
  · rw [if_pos hge]
    exact H1_Heuristic.Shrunk.same h
  · rw [if_neg hge]
    have hc := countP_set_zero h.m_values p hp (not_le.mp hge)
    by_cases hb : (!h.m_already_updated.isset p) = true
    · simp only [hb, if_true]
      refine ⟨?_, ?_, ?_, rfl⟩
      · simp only [H1_Heuristic.reach_measure, List.length_append, List.length_singleton]
        omega
      · simp only [List.length_set]
      · simp only [Bit_Set.set, List.length_set]
    · simp only [hb, Bool.false_eq_true, if_false]
      refine ⟨?_, ?_, rfl, rfl⟩
      · simp only [H1_Heuristic.reach_measure]
        omega
      · simp only [List.length_set]

theorem H1_Heuristic.update_sup_loop_shrunk (fs : Fluent_Vec) (a : Nat) (h : H1_Heuristic)
    (hr : ∀ f ∈ fs, f < h.m_values.length) :
    h.Shrunk (fs.foldl (fun (h : H1_Heuristic) f => h.update_sup f 0 a) h) := by
  induction fs generalizing h with
  | nil => exact H1_Heuristic.Shrunk.same h
  | cons g fs ih =>
    have d1 := H1_Heuristic.update_sup_shrunk h g a (hr g (List.mem_cons_self _ _))
    have d2 := ih _ (fun f hf => by rw [d1.len]; exact hr f (List.mem_cons_of_mem _ hf))
    simp only [List.foldl_cons]
    exact d1.chain d2

theorem H1_Heuristic.reach_ceff_shrunk (eval_func : List Val → Fluent_Vec → Val → Val)
    (h_pre : Val) (i : Nat) (cs : List Conditional_Effect) :
    ∀ (g : H1_Heuristic), (∀ c ∈ cs, ∀ f ∈ c.add_vec, f < g.m_values.length) →
      g.Shrunk (cs.foldl (fun (h : H1_Heuristic) (ceff : Conditional_Effect) =>
        let h_cond := max (eval_func h.m_values ceff.prec_vec 0) h_pre
        if h_cond = infty then h
        else
          let v_eff : Val := 0
          ceff.add_vec.foldl (fun (h : H1_Heuristic) f => h.update_sup f v_eff i) h) g) := by
  induction cs with
  | nil =>
    intro g _
    exact H1_Heuristic.Shrunk.same g
  | cons c cs ih =>
    intro g hr
    simp only [List.foldl_cons]
    by_cases htop : max (eval_func g.m_values c.prec_vec 0) h_pre = infty
    · simp only [htop, if_true]
      exact ih g (fun c1 hc1 => hr c1 (List.mem_cons_of_mem _ hc1))
    · simp only [if_neg htop]
      have d1 := H1_Heuristic.update_sup_loop_shrunk c.add_vec i g (hr c (List.mem_cons_self _ _))
      have d2 := ih _
        (fun c1 hc1 f hf => by rw [d1.len]; exact hr c1 (List.mem_cons_of_mem _ hc1) f hf)
      exact d1.chain d2

theorem H1_Heuristic.reach_action_shrunk (P : STRIPS_Problem) (hwf : P.wf)
    (eval_func : List Val → Fluent_Vec → Val → Val) (p i : Nat) (h : H1_Heuristic)
    (hs : h.m_values.length = P.m_num_fluents) :
    h.Shrunk (H1_Heuristic.reach_action P eval_func p i h) := by
  unfold H1_Heuristic.reach_action
  cases hi : P.m_actions[i]? with
  | none => exact H1_Heuristic.Shrunk.same h
  | some a =>
    simp only
    have hmem := getElem?_mem_of_some _ _ _ hi
    have hin := hwf.in_range a hmem
    split_ifs
    · exact H1_Heuristic.Shrunk.same h
    · exact H1_Heuristic.Shrunk.same h
    · exact H1_Heuristic.Shrunk.same h
    · have d1 := H1_Heuristic.update_sup_loop_shrunk a.add_vec i h
        (fun f hf => by rw [hs]; exact hin.2.1 f hf)
      exact d1.chain (H1_Heuristic.reach_ceff_shrunk eval_func _ i a.ceff_vec _
        (fun c hc f hf => by rw [d1.len, hs]; exact (hin.2.2.2 c hc).2.1 f hf))

theorem H1_Heuristic.reach_pass_shrunk (P : STRIPS_Problem) (hwf : P.wf)
    (eval_func : List Val → Fluent_Vec → Val → Val) (p : Nat) (h : H1_Heuristic)
    (hs : h.m_values.length = P.m_num_fluents) (k : Nat) :
    h.Shrunk (forLoop k (H1_Heuristic.reach_action P eval_func p) h) := by
  induction k with
  | zero => exact H1_Heuristic.Shrunk.same h
  | succ k ih =>
    simp only [forLoop]
    exact ih.chain (H1_Heuristic.reach_action_shrunk P hwf eval_func p k _ (ih.len.trans hs))

/-- The loop of `compute_reachability` returns when the fuel is at least the measure, and keeps
the dimensions and the allowed actions. -/
theorem H1_Heuristic.reach_loop_returns (P : STRIPS_Problem) (hwf : P.wf)
    (eval_func : List Val → Fluent_Vec → Val → Val) (fuel : Nat) :
    ∀ (h : H1_Heuristic), h.m_values.length = P.m_num_fluents → h.reach_measure ≤ fuel →
      ∃ r, H1_Heuristic.reach_loop P eval_func fuel h = some r ∧
        r.m_values.length = h.m_values.length ∧
        r.m_already_updated.bits.length = h.m_already_updated.bits.length ∧
        r.m_allowed_actions = h.m_allowed_actions := by
  induction fuel with
  | zero =>
    intro h _ hm
    have hq : h.m_updated = [] := by
      unfold H1_Heuristic.reach_measure at hm
      exact List.length_eq_zero.mp (by omega)
    refine ⟨h, ?_, rfl, rfl, rfl⟩
    unfold H1_Heuristic.reach_loop
    rw [hq]
  | succ fuel ih =>
    intro h hs hm
    cases hq : h.m_updated with
    | nil =>
      refine ⟨h, ?_, rfl, rfl, rfl⟩
      unfold H1_Heuristic.reach_loop
      rw [hq]
    | cons p rest =>
      have d := H1_Heuristic.reach_pass_shrunk P hwf eval_func p
        { h with m_updated := rest, m_already_updated := h.m_already_updated.unset p }
        hs P.m_num_actions
      have hm1 : (forLoop P.m_num_actions (H1_Heuristic.reach_action P eval_func p)
          { h with m_updated := rest,
                   m_already_updated := h.m_already_updated.unset p }).reach_measure ≤ fuel := by
        have := d.measure
        unfold H1_Heuristic.reach_measure at this hm ⊢
        rw [hq] at hm
        simp only [List.length_cons] at this hm ⊢
        omega
      obtain ⟨r, hr, r1, r2, r3⟩ := ih _ (d.len.trans hs) hm1
      refine ⟨r, ?_, r1.trans d.len, ?_, r3.trans d.allowed⟩
      · unfold H1_Heuristic.reach_loop
        rw [hq]
        exact hr
      · rw [r2, d.bits]
        simp only [Bit_Set.unset, List.length_set]

theorem H1_Heuristic.update_frame (h : H1_Heuristic) (p : Nat) (v : Val) :
    (h.update p v).m_already_updated.bits.length = h.m_already_updated.bits.length ∧
      (h.update p v).m_allowed_actions = h.m_allowed_actions := by
  unfold H1_Heuristic.update
  simp only
  split_ifs
  · exact ⟨rfl, rfl⟩
  · exact ⟨by simp only [Bit_Set.set, List.length_set], rfl⟩
  · exact ⟨rfl, rfl⟩

theorem H1_Heuristic.set_frame (h : H1_Heuristic) (p : Nat) (v : Val) :
    (h.set p v).m_already_updated.bits.length = h.m_already_updated.bits.length ∧
      (h.set p v).m_allowed_actions = h.m_allowed_actions := by
  unfold H1_Heuristic.set
  simp only
  split_ifs
  · exact ⟨by simp only [Bit_Set.set, List.length_set], rfl⟩
  · exact ⟨rfl, rfl⟩

/-- The function `initialize` keeps the size of the queue bits and the allowed actions. -/
theorem H1_Heuristic.initialize_frame (P : STRIPS_Problem) (opt : H1_Cost_Function)
    (h : H1_Heuristic) (s : State) :
    ( H1_Heuristic.initialize P opt h s).m_already_updated.bits.length =
        h.m_already_updated.bits.length ∧
      ( H1_Heuristic.initialize P opt h s).m_allowed_actions = h.m_allowed_actions := by
  unfold H1_Heuristic.initialize
  simp only
  have hupd : ∀ (fs : Fluent_Vec) (v : Val) (g : H1_Heuristic),
      (g.m_already_updated.bits.length = h.m_already_updated.bits.length ∧
        g.m_allowed_actions = h.m_allowed_actions) →
      ((fs.foldl (fun (h : H1_Heuristic) f => h.update f v) g).m_already_updated.bits.length =
          h.m_already_updated.bits.length ∧
        (fs.foldl (fun (h : H1_Heuristic) f => h.update f v) g).m_allowed_actions =
          h.m_allowed_actions) := by
    intro fs v g hg
    apply foldl_inv (fun (g : H1_Heuristic) =>
      g.m_already_updated.bits.length = h.m_already_updated.bits.length ∧
        g.m_allowed_actions = h.m_allowed_actions) _ _ _ _ hg
    intro g1 f _ hg1
    exact ⟨(H1_Heuristic.update_frame g1 f v).1.trans hg1.1,
      (H1_Heuristic.update_frame g1 f v).2.trans hg1.2⟩
  apply foldl_inv (fun (g : H1_Heuristic) =>
    g.m_already_updated.bits.length = h.m_already_updated.bits.length ∧
      g.m_allowed_actions = h.m_allowed_actions)
  · intro g f _ hg
    exact ⟨(H1_Heuristic.set_frame g f 0).1.trans hg.1, (H1_Heuristic.set_frame g f 0).2.trans hg.2⟩
  apply foldl_inv (fun (g : H1_Heuristic) =>
    g.m_already_updated.bits.length = h.m_already_updated.bits.length ∧
      g.m_allowed_actions = h.m_allowed_actions)
  · intro g idx _ hg
    cases P.m_actions[idx]? with
    | none => exact hg
    | some a =>
      simp only
      apply foldl_inv (fun (g : H1_Heuristic) =>
        g.m_already_updated.bits.length = h.m_already_updated.bits.length ∧
          g.m_allowed_actions = h.m_allowed_actions)
      · intro g1 c _ hg1
        split_ifs
        · exact hg1
        · exact hupd _ _ _ hg1
      · exact hupd _ _ _ hg
  apply forLoop_inv (fun (g : H1_Heuristic) =>
    g.m_already_updated.bits.length = h.m_already_updated.bits.length ∧
      g.m_allowed_actions = h.m_allowed_actions)
  · intro k g _ hg
    exact hg
  · exact ⟨rfl, rfl⟩

theorem forLoop_set_spec (g : Nat → Bool) (n : Nat) (l : List Bool) :
    (forLoop n (fun i (l : List Bool) => l.set i (g i)) l).length = l.length ∧
    ∀ i, (forLoop n (fun i (l : List Bool) => l.set i (g i)) l).getD i false =
      if i < n ∧ i < l.length then g i else l.getD i false := by
  induction n with
  | zero => simp [forLoop]
  | succ n ih =>
    simp only [forLoop]
    refine ⟨by rw [List.length_set, ih.1], fun i => ?_⟩
    rw [getD_set_bool, ih.2 i, ih.1]
    by_cases hin : i = n
    · subst hin
      by_cases hl : i < l.length
      · simp [hl]
      · simp [hl]
    · have h1 : (i < n + 1) = (i < n) := by
        apply propext
        constructor
        · intro h
          omega
        · intro h
          omega
      simp only [hin, false_and, if_false, h1]

theorem bool_list_ext (l l1 : List Bool) (hl : l.length = l1.length)
    (h : ∀ f, l.getD f false = l1.getD f false) : l = l1 := by
  apply List.ext_getElem hl
  intro i h1 h2
  have := h i
  rwa [List.getD_eq_getElem _ _ h1, List.getD_eq_getElem _ _ h2] at this

/-- The first loop of `compute_reachability` overwrites every entry of `m_allowed_actions`: the
result depends only on the length of the vector. -/
theorem H1_Heuristic.allow_actions_length (P : STRIPS_Problem) (pf : Option Fluent_Vec)
    (h h1 : H1_Heuristic) (hl : h.m_allowed_actions.length = h1.m_allowed_actions.length) :
    (h.allow_actions P pf).m_allowed_actions = (h1.allow_actions P pf).m_allowed_actions ∧
      (h.allow_actions P pf).m_allowed_actions.length = h.m_allowed_actions.length := by
  have hbody : ∃ g : Nat → Bool, (fun i (l : List Bool) =>
      match pf with
      | none => l.set i true
      | some pf =>
        match P.m_actions[i]? with
        | none => l.set i true
        | some a => l.set i (persist_allows a pf)) =
      (fun i (l : List Bool) => l.set i (g i)) := by
    cases pf with
    | none => exact ⟨fun _ => true, rfl⟩
    | some pf =>
      refine ⟨fun i => match P.m_actions[i]? with
        | none => true
        | some a => persist_allows a pf, ?_⟩
      funext i l
      simp only
      cases P.m_actions[i]? <;> rfl
  obtain ⟨g, hg⟩ := hbody
  unfold H1_Heuristic.allow_actions
  simp only
  rw [hg]
  have s1 := forLoop_set_spec g h.m_allowed_actions.length h.m_allowed_actions
  have s2 := forLoop_set_spec g h1.m_allowed_actions.length h1.m_allowed_actions
  refine ⟨?_, s1.1⟩
  apply bool_list_ext _ _ (s1.1.trans (hl.trans s2.1.symm))
  intro f
  rw [s1.2 f, s2.2 f, hl]
  by_cases hf : f < h1.m_allowed_actions.length
  · simp [hf]
  · simp [hf, List.getD_eq_getElem?_getD, List.getElem?_eq_none (Nat.le_of_not_lt hf),
      List.getElem?_eq_none (Nat.le_of_not_lt (hl ▸ hf))]

theorem H1_Heuristic.new_shaped (P : STRIPS_Problem) : (H1_Heuristic.new P).shaped P :=
  ⟨by simp [H1_Heuristic.new], by simp [H1_Heuristic.new, Bit_Set.mk_size],
    by simp [H1_Heuristic.new]⟩

/-- With fuel `reach_fuel P s` or more `eval_reachability` returns on every object that has the
dimensions of the constructor; the value is the one a freshly constructed object gives, and the
dimensions are kept. -/
theorem H1_Heuristic.eval_reachability_fresh (P : STRIPS_Problem) (hwf : P.wf)
    (eval_func : List Val → Fluent_Vec → Val → Val) (fuel : Nat) (h : H1_Heuristic)
    (hs : h.shaped P) (s : State) (pf : Option Fluent_Vec) (hfuel : reach_fuel P s ≤ fuel) :
    ∃ r r0, H1_Heuristic.eval_reachability P eval_func .Use_Costs fuel h s pf = some r ∧
      H1_Heuristic.eval_reachability P eval_func .Use_Costs fuel (H1_Heuristic.new P) s pf =
        some r0 ∧
      r.1 = r0.1 ∧ r.2.shaped P := by
  have hn := H1_Heuristic.new_shaped P
  obtain ⟨I, hI⟩ : ∃ I, I = H1_Heuristic.initialize P .Use_Costs
    { h with m_already_updated := h.m_already_updated.reset, m_updated := [] } s := ⟨_, rfl⟩
  obtain ⟨I0, hI0⟩ : ∃ I0, I0 = H1_Heuristic.initialize P .Use_Costs
    { H1_Heuristic.new P with
      m_already_updated := (H1_Heuristic.new P).m_already_updated.reset, m_updated := [] } s :=
    ⟨_, rfl⟩
  have hag : I.agree I0 := by
    rw [hI, hI0]
    refine H1_Heuristic.initialize_agree P _ _ _ s ?_ ?_ ?_ ?_
    · exact hs.values
    · exact hn.values
    · rfl
    · show Bit_Set.reset _ = Bit_Set.reset _
      unfold Bit_Set.reset
      rw [hs.bits, hn.bits]
  have hfr := H1_Heuristic.initialize_frame P .Use_Costs
    { h with m_already_updated := h.m_already_updated.reset, m_updated := [] } s
  have hfr0 := H1_Heuristic.initialize_frame P .Use_Costs
    { H1_Heuristic.new P with
      m_already_updated := (H1_Heuristic.new P).m_already_updated.reset, m_updated := [] } s
  rw [← hI] at hfr
  rw [← hI0] at hfr0
  have hlen : I.m_values.length = P.m_num_fluents := by
    rw [hI, H1_Heuristic.initialize_len]
    exact hs.values
  have hal : I.m_allowed_actions.length = I0.m_allowed_actions.length := by
    rw [hfr.2, hfr0.2]
    exact hs.allowed.trans hn.allowed.symm
  obtain ⟨ha1, ha2⟩ := H1_Heuristic.allow_actions_length P pf I I0 hal
  have hall : (I.allow_actions P pf).agree_all (I0.allow_actions P pf) := ⟨hag, ha1⟩
  have hm : (I.allow_actions P pf).reach_measure ≤ fuel := by
    have e1 : (I.allow_actions P pf).reach_measure = I0.reach_measure := by
      have v1 : (I.allow_actions P pf).m_values = I.m_values := rfl
      have v2 : (I.allow_actions P pf).m_updated = I.m_updated := rfl
      unfold H1_Heuristic.reach_measure
      rw [v1, v2, hag.1, hag.2.1]
    rw [e1, hI0]
    exact hfuel
  obtain ⟨r, hr, r1, r2, r3⟩ := H1_Heuristic.reach_loop_returns P hwf eval_func fuel
    (I.allow_actions P pf) hlen hm
  rcases H1_Heuristic.reach_loop_agree P eval_func fuel _ _ hall with ⟨hc, _⟩ | ⟨q, q0, hq, hq0, hqq⟩
  · rw [hr] at hc
    cases hc
  · rw [hr] at hq
    cases hq
    refine ⟨(eval_func r.m_values P.m_goal 0, r), (eval_func q0.m_values P.m_goal 0, q0), ?_, ?_,
      ?_, ?_⟩
    · unfold H1_Heuristic.eval_reachability H1_Heuristic.compute_reachability
      simp only
      rw [← hI, hr]
    · unfold H1_Heuristic.eval_reachability H1_Heuristic.compute_reachability
      simp only
      rw [← hI0, hq0]
    · show eval_func r.m_values P.m_goal 0 = eval_func q0.m_values P.m_goal 0
      rw [hqq.1.1]
    · refine ⟨r1.trans hlen, ?_, ?_⟩
      · rw [r2]
        show I.m_already_updated.bits.length = _
        rw [hfr.1]
        show (Bit_Set.reset _).bits.length = _
        simp only [Bit_Set.reset, List.length_replicate]
        exact hs.bits
      · rw [r3, ha2, hfr.2]
        exact hs.allowed

theorem Serialized_Search.try_candidate_spec (P : STRIPS_Problem) (hwf : P.wf) (fuel : Nat)
    (s : State) (hfuel : reach_fuel P s ≤ fuel) (st : Serialized_Search × Bool × Fluent_Vec)
    (hs : st.1.m_reachability.shaped P) (c : Nat) :
    ∃ st1, Serialized_Search.try_candidate P fuel s st c = some st1 ∧
      st1.1.m_reachability.shaped P ∧ st1.1.m_goal_candidates = st.1.m_goal_candidates ∧
      ((s.entails c && reachable_with P fuel s (st.1.m_goals_achieved ++ [c])) = true →
        st1.1.m_goals_achieved = st.1.m_goals_achieved ++ [c] ∧ st1.2.1 = true ∧
          st1.2.2 = st.2.2) ∧
      ((s.entails c && reachable_with P fuel s (st.1.m_goals_achieved ++ [c])) = false →
        st1.1.m_goals_achieved = st.1.m_goals_achieved ∧ st1.2.1 = st.2.1 ∧
          st1.2.2 = st.2.2 ++ [c]) := by
  unfold Serialized_Search.try_candidate
  by_cases he : s.entails c = true
  · rw [if_pos he]
    obtain ⟨r, r0, hr, hr0, hv, hsh⟩ := H1_Heuristic.eval_reachability_fresh P hwf
      H_Max_Evaluation_Function fuel st.1.m_reachability hs s
      (some (st.1.m_goals_achieved ++ [c])) hfuel
    have htest : reachable_with P fuel s (st.1.m_goals_achieved ++ [c]) =
        decide (r.1 ≠ infty) := by
      unfold reachable_with
      rw [hr0, hv]
    simp only [hr, he, Bool.true_and, htest]
    by_cases hfin : r.1 ≠ infty
    · rw [if_pos hfin]
      refine ⟨_, rfl, hsh, rfl, fun _ => ⟨rfl, rfl, rfl⟩, fun hc => ?_⟩
      simp [hfin] at hc
    · rw [if_neg hfin]
      refine ⟨_, rfl, hsh, rfl, fun hc => ?_, fun _ => ⟨?_, rfl, rfl⟩⟩
      · simp [hfin] at hc
      · simp
  · rw [if_neg he]
    refine ⟨_, rfl, hs, rfl, fun hc => ?_, fun _ => ⟨rfl, rfl, rfl⟩⟩
    simp [he] at hc

theorem Serialized_Search.try_candidates_spec (P : STRIPS_Problem) (hwf : P.wf) (fuel : Nat)
    (s : State) (hfuel : reach_fuel P s ≤ fuel) (cands : Fluent_Vec) :
    ∀ (st : Serialized_Search × Bool × Fluent_Vec), st.1.m_reachability.shaped P →
      ∃ st1, Serialized_Search.try_candidates P fuel s cands st = some st1 ∧
        st1.1.m_reachability.shaped P ∧ st1.1.m_goal_candidates = st.1.m_goal_candidates ∧
        (st1.1.m_goals_achieved, st1.2.2) =
          sift_goals (reachable_with P fuel s) s st.1.m_goals_achieved st.2.2 cands ∧
        (st1.2.1 = true ↔ st.2.1 = true ∨ ∃ c ∈ cands, s.entails c = true ∧
          reachable_with P fuel s (st.1.m_goals_achieved ++ [c]) = true) ∧
        (st1.2.1 = false → st1.1.m_goals_achieved = st.1.m_goals_achieved) := by
  induction cands with
  | nil =>
    intro st hs
    refine ⟨st, rfl, hs, rfl, rfl, ?_, fun _ => rfl⟩
    simp
  | cons c rest ih =>
    intro st hs
    obtain ⟨st1, h1, hs1, hc1, hpass, hfail⟩ :=
      Serialized_Search.try_candidate_spec P hwf fuel s hfuel st hs c
    obtain ⟨st2, h2, hs2, hc2, hsift, hflag, hsame⟩ := ih st1 hs1
    refine ⟨st2, ?_, hs2, hc2.trans hc1, ?_, ?_, ?_⟩
    · unfold Serialized_Search.try_candidates
      rw [h1]
      exact h2
    · rw [hsift]
      cases hp : (s.entails c && reachable_with P fuel s (st.1.m_goals_achieved ++ [c])) with
      | true =>
        obtain ⟨e1, _, e3⟩ := hpass hp
        rw [e1, e3]
        simp only [sift_goals, hp, if_true]
      | false =>
        obtain ⟨e1, _, e3⟩ := hfail hp
        rw [e1, e3]
        simp only [sift_goals, hp, Bool.false_eq_true, if_false]
    · cases hp : (s.entails c && reachable_with P fuel s (st.1.m_goals_achieved ++ [c])) with
      | true =>
        obtain ⟨_, e2, _⟩ := hpass hp
        have ht : st2.2.1 = true := hflag.mpr (Or.inl e2)
        simp only [ht, true_iff]
        right
        refine ⟨c, List.mem_cons_self _ _, ?_⟩
        simpa using hp
      | false =>
        obtain ⟨e1, e2, _⟩ := hfail hp
        rw [hflag, e1, e2]
        constructor
        · rintro (h | ⟨d, hd, hd1, hd2⟩)
          · exact Or.inl h
          · exact Or.inr ⟨d, List.mem_cons_of_mem _ hd, hd1, hd2⟩
        · rintro (h | ⟨d, hd, hd1, hd2⟩)
          · exact Or.inl h
          · rcases List.mem_cons.mp hd with hdc | hdr
            · subst hdc
              rw [hd1, hd2] at hp
              cases hp
            · exact Or.inr ⟨d, hdr, hd1, hd2⟩
    · intro hf
      cases hp : (s.entails c && reachable_with P fuel s (st.1.m_goals_achieved ++ [c])) with
      | true =>
        obtain ⟨_, e2, _⟩ := hpass hp
        have ht : st2.2.1 = true := hflag.mpr (Or.inl e2)
        rw [ht] at hf
        cases hf
      | false =>
        obtain ⟨e1, _, _⟩ := hfail hp
        rw [hsame hf, e1]

theorem H1_Heuristic.reach_loop_fuel (P : STRIPS_Problem)
    (eval_func : List Val → Fluent_Vec → Val → Val) (fuel : Nat) :
    ∀ (h r : H1_Heuristic), H1_Heuristic.reach_loop P eval_func fuel h = some r →
      ∀ k, H1_Heuristic.reach_loop P eval_func (fuel + k) h = some r := by
  induction fuel with
  | zero =>
    intro h r hr k
    unfold H1_Heuristic.reach_loop at hr ⊢
    cases hq : h.m_updated with
    | nil =>
      rw [hq] at hr
      exact hr
    | cons p rest =>
      rw [hq] at hr
      cases hr
  | succ fuel ih =>
    intro h r hr k
    have hk : fuel + 1 + k = (fuel + k) + 1 := by omega
    rw [hk]
    unfold H1_Heuristic.reach_loop at hr ⊢
    cases hq : h.m_updated with
    | nil =>
      rw [hq] at hr
      exact hr
    | cons p rest =>
      rw [hq] at hr
      exact ih _ _ hr k

/-- The verdict of the reachability test does not depend on the fuel, once it suffices. -/
theorem reachable_with_fuel (P : STRIPS_Problem) (hwf : P.wf) (s : State) (fuel : Nat)
    (hfuel : reach_fuel P s ≤ fuel) :
    reachable_with P fuel s = reachable_with P (reach_fuel P s) s := by
  funext pf
  obtain ⟨r, _, hr, _, _, _⟩ := H1_Heuristic.eval_reachability_fresh P hwf
    H_Max_Evaluation_Function (reach_fuel P s) (H1_Heuristic.new P) (H1_Heuristic.new_shaped P) s
    (some pf) le_rfl
  have hr2 : H1_Heuristic.eval_reachability P H_Max_Evaluation_Function .Use_Costs fuel
      (H1_Heuristic.new P) s (some pf) = some r := by
    unfold H1_Heuristic.eval_reachability H1_Heuristic.compute_reachability at hr ⊢
    simp only at hr ⊢
    cases hl : H1_Heuristic.reach_loop P H_Max_Evaluation_Function (reach_fuel P s)
        (( H1_Heuristic.initialize P .Use_Costs
          { H1_Heuristic.new P with
            m_already_updated := (H1_Heuristic.new P).m_already_updated.reset,
            m_updated := [] } s).allow_actions P (some pf)) with
    | none =>
      rw [hl] at hr
      cases hr
    | some q =>
      rw [hl] at hr
      obtain ⟨k, hk⟩ := Nat.exists_eq_add_of_le hfuel
      rw [hk, H1_Heuristic.reach_loop_fuel P _ _ _ _ hl k]
      exact hr
  unfold reachable_with
  rw [hr, hr2]

/-- C26: with enough fuel for the reachability computations, `is_goal( s )` returns, on every
object whose reachability member has the dimensions of its constructor, and keeps them. It
returns true iff `s` entails every fluent of `m_goals_achieved` and some candidate `c` entailed
by `s` passes the reachability test with the fluents of `m_goals_achieved` and `c` persisting.
When it returns true, `m_goals_achieved` and `m_goal_candidates` are what sifting the candidates
gives, each candidate tested with the fluents achieved up to it (those held at the call and the
candidates that passed before it); when it returns false both lists are as before. -/
theorem is_goal_moves_reachable (P : STRIPS_Problem) (hwf : P.wf) (S : Serialized_Search)
    (hs : S.m_reachability.shaped P) (s : State) (fuel : Nat) (hfuel : reach_fuel P s ≤ fuel) :
    ∃ S1 b, Serialized_Search.is_goal P fuel S s = some (S1, b) ∧
      S1.m_reachability.shaped P ∧
      (b = true ↔ (∀ f ∈ S.m_goals_achieved, s.entails f = true) ∧
        ∃ c ∈ S.m_goal_candidates, s.entails c = true ∧
          reachable_with P (reach_fuel P s) s (S.m_goals_achieved ++ [c]) = true) ∧
      (b = true → (S1.m_goals_achieved, S1.m_goal_candidates) =
        sift_goals (reachable_with P (reach_fuel P s) s) s S.m_goals_achieved []
          S.m_goal_candidates) ∧
      (b = false → S1.m_goals_achieved = S.m_goals_achieved ∧
        S1.m_goal_candidates = S.m_goal_candidates) := by
  rw [← reachable_with_fuel P hwf s fuel hfuel]
  unfold Serialized_Search.is_goal
  by_cases hall : S.m_goals_achieved.any (fun f => !s.entails f) = true
  · rw [if_pos hall]
    refine ⟨S, false, rfl, hs, ?_, (fun hc => by cases hc), fun _ => ⟨rfl, rfl⟩⟩
    constructor
    · intro hc
      cases hc
    · rintro ⟨h1, _⟩
      obtain ⟨f, hf, hf1⟩ := List.any_eq_true.mp hall
      rw [h1 f hf] at hf1
      cases hf1
  · rw [if_neg hall]
    have hent : ∀ f ∈ S.m_goals_achieved, s.entails f = true := by
      intro f hf
      by_contra hc
      exact hall (List.any_eq_true.mpr ⟨f, hf, by simpa using hc⟩)
    obtain ⟨st1, h1, hs1, hc1, hsift, hflag, hsame⟩ :=
      Serialized_Search.try_candidates_spec P hwf fuel s hfuel S.m_goal_candidates
        (S, false, []) hs
    rw [h1]
    simp only
    cases hb : st1.2.1 with
    | true =>
      simp only [if_true]
      refine ⟨_, true, rfl, hs1, ?_, fun _ => ?_, fun hc => by cases hc⟩
      · simp only [true_iff]
        refine ⟨hent, ?_⟩
        rcases hflag.mp hb with h | h
        · cases h
        · exact h
      · exact hsift
    | false =>
      simp only [Bool.false_eq_true, if_false]
      refine ⟨_, false, rfl, hs1, ?_, (fun hc => by cases hc), fun _ => ⟨hsame hb, hc1⟩⟩
      constructor
      · intro hc
        cases hc
      · rintro ⟨_, hex⟩
        have := hflag.mpr (Or.inr hex)
        rw [hb] at this
        cases this

theorem two_steps_wf : two_steps.wf := ⟨by decide, by decide⟩

/-- In the state reached by "(first)" the candidate "(g1)" passes and "(g2)" stays a
candidate. -/
theorem two_steps_is_goal :
    (Serialized_Search.is_goal two_steps (reach_fuel two_steps ⟨[0, 1]⟩) two_steps_search
      ⟨[0, 1]⟩).map (fun r => (r.1.m_goals_achieved, r.1.m_goal_candidates, r.2)) =
      some ([1], [2], true) := by
  decide!

/-- Witness for C26: the problem `two_steps` in the state reached by "(first)". -/
theorem is_goal_moves_reachable_witness :
    two_steps.wf ∧ two_steps_search.m_reachability.shaped two_steps ∧
    ∃ S1 b, Serialized_Search.is_goal two_steps (reach_fuel two_steps ⟨[0, 1]⟩) two_steps_search
        ⟨[0, 1]⟩ = some (S1, b) ∧
      S1.m_reachability.shaped two_steps ∧
      (b = true ↔ (∀ f ∈ two_steps_search.m_goals_achieved, (⟨[0, 1]⟩ : State).entails f = true) ∧
        ∃ c ∈ two_steps_search.m_goal_candidates, (⟨[0, 1]⟩ : State).entails c = true ∧
          reachable_with two_steps (reach_fuel two_steps ⟨[0, 1]⟩) ⟨[0, 1]⟩
            (two_steps_search.m_goals_achieved ++ [c]) = true) ∧
      (b = true → (S1.m_goals_achieved, S1.m_goal_candidates) =
        sift_goals (reachable_with two_steps (reach_fuel two_steps ⟨[0, 1]⟩) ⟨[0, 1]⟩) ⟨[0, 1]⟩
          two_steps_search.m_goals_achieved [] two_steps_search.m_goal_candidates) ∧
      (b = false → S1.m_goals_achieved = two_steps_search.m_goals_achieved ∧
        S1.m_goal_candidates = two_steps_search.m_goal_candidates) :=
  ⟨two_steps_wf, H1_Heuristic.new_shaped two_steps,
    is_goal_moves_reachable two_steps two_steps_wf two_steps_search
      (H1_Heuristic.new_shaped two_steps) ⟨[0, 1]⟩ _ le_rfl⟩

/-- C27 fails on an action without precondition: on the gift problem, `eval` from the empty state
returns 1, the fluent "(have)", which is not in the state, has the finite value 1, the proposal
of the action "(receive)" that adds it, and its best supporter is null, because `initialize`
lowers the value with the two-argument `update`. -/
theorem best_supporter_missing :
    (H1_Heuristic.eval gift H_Max_Evaluation_Function .Use_Costs 5 (H1_Heuristic.new gift)
      ⟨[]⟩).map (fun r => (r.1, r.2.val 0, r.2.best_supporter 0)) =
      some (1, 1, none) ∧
    (∃ a, gift.m_actions[0]? = some a ∧ 0 ∈ a.add_vec ∧ a.prec_vec = [] ∧
      H1_Cost_Function.Use_Costs.propose a
        (H_Max_Evaluation_Function [1] a.prec_vec 0) = 1) := by
  refine ⟨by decide!, _, rfl, by decide, by decide, by decide!⟩

theorem H2_Heuristic.value_congr {h g : H2_Heuristic} (hv : h.m_values = g.m_values) :
    h.value = g.value := by
  funext p q
  unfold H2_Heuristic.value
  rw [hv]

theorem H2_Heuristic.eval_vec_congr {h g : H2_Heuristic} (hv : h.m_values = g.m_values)
    (fs : Fluent_Vec) : h.eval_vec fs = g.eval_vec fs := by
  unfold H2_Heuristic.eval_vec
  rw [eval_outer_eq, eval_outer_eq, H2_Heuristic.value_congr hv]

theorem H2_Heuristic.interferes_congr {h g : H2_Heuristic}
    (hi : h.m_interfering_ops = g.m_interfering_ops) : h.interferes = g.interferes := by
  funext a p
  unfold H2_Heuristic.interferes
  rw [hi]

theorem H2_Heuristic.ClosedAt.congr {nf : Nat} {h g : H2_Heuristic} {a : Nat} {action : Action}
    (hv : h.m_values = g.m_values) (hi : h.m_interfering_ops = g.m_interfering_ops)
    (hc : h.ClosedAt nf a action) : g.ClosedAt nf a action := by
  unfold H2_Heuristic.ClosedAt at hc ⊢
  rw [← H2_Heuristic.eval_vec_congr hv, ← H2_Heuristic.value_congr hv,
    ← H2_Heuristic.interferes_congr hi]
  exact hc

theorem H2_Heuristic.Within.value {h m : H2_Heuristic} (hw : h.Within m) (p q : Nat)
    (hv : h.value p q ≠ infty) : m.value p q ≠ infty :=
  hw (pair_index p q) hv

/-- After `initialize` from a fluent set every pair of its fluents has the value 0. -/
theorem H2_Heuristic.initialize_pairs_zero (P : STRIPS_Problem) (hF : P.m_num_fluents < 65536)
    (h : H2_Heuristic) (hs : h.sized P) (fs : Fluent_Vec)
    (hr : ∀ f ∈ fs, f < P.m_num_fluents) :
    ∀ p ∈ fs, ∀ q ∈ fs, ( H2_Heuristic.initialize h fs).value p q = 0 := by
  have keep : ∀ (x y : Nat) (gs : Fluent_Vec) (g : H2_Heuristic), g.value x y = 0 →
      (H2_Heuristic.init_pairs gs g).value x y = 0 := by
    intro x y gs g hg
    refine H2_Heuristic.init_pairs_inv (fun g1 : H2_Heuristic => g1.value x y = 0) gs ?_ g hg
    intro g1 p q _ _ hI
    rw [H2_Heuristic.value_set_value]
    split_ifs
    · rfl
    · exact hI
  have hgen : ∀ (gs : Fluent_Vec) (g : H2_Heuristic), (∀ f ∈ gs, f < P.m_num_fluents) →
      g.m_values.length = tri P.m_num_fluents →
      ∀ p ∈ gs, ∀ q ∈ gs, (H2_Heuristic.init_pairs gs g).value p q = 0 := by
    intro gs
    induction gs with
    | nil =>
      intro g _ _ p hp
      cases hp
    | cons x rest ih =>
      intro g hr1 hlen
      have hx := hr1 x (List.mem_cons_self _ _)
      have hfold : ∀ (qs : Fluent_Vec) (g1 : H2_Heuristic), (∀ f ∈ qs, f < P.m_num_fluents) →
          g1.m_values.length = tri P.m_num_fluents →
          (qs.foldl (fun (h : H2_Heuristic) q => h.set_value x q 0) g1).m_values.length =
            tri P.m_num_fluents ∧
          (∀ y, g1.value x y = 0 →
            (qs.foldl (fun (h : H2_Heuristic) q => h.set_value x q 0) g1).value x y = 0) ∧
          ∀ y ∈ qs, (qs.foldl (fun (h : H2_Heuristic) q => h.set_value x q 0) g1).value x y =
            0 := by
        intro qs
        induction qs with
        | nil =>
          intro g1 _ hl
          exact ⟨hl, fun _ hy => hy, fun y hy => by cases hy⟩
        | cons q qs ihq =>
          intro g1 hq hl
          simp only [List.foldl_cons]
          have hl1 : (g1.set_value x q 0).m_values.length = tri P.m_num_fluents := by
            simp only [H2_Heuristic.set_value, List.length_set]
            exact hl
          obtain ⟨a1, a2, a3⟩ := ihq (g1.set_value x q 0)
            (fun f hf => hq f (List.mem_cons_of_mem _ hf)) hl1
          have hset : (g1.set_value x q 0).value x q = 0 := by
            rw [H2_Heuristic.value_set_value, if_pos ⟨rfl, by
              rw [hl]
              exact pair_index_lt _ x q hF hx (hq q (List.mem_cons_self _ _))⟩]
          refine ⟨a1, fun y hy => a2 y ?_, fun y hy => ?_⟩
          · rw [H2_Heuristic.value_set_value]
            split_ifs
            · rfl
            · exact hy
          · rcases List.mem_cons.mp hy with hy1 | hy1
            · rw [hy1]
              exact a2 q hset
            · exact a3 y hy1
      simp only [H2_Heuristic.init_pairs]
      have hl0 : (g.set_value x x 0).m_values.length = tri P.m_num_fluents := by
        simp only [H2_Heuristic.set_value, List.length_set]
        exact hlen
      have hxx : (g.set_value x x 0).value x x = 0 := by
        rw [H2_Heuristic.value_set_value, if_pos ⟨rfl, by
          rw [hlen]
          exact pair_index_lt _ x x hF hx hx⟩]
      obtain ⟨b1, b2, b3⟩ := hfold rest (g.set_value x x 0)
        (fun f hf => hr1 f (List.mem_cons_of_mem _ hf)) hl0
      have hrow : ∀ y ∈ x :: rest,
          (rest.foldl (fun (h : H2_Heuristic) q => h.set_value x q 0)
            (g.set_value x x 0)).value x y = 0 := by
        intro y hy
        rcases List.mem_cons.mp hy with hy1 | hy1
        · rw [hy1]
          exact b2 x hxx
        · exact b3 y hy1
      have hrest := ih _ (fun f hf => hr1 f (List.mem_cons_of_mem _ hf)) b1
      intro p hp q hq
      rcases List.mem_cons.mp hp with hp1 | hp1
      · rw [hp1]
        exact keep x q rest _ (hrow q hq)
      · rcases List.mem_cons.mp hq with hq1 | hq1
        · rw [hq1, H2_Heuristic.value_comm]
          exact keep x p rest _ (hrow p hp)
        · exact hrest p hp1 q hq1
  unfold H2_Heuristic.initialize
  simp only
  apply hgen fs _ hr
  simp only [List.length_replicate]
  exact hs.values

/-- C30 fails across two restarts: on the detour problem the first `do_search()` returns the goal
node 3 and leaves the nodes 1 (state 1) and 5 (state 3, its child) alive in seen; the second
`do_search()` re-opens node 1 from seen, returns the goal node 6 before node 1 is expanded, and
its `restart_search` deletes node 1 with the rest of open, while node 5, whose parent is node 1,
stays in seen. -/
theorem restart_deletes_parent :
    AT_RWBFS_DQ_MH.do_search detour_env 10 detour_engine = some (detour_first.1, some 3) ∧
    AT_RWBFS_DQ_MH.do_search detour_env 10 detour_first.1 = some (detour_second.1, some 6) ∧
    1 ∈ detour_first.1.m_seen ∧ 5 ∈ detour_first.1.m_seen ∧
    (detour_first.1.node 1).isSome = true ∧
    (detour_first.1.node 5).map (fun n => n.m_parent) = some (some 1) ∧
    5 ∈ detour_second.1.m_seen ∧
    (detour_second.1.node 5).map (fun n => n.m_parent) = some (some 1) ∧
    detour_second.1.node 1 = none :=
  ⟨option_eq_of_snd _ (detour_engine, none) (some 3) (by decide!),
    option_eq_of_snd _ (detour_engine, none) (some 6) (by decide!),
    by decide!, by decide!, by decide!, by decide!, by decide!, by decide!, by decide!⟩

/-- When `compute` returns, the queue is empty. -/
theorem H1_Heuristic.compute_queue_empty (P : STRIPS_Problem)
    (eval_func : List Val → Fluent_Vec → Val → Val) (opt : H1_Cost_Function) (fuel : Nat) :
    ∀ (h h1 : H1_Heuristic), H1_Heuristic.compute P eval_func opt fuel h = some h1 →
      h1.m_updated = [] := by
  induction fuel with
  | zero =>
    intro h h1 hres
    unfold H1_Heuristic.compute at hres
    cases hq : h.m_updated with
    | nil =>
      simp only [hq] at hres
      cases hres
      exact hq
    | cons p rest => simp [hq] at hres
  | succ fuel ih =>
    intro h h1 hres
    unfold H1_Heuristic.compute at hres
    cases hq : h.m_updated with
    | nil =>
      simp only [hq] at hres
      cases hres
      exact hq
    | cons p rest =>
      simp only [hq] at hres
      exact ih _ _ hres

/-- A property `T` of the value table is kept by `compute` when it is kept by every lowering
write of a value with the property `V`, and every proposal computed on a table with `T` has
`V`. -/
theorem H1_Heuristic.compute_table_inv (P : STRIPS_Problem)
    (eval_func : List Val → Fluent_Vec → Val → Val) (opt : H1_Cost_Function)
    (T : List Val → Prop) (V : Val → Prop)
    (hw : ∀ (vals : List Val) (p : Nat) (v : Val), T vals → V v → v < vals.getD p infty →
      T (vals.set p v))
    (hpre : ∀ (vals : List Val) (a : Action), a ∈ P.m_actions → T vals →
      V (opt.propose a (eval_func vals a.prec_vec 0)))
    (hcond : ∀ (vals vals1 : List Val) (a : Action) (c : Conditional_Effect),
      a ∈ P.m_actions → c ∈ a.ceff_vec → T vals → T vals1 →
      V (opt.propose a (eval_func vals1 c.prec_vec (eval_func vals a.prec_vec 0))))
    (fuel : Nat) :
    ∀ (h h1 : H1_Heuristic), T h.m_values →
      H1_Heuristic.compute P eval_func opt fuel h = some h1 → T h1.m_values := by
  have hupd : ∀ (h : H1_Heuristic) (p : Nat) (v : Val) (i : Nat), T h.m_values → V v →
      T (h.update_sup p v i).m_values := by
    intro h p v i hT hV
    rw [H1_Heuristic.update_sup_values]
    split_ifs with hge
    · exact hT
    · exact hw _ p v hT hV (not_le.mp hge)
  have hloop : ∀ (fs : Fluent_Vec) (v : Val) (i : Nat) (h : H1_Heuristic), T h.m_values → V v →
      T (fs.foldl (fun (h : H1_Heuristic) f => h.update_sup f v i) h).m_values := by
    intro fs v i h hT hV
    exact foldl_inv (fun g : H1_Heuristic => T g.m_values) _ fs
      (fun g f _ hg => hupd g f v i hg hV) h hT
  have hact : ∀ (p i : Nat) (h : H1_Heuristic), T h.m_values →
      T (H1_Heuristic.relax_action P eval_func opt p i h).m_values := by
    intro p i h hT
    unfold H1_Heuristic.relax_action
    cases hi : P.m_actions[i]? with
    | none => exact hT
    | some a =>
      simp only
      have hmem := getElem?_mem_of_some _ _ _ hi
      split_ifs with hrel htop
      · exact hT
      · exact hT
      · have h1 := hloop a.add_vec _ i h hT (hpre _ a hmem hT)
        refine foldl_inv (fun g : H1_Heuristic => T g.m_values) _ a.ceff_vec ?_ _ h1
        intro g c hc hg
        split_ifs with hctop
        · exact hg
        · exact hloop c.add_vec _ i g hg (hcond _ _ a c hmem hc hT hg)
  induction fuel with
  | zero =>
    intro h h1 hT hres
    unfold H1_Heuristic.compute at hres
    cases hq : h.m_updated with
    | nil =>
      simp only [hq] at hres
      cases hres
      exact hT
    | cons p rest => simp [hq] at hres
  | succ fuel ih =>
    intro h h1 hT hres
    unfold H1_Heuristic.compute at hres
    cases hq : h.m_updated with
    | nil =>
      simp only [hq] at hres
      cases hres
      exact hT
    | cons p rest =>
      simp only [hq] at hres
      refine ih _ _ ?_ hres
      unfold H1_Heuristic.compute_step
      exact forLoop_inv (fun g : H1_Heuristic => T g.m_values) _ _
        (fun k g _ hg => hact p k g hg) _ hT

/-- C31: on a well-formed problem with nonnegative costs, from the object `initialize( s )`
leaves for any state `s` (as in `eval`), the loop of `compute` terminates for the max and for the
sum aggregation and every cost option: some number of pops suffices; and whenever the loop
returns, for any aggregation, the queue is empty and no value is above what it was when the loop
started. -/
theorem h1_compute_terminates (P : STRIPS_Problem) (hwf : P.wf)
    (hcost : ∀ a ∈ P.m_actions, 0 ≤ a.cost) (opt : H1_Cost_Function) (h : H1_Heuristic)
    (hs : h.sized P) (s : State) :
    (∃ fuel h1, H1_Heuristic.compute P H_Max_Evaluation_Function opt fuel
      ( H1_Heuristic.initialize P opt
        { h with m_already_updated := h.m_already_updated.reset, m_updated := [] } s) =
      some h1) ∧
    (∃ fuel h1, H1_Heuristic.compute P H_Add_Evaluation_Function opt fuel
      ( H1_Heuristic.initialize P opt
        { h with m_already_updated := h.m_already_updated.reset, m_updated := [] } s) =
      some h1) ∧
    ∀ (eval_func : List Val → Fluent_Vec → Val → Val) (fuel : Nat) (h1 : H1_Heuristic),
      H1_Heuristic.compute P eval_func opt fuel
        ( H1_Heuristic.initialize P opt
          { h with m_already_updated := h.m_already_updated.reset, m_updated := [] } s) =
        some h1 →
      h1.m_updated = [] ∧
      ∀ f, h1.val f ≤ ( H1_Heuristic.initialize P opt
        { h with m_already_updated := h.m_already_updated.reset, m_updated := [] } s).val f := by
  have hg := H1_Heuristic.initialize_grid P hcost opt
    { h with m_already_updated := h.m_already_updated.reset, m_updated := [] } hs s
  have hs1 : H1_Heuristic.sized ( H1_Heuristic.initialize P opt
      { h with m_already_updated := h.m_already_updated.reset, m_updated := [] } s) P := by
    show List.length _ = _
    rw [H1_Heuristic.initialize_len]
    exact hs
  refine ⟨?_, ?_, ?_⟩
  · exact H1_Heuristic.compute_terminates P hwf hcost H_Max_gridOK opt _ _ _ _ rfl rfl rfl hg hs1
  · exact H1_Heuristic.compute_terminates P hwf hcost H_Add_gridOK opt _ _ _ _ rfl rfl rfl hg hs1
  · intro eval_func fuel h1 hres
    refine ⟨H1_Heuristic.compute_queue_empty P eval_func opt fuel _ h1 hres, ?_⟩
    refine H1_Heuristic.compute_table_inv P eval_func opt
      (fun vals => ∀ f, vals.getD f infty ≤ ( H1_Heuristic.initialize P opt
        { h with m_already_updated := h.m_already_updated.reset, m_updated := [] } s).val f)
      (fun _ => True) ?_ (fun _ _ _ _ => trivial) (fun _ _ _ _ _ _ _ _ => trivial) fuel _ h1
      (fun f => le_rfl) hres
    intro vals p v hT _ hlt f
    rw [getD_set_val]
    split_ifs with hfp
    · rw [hfp.1]
      exact (le_of_lt hlt).trans (hT p)
    · exact hT f

/-- Witness for C31: the three-room problem from the kitchen. -/
theorem h1_compute_terminates_witness :
    rooms.wf ∧ (H1_Heuristic.new rooms).sized rooms ∧
    ∃ fuel h1, H1_Heuristic.compute rooms H_Max_Evaluation_Function .Use_Costs fuel
      ( H1_Heuristic.initialize rooms .Use_Costs
        { H1_Heuristic.new rooms with
          m_already_updated := (H1_Heuristic.new rooms).m_already_updated.reset,
          m_updated := [] } ⟨[0]⟩) = some h1 :=
  ⟨rooms_wf, rfl,
    (h1_compute_terminates rooms rooms_wf rooms_cost .Use_Costs (H1_Heuristic.new rooms)
      rfl ⟨[0]⟩).1⟩

/-- Every `add_fluent` of a sequence of calls raises the number of fluents by one. -/
theorem build_fluents_num (g : Nat → String) (l : List Nat) :
    ∀ p : STRIPS_Problem,
      (build (l.map (fun i => Build_Op.fluent (g i))) p).m_num_fluents =
        p.m_num_fluents + l.length := by
  induction l with
  | nil => intro p; rfl
  | cons i l ih =>
    intro p
    show (build (l.map (fun i => Build_Op.fluent (g i))) (add_fluent p (g i)).2).m_num_fluents = _
    rw [ih]
    show p.m_num_fluents + 1 + l.length = p.m_num_fluents + (l.length + 1)
    omega

theorem fluents_only_num (n : Nat) : (fluents_only n).m_num_fluents = n := by
  unfold fluents_only
  rw [build_fluents_num]
  simp [STRIPS_Problem.new]

theorem H2_Heuristic.new_values_length (P : STRIPS_Problem) :
    (H2_Heuristic.new P).m_values.length =
      ((P.m_num_fluents * P.m_num_fluents) % 2 ^ 32 + P.m_num_fluents) % 2 ^ 32 / 2 := by
  simp [H2_Heuristic.new]

/-- C32 fails from 65536 fluents on, where the `unsigned` products wrap: with 65536 fluents the
constructor sizes the table to 32768 entries, and `pair_index( 65535, 0 )` is 2147450880, outside
the table, so the assertion of `value()` is false; with 65537 fluents the table has 98305 entries
and the distinct pairs (65536, 0) and (255, 128) share slot 32768. -/
theorem pair_index_wraps :
    (fluents_only 65536).m_num_fluents = 65536 ∧
    (H2_Heuristic.new (fluents_only 65536)).m_values.length = 32768 ∧
    pair_index 65535 0 = 2147450880 ∧
    ¬ pair_index 65535 0 < (H2_Heuristic.new (fluents_only 65536)).m_values.length ∧
    (fluents_only 65537).m_num_fluents = 65537 ∧
    (H2_Heuristic.new (fluents_only 65537)).m_values.length = 98305 ∧
    pair_index 65536 0 = 32768 ∧ pair_index 255 128 = 32768 := by
  have h1 : (H2_Heuristic.new (fluents_only 65536)).m_values.length = 32768 := by
    rw [H2_Heuristic.new_values_length, fluents_only_num]
    norm_num
  have h2 : (H2_Heuristic.new (fluents_only 65537)).m_values.length = 98305 := by
    rw [H2_Heuristic.new_values_length, fluents_only_num]
    norm_num
  have h3 : pair_index 65535 0 = 2147450880 := by decide
  refine ⟨fluents_only_num _, h1, h3, ?_, fluents_only_num _, h2, by decide, by decide⟩
  rw [h1, h3]
  decide

theorem map_find_map_set_ne (m : List (String × Nat)) (k k1 : String) (v : Nat) (h : k ≠ k1) :
    map_find (map_set m k v) k1 = map_find m k1 := by
  induction m with
  | nil => simp [map_set, map_find, h]
  | cons kv m ih =>
    obtain ⟨k', v'⟩ := kv
    by_cases h1 : k' = k
    · subst h1
      simp [map_set, map_find, h]
    · by_cases h2 : k' = k1
      · subst h2
        simp [map_set, map_find, h1]
      · simp [map_set, map_find, h1, h2, ih]

theorem register_fluents_map (P : STRIPS_Problem) (idx : Nat) (a : Action) :
    (register_action_in_tables P idx a).m_fluents_map = P.m_fluents_map := by
  unfold register_action_in_tables
  simp only
  generalize a.ceff_vec.length = n
  induction n with
  | zero => split <;> simp [forLoop]
  | succ n ih =>
    simp only [forLoop]
    exact ih

theorem make_action_tables_fluents_map (P : STRIPS_Problem) :
    (make_action_tables P).m_fluents_map = P.m_fluents_map := by
  unfold make_action_tables
  simp only
  generalize P.m_actions.length = n
  induction n with
  | zero => rfl
  | succ n ih =>
    simp only [forLoop]
    split
    · rename_i a _
      exact (register_fluents_map _ n a).trans ih
    · exact ih

/-- Only `add_fluent` writes the signature map. -/
theorem Build_Op.run_fluents_map (p : STRIPS_Problem) (op : Build_Op) :
    (Build_Op.run p op).m_fluents_map =
      match op with
      | .fluent s => map_set p.m_fluents_map s p.m_fluents.length
      | _ => p.m_fluents_map := by
  cases op with
  | fluent s => rfl
  | action signature pre add del ceffs cost => rfl
  | init init_vec =>
    show (set_init p init_vec).m_fluents_map = _
    rw [set_init_eq]
  | goal goal_vec create_end_op =>
    show (set_goal p goal_vec create_end_op).m_fluents_map = _
    cases create_end_op with
    | false => rw [set_goal_false_eq]
    | true => rw [set_goal_true_eq]
  | tables => exact make_action_tables_fluents_map p

/-- The signature map after a sequence of calls holds, for each signature, the index of its most
recent `add_fluent`. -/
theorem map_find_build (signature : String) (ops : List Build_Op) :
    ∀ (p : STRIPS_Problem) (acc : Option Nat), map_find p.m_fluents_map signature = acc →
      map_find (build ops p).m_fluents_map signature = last_added signature ops p acc := by
  induction ops with
  | nil => intro p acc h; exact h
  | cons op ops ih =>
    intro p acc h
    show map_find (build ops (Build_Op.run p op)).m_fluents_map signature = _
    cases op with
    | fluent s =>
      show _ = last_added signature ops (Build_Op.run p (.fluent s))
        (if s = signature then some (add_fluent p s).1 else acc)
      apply ih
      rw [Build_Op.run_fluents_map]
      by_cases hs : s = signature
      · rw [if_pos hs, hs]
        simp [map_find_map_set, add_fluent]
      · rw [if_neg hs]
        simp only
        rw [map_find_map_set_ne _ _ _ _ hs]
        exact h
    | action signature1 pre add del ceffs cost =>
      show _ = last_added signature ops _ acc
      apply ih
      rw [Build_Op.run_fluents_map]
      exact h
    | init init_vec =>
      show _ = last_added signature ops _ acc
      apply ih
      rw [Build_Op.run_fluents_map]
      exact h
    | goal goal_vec create_end_op =>
      show _ = last_added signature ops _ acc
      apply ih
      rw [Build_Op.run_fluents_map]
      exact h
    | tables =>
      show _ = last_added signature ops _ acc
      apply ih
      rw [Build_Op.run_fluents_map]
      exact h

/-- C35: on a problem built from a new one by any sequence of `add_fluent`, `add_action`,
`set_init`, `set_goal` and `make_action_tables` calls, for a signature that some `add_fluent` call
received, `get_fluent_index` returns the index that the most recent such call returned and leaves
the problem, so also the number of fluents, as it was. -/
theorem get_fluent_index_round_trip (dom_name prob_name : String) (ops : List Build_Op)
    (signature : String) (i : Nat)
    (hadded : last_added signature ops (STRIPS_Problem.new dom_name prob_name) none = some i) :
    ((build ops (STRIPS_Problem.new dom_name prob_name)).get_fluent_index signature).1 = i ∧
    ((build ops (STRIPS_Problem.new dom_name prob_name)).get_fluent_index signature).2 =
      build ops (STRIPS_Problem.new dom_name prob_name) ∧
    ((build ops (STRIPS_Problem.new dom_name prob_name)).get_fluent_index signature).2.m_num_fluents
      = (build ops (STRIPS_Problem.new dom_name prob_name)).m_num_fluents := by
  have h := map_find_build signature ops (STRIPS_Problem.new dom_name prob_name) none rfl
  rw [hadded] at h
  unfold STRIPS_Problem.get_fluent_index
  rw [h]
  exact ⟨rfl, rfl, rfl⟩

/-- Witness for C35: the signature `(a)` was added first with index 0 and again with index 2. -/
theorem get_fluent_index_round_trip_witness :
    last_added "(a)" twice_named (STRIPS_Problem.new "d" "p") none = some 2 ∧
    ((build twice_named (STRIPS_Problem.new "d" "p")).get_fluent_index "(a)").1 = 2 ∧
    ((build twice_named (STRIPS_Problem.new "d" "p")).get_fluent_index "(a)").2 =
      build twice_named (STRIPS_Problem.new "d" "p") ∧
    ((build twice_named (STRIPS_Problem.new "d" "p")).get_fluent_index "(a)").2.m_num_fluents
      = (build twice_named (STRIPS_Problem.new "d" "p")).m_num_fluents :=
  ⟨by decide, get_fluent_index_round_trip "d" "p" twice_named "(a)" 2 (by decide)⟩

/-- One candidate either joins the achieved goals and raises the flag, or joins `unachieved`;
`m_goal_candidates` is not written. -/
theorem Serialized_Search.try_candidate_frame (P : STRIPS_Problem) (fuel : Nat) (s : State)
    (st st1 : Serialized_Search × Bool × Fluent_Vec) (c : Nat)
    (h : Serialized_Search.try_candidate P fuel s st c = some st1) :
    st1.1.m_goal_candidates = st.1.m_goal_candidates ∧
    ((st1.1.m_goals_achieved = st.1.m_goals_achieved ++ [c] ∧ st1.2.2 = st.2.2 ∧
        st1.2.1 = true) ∨
      (st1.1.m_goals_achieved = st.1.m_goals_achieved ∧ st1.2.2 = st.2.2 ++ [c] ∧
        st1.2.1 = st.2.1)) := by
  unfold Serialized_Search.try_candidate at h
  by_cases he : s.entails c = true
  · rw [if_pos he] at h
    simp only at h
    cases hr : H1_Heuristic.eval_reachability P H_Max_Evaluation_Function .Use_Costs fuel
        st.1.m_reachability s (some (st.1.m_goals_achieved ++ [c])) with
    | none =>
      rw [hr] at h
      cases h
    | some r =>
      rw [hr] at h
      simp only at h
      by_cases hfin : r.1 ≠ infty
      · rw [if_pos hfin] at h
        cases h
        exact ⟨rfl, Or.inl ⟨rfl, rfl, rfl⟩⟩
      · rw [if_neg hfin] at h
        cases h
        exact ⟨rfl, Or.inr ⟨by simp, rfl, rfl⟩⟩
  · rw [if_neg he] at h
    cases h
    exact ⟨rfl, Or.inr ⟨rfl, rfl, rfl⟩⟩

/-- The loop over the candidates deals every candidate to `m_goals_achieved` or to `unachieved`,
and leaves `m_goals_achieved` as it was when the flag is still false at the end. -/
theorem Serialized_Search.try_candidates_frame (P : STRIPS_Problem) (fuel : Nat) (s : State)
    (cands : Fluent_Vec) :
    ∀ (st st1 : Serialized_Search × Bool × Fluent_Vec),
      Serialized_Search.try_candidates P fuel s cands st = some st1 →
      st1.1.m_goal_candidates = st.1.m_goal_candidates ∧
      List.Perm (st1.1.m_goals_achieved ++ st1.2.2) (st.1.m_goals_achieved ++ (st.2.2 ++ cands)) ∧
      (st1.2.1 = false → st.2.1 = false ∧ st1.1.m_goals_achieved = st.1.m_goals_achieved) := by
  induction cands with
  | nil =>
    intro st st1 h
    cases h
    simp
  | cons c rest ih =>
    intro st st1 h
    unfold Serialized_Search.try_candidates at h
    cases hm : Serialized_Search.try_candidate P fuel s st c with
    | none =>
      rw [hm] at h
      cases h
    | some stm =>
      rw [hm] at h
      simp only at h
      obtain ⟨hc, hp, hf⟩ := ih stm st1 h
      obtain ⟨hc0, hcase⟩ := Serialized_Search.try_candidate_frame P fuel s st stm c hm
      refine ⟨hc.trans hc0, ?_, ?_⟩
      · refine hp.trans ?_
        rcases hcase with ⟨e1, e2, _⟩ | ⟨e1, e2, _⟩
        · rw [e1, e2]
          simp only [List.append_assoc, List.singleton_append]
          refine List.Perm.append_left _ ?_
          exact (List.perm_middle).symm
        · rw [e1, e2]
          simp
      · intro hb
        obtain ⟨hbm, ham⟩ := hf hb
        rcases hcase with ⟨_, _, e3⟩ | ⟨e1, _, e3⟩
        · rw [e3] at hbm
          cases hbm
        · exact ⟨e3 ▸ hbm, ham.trans e1⟩

/-- C34: `is_goal( s )` returns on a well-formed problem (with enough fuel for the reachability
computations), and whenever it returns, `m_goals_achieved` followed by `m_goal_candidates` is a
permutation of what it was before the call; when it returns false both lists are as they were. -/
theorem is_goal_keeps_partition (P : STRIPS_Problem) (hwf : P.wf) (S : Serialized_Search)
    (hs : S.m_reachability.shaped P) (s : State) (fuel : Nat) (hfuel : reach_fuel P s ≤ fuel) :
    (∃ S1 b, Serialized_Search.is_goal P fuel S s = some (S1, b)) ∧
    ∀ (fuel1 : Nat) (S1 : Serialized_Search) (b : Bool),
      Serialized_Search.is_goal P fuel1 S s = some (S1, b) →
      List.Perm (S1.m_goals_achieved ++ S1.m_goal_candidates)
        (S.m_goals_achieved ++ S.m_goal_candidates) ∧
      (b = false → S1.m_goals_achieved = S.m_goals_achieved ∧
        S1.m_goal_candidates = S.m_goal_candidates) := by
  constructor
  · unfold Serialized_Search.is_goal
    by_cases hall : S.m_goals_achieved.any (fun f => !s.entails f) = true
    · rw [if_pos hall]
      exact ⟨S, false, rfl⟩
    · rw [if_neg hall]
      obtain ⟨st1, h1, _⟩ :=
        Serialized_Search.try_candidates_spec P hwf fuel s hfuel S.m_goal_candidates
          (S, false, []) hs
      rw [h1]
      simp only
      cases hb : st1.2.1 with
      | true => exact ⟨_, true, rfl⟩
      | false => exact ⟨_, false, rfl⟩
  · intro fuel1 S1 b hres
    unfold Serialized_Search.is_goal at hres
    by_cases hall : S.m_goals_achieved.any (fun f => !s.entails f) = true
    · rw [if_pos hall] at hres
      cases hres
      exact ⟨List.Perm.refl _, fun _ => ⟨rfl, rfl⟩⟩
    · rw [if_neg hall] at hres
      cases h1 : Serialized_Search.try_candidates P fuel1 s S.m_goal_candidates (S, false, []) with
      | none =>
        rw [h1] at hres
        cases hres
      | some st1 =>
        rw [h1] at hres
        simp only at hres
        obtain ⟨hc, hp, hf⟩ :=
          Serialized_Search.try_candidates_frame P fuel1 s S.m_goal_candidates _ st1 h1
        cases hb : st1.2.1 with
        | true =>
          rw [hb] at hres
          simp only [if_true] at hres
          cases hres
          refine ⟨?_, fun hc => by cases hc⟩
          simpa using hp
        | false =>
          rw [hb] at hres
          simp only [Bool.false_eq_true, if_false] at hres
          cases hres
          refine ⟨?_, fun _ => ⟨(hf hb).2, hc⟩⟩
          rw [(hf hb).2, hc]

/-- Witness for C34: the problem `two_steps` in the state reached by "(first)". -/
theorem is_goal_keeps_partition_witness :
    two_steps.wf ∧ two_steps_search.m_reachability.shaped two_steps ∧
    (∃ S1 b, Serialized_Search.is_goal two_steps (reach_fuel two_steps ⟨[0, 1]⟩)
      two_steps_search ⟨[0, 1]⟩ = some (S1, b)) ∧
    ∀ (fuel1 : Nat) (S1 : Serialized_Search) (b : Bool),
      Serialized_Search.is_goal two_steps fuel1 two_steps_search ⟨[0, 1]⟩ = some (S1, b) →
      List.Perm (S1.m_goals_achieved ++ S1.m_goal_candidates)
        (two_steps_search.m_goals_achieved ++ two_steps_search.m_goal_candidates) ∧
      (b = false → S1.m_goals_achieved = two_steps_search.m_goals_achieved ∧
        S1.m_goal_candidates = two_steps_search.m_goal_candidates) :=
  ⟨two_steps_wf, H1_Heuristic.new_shaped two_steps,
    is_goal_keeps_partition two_steps two_steps_wf two_steps_search
      (H1_Heuristic.new_shaped two_steps) ⟨[0, 1]⟩ _ le_rfl⟩

/-- After `initialize( s )` no value is negative and the fluents of `s` have the value 0. -/
theorem H1_Heuristic.initialize_state_zero (P : STRIPS_Problem) (hwf : P.wf)
    (opt : H1_Cost_Function) (hcost : ∀ a ∈ P.m_actions, 0 ≤ opt.base a)
    (h : H1_Heuristic) (hs : h.sized P) (s : State) :
    (∀ f ∈ s.fluent_vec, f < P.m_num_fluents → ( H1_Heuristic.initialize P opt
      { h with m_already_updated := h.m_already_updated.reset, m_updated := [] } s).val f = 0) ∧
    ∀ f, 0 ≤ ( H1_Heuristic.initialize P opt
      { h with m_already_updated := h.m_already_updated.reset, m_updated := [] } s).val f := by
  obtain ⟨a1, a2, a3, a4⟩ := H1_Heuristic.init_values P.m_num_fluents
    { h with m_already_updated := h.m_already_updated.reset, m_updated := [] }
  simp only at a1 a2 a3 a4
  have hq1 : H1_Heuristic.queued (forLoop P.m_num_fluents (fun k (h : H1_Heuristic) =>
      { h with m_values := h.m_values.set k infty
               m_best_supporters := h.m_best_supporters.set k none })
      { h with m_already_updated := h.m_already_updated.reset, m_updated := [] }) := by
    intro q hqs
    rw [a3, isset_reset] at hqs
    cases hqs
  have htop : ∀ f, H1_Heuristic.val (forLoop P.m_num_fluents (fun k (h : H1_Heuristic) =>
      { h with m_values := h.m_values.set k infty
               m_best_supporters := h.m_best_supporters.set k none })
      { h with m_already_updated := h.m_already_updated.reset, m_updated := [] }) f = infty := by
    intro f
    rw [a4]
    split
    · rfl
    · rename_i hlt
      simp only [H1_Heuristic.val, List.getD_eq_getElem?_getD]
      rw [List.getElem?_eq_none (by rw [hs]; omega)]
      rfl
  obtain ⟨l2, n2, _⟩ := H1_Heuristic.init_empty_loop P hwf opt hcost P.empty_prec_actions _ hq1
    (fun f => by rw [htop]; exact le_top)
    (show H1_Heuristic.sized _ P from by rw [H1_Heuristic.sized, a1]; exact hs)
  simp only at l2 n2
  obtain ⟨_, n3, v3⟩ := H1_Heuristic.init_set_loop s.fluent_vec _ l2.queued n2
  refine ⟨?_, n3⟩
  intro f hf hlt
  exact v3 f hf (by rw [l2.len, a1, hs]; exact hlt)

theorem H_Max_zero (vals : List Val) (fs : Fluent_Vec)
    (h : ∀ f ∈ fs, vals.getD f infty = 0) : H_Max_Evaluation_Function vals fs 0 = 0 := by
  induction fs with
  | nil => rfl
  | cons f rest ih =>
    unfold H_Max_Evaluation_Function
    rw [h f (List.mem_cons_self _ _)]
    simp only [lt_self_iff_false, if_false]
    rw [if_neg (by decide)]
    exact ih (fun g hg => h g (List.mem_cons_of_mem _ hg))

theorem H_Add_zero (vals : List Val) (fs : Fluent_Vec)
    (h : ∀ f ∈ fs, vals.getD f infty = 0) : H_Add_Evaluation_Function vals fs 0 = 0 := by
  induction fs with
  | nil => rfl
  | cons f rest ih =>
    unfold H_Add_Evaluation_Function
    rw [h f (List.mem_cons_self _ _)]
    rw [if_neg (by decide), add_zero]
    exact ih (fun g hg => h g (List.mem_cons_of_mem _ hg))

/-- With an aggregation that is not below its starting value on a nonnegative table, every fluent
of the state `s` in range has the value 0 in the table that `eval( s )` leaves. -/
theorem H1_Heuristic.eval_state_zero (P : STRIPS_Problem) (hwf : P.wf)
    (hcost : ∀ a ∈ P.m_actions, 0 ≤ a.cost)
    {eval_func : List Val → Fluent_Vec → Val → Val} (hM : EvalMono eval_func)
    (opt : H1_Cost_Function) (h : H1_Heuristic) (hs : h.sized P) (s : State) (fuel : Nat)
    (r : Val × H1_Heuristic) (hr : H1_Heuristic.eval P eval_func opt fuel h s = some r) :
    r.1 = eval_func r.2.m_values P.m_goal 0 ∧
    ∀ f ∈ s.fluent_vec, f < P.m_num_fluents → r.2.m_values.getD f infty = 0 := by
  unfold H1_Heuristic.eval at hr
  simp only at hr
  cases hc : H1_Heuristic.compute P eval_func opt fuel ( H1_Heuristic.initialize P opt
      { h with m_already_updated := h.m_already_updated.reset, m_updated := [] } s) with
  | none =>
    rw [hc] at hr
    cases hr
  | some h2 =>
    rw [hc] at hr
    cases hr
    refine ⟨rfl, ?_⟩
    obtain ⟨hz, hn⟩ := H1_Heuristic.initialize_state_zero P hwf opt
      (fun a ha => base_nonneg opt a (hcost a ha)) h hs s
    have hT := H1_Heuristic.compute_table_inv P eval_func opt
      (fun vals => (∀ f, 0 ≤ vals.getD f infty) ∧
        ∀ f ∈ s.fluent_vec, f < P.m_num_fluents → vals.getD f infty ≤ 0)
      (fun v => 0 ≤ v) ?_ ?_ ?_ fuel _ h2 ⟨hn, fun f hf hlt => (hz f hf hlt).le⟩ hc
    · intro f hf hlt
      exact le_antisymm (hT.2 f hf hlt) (hT.1 f)
    · intro vals p v hT hv hlt
      refine ⟨?_, ?_⟩
      · intro f
        rw [getD_set_val]
        split_ifs
        · exact hv
        · exact hT.1 f
      · intro f hf hf1
        rw [getD_set_val]
        split_ifs with hfp
        · exact hlt.le.trans (hT.2 p (hfp.1 ▸ hf) (hfp.1 ▸ hf1))
        · exact hT.2 f hf hf1
    · intro vals a ha hT
      exact propose_nonneg opt a (hcost a ha) _ (hM.ge vals a.prec_vec 0 (fun f _ => hT.1 f))
    · intro vals vals1 a c ha _ hT hT1
      exact propose_nonneg opt a (hcost a ha) _
        ((hM.ge vals a.prec_vec 0 (fun f _ => hT.1 f)).trans
          (hM.ge vals1 c.prec_vec _ (fun f _ => hT1.1 f)))

/-- A write of `compute` to an entry that is not 0 leaves the entries that are 0 as they are. -/
theorem H2_Heuristic.zeros_set_value (z : List Val) (h : H2_Heuristic) (p q : Nat) (v : Val)
    (hz : ∀ i, z.getD i infty = 0 → h.m_values.getD i infty = 0) (hne : h.value p q ≠ 0) :
    ∀ i, z.getD i infty = 0 → (h.set_value p q v).m_values.getD i infty = 0 := by
  intro i hi
  show (h.m_values.set (pair_index p q) v).getD i infty = 0
  rw [getD_set_val]
  split_ifs with hc
  · exfalso
    apply hne
    have := hz i hi
    rw [hc.1] at this
    exact this
  · exact hz i hi

theorem H2_Heuristic.relax_pair_zeros (z : List Val) (opt : H2_Cost_Function) (action : Action)
    (a p q : Nat) (st : H2_Heuristic × Bool)
    (hz : ∀ i, z.getD i infty = 0 → st.1.m_values.getD i infty = 0) :
    ∀ i, z.getD i infty = 0 →
      (H2_Heuristic.relax_pair opt action a p q st).1.m_values.getD i infty = 0 := by
  unfold H2_Heuristic.relax_pair
  simp only
  split_ifs with h0 h1
  · exact hz
  · exact H2_Heuristic.zeros_set_value z st.1 p q _ hz h0
  · exact hz

theorem H2_Heuristic.relax_noop_zeros (z : List Val) (opt : H2_Cost_Function) (action : Action)
    (a p r : Nat) (st : H2_Heuristic × Bool)
    (hz : ∀ i, z.getD i infty = 0 → st.1.m_values.getD i infty = 0) :
    ∀ i, z.getD i infty = 0 →
      (H2_Heuristic.relax_noop opt action a p r st).1.m_values.getD i infty = 0 := by
  unfold H2_Heuristic.relax_noop
  simp only
  split_ifs with h0 h1 h2
  · exact hz
  · exact hz
  · refine H2_Heuristic.zeros_set_value z st.1 p r _ hz ?_
    intro hc
    apply h0
    simp [hc]
  · exact hz

theorem H2_Heuristic.relax_adds_zeros (z : List Val) (nf : Nat) (opt : H2_Cost_Function)
    (action : Action) (a : Nat) (adds : Fluent_Vec) :
    ∀ (st : H2_Heuristic × Bool),
      (∀ i, z.getD i infty = 0 → st.1.m_values.getD i infty = 0) →
      ∀ i, z.getD i infty = 0 →
        (H2_Heuristic.relax_adds nf opt action a adds st).1.m_values.getD i infty = 0 := by
  induction adds with
  | nil => intro st hz; exact hz
  | cons p rest ih =>
    intro st hz
    unfold H2_Heuristic.relax_adds
    simp only
    apply ih
    refine forLoop_inv
      (fun st : H2_Heuristic × Bool => ∀ i, z.getD i infty = 0 → st.1.m_values.getD i infty = 0)
      _ nf (fun r st1 _ h1 => H2_Heuristic.relax_noop_zeros z opt action a p r st1 h1) _ ?_
    exact foldl_inv
      (fun st : H2_Heuristic × Bool => ∀ i, z.getD i infty = 0 → st.1.m_values.getD i infty = 0)
      _ (p :: rest) (fun st1 q _ h1 => H2_Heuristic.relax_pair_zeros z opt action a p q st1 h1)
      st hz

theorem H2_Heuristic.relax_action_zeros (z : List Val) (P : STRIPS_Problem)
    (opt : H2_Cost_Function) (a : Nat) (st : H2_Heuristic × Bool)
    (hz : ∀ i, z.getD i infty = 0 → st.1.m_values.getD i infty = 0) :
    ∀ i, z.getD i infty = 0 →
      (H2_Heuristic.relax_action P opt a st).1.m_values.getD i infty = 0 := by
  unfold H2_Heuristic.relax_action
  cases hact : P.m_actions[a]? with
  | none => exact hz
  | some action =>
    simp only
    split_ifs
    · exact hz
    · exact H2_Heuristic.relax_adds_zeros z P.m_num_fluents opt action a action.add_vec _ hz

/-- The loop of `compute` never writes an entry that is 0: the entries that are 0 when it starts
are 0 when it returns. -/
theorem H2_Heuristic.compute_zeros (P : STRIPS_Problem) (opt : H2_Cost_Function) (z : List Val)
    (fuel : Nat) :
    ∀ (h h2 : H2_Heuristic), (∀ i, z.getD i infty = 0 → h.m_values.getD i infty = 0) →
      H2_Heuristic.compute P opt fuel h = some h2 →
      ∀ i, z.getD i infty = 0 → h2.m_values.getD i infty = 0 := by
  induction fuel with
  | zero =>
    intro h h2 _ hres
    cases hres
  | succ fuel ih =>
    intro h h2 hz hres
    have hp : ∀ i, z.getD i infty = 0 →
        (H2_Heuristic.compute_pass P opt h).1.m_values.getD i infty = 0 :=
      forLoop_inv
        (fun st : H2_Heuristic × Bool =>
          ∀ i, z.getD i infty = 0 → st.1.m_values.getD i infty = 0)
        _ P.m_num_actions (fun a st1 _ h1 => H2_Heuristic.relax_action_zeros z P opt a st1 h1)
        (h, true) hz
    unfold H2_Heuristic.compute at hres
    simp only at hres
    split_ifs at hres with hfix
    · cases hres
      exact hp
    · exact ih _ h2 hp hres

/-- In the table that `eval( s )` of h² leaves, every pair of fluents of `s` has the value 0, and
so has every fluent set inside `s`. -/
theorem H2_Heuristic.eval_pairs_zero (P : STRIPS_Problem) (hF : P.m_num_fluents < 65536)
    (opt : H2_Cost_Function) (h : H2_Heuristic) (hs : h.sized P) (s : State)
    (hsr : ∀ f ∈ s.fluent_vec, f < P.m_num_fluents) (fuel : Nat) (r : Val × H2_Heuristic)
    (hr : H2_Heuristic.eval P opt fuel h s = some r) :
    r.1 = r.2.eval_vec P.m_goal ∧
    ∀ fs : Fluent_Vec, (∀ f ∈ fs, f ∈ s.fluent_vec) → r.2.eval_vec fs = 0 := by
  unfold H2_Heuristic.eval at hr
  simp only at hr
  cases hc : H2_Heuristic.compute P opt fuel ( H2_Heuristic.initialize h s.fluent_vec) with
  | none =>
    rw [hc] at hr
    cases hr
  | some h2 =>
    rw [hc] at hr
    cases hr
    refine ⟨rfl, ?_⟩
    intro fs hfs
    have hpairs : ∀ p ∈ s.fluent_vec, ∀ q ∈ s.fluent_vec, h2.value p q = 0 := by
      intro p hp q hq
      have h0 := H2_Heuristic.initialize_pairs_zero P hF h hs s.fluent_vec hsr p hp q hq
      exact H2_Heuristic.compute_zeros P opt ( H2_Heuristic.initialize h s.fluent_vec).m_values
        fuel _ h2 (fun _ hi => hi) hc (pair_index p q) h0
    show H2_Heuristic.eval_vec h2 fs = 0
    unfold H2_Heuristic.eval_vec
    rw [eval_outer_eq]
    apply le_antisymm
    · exact pmaxF_le_iff _ fs 0 0 (fun x hx y hy => (hpairs x (hfs x hx) y (hfs y hy)).le) le_rfl
    · exact le_pmaxF _ fs 0

/-- C33: goal-awareness.  On a well-formed problem with nonnegative costs (fewer than 65536
fluents for h²) and a state `s` over the problem's fluents that contains every goal fluent,
`H1_Heuristic::eval( s )` returns, and returns 0, with the max and with the sum aggregation and
every cost option, and `H2_Heuristic::eval( s )` returns, and returns 0, with every cost
option. -/
theorem heuristics_goal_aware (P : STRIPS_Problem) (hwf : P.wf)
    (hF : P.m_num_fluents < 65536) (hcost : ∀ a ∈ P.m_actions, 0 ≤ a.cost) (s : State)
    (hsr : ∀ f ∈ s.fluent_vec, f < P.m_num_fluents)
    (hgoal : ∀ g ∈ P.m_goal, g ∈ s.fluent_vec)
    (h1 : H1_Heuristic) (hs1 : h1.sized P) (h2 : H2_Heuristic) (hs2 : h2.sized P)
    (opt1 : H1_Cost_Function) (opt2 : H2_Cost_Function) :
    ((∃ fuel r, H1_Heuristic.eval P H_Max_Evaluation_Function opt1 fuel h1 s = some r) ∧
      ∀ fuel r, H1_Heuristic.eval P H_Max_Evaluation_Function opt1 fuel h1 s = some r →
        r.1 = 0) ∧
    ((∃ fuel r, H1_Heuristic.eval P H_Add_Evaluation_Function opt1 fuel h1 s = some r) ∧
      ∀ fuel r, H1_Heuristic.eval P H_Add_Evaluation_Function opt1 fuel h1 s = some r →
        r.1 = 0) ∧
    ((∃ fuel r, H2_Heuristic.eval P opt2 fuel h2 s = some r) ∧
      ∀ fuel r, H2_Heuristic.eval P opt2 fuel h2 s = some r → r.1 = 0) := by
  refine ⟨⟨H1_Heuristic.eval_terminates P hwf hcost H_Max_gridOK opt1 h1 hs1 s, ?_⟩,
    ⟨H1_Heuristic.eval_terminates P hwf hcost H_Add_gridOK opt1 h1 hs1 s, ?_⟩,
    ⟨H2_Heuristic.h2_eval_terminates P hwf hF hcost opt2 h2 hs2 s hsr, ?_⟩⟩
  · intro fuel r hr
    obtain ⟨e, hz⟩ := H1_Heuristic.eval_state_zero P hwf hcost H_Max_mono opt1 h1 hs1 s fuel r hr
    rw [e]
    exact H_Max_zero _ _ (fun g hg => hz g (hgoal g hg) (hsr g (hgoal g hg)))
  · intro fuel r hr
    obtain ⟨e, hz⟩ := H1_Heuristic.eval_state_zero P hwf hcost H_Add_mono opt1 h1 hs1 s fuel r hr
    rw [e]
    exact H_Add_zero _ _ (fun g hg => hz g (hgoal g hg) (hsr g (hgoal g hg)))
  · intro fuel r hr
    obtain ⟨e, hz⟩ := H2_Heuristic.eval_pairs_zero P hF opt2 h2 hs2 s hsr fuel r hr
    rw [e]
    exact hz P.m_goal hgoal

/-- Witness for C33: the three-room problem in the state where the goal "balcony" holds. -/
theorem heuristics_goal_aware_witness :
    rooms.wf ∧ rooms.m_num_fluents < 65536 ∧ (∀ a ∈ rooms.m_actions, 0 ≤ a.cost) ∧
    (∀ f ∈ (⟨[2]⟩ : State).fluent_vec, f < rooms.m_num_fluents) ∧
    (∀ g ∈ rooms.m_goal, g ∈ (⟨[2]⟩ : State).fluent_vec) ∧
    (H1_Heuristic.new rooms).sized rooms ∧ (H2_Heuristic.new rooms).sized rooms ∧
    ((∃ fuel r, H1_Heuristic.eval rooms H_Max_Evaluation_Function .Use_Costs fuel
        (H1_Heuristic.new rooms) ⟨[2]⟩ = some r) ∧
      ∀ fuel r, H1_Heuristic.eval rooms H_Max_Evaluation_Function .Use_Costs fuel
        (H1_Heuristic.new rooms) ⟨[2]⟩ = some r → r.1 = 0) ∧
    ((∃ fuel r, H1_Heuristic.eval rooms H_Add_Evaluation_Function .Use_Costs fuel
        (H1_Heuristic.new rooms) ⟨[2]⟩ = some r) ∧
      ∀ fuel r, H1_Heuristic.eval rooms H_Add_Evaluation_Function .Use_Costs fuel
        (H1_Heuristic.new rooms) ⟨[2]⟩ = some r → r.1 = 0) ∧
    ((∃ fuel r, H2_Heuristic.eval rooms .Use_Costs fuel (H2_Heuristic.new rooms) ⟨[2]⟩ =
        some r) ∧
      ∀ fuel r, H2_Heuristic.eval rooms .Use_Costs fuel (H2_Heuristic.new rooms) ⟨[2]⟩ =
        some r → r.1 = 0) :=
  ⟨rooms_wf, by decide, rooms_cost, by decide, by decide, rfl, rooms_h2_sized,
    heuristics_goal_aware rooms rooms_wf (by decide) rooms_cost ⟨[2]⟩ (by decide) (by decide)
      (H1_Heuristic.new rooms) rfl (H2_Heuristic.new rooms) rooms_h2_sized .Use_Costs
      .Use_Costs⟩

theorem ilog2_loop_spec : ∀ (fuel n : Nat), n ≤ fuel → 0 < n →
    2 ^ ilog2_loop fuel n ≤ n ∧ n < 2 ^ (ilog2_loop fuel n + 1) := by
  intro fuel
  induction fuel with
  | zero => intro n h1 h2; omega
  | succ fuel ih =>
    intro n h1 h2
    unfold ilog2_loop
    by_cases h : n < 2
    · rw [if_pos h]
      have : n = 1 := by omega
      subst this
      simp
    · rw [if_neg h]
      obtain ⟨a, b⟩ := ih (n / 2) (by omega) (by omega)
      rw [pow_succ] at b
      constructor
      · rw [pow_succ]
        omega
      · rw [pow_succ, pow_succ]
        omega

theorem ilog2_spec (n : Nat) (h : 0 < n) : 2 ^ ilog2 n ≤ n ∧ n < 2 ^ (ilog2 n + 1) :=
  ilog2_loop_spec n n le_rfl h

/-- The exponent chosen by `round_nearest_even` is not above the value. -/
theorem binary_exponent_le (x : ℚ) (hx : 0 < x) : (2 : ℚ) ^ binary_exponent x ≤ x := by
  unfold binary_exponent
  simp only
  split_ifs with h
  · exact h
  · have hnum : 0 < x.num := Rat.num_pos.mpr hx
    have ha : 0 < x.num.natAbs := Int.natAbs_pos.mpr hnum.ne'
    have hb : 0 < x.den := x.den_pos
    obtain ⟨a1, _⟩ := ilog2_spec _ ha
    obtain ⟨_, b2⟩ := ilog2_spec _ hb
    have hxe : x = (x.num.natAbs : ℚ) / (x.den : ℚ) := by
      have h1 : ((x.num.natAbs : Int) : ℚ) = (x.num : ℚ) := by
        rw [Int.natAbs_of_nonneg hnum.le]
      have h2 : ((x.num.natAbs : Int) : ℚ) = (x.num.natAbs : ℚ) := Int.cast_natCast _
      rw [← h2, h1]
      exact (Rat.num_div_den x).symm
    have hz : (2 : ℚ) ^ ((ilog2 x.num.natAbs : Int) - (ilog2 x.den : Int) - 1) =
        (2 : ℚ) ^ (ilog2 x.num.natAbs) / (2 : ℚ) ^ (ilog2 x.den + 1) := by
      rw [show ((ilog2 x.num.natAbs : Int) - (ilog2 x.den : Int) - 1) =
        (ilog2 x.num.natAbs : Int) - ((ilog2 x.den + 1 : Nat) : Int) by push_cast; ring]
      rw [zpow_sub₀ (by norm_num), zpow_natCast, zpow_natCast]
    rw [hz]
    have a1q : (2 : ℚ) ^ ilog2 x.num.natAbs ≤ (x.num.natAbs : ℚ) := by exact_mod_cast a1
    have b2q : (x.den : ℚ) ≤ (2 : ℚ) ^ (ilog2 x.den + 1) := by exact_mod_cast b2.le
    have hbq : (0 : ℚ) < (x.den : ℚ) := by exact_mod_cast hb
    have hpos : (0 : ℚ) < (2 : ℚ) ^ (ilog2 x.den + 1) := by positivity
    refine le_of_le_of_eq ?_ hxe.symm
    rw [div_le_div_iff₀ hpos hbq]
    have hnn : (0 : ℚ) ≤ (2 : ℚ) ^ ilog2 x.num.natAbs := by positivity
    have hnn2 : (0 : ℚ) ≤ (x.den : ℚ) := hbq.le
    calc (2 : ℚ) ^ ilog2 x.num.natAbs * (x.den : ℚ)
        ≤ (x.num.natAbs : ℚ) * (x.den : ℚ) := mul_le_mul_of_nonneg_right a1q hnn2
      _ ≤ (x.num.natAbs : ℚ) * (2 : ℚ) ^ (ilog2 x.den + 1) :=
          mul_le_mul_of_nonneg_left b2q (by positivity)

theorem nearest_even_near (n : ℚ) :
    (nearest_even n : ℚ) - n ≤ 1 / 2 ∧ n - (nearest_even n : ℚ) ≤ 1 / 2 := by
  have h1 : ((⌊n⌋ : Int) : ℚ) ≤ n := Int.floor_le n
  have h2 : n < ((⌊n⌋ : Int) : ℚ) + 1 := Int.lt_floor_add_one n
  unfold nearest_even
  simp only
  split_ifs with a b c
  · constructor <;> linarith
  · push_cast
    constructor <;> linarith
  · constructor <;> linarith
  · push_cast
    constructor <;> linarith

/-- Rounding to `p` bits changes a nonnegative value by at most the fraction `1 / 2 ^ p`. -/
theorem round_nearest_even_near (p : Nat) (hp : 1 ≤ p) (x : ℚ) (hx : 0 ≤ x) :
    x * (1 - 1 / 2 ^ p) ≤ round_nearest_even p x ∧
    round_nearest_even p x ≤ x * (1 + 1 / 2 ^ p) := by
  unfold round_nearest_even
  by_cases h0 : x ≤ 0
  · have : x = 0 := le_antisymm h0 hx
    subst this
    simp
  · rw [if_neg h0]
    simp only
    have hpos : 0 < x := not_le.mp h0
    have he := binary_exponent_le x hpos
    have hu : (0 : ℚ) < (2 : ℚ) ^ binary_exponent x / 2 ^ (p - 1) := by positivity
    obtain ⟨n1, n2⟩ := nearest_even_near (x / ((2 : ℚ) ^ binary_exponent x / 2 ^ (p - 1)))
    have hub : (2 : ℚ) ^ binary_exponent x / 2 ^ (p - 1) ≤ 2 * (x / 2 ^ p) := by
      have h2 : (2 : ℚ) ^ p = 2 ^ (p - 1) * 2 := by
        rw [← pow_succ, Nat.sub_add_cancel hp]
      have h3 : 2 * (x / 2 ^ p) = x / 2 ^ (p - 1) := by
        rw [h2]
        field_simp
        ring
      rw [h3]
      exact div_le_div_of_nonneg_right he (by positivity)
    have e1 : x * (1 - 1 / 2 ^ p) = x - x / 2 ^ p := by ring
    have e2 : x * (1 + 1 / 2 ^ p) = x + x / 2 ^ p := by ring
    rw [e1, e2]
    generalize (2 : ℚ) ^ binary_exponent x / 2 ^ (p - 1) = u at hu n1 n2 hub ⊢
    have hxu : x / u * u = x := div_mul_cancel₀ x hu.ne'
    have k1 := mul_le_mul_of_nonneg_right n1 hu.le
    have k2 := mul_le_mul_of_nonneg_right n2 hu.le
    rw [sub_mul, hxu] at k1 k2
    constructor
    · linarith
    · linarith

theorem val_cases (v : Val) : v = infty ∨ ∃ s : ℚ, v = ((s : ℚ) : Val) := by
  induction v using WithTop.recTopCoe with
  | top => exact Or.inl rfl
  | coe s => exact Or.inr ⟨s, rfl⟩

theorem through_coe (s : ℚ) (f : ℚ → Val) : Val.through ((s : ℚ) : Val) f = f s := rfl

theorem through_top (f : ℚ → Val) : Val.through infty f = infty := rfl

/-- What `ieee_round` returns: the rounded value when it is below `2 ^ emax`, else
+infinity. -/
theorem ieee_round_near (p emax : Nat) (hp : 1 ≤ p) (x : ℚ) (hx : 0 ≤ x) :
    (∀ s : ℚ, ieee_round p emax x = ((s : ℚ) : Val) →
      x * (1 - 1 / 2 ^ p) ≤ s ∧ s ≤ x * (1 + 1 / 2 ^ p)) ∧
    (ieee_round p emax x = infty → (2 : ℚ) ^ emax ≤ x * (1 + 1 / 2 ^ p)) := by
  obtain ⟨h1, h2⟩ := round_nearest_even_near p hp x hx
  unfold ieee_round
  by_cases hov : (2 : ℚ) ^ emax ≤ round_nearest_even p x
  · rw [if_pos hov]
    refine ⟨fun s hs => absurd hs.symm (coe_ne_infty s), fun _ => hov.trans h2⟩
  · rw [if_neg hov]
    refine ⟨fun s hs => ?_, fun hs => absurd hs (coe_ne_infty _)⟩
    have : round_nearest_even p x = s := WithTop.coe_injective hs
    rw [← this]
    exact ⟨h1, h2⟩

/-- One more rounded operation `y ↦ c * y` on a tracked float value. -/
theorem FloatNear.round_step {a b T : ℚ} {v : Val} {t : ℚ} (h : FloatNear a b T v t)
    (p emax : Nat) (hp : 1 ≤ p) (ha : 0 ≤ a) (ht : 0 ≤ t) (g : ℚ → ℚ) (c : ℚ) (hc : 0 < c)
    (hg : ∀ y, g y = c * y) (a1 b1 T1 : ℚ) (ha1 : a1 ≤ a * (1 - 1 / 2 ^ p))
    (hb1 : b * (1 + 1 / 2 ^ p) ≤ b1) (hb0 : 0 < b1) (hT1 : T1 ≤ c * T)
    (hT2 : T1 * b1 ≤ (2 : ℚ) ^ emax) :
    FloatNear a1 b1 T1 (v.through (fun y => ieee_round p emax (g y))) (c * t) := by
  have hd0 : (0 : ℚ) ≤ 1 - 1 / 2 ^ p := by
    have : (1 : ℚ) / 2 ^ p ≤ 1 := by
      rw [div_le_one (by positivity)]
      exact one_le_pow₀ (by norm_num)
    linarith
  have hd1 : (0 : ℚ) ≤ 1 + 1 / 2 ^ p := by positivity
  have hct : 0 ≤ c * t := mul_nonneg hc.le ht
  rcases val_cases v with hv | ⟨y, hv⟩
  · subst hv
    rw [through_top]
    refine ⟨fun s hs => absurd hs.symm (coe_ne_infty s), fun _ => ?_⟩
    exact hT1.trans (mul_le_mul_of_nonneg_left (h.inf rfl) hc.le)
  · subst hv
    rw [through_coe]
    obtain ⟨y1, y2⟩ := h.fin y rfl
    have hy : 0 ≤ y := (mul_nonneg ha ht).trans y1
    have hgy : 0 ≤ g y := by rw [hg]; exact mul_nonneg hc.le hy
    obtain ⟨r1, r2⟩ := ieee_round_near p emax hp (g y) hgy
    have up : g y * (1 + 1 / 2 ^ p) ≤ b1 * (c * t) := by
      rw [hg]
      calc c * y * (1 + 1 / 2 ^ p) ≤ c * (b * t) * (1 + 1 / 2 ^ p) :=
            mul_le_mul_of_nonneg_right (mul_le_mul_of_nonneg_left y2 hc.le) hd1
        _ = b * (1 + 1 / 2 ^ p) * (c * t) := by ring
        _ ≤ b1 * (c * t) := mul_le_mul_of_nonneg_right hb1 hct
    have lo : a1 * (c * t) ≤ g y * (1 - 1 / 2 ^ p) := by
      rw [hg]
      calc a1 * (c * t) ≤ a * (1 - 1 / 2 ^ p) * (c * t) :=
            mul_le_mul_of_nonneg_right ha1 hct
        _ = c * (a * t) * (1 - 1 / 2 ^ p) := by ring
        _ ≤ c * y * (1 - 1 / 2 ^ p) :=
            mul_le_mul_of_nonneg_right (mul_le_mul_of_nonneg_left y1 hc.le) hd0
    refine ⟨fun s hs => ?_, fun hs => ?_⟩
    · obtain ⟨s1, s2⟩ := r1 s hs
      exact ⟨lo.trans s1, s2.trans up⟩
    · have h3 := (r2 hs).trans up
      have h4 : T1 * b1 ≤ c * t * b1 := by
        rw [mul_comm (c * t) b1]
        exact hT2.trans h3
      exact le_of_mul_le_mul_right h4 hb0

/-- A value computed exactly tracks itself. -/
theorem FloatNear.of_exact (T : ℚ) (x : ℚ) : FloatNear 1 1 T ((x : ℚ) : Val) x := by
  refine ⟨fun s hs => ?_, fun hs => absurd hs (coe_ne_infty x)⟩
  have : x = s := WithTop.coe_injective hs
  rw [← this, one_mul]
  exact ⟨le_rfl, le_rfl⟩

/-- The size that `set_arity` computes in floating point is the exact size up to the factor
`1 ± 3 / 2 ^ 24`, and it is +infinity only for an exact size of at least `2 ^ 100`. -/
theorem size_novelty_near (F k : Nat) :
    FloatNear (1 - 3 / 2 ^ 24) (1 + 3 / 2 ^ 24) (2 ^ 100) (size_novelty F k)
      (size_in_MB F k) := by
  have hx : (0 : ℚ) ≤ (F : ℚ) ^ k := by positivity
  have s1 := (FloatNear.of_exact (2 ^ 200) ((F : ℚ) ^ k)).round_step 53 1024 (by norm_num)
    (by norm_num) hx (fun y => y) 1 (by norm_num) (fun y => (one_mul y).symm)
    (1 - 1 / 2 ^ 53) (1 + 1 / 2 ^ 53) (2 ^ 120) (by norm_num) (by norm_num) (by norm_num)
    (by norm_num) (by norm_num)
  have hx1 : (0 : ℚ) ≤ 1 * (F : ℚ) ^ k := by positivity
  have s2 := s1.round_step 24 128 (by norm_num)
    (by norm_num) hx1 (fun y => y) 1 (by norm_num) (fun y => (one_mul y).symm)
    ((1 - 1 / 2 ^ 53) * (1 - 1 / 2 ^ 24)) ((1 + 1 / 2 ^ 53) * (1 + 1 / 2 ^ 24)) (2 ^ 120)
    le_rfl le_rfl (by norm_num) (by norm_num) (by norm_num)
  have hx2 : (0 : ℚ) ≤ 1 * (1 * (F : ℚ) ^ k) := by positivity
  have s3 := s2.round_step 53 1024 (by norm_num)
    (by norm_num) hx2 (fun y => y / 1024000) (1 / 1024000) (by norm_num)
    (fun y => by ring)
    ((1 - 1 / 2 ^ 53) * (1 - 1 / 2 ^ 24) * (1 - 1 / 2 ^ 53))
    ((1 + 1 / 2 ^ 53) * (1 + 1 / 2 ^ 24) * (1 + 1 / 2 ^ 53)) (2 ^ 100)
    le_rfl le_rfl (by norm_num) (by norm_num) (by norm_num)
  have hx3 : (0 : ℚ) ≤ 1 / 1024000 * (1 * (1 * (F : ℚ) ^ k)) := by positivity
  have s4 := s3.round_step 53 1024 (by norm_num)
    (by norm_num) hx3 (fun y => y * (sizeof_ptr : ℚ)) 8 (by norm_num)
    (fun y => by simp only [sizeof_ptr]; push_cast; ring)
    ((1 - 1 / 2 ^ 53) * (1 - 1 / 2 ^ 24) * (1 - 1 / 2 ^ 53) * (1 - 1 / 2 ^ 53))
    ((1 + 1 / 2 ^ 53) * (1 + 1 / 2 ^ 24) * (1 + 1 / 2 ^ 53) * (1 + 1 / 2 ^ 53)) (2 ^ 100)
    le_rfl le_rfl (by norm_num) (by norm_num) (by norm_num)
  have hx4 : (0 : ℚ) ≤ 8 * (1 / 1024000 * (1 * (1 * (F : ℚ) ^ k))) := by positivity
  have s5 := s4.round_step 24 128 (by norm_num)
    (by norm_num) hx4 (fun y => y) 1 (by norm_num) (fun y => (one_mul y).symm)
    (1 - 3 / 2 ^ 24) (1 + 3 / 2 ^ 24) (2 ^ 100)
    (by norm_num) (by norm_num) (by norm_num) (by norm_num) (by norm_num)
  have ht : 1 * (8 * (1 / 1024000 * (1 * (1 * (F : ℚ) ^ k)))) = size_in_MB F k := by
    simp only [size_in_MB, sizeof_ptr]
    push_cast
    ring
  rw [ht] at s5
  exact s5

/-- The cap of an `unsigned` number of MB, converted to `float`, is finite and off by at most
the fraction `1 / 2 ^ 24`. -/
theorem to_float_cap (M : Nat) (hM : M < 2 ^ 32) :
    ∃ m : ℚ, to_float (M : ℚ) = ((m : ℚ) : Val) ∧
      (M : ℚ) * (1 - 1 / 2 ^ 24) ≤ m ∧ m ≤ (M : ℚ) * (1 + 1 / 2 ^ 24) := by
  have hM0 : (0 : ℚ) ≤ (M : ℚ) := by positivity
  have hMq : (M : ℚ) < 2 ^ 32 := by exact_mod_cast hM
  obtain ⟨r1, r2⟩ := ieee_round_near 24 128 (by norm_num) (M : ℚ) hM0
  rcases val_cases (to_float (M : ℚ)) with hv | ⟨m, hv⟩
  · exfalso
    have h1 := r2 hv
    have h2 : (M : ℚ) * (1 + 1 / 2 ^ 24) ≤ 2 ^ 32 * (1 + 1 / 2 ^ 24) :=
      mul_le_mul_of_nonneg_right hMq.le (by norm_num)
    have h3 : (2 : ℚ) ^ 32 * (1 + 1 / 2 ^ 24) < 2 ^ 128 := by norm_num
    linarith
  · exact ⟨m, hv, r1 m hv⟩

/-- An exact size above the cap by more than the fraction `1 / 2 ^ 21` exceeds it in the float
test as well. -/
theorem size_novelty_over (F k M : Nat) (hM : M < 2 ^ 32)
    (h : (M : ℚ) * (1 + 1 / 2 ^ 21) < size_in_MB F k) :
    size_novelty F k > to_float (M : ℚ) := by
  obtain ⟨m, hm, _, m2⟩ := to_float_cap M hM
  have hM0 : (0 : ℚ) ≤ (M : ℚ) := by positivity
  have hn := size_novelty_near F k
  rw [hm]
  rcases val_cases (size_novelty F k) with hv | ⟨s, hv⟩
  · rw [hv]
    exact WithTop.coe_lt_top m
  · rw [hv]
    apply WithTop.coe_lt_coe.mpr
    obtain ⟨s1, _⟩ := hn.fin s hv
    have k1 : (1 - 3 / 2 ^ 24) * ((M : ℚ) * (1 + 1 / 2 ^ 21)) ≤
        (1 - 3 / 2 ^ 24) * size_in_MB F k :=
      mul_le_mul_of_nonneg_left h.le (by norm_num)
    have k2 : (M : ℚ) * (1 + 1 / 2 ^ 24) ≤ (1 - 3 / 2 ^ 24) * ((M : ℚ) * (1 + 1 / 2 ^ 21)) := by
      have : (1 - 3 / 2 ^ 24) * ((M : ℚ) * (1 + 1 / 2 ^ 21)) =
          (M : ℚ) * ((1 - 3 / 2 ^ 24) * (1 + 1 / 2 ^ 21)) := by ring
      rw [this]
      exact mul_le_mul_of_nonneg_left (by norm_num) hM0
    have k3 : (1 - 3 / 2 ^ 24) * ((M : ℚ) * (1 + 1 / 2 ^ 21)) <
        (1 - 3 / 2 ^ 24) * size_in_MB F k :=
      mul_lt_mul_of_pos_left h (by norm_num)
    linarith

/-- An exact size below the cap by at least the fraction `1 / 2 ^ 21` does not exceed it in the
float test either. -/
theorem size_novelty_under (F k M : Nat) (hM : M < 2 ^ 32)
    (h : size_in_MB F k ≤ (M : ℚ) * (1 - 1 / 2 ^ 21)) :
    ¬ size_novelty F k > to_float (M : ℚ) := by
  obtain ⟨m, hm, m1, _⟩ := to_float_cap M hM
  have hM0 : (0 : ℚ) ≤ (M : ℚ) := by positivity
  have hMq : (M : ℚ) < 2 ^ 32 := by exact_mod_cast hM
  have hn := size_novelty_near F k
  rw [hm]
  rcases val_cases (size_novelty F k) with hv | ⟨s, hv⟩
  · exfalso
    have h1 := hn.inf hv
    have h2 : (M : ℚ) * (1 - 1 / 2 ^ 21) ≤ (M : ℚ) * 1 :=
      mul_le_mul_of_nonneg_left (by norm_num) hM0
    have h3 : (2 : ℚ) ^ 32 < 2 ^ 100 := by norm_num
    linarith
  · rw [hv]
    intro hgt
    have hlt : m < s := WithTop.coe_lt_coe.mp hgt
    obtain ⟨_, s2⟩ := hn.fin s hv
    have k1 : (1 + 3 / 2 ^ 24) * size_in_MB F k ≤
        (1 + 3 / 2 ^ 24) * ((M : ℚ) * (1 - 1 / 2 ^ 21)) :=
      mul_le_mul_of_nonneg_left h (by norm_num)
    have k2 : (1 + 3 / 2 ^ 24) * ((M : ℚ) * (1 - 1 / 2 ^ 21)) ≤ (M : ℚ) * (1 - 1 / 2 ^ 24) := by
      have : (1 + 3 / 2 ^ 24) * ((M : ℚ) * (1 - 1 / 2 ^ 21)) =
          (M : ℚ) * ((1 + 3 / 2 ^ 24) * (1 - 1 / 2 ^ 21)) := by ring
      rw [this]
      exact mul_le_mul_of_nonneg_left (by norm_num) hM0
    linarith

/-- When the float test does not exceed the cap, the `unsigned long` product `F ^ k` does not
wrap. -/
theorem size_novelty_fits (F k M : Nat) (hM : M < 2 ^ 32)
    (hfit : ¬ size_novelty F k > to_float (M : ℚ)) : F ^ k < 2 ^ 64 := by
  obtain ⟨m, hm, _, m2⟩ := to_float_cap M hM
  have hMq : (M : ℚ) < 2 ^ 32 := by exact_mod_cast hM
  have hn := size_novelty_near F k
  rw [hm] at hfit
  rcases val_cases (size_novelty F k) with hv | ⟨s, hv⟩
  · exfalso
    apply hfit
    rw [hv]
    exact WithTop.coe_lt_top m
  · rw [hv] at hfit
    have hle : s ≤ m := not_lt.mp (fun hc => hfit (WithTop.coe_lt_coe.mpr hc))
    obtain ⟨s1, _⟩ := hn.fin s hv
    have h1 : (M : ℚ) * (1 + 1 / 2 ^ 24) ≤ 2 ^ 32 * (1 + 1 / 2 ^ 24) :=
      mul_le_mul_of_nonneg_right hMq.le (by norm_num)
    have h2 : (1 - 3 / 2 ^ 24) * size_in_MB F k ≤ 2 ^ 32 * (1 + 1 / 2 ^ 24) := by linarith
    have h3 : size_in_MB F k = (F : ℚ) ^ k / 128000 := by
      simp only [size_in_MB, sizeof_ptr]
      push_cast
      ring
    rw [h3] at h2
    have h4 : ((F : ℚ) ^ k) < 2 ^ 64 := by
      by_contra hc
      have hc1 : (2 : ℚ) ^ 64 ≤ (F : ℚ) ^ k := not_lt.mp hc
      have hc2 : (2 : ℚ) ^ 64 / 128000 ≤ (F : ℚ) ^ k / 128000 :=
        div_le_div_of_nonneg_right hc1 (by norm_num)
      have hc3 : (1 - 3 / 2 ^ 24) * ((2 : ℚ) ^ 64 / 128000) ≤
          (1 - 3 / 2 ^ 24) * ((F : ℚ) ^ k / 128000) :=
        mul_le_mul_of_nonneg_left hc2 (by norm_num)
      have hc4 : (2 : ℚ) ^ 32 * (1 + 1 / 2 ^ 24) < (1 - 3 / 2 ^ 24) * ((2 : ℚ) ^ 64 / 128000) := by
        norm_num
      linarith
    exact_mod_cast h4

/-- What `set_arity( k )` leaves: the arity chosen by the float test, a table of `F ^ arity`
entries and the number of fluents. -/
theorem Novelty.set_arity_spec (P : STRIPS_Problem) (nov : Novelty) (k : Nat)
    (hF : P.m_num_fluents < 2 ^ 32) (hM : nov.m_max_memory_size_MB < 2 ^ 32) :
    (Novelty.set_arity P nov k).m_arity =
      (if size_novelty P.m_num_fluents k > to_float (nov.m_max_memory_size_MB : ℚ)
        then 1 else k) ∧
    (Novelty.set_arity P nov k).m_nodes_tuples.length =
      P.m_num_fluents ^ (Novelty.set_arity P nov k).m_arity ∧
    (Novelty.set_arity P nov k).m_num_fluents = P.m_num_fluents := by
  by_cases hbig : size_novelty P.m_num_fluents k > to_float (nov.m_max_memory_size_MB : ℚ)
  · have hpow : ∀ i, i ≤ 1 → P.m_num_fluents ^ i < 2 ^ 64 := by
      intro i hi
      rcases Nat.eq_zero_or_pos i with h0 | hpos
      · subst h0
        simp
      · have : i = 1 := by omega
        subst this
        rw [pow_one]
        have : (2 : Nat) ^ 32 < 2 ^ 64 := by norm_num
        omega
    have hset : Novelty.set_arity P nov k =
        { m_nodes_tuples := vec_resize nov.m_nodes_tuples (P.m_num_fluents ^ 1) none,
          m_arity := 1, m_num_tuples := P.m_num_fluents ^ 1, m_num_fluents := P.m_num_fluents,
          m_max_memory_size_MB := nov.m_max_memory_size_MB } := by
      unfold Novelty.set_arity
      simp only [if_pos hbig]
      rw [Novelty.set_arity_loop P.m_num_fluents _ rfl rfl 1 ⟨hpow 1 le_rfl, hpow⟩]
    rw [hset, if_pos hbig]
    exact ⟨rfl, vec_resize_length _ _ _, rfl⟩
  · have hk := size_novelty_fits P.m_num_fluents k nov.m_max_memory_size_MB hM hbig
    have hpow : ∀ i, i ≤ k → P.m_num_fluents ^ i < 2 ^ 64 := by
      intro i hi
      rcases Nat.eq_zero_or_pos i with h0 | hpos
      · subst h0
        simp
      · have := pow_le_pow_arity P.m_num_fluents hpos hi
        omega
    have hset : Novelty.set_arity P nov k =
        { m_nodes_tuples := vec_resize nov.m_nodes_tuples (P.m_num_fluents ^ k) none,
          m_arity := k, m_num_tuples := P.m_num_fluents ^ k, m_num_fluents := P.m_num_fluents,
          m_max_memory_size_MB := nov.m_max_memory_size_MB } := by
      unfold Novelty.set_arity
      simp only [if_neg hbig]
      rw [Novelty.set_arity_loop P.m_num_fluents _ rfl rfl k ⟨hpow k le_rfl, hpow⟩]
    rw [hset, if_neg hbig]
    exact ⟨rfl, vec_resize_length _ _ _, rfl⟩

/-- Counterexample to C17: with 10498 fluents, arity 2 and a cap of 861 MB the table of
`10498 ^ 2` references takes more than 861 MB (861.00003125), but the cast of `10498 ^ 2` to
`float` rounds 110208004 to 110208000, the size computed is 861.0, the test `861.0f > 861.0f`
fails, and the constructor keeps arity 2 with a table of `10498 ^ 2` entries. -/
theorem set_arity_keeps_over_cap :
    (fluents_only 10498).m_num_fluents = 10498 ∧
    ((861 : Nat) : ℚ) < size_in_MB 10498 2 ∧
    to_float ((10498 : ℚ) ^ 2) = ((110208000 : ℚ) : Val) ∧
    size_novelty 10498 2 = ((861 : ℚ) : Val) ∧
    to_float ((861 : Nat) : ℚ) = ((861 : ℚ) : Val) ∧
    (Novelty.new (fluents_only 10498) 2 861).m_arity = 2 ∧
    (Novelty.new (fluents_only 10498) 2 861).m_nodes_tuples.length = 10498 ^ 2 := by
  have hnum := fluents_only_num 10498
  have hkeep : ¬ size_novelty 10498 2 > to_float ((861 : Nat) : ℚ) := by decide!
  have h := Novelty.set_arity_spec (fluents_only 10498)
    { m_nodes_tuples := [], m_arity := 0, m_num_tuples := 0, m_num_fluents := 0,
      m_max_memory_size_MB := 861 } 2 (by rw [hnum]; norm_num) (by norm_num)
  rw [hnum] at h
  simp only [if_neg hkeep] at h
  refine ⟨hnum, by decide!, by decide!, by decide!, by decide!, h.1, ?_⟩
  have h2 := h.2.1
  rw [h.1] at h2
  exact h2

/-- C17 (amended): after `set_arity( k )` on a problem with `F` fluents and a cap of `M`
megabytes (both `unsigned`), the arity is 1 when the size computed in floating point
(`F ^ k` rounded to `float`, divided by 1024000 and multiplied by `sizeof( State* )` in
`double`, rounded to `float`) exceeds the cap converted to `float`, and `k` otherwise; in both
cases the tuple table has exactly `F ^ arity` entries.  The float test agrees with the exact
one away from the cap: the arity is 1 when the exact size `F ^ k * sizeof( State* ) / 1024000`
exceeds `M` by more than the fraction `1 / 2 ^ 21`, and `k` when it is below `M` by at least
that fraction. -/
theorem set_arity_downgrade (P : STRIPS_Problem) (nov : Novelty) (k : Nat)
    (hF : P.m_num_fluents < 2 ^ 32) (hM : nov.m_max_memory_size_MB < 2 ^ 32) :
    (Novelty.set_arity P nov k).m_arity =
      (if size_novelty P.m_num_fluents k > to_float (nov.m_max_memory_size_MB : ℚ)
        then 1 else k) ∧
    (Novelty.set_arity P nov k).m_nodes_tuples.length =
      P.m_num_fluents ^ (Novelty.set_arity P nov k).m_arity ∧
    (Novelty.set_arity P nov k).m_num_fluents = P.m_num_fluents ∧
    ((nov.m_max_memory_size_MB : ℚ) * (1 + 1 / 2 ^ 21) < size_in_MB P.m_num_fluents k →
      (Novelty.set_arity P nov k).m_arity = 1) ∧
    (size_in_MB P.m_num_fluents k ≤ (nov.m_max_memory_size_MB : ℚ) * (1 - 1 / 2 ^ 21) →
      (Novelty.set_arity P nov k).m_arity = k) := by
  obtain ⟨h1, h2, h3⟩ := Novelty.set_arity_spec P nov k hF hM
  refine ⟨h1, h2, h3, fun hover => ?_, fun hunder => ?_⟩
  · rw [h1, if_pos (size_novelty_over P.m_num_fluents k nov.m_max_memory_size_MB hM hover)]
  · rw [h1, if_neg (size_novelty_under P.m_num_fluents k nov.m_max_memory_size_MB hM hunder)]

/-- Witness for the amended C17: arity 2 requested for the rooms problem under the default cap
of 600 MB. -/
theorem set_arity_downgrade_witness :
    rooms.m_num_fluents < 2 ^ 32 ∧ (Novelty.new rooms 1 600).m_max_memory_size_MB < 2 ^ 32 ∧
    (Novelty.set_arity rooms (Novelty.new rooms 1 600) 2).m_arity =
      (if size_novelty rooms.m_num_fluents 2 >
        to_float ((Novelty.new rooms 1 600).m_max_memory_size_MB : ℚ) then 1 else 2) ∧
    (Novelty.set_arity rooms (Novelty.new rooms 1 600) 2).m_nodes_tuples.length =
      rooms.m_num_fluents ^ (Novelty.set_arity rooms (Novelty.new rooms 1 600) 2).m_arity ∧
    (Novelty.set_arity rooms (Novelty.new rooms 1 600) 2).m_num_fluents = rooms.m_num_fluents ∧
    (((Novelty.new rooms 1 600).m_max_memory_size_MB : ℚ) * (1 + 1 / 2 ^ 21) <
        size_in_MB rooms.m_num_fluents 2 →
      (Novelty.set_arity rooms (Novelty.new rooms 1 600) 2).m_arity = 1) ∧
    (size_in_MB rooms.m_num_fluents 2 ≤
        ((Novelty.new rooms 1 600).m_max_memory_size_MB : ℚ) * (1 - 1 / 2 ^ 21) →
      (Novelty.set_arity rooms (Novelty.new rooms 1 600) 2).m_arity = 2) :=
  ⟨by decide, by decide!,
    set_arity_downgrade rooms (Novelty.new rooms 1 600) 2 (by decide) (by decide!)⟩

end aptk
